import Mathlib

/-!
# doom-cli: terminal renderer of doomgeneric (`doomgeneric_cli.c`)

A shallow embedding of the colour quantizers, the colour output routines and
the per-cell glyph synthesis of `src/doomgeneric/doomgeneric_cli.c`, followed
by the properties proved about them.

Conventions of the embedding.

* C `int` values are `Int`; `uint32_t` and `uint8_t` values are `Nat`. Where a
  conversion between `int` and `uint32_t` happens in the source it is written
  out with `to_uint32` / `to_int32` (reduction modulo `2^32`).
* A pixel of `dest_buffer` is read only through a `uint8_t*`, bytes `[0]`,
  `[1]`, `[2]`; it is modelled by these three bytes.
* The output buffer is a list of bytes (`List Nat`); every output routine
  returns the bytes it appends.
* `noise_textures` is declared `extern` in `cli_data.h` and its data is not
  part of the sources, so the texture set is a field of the context.
-/

set_option autoImplicit false

namespace DoomCli

/-! ## Options and common state -/

/-- The enum `cli_colors_t`. -/
inductive cli_colors_t
  | cli_colors_24bit
  | cli_colors_8bit
  | cli_colors_4bit
  | cli_colors_3bit
  | cli_colors_light
  | cli_colors_dark
  deriving DecidableEq, Repr

open cli_colors_t

/-- The globals read by the rendering code: `cli_colors`, `noise_enabled`,
`noise_current` and the texture set `noise_textures[tex][i]` (each texel a
`uint32_t`). -/
structure ctx_t where
  cli_colors : cli_colors_t
  noise_enabled : Bool
  noise_current : Nat
  noise_textures : Nat → Nat → Nat

/-- Conversion of an `int` to `uint32_t`: reduction modulo `2^32`. -/
def to_uint32 (v : Int) : Nat := (v % 4294967296).toNat

/-- Conversion of a `uint32_t` to `int` (two's complement). -/
def to_int32 (u : Nat) : Int :=
  if u % 4294967296 < 2147483648 then ((u % 4294967296 : Nat) : Int)
  else ((u % 4294967296 : Nat) : Int) - 4294967296

/-- Bytes of an ASCII string literal. -/
def ascii (s : String) : List Nat := s.toList.map Char.toNat

/-! ## Characters -/

/-- The macro `UPPER_HALF`: U+2580 in UTF-8. -/
def UPPER_HALF : List Nat := [0xE2, 0x96, 0x80]

/-- The table `quadrants[]`: index bit i is sub-pixel i, row-major. -/
def quadrants : List (List Nat) := [
  [0x20],
  [0xE2, 0x96, 0x98],
  [0xE2, 0x96, 0x9D],
  [0xE2, 0x96, 0x80],
  [0xE2, 0x96, 0x96],
  [0xE2, 0x96, 0x8C],
  [0xE2, 0x96, 0x9E],
  [0xE2, 0x96, 0x9B],
  [0xE2, 0x96, 0x97],
  [0xE2, 0x96, 0x9A],
  [0xE2, 0x96, 0x90],
  [0xE2, 0x96, 0x9C],
  [0xE2, 0x96, 0x84],
  [0xE2, 0x96, 0x99],
  [0xE2, 0x96, 0x9F],
  [0xE2, 0x96, 0x88]]

/-- The table `sextants[]`: index bit i is sub-pixel i, row-major. -/
def sextants : List (List Nat) := [
  [0x20],
  [0xF0, 0x9F, 0xAC, 0x80],
  [0xF0, 0x9F, 0xAC, 0x81],
  [0xF0, 0x9F, 0xAC, 0x82],
  [0xF0, 0x9F, 0xAC, 0x83],
  [0xF0, 0x9F, 0xAC, 0x84],
  [0xF0, 0x9F, 0xAC, 0x85],
  [0xF0, 0x9F, 0xAC, 0x86],
  [0xF0, 0x9F, 0xAC, 0x87],
  [0xF0, 0x9F, 0xAC, 0x88],
  [0xF0, 0x9F, 0xAC, 0x89],
  [0xF0, 0x9F, 0xAC, 0x8A],
  [0xF0, 0x9F, 0xAC, 0x8B],
  [0xF0, 0x9F, 0xAC, 0x8C],
  [0xF0, 0x9F, 0xAC, 0x8D],
  [0xF0, 0x9F, 0xAC, 0x8E],
  [0xF0, 0x9F, 0xAC, 0x8F],
  [0xF0, 0x9F, 0xAC, 0x90],
  [0xF0, 0x9F, 0xAC, 0x91],
  [0xF0, 0x9F, 0xAC, 0x92],
  [0xF0, 0x9F, 0xAC, 0x93],
  [0xE2, 0x96, 0x8C],
  [0xF0, 0x9F, 0xAC, 0x94],
  [0xF0, 0x9F, 0xAC, 0x95],
  [0xF0, 0x9F, 0xAC, 0x96],
  [0xF0, 0x9F, 0xAC, 0x97],
  [0xF0, 0x9F, 0xAC, 0x98],
  [0xF0, 0x9F, 0xAC, 0x99],
  [0xF0, 0x9F, 0xAC, 0x9A],
  [0xF0, 0x9F, 0xAC, 0x9B],
  [0xF0, 0x9F, 0xAC, 0x9C],
  [0xF0, 0x9F, 0xAC, 0x9D],
  [0xF0, 0x9F, 0xAC, 0x9E],
  [0xF0, 0x9F, 0xAC, 0x9F],
  [0xF0, 0x9F, 0xAC, 0xA0],
  [0xF0, 0x9F, 0xAC, 0xA1],
  [0xF0, 0x9F, 0xAC, 0xA2],
  [0xF0, 0x9F, 0xAC, 0xA3],
  [0xF0, 0x9F, 0xAC, 0xA4],
  [0xF0, 0x9F, 0xAC, 0xA5],
  [0xF0, 0x9F, 0xAC, 0xA6],
  [0xF0, 0x9F, 0xAC, 0xA7],
  [0xE2, 0x96, 0x90],
  [0xF0, 0x9F, 0xAC, 0xA8],
  [0xF0, 0x9F, 0xAC, 0xA9],
  [0xF0, 0x9F, 0xAC, 0xAA],
  [0xF0, 0x9F, 0xAC, 0xAB],
  [0xF0, 0x9F, 0xAC, 0xAC],
  [0xF0, 0x9F, 0xAC, 0xAD],
  [0xF0, 0x9F, 0xAC, 0xAE],
  [0xF0, 0x9F, 0xAC, 0xAF],
  [0xF0, 0x9F, 0xAC, 0xB0],
  [0xF0, 0x9F, 0xAC, 0xB1],
  [0xF0, 0x9F, 0xAC, 0xB2],
  [0xF0, 0x9F, 0xAC, 0xB3],
  [0xF0, 0x9F, 0xAC, 0xB4],
  [0xF0, 0x9F, 0xAC, 0xB5],
  [0xF0, 0x9F, 0xAC, 0xB6],
  [0xF0, 0x9F, 0xAC, 0xB7],
  [0xF0, 0x9F, 0xAC, 0xB8],
  [0xF0, 0x9F, 0xAC, 0xB9],
  [0xF0, 0x9F, 0xAC, 0xBA],
  [0xF0, 0x9F, 0xAC, 0xBB],
  [0xE2, 0x96, 0x88]]

/-- The table `u8_to_str[]`, 256 strings. -/
def u8_to_str : List String := [
  "0", "1", "2", "3", "4", "5", "6", "7", "8", "9", "10", "11", "12", "13", "14", "15",
  "16", "17", "18", "19", "20", "21", "22", "23", "24", "25", "26", "27", "28", "29", "30", "31",
  "32", "33", "34", "35", "36", "37", "38", "39", "40", "41", "42", "43", "44", "45", "46", "47",
  "48", "49", "50", "51", "52", "53", "54", "55", "56", "57", "58", "59", "60", "61", "62", "63",
  "64", "65", "66", "67", "68", "69", "70", "71", "72", "73", "74", "75", "76", "77", "78", "79",
  "80", "81", "82", "83", "84", "85", "86", "87", "88", "89", "90", "91", "92", "93", "94", "95",
  "96", "97", "98", "99", "100", "101", "102", "103", "104", "105", "106", "107", "108", "109", "110", "111",
  "112", "113", "114", "115", "116", "117", "118", "119", "120", "121", "122", "123", "124", "125", "126", "127",
  "128", "129", "130", "131", "132", "133", "134", "135", "136", "137", "138", "139", "140", "141", "142", "143",
  "144", "145", "146", "147", "148", "149", "150", "151", "152", "153", "154", "155", "156", "157", "158", "159",
  "160", "161", "162", "163", "164", "165", "166", "167", "168", "169", "170", "171", "172", "173", "174", "175",
  "176", "177", "178", "179", "180", "181", "182", "183", "184", "185", "186", "187", "188", "189", "190", "191",
  "192", "193", "194", "195", "196", "197", "198", "199", "200", "201", "202", "203", "204", "205", "206", "207",
  "208", "209", "210", "211", "212", "213", "214", "215", "216", "217", "218", "219", "220", "221", "222", "223",
  "224", "225", "226", "227", "228", "229", "230", "231", "232", "233", "234", "235", "236", "237", "238", "239",
  "240", "241", "242", "243", "244", "245", "246", "247", "248", "249", "250", "251", "252", "253", "254", "255"]

/-! ## Noise -/

/-- The macro `NOISE_SAMPLE(x, y)`:
`noise_textures[noise_current][((x) & 15) + (((y) & 15) * 16)]`. -/
def NOISE_SAMPLE (c : ctx_t) (x y : Nat) : Nat :=
  c.noise_textures c.noise_current ((x &&& 15) + ((y &&& 15) * 16))

/-! ## Colors -/

def LUMA_WEIGHT_RED : Nat := 54
def LUMA_WEIGHT_GREEN : Nat := 183
def LUMA_WEIGHT_BLUE : Nat := 18

def DIFF_WEIGHT_RED : Int := 5
def DIFF_WEIGHT_GREEN : Int := 7
def DIFF_WEIGHT_BLUE : Int := 4

/-- The constant `INT_MAX` of a 32-bit `int`. -/
def INT_MAX : Int := 2147483647

/-- One row of a palette table: the four consecutive `uint8_t` values
`colors[0]` (code), `colors[1]` (red), `colors[2]` (green), `colors[3]`
(blue). -/
structure palette_entry where
  code : Nat
  red : Nat
  green : Nat
  blue : Nat
  deriving DecidableEq, Repr

/-- The weighted squared error computed in the body of the loop of
`color_search` for one palette row. -/
def color_error (e : palette_entry) (red green blue : Int) : Int :=
  let rcd := (red - (e.red : Int)) * DIFF_WEIGHT_RED
  let gcd := (green - (e.green : Int)) * DIFF_WEIGHT_GREEN
  let bcd := (blue - (e.blue : Int)) * DIFF_WEIGHT_BLUE
  rcd * rcd + gcd * gcd + bcd * bcd

/-- The `while (colors != end)` loop of `color_search`, carrying `best_code`
and `best_error`. -/
def color_search_loop : List palette_entry → Int → Int → Int → Int → Int → Int
  | [], _, _, _, best_code, _ => best_code
  | e :: rest, red, green, blue, best_code, best_error =>
    let error := color_error e red green blue
    if error < best_error then
      color_search_loop rest red green blue (e.code : Int) error
    else
      color_search_loop rest red green blue best_code best_error

/-- The function `color_search`: the first `color_count` rows are searched,
starting from `best_code = 0` and `best_error = INT_MAX`. -/
def color_search (colors : List palette_entry) (color_count : Nat)
    (red green blue : Int) : Int :=
  color_search_loop (colors.take color_count) red green blue 0 INT_MAX

/-- The table `colors[]` of `color_3bit`. -/
def colors_3bit : List palette_entry := [
  ⟨30, 0, 0, 0⟩,
  ⟨31, 255, 0, 0⟩,
  ⟨32, 0, 255, 0⟩,
  ⟨33, 255, 128, 0⟩,
  ⟨34, 0, 0, 255⟩,
  ⟨35, 255, 0, 255⟩,
  ⟨36, 0, 255, 255⟩,
  ⟨37, 255, 255, 255⟩]

/-- The function `color_3bit`. -/
def color_3bit (red green blue : Int) : Int :=
  color_search colors_3bit colors_3bit.length red green blue

/-- The table `colors[]` of `color_4bit`. -/
def colors_4bit : List palette_entry := [
  ⟨30, 0, 0, 0⟩,
  ⟨31, 170, 0, 0⟩,
  ⟨32, 0, 170, 0⟩,
  ⟨33, 170, 85, 0⟩,
  ⟨34, 0, 0, 170⟩,
  ⟨35, 170, 0, 170⟩,
  ⟨36, 0, 170, 170⟩,
  ⟨37, 170, 170, 170⟩,
  ⟨90, 85, 85, 85⟩,
  ⟨91, 255, 85, 85⟩,
  ⟨92, 85, 255, 85⟩,
  ⟨93, 255, 255, 85⟩,
  ⟨94, 85, 85, 255⟩,
  ⟨95, 255, 85, 255⟩,
  ⟨96, 85, 255, 255⟩,
  ⟨97, 255, 255, 255⟩]

/-- The function `color_4bit`. -/
def color_4bit (red green blue : Int) : Int :=
  color_search colors_4bit colors_4bit.length red green blue

/-- The function `clamp`. -/
def clamp (value min max : Int) : Int :=
  if value < min then min
  else if value > max then max
  else value

/-- The macro `LUMA(r, g, b)` on `int` operands. -/
def LUMA (r g b : Int) : Int :=
  b * (LUMA_WEIGHT_BLUE : Int) + g * (LUMA_WEIGHT_GREEN : Int) + r * (LUMA_WEIGHT_RED : Int)

/-- The function `color_8bit`. C division of `int` truncates (`Int.tdiv`) and
`>>` on a non-negative `int` is the arithmetic shift. -/
def color_8bit (red green blue : Int) : Int :=
  let red := clamp red 0 255
  let green := clamp green 0 255
  let blue := clamp blue 0 255
  let r6 := Int.tdiv red 43
  let g6 := Int.tdiv green 43
  let b6 := Int.tdiv blue 43
  let r6d := (red - r6 * 43) * DIFF_WEIGHT_RED
  let g6d := (green - g6 * 43) * DIFF_WEIGHT_GREEN
  let b6d := (blue - b6 * 43) * DIFF_WEIGHT_BLUE
  let error6 := r6d * r6d + g6d * g6d + b6d * b6d
  let luma := LUMA red green blue
  let gray := (luma * 24) >>> (16 : Nat)
  let gray256 := Int.tdiv (gray * 256) 24
  let rgd := (red - gray256) * DIFF_WEIGHT_RED
  let ggd := (green - gray256) * DIFF_WEIGHT_GREEN
  let bgd := (blue - gray256) * DIFF_WEIGHT_BLUE
  let errorg := rgd * rgd + ggd * ggd + bgd * bgd
  if error6 < errorg then
    16 + b6 + g6 * 6 + r6 * 36
  else
    232 + gray

/-! ## Colour output -/

/-- The `%u` conversion of `printf` applied to an `int` argument: the value
converted to `unsigned`, in decimal. The formatted sequences below are far
shorter than the 256-byte local buffer of `buffer_append_format`. -/
def fmt_u (v : Int) : List Nat := ascii (Nat.repr (to_uint32 v))

/-- The entry `u8_to_str[v]` for an `int` index. An index outside `0..255` is
outside the table (no defined behaviour in C); the model yields no bytes. -/
def u8_to_str_at (v : Int) : List Nat :=
  match v with
  | Int.ofNat n => ascii (u8_to_str.getD n "")
  | Int.negSucc _ => []

/-- The statement `channel += noise_byte - 128;` where `channel` is an `int`
and `noise_byte` a `uint32_t`: the subtraction and the addition are done in
`uint32_t`, the result is converted back to `int`. -/
def add_noise (channel : Int) (noise_byte : Nat) : Int :=
  to_int32 ((to_uint32 channel + (noise_byte + 4294967296 - 128) % 4294967296) % 4294967296)

/-- The function `output_bg_color`. The `switch` has no case for the light
and dark modes, which output nothing. -/
def output_bg_color (c : ctx_t) (x y : Nat) (red green blue : Int) : List Nat :=
  let noise_color := NOISE_SAMPLE c x y
  let red := if c.noise_enabled then add_noise red ((noise_color >>> 16) &&& 0xff) else red
  let green := if c.noise_enabled then add_noise green ((noise_color >>> 8) &&& 0xff) else green
  let blue := if c.noise_enabled then add_noise blue (noise_color &&& 0xff) else blue
  match c.cli_colors with
  | cli_colors_24bit =>
    ascii "\x1b[48;2;" ++ fmt_u red ++ ascii ";" ++ fmt_u green ++ ascii ";" ++ fmt_u blue
      ++ ascii "m"
  | cli_colors_8bit =>
    ascii "\x1b[48;5;" ++ fmt_u (color_8bit red green blue) ++ ascii "m"
  | cli_colors_4bit =>
    ascii "\x1b[" ++ fmt_u (10 + color_4bit red green blue) ++ ascii "m"
  | cli_colors_3bit =>
    ascii "\x1b[" ++ fmt_u (10 + color_3bit red green blue) ++ ascii "m"
  | cli_colors_light => []
  | cli_colors_dark => []

/-- The function `output_colors`. -/
def output_colors (c : ctx_t) (x y : Nat)
    (fg_red fg_green fg_blue bg_red bg_green bg_blue : Int) : List Nat :=
  let noise_color := NOISE_SAMPLE c x y
  let fg_red := if c.noise_enabled then add_noise fg_red ((noise_color >>> 16) &&& 0xff) else fg_red
  let bg_red := if c.noise_enabled then add_noise bg_red ((noise_color >>> 16) &&& 0xff) else bg_red
  let fg_green := if c.noise_enabled then add_noise fg_green ((noise_color >>> 8) &&& 0xff) else fg_green
  let bg_green := if c.noise_enabled then add_noise bg_green ((noise_color >>> 8) &&& 0xff) else bg_green
  let fg_blue := if c.noise_enabled then add_noise fg_blue (noise_color &&& 0xff) else fg_blue
  let bg_blue := if c.noise_enabled then add_noise bg_blue (noise_color &&& 0xff) else bg_blue
  match c.cli_colors with
  | cli_colors_24bit =>
    ascii "\x1b[38;2;" ++ u8_to_str_at fg_red ++ ascii ";" ++ u8_to_str_at fg_green ++ ascii ";"
      ++ u8_to_str_at fg_blue ++ ascii "m\x1b[48;2;" ++ u8_to_str_at bg_red ++ ascii ";"
      ++ u8_to_str_at bg_green ++ ascii ";" ++ u8_to_str_at bg_blue ++ ascii "m"
  | cli_colors_8bit =>
    ascii "\x1b[38;5;" ++ fmt_u (color_8bit fg_red fg_green fg_blue) ++ ascii "m\x1b[48;5;"
      ++ fmt_u (color_8bit bg_red bg_green bg_blue) ++ ascii "m"
  | cli_colors_4bit =>
    ascii "\x1b[" ++ fmt_u (color_4bit fg_red fg_green fg_blue) ++ ascii ";"
      ++ fmt_u (color_4bit bg_red bg_green bg_blue + 10) ++ ascii "m"
  | cli_colors_3bit =>
    ascii "\x1b[" ++ fmt_u (color_3bit fg_red fg_green fg_blue) ++ ascii ";"
      ++ fmt_u (color_3bit bg_red bg_green bg_blue + 10) ++ ascii "m"
  | cli_colors_light => []
  | cli_colors_dark => []

/-! ## Rendering -/

/-- A pixel of `dest_buffer` as the draw functions read it through
`uint8_t*`: byte `[0]` is blue, `[1]` green, `[2]` red. -/
structure pixel_t where
  blue : Fin 256
  green : Fin 256
  red : Fin 256
  deriving DecidableEq, Repr

/-- The macro `LUMA_P(x)`; at most `255 * 255`, so it fits the `uint32_t` it
is assigned to. -/
def LUMA_P (x : pixel_t) : Nat :=
  x.blue.val * LUMA_WEIGHT_BLUE + x.green.val * LUMA_WEIGHT_GREEN + x.red.val * LUMA_WEIGHT_RED

/-- The locals `index`, `fg_red`, `fg_green`, `fg_blue`, `fg_count`, `bg_red`,
`bg_green`, `bg_blue`, `bg_count` of the body of `draw_quadrant` and
`draw_sextant`. -/
structure cell_t where
  index : Nat
  fg_red : Nat
  fg_green : Nat
  fg_blue : Nat
  fg_count : Nat
  bg_red : Nat
  bg_green : Nat
  bg_blue : Nat
  bg_count : Nat
  deriving DecidableEq, Repr

/-- The then-branch `fg_blue += p[0]; fg_green += p[1]; fg_red += p[2];
++fg_count;`. -/
def add_fg (s : cell_t) (p : pixel_t) : cell_t :=
  { s with
    fg_blue := s.fg_blue + p.blue.val
    fg_green := s.fg_green + p.green.val
    fg_red := s.fg_red + p.red.val
    fg_count := s.fg_count + 1 }

/-- The else-branch `bg_blue += p[0]; bg_green += p[1]; bg_red += p[2];
++bg_count;`. -/
def add_bg (s : cell_t) (p : pixel_t) : cell_t :=
  { s with
    bg_blue := s.bg_blue + p.blue.val
    bg_green := s.bg_green + p.green.val
    bg_red := s.bg_red + p.red.val
    bg_count := s.bg_count + 1 }

/-- The two blocks `if (fg_count > 0) { fg_... /= fg_count; }` and
`if (bg_count > 0) { bg_... /= bg_count; }`. -/
def divide_counts (s : cell_t) : cell_t :=
  let s := if s.fg_count > 0 then
      { s with
        fg_blue := s.fg_blue / s.fg_count
        fg_green := s.fg_green / s.fg_count
        fg_red := s.fg_red / s.fg_count }
    else s
  if s.bg_count > 0 then
    { s with
      bg_blue := s.bg_blue / s.bg_count
      bg_green := s.bg_green / s.bg_count
      bg_red := s.bg_red / s.bg_count }
  else s

/-- One block `if (l > l_avg) { fg_... += ...; ++fg_count; } else { bg_... +=
...; ++bg_count; }` of `draw_quadrant`; `lit` is the test `l > l_avg`. -/
def quadrant_step (s : cell_t) (p : pixel_t) (lit : Bool) : cell_t :=
  if lit then add_fg s p else add_bg s p

/-- The body of the inner loop of `draw_quadrant` up to the output: average
luma, `index`, and the foreground and background colours. -/
def quadrant_cell (tl tr bl br : pixel_t) : cell_t :=
  let l_tl := LUMA_P tl
  let l_tr := LUMA_P tr
  let l_bl := LUMA_P bl
  let l_br := LUMA_P br
  let l_avg := (l_tl + l_tr + l_bl + l_br) >>> 2
  let index :=
    (if l_tl > l_avg then 1 else 0) |||
    ((if l_tr > l_avg then 1 else 0) <<< 1) |||
    ((if l_bl > l_avg then 1 else 0) <<< 2) |||
    ((if l_br > l_avg then 1 else 0) <<< 3)
  let s : cell_t := ⟨index, 0, 0, 0, 0, 0, 0, 0, 0⟩
  let s := quadrant_step s tl (l_tl > l_avg)
  let s := quadrant_step s tr (l_tr > l_avg)
  let s := quadrant_step s bl (l_bl > l_avg)
  let s := quadrant_step s br (l_br > l_avg)
  divide_counts s

/-- The body of the inner loop of `draw_quadrant` at cell `(x, y)`: the bytes
appended for the block `tl tr / bl br`. -/
def draw_quadrant_cell (c : ctx_t) (x y : Nat) (tl tr bl br : pixel_t) : List Nat :=
  let s := quadrant_cell tl tr bl br
  if s.index = 0 then
    output_bg_color c x y s.bg_red s.bg_green s.bg_blue ++ ascii " "
  else
    output_colors c x y s.fg_red s.fg_green s.fg_blue s.bg_red s.bg_green s.bg_blue
      ++ quadrants.getD s.index []

/-- One block `if (l > l_avg) { fg_... += ...; ++fg_count; index |= bit; }
else { bg_... += ...; ++bg_count; }` of `draw_sextant`; `lit` is the test
`l > l_avg`. -/
def sextant_step (s : cell_t) (p : pixel_t) (lit : Bool) (bit : Nat) : cell_t :=
  if lit then { add_fg s p with index := s.index ||| bit } else add_bg s p

/-- The body of the inner loop of `draw_sextant` up to the output. -/
def sextant_cell (tl tr ml mr bl br : pixel_t) : cell_t :=
  let l_tl := LUMA_P tl
  let l_tr := LUMA_P tr
  let l_ml := LUMA_P ml
  let l_mr := LUMA_P mr
  let l_bl := LUMA_P bl
  let l_br := LUMA_P br
  let l_avg := (l_tl + l_tr + l_ml + l_mr + l_bl + l_br) / 6
  let s : cell_t := ⟨0, 0, 0, 0, 0, 0, 0, 0, 0⟩
  let s := sextant_step s tl (l_tl > l_avg) 1
  let s := sextant_step s tr (l_tr > l_avg) 2
  let s := sextant_step s ml (l_ml > l_avg) 4
  let s := sextant_step s mr (l_mr > l_avg) 8
  let s := sextant_step s bl (l_bl > l_avg) 16
  let s := sextant_step s br (l_br > l_avg) 32
  divide_counts s

/-- The body of the inner loop of `draw_sextant` at cell `(x, y)`. -/
def draw_sextant_cell (c : ctx_t) (x y : Nat) (tl tr ml mr bl br : pixel_t) : List Nat :=
  let s := sextant_cell tl tr ml mr bl br
  if s.index = 0 then
    output_bg_color c x y s.bg_red s.bg_green s.bg_blue ++ ascii " "
  else
    output_colors c x y s.fg_red s.fg_green s.fg_blue s.bg_red s.bg_green s.bg_blue
      ++ sextants.getD s.index []

/-- The statement `l = clamp(l + (NOISE_SAMPLE(..) & 0xff) - 128, 0, 255);` of
`draw_sextant_bw`: the argument is computed in `uint32_t`, converted to the
`int` parameter of `clamp`, and the result is stored back in a `uint32_t`. -/
def bw_noise (l : Nat) (noise_byte : Nat) : Nat :=
  to_uint32 (clamp (to_int32 ((l + noise_byte + 4294967296 - 128) % 4294967296)) 0 255)

/-- The `index` computed by the body of the inner loop of `draw_sextant_bw`
at cell `(x, y)`. `~index` of the `int` index is taken in 32-bit two's
complement. -/
def sextant_bw_index (c : ctx_t) (x y : Nat) (tl tr ml mr bl br : pixel_t) : Nat :=
  let l_tl := LUMA_P tl >>> 8
  let l_tr := LUMA_P tr >>> 8
  let l_ml := LUMA_P ml >>> 8
  let l_mr := LUMA_P mr >>> 8
  let l_bl := LUMA_P bl >>> 8
  let l_br := LUMA_P br >>> 8
  let l_tl := if c.noise_enabled then bw_noise l_tl (NOISE_SAMPLE c x y &&& 0xff) else l_tl
  let l_tr := if c.noise_enabled then bw_noise l_tr (NOISE_SAMPLE c (x + 1) y &&& 0xff) else l_tr
  let l_ml := if c.noise_enabled then bw_noise l_ml (NOISE_SAMPLE c x (y + 1) &&& 0xff) else l_ml
  let l_mr := if c.noise_enabled then bw_noise l_mr (NOISE_SAMPLE c (x + 1) (y + 1) &&& 0xff) else l_mr
  let l_bl := if c.noise_enabled then bw_noise l_bl (NOISE_SAMPLE c x (y + 2) &&& 0xff) else l_bl
  let l_br := if c.noise_enabled then bw_noise l_br (NOISE_SAMPLE c (x + 1) (y + 2) &&& 0xff) else l_br
  let threshold := 127
  let index :=
    (if l_tl > threshold then 1 else 0) |||
    ((if l_tr > threshold then 1 else 0) <<< 1) |||
    ((if l_ml > threshold then 1 else 0) <<< 2) |||
    ((if l_mr > threshold then 1 else 0) <<< 3) |||
    ((if l_bl > threshold then 1 else 0) <<< 4) |||
    ((if l_br > threshold then 1 else 0) <<< 5)
  if c.cli_colors = cli_colors_light then (4294967295 - index) &&& 0x3f else index

/-- The body of the inner loop of `draw_sextant_bw` at cell `(x, y)`: the
glyph alone is appended. -/
def draw_sextant_bw_cell (c : ctx_t) (x y : Nat) (tl tr ml mr bl br : pixel_t) : List Nat :=
  sextants.getD (sextant_bw_index c x y tl tr ml mr bl br) []

/-- The `case cli_mode_sextant` of `DG_DrawFrame`, for one cell: the
monochrome routine in the dark and light modes, `draw_sextant` otherwise. -/
def sextant_mode_cell (c : ctx_t) (x y : Nat) (tl tr ml mr bl br : pixel_t) : List Nat :=
  if c.cli_colors = cli_colors_dark ∨ c.cli_colors = cli_colors_light then
    draw_sextant_bw_cell c x y tl tr ml mr bl br
  else
    draw_sextant_cell c x y tl tr ml mr bl br

/-- The mask (`index`) of the cell drawn by `sextant_mode_cell`. -/
def sextant_mode_index (c : ctx_t) (x y : Nat) (tl tr ml mr bl br : pixel_t) : Nat :=
  if c.cli_colors = cli_colors_dark ∨ c.cli_colors = cli_colors_light then
    sextant_bw_index c x y tl tr ml mr bl br
  else
    (sextant_cell tl tr ml mr bl br).index

/-! ## Keyboard input -/

/-- The enum `keystate_t`. -/
inductive keystate_t
  | keystate_off
  | keystate_down
  | keystate_wait
  | keystate_repeat
  deriving DecidableEq, Repr

open keystate_t

/-- The macro `TIME_CAPACITY`. -/
def TIME_CAPACITY : Nat := 5

/-- The macro `KEY_MEASURE_CAPACITY`. -/
def KEY_MEASURE_CAPACITY : Nat := 16

/-- The macro `KEY_REPEAT_DELAY_MAX`. -/
def KEY_REPEAT_DELAY_MAX : Nat := 500

/-- The macro `KEY_REPEAT_RATE_MAX`. -/
def KEY_REPEAT_RATE_MAX : Nat := 500

/-- The macro `KEYBUFFER_CAPACITY`. -/
def KEYBUFFER_CAPACITY : Nat := 64

/-- The static `key_repeat_threshold`, initialised to 10 and never assigned. -/
def key_repeat_threshold : Nat := 10

/-- The struct `keyinfo_t`; the array `time[TIME_CAPACITY]` is a function of
the index. -/
structure keyinfo_t where
  time : Nat → Nat
  time_next : Nat
  time_count : Nat
  state : keystate_t
  detected_repeat : Bool

/-- One element of `keybuffer`: `bool pressed; unsigned char key;`. -/
structure keyevent_t where
  pressed : Bool
  key : Nat
  deriving DecidableEq, Repr

/-- The key codes of `doomkeys.h` that the input code names. The header is not
among the sources, so the codes are parameters of the embedding. -/
structure doomkeys_t where
  KEY_RIGHTARROW : Nat
  KEY_LEFTARROW : Nat
  KEY_UPARROW : Nat
  KEY_DOWNARROW : Nat
  KEY_ENTER : Nat
  KEY_FIRE : Nat
  KEY_USE : Nat
  KEY_LALT : Nat
  KEY_MINUS : Nat
  KEY_EQUALS : Nat
  deriving DecidableEq, Repr

/-- The globals of the input code (`keyinfos`, the measurement ring,
`key_repeat_delay`, `key_repeat_rate`, `keybuffer` with its two indices,
`have_csi`), each array a function of the index, together with the
environment the code reads: `stdin` lists the bytes `getchar` can still
deliver during the current call, and `clock n` is what the n-th call of
`DG_GetTicksMs` returns. -/
structure input_t where
  keyinfos : Nat → keyinfo_t
  key_measure_next : Nat
  key_measure_count : Nat
  key_measure_delays : Nat → Nat
  key_measure_rates : Nat → Nat
  key_repeat_delay : Nat
  key_repeat_rate : Nat
  keybuffer : Nat → keyevent_t
  keybuffer_read : Nat
  keybuffer_write : Nat
  have_csi : Bool
  stdin : List Int
  clock : Nat → Nat
  clock_calls : Nat

/-- The assignment `a[i] = v` on an array modelled as a function. -/
def array_set {α : Type} (a : Nat → α) (i : Nat) (v : α) : Nat → α :=
  fun j => if j = i then v else a j

/-- The state at program start: the statics are zero-initialised, except
`key_repeat_delay = 500` and `key_repeat_rate = 100`; nothing to read and a
clock that reads `now`. -/
def initial_input (now : Nat) : input_t :=
  { keyinfos := fun _ => ⟨fun _ => 0, 0, 0, keystate_off, false⟩
    key_measure_next := 0
    key_measure_count := 0
    key_measure_delays := fun _ => 0
    key_measure_rates := fun _ => 0
    key_repeat_delay := 500
    key_repeat_rate := 100
    keybuffer := fun _ => ⟨false, 0⟩
    keybuffer_read := 0
    keybuffer_write := 0
    have_csi := false
    stdin := []
    clock := fun _ => now
    clock_calls := 0 }

/-- The library function `getchar` on the non-blocking standard input: the
next byte, or `-1` when none is available. -/
def getchar (st : input_t) : Int × input_t :=
  match st.stdin with
  | [] => (-1, st)
  | c :: rest => (c, { st with stdin := rest })

/-- The function `DG_GetTicksMs`: a `uint32_t` reading of the clock. -/
def DG_GetTicksMs (st : input_t) : Nat × input_t :=
  (st.clock st.clock_calls % 4294967296, { st with clock_calls := st.clock_calls + 1 })

/-- Subtraction of two `uint32_t` values. -/
def u32_sub (a b : Nat) : Nat := (a + 4294967296 - b % 4294967296) % 4294967296

/-- The call `abs(x)` on a `uint32_t` argument `x`, its result used as a
`uint32_t`: the argument is converted to `int`, the result back. -/
def abs_u32 (x : Nat) : Nat := (to_int32 x).natAbs % 4294967296

/-- The three statements that append an event to `keybuffer`; the `int` key is
stored in an `unsigned char`. -/
def keybuffer_put (st : input_t) (pressed : Bool) (key : Nat) : input_t :=
  { st with
    keybuffer := array_set st.keybuffer st.keybuffer_write ⟨pressed, key % 256⟩
    keybuffer_write := (st.keybuffer_write + 1) % KEYBUFFER_CAPACITY }

/-- The function `add_key_measurement`. -/
def add_key_measurement (st : input_t) (delay rate : Nat) : input_t :=
  let key_measure_count :=
    if st.key_measure_count < KEY_MEASURE_CAPACITY then st.key_measure_count + 1
    else st.key_measure_count
  let key_measure_delays := array_set st.key_measure_delays st.key_measure_next delay
  let key_measure_rates := array_set st.key_measure_rates st.key_measure_next rate
  let key_measure_next := (st.key_measure_next + 1) % KEY_MEASURE_CAPACITY
  let mean_delay := (List.range key_measure_count).foldl
    (fun m i => (m + key_measure_delays i) % 4294967296) 0
  let mean_rate := (List.range key_measure_count).foldl
    (fun m i => (m + key_measure_rates i) % 4294967296) 0
  let mean_delay := mean_delay / key_measure_count
  let mean_rate := mean_rate / key_measure_count
  let best_delay := (List.range key_measure_count).foldl
    (fun (b : Nat × Nat) i =>
      let delay := key_measure_delays i
      if abs_u32 (u32_sub delay mean_delay) < b.2 then
        (delay, abs_u32 (u32_sub delay mean_delay))
      else b) (0, 999999999)
  let best_rate := (List.range key_measure_count).foldl
    (fun (b : Nat × Nat) i =>
      let rate := key_measure_rates i
      if abs_u32 (u32_sub rate mean_rate) < b.2 then
        (rate, abs_u32 (u32_sub rate mean_rate))
      else b) (0, 999999999)
  let best_delay := if best_delay.1 > KEY_REPEAT_DELAY_MAX then KEY_REPEAT_DELAY_MAX else best_delay.1
  let best_rate := if best_rate.1 > KEY_REPEAT_RATE_MAX then KEY_REPEAT_RATE_MAX else best_rate.1
  { st with
    key_measure_count := key_measure_count
    key_measure_delays := key_measure_delays
    key_measure_rates := key_measure_rates
    key_measure_next := key_measure_next
    key_repeat_delay := best_delay
    key_repeat_rate := best_rate }

/-- The `delta` of the two loops of `detect_key_repeat` for loop index `i`. -/
def key_delta (keyinfo : keyinfo_t) (i : Nat) : Nat :=
  u32_sub (keyinfo.time ((keyinfo.time_next + i + 1) % TIME_CAPACITY))
    (keyinfo.time ((keyinfo.time_next + i) % TIME_CAPACITY))

/-- The `mean` of `detect_key_repeat` after the first loop and the division. -/
def key_mean (keyinfo : keyinfo_t) : Nat :=
  ([1, 2, 3].foldl (fun mean i => (mean + key_delta keyinfo i) % 4294967296) 0)
    / (TIME_CAPACITY - 2)

/-- The `variance` of `detect_key_repeat` after the second loop. -/
def key_variance (keyinfo : keyinfo_t) : Nat :=
  [1, 2, 3].foldl
    (fun variance i =>
      (variance + abs_u32 (u32_sub (key_delta keyinfo i) (key_mean keyinfo))) % 4294967296) 0

/-- The function `detect_key_repeat`. -/
def detect_key_repeat (st : input_t) (key : Nat) : input_t :=
  let keyinfo := st.keyinfos key
  if keyinfo.time_count ≠ TIME_CAPACITY then st
  else
    let n := keyinfo.time_next
    let mean := key_mean keyinfo
    let variance := key_variance keyinfo
    if variance > key_repeat_threshold * (TIME_CAPACITY - 2) then
      { st with keyinfos := array_set st.keyinfos key { keyinfo with detected_repeat := false } }
    else
      let delay := u32_sub (keyinfo.time ((n + 1) % TIME_CAPACITY)) (keyinfo.time (n % TIME_CAPACITY))
      let rate := mean
      if ! keyinfo.detected_repeat then
        let st := add_key_measurement st delay rate
        { st with keyinfos := array_set st.keyinfos key { keyinfo with detected_repeat := true } }
      else st

/-- The block "insert the press time" of `keypress`, with `now` the value
`DG_GetTicksMs()` returned. -/
def keypress_record (st : input_t) (key : Nat) (now : Nat) : input_t :=
  let keyinfo := st.keyinfos key
  let keyinfo : keyinfo_t :=
    { keyinfo with
      time := array_set keyinfo.time keyinfo.time_next now
      time_next := (keyinfo.time_next + 1) % TIME_CAPACITY
      time_count := if keyinfo.time_count < TIME_CAPACITY then keyinfo.time_count + 1
        else keyinfo.time_count }
  { st with keyinfos := array_set st.keyinfos key keyinfo }

/-- The value of `press` after the `switch (keyinfo->state)` of `keypress`. -/
def keystate_press : keystate_t → Bool
  | keystate_off => true
  | keystate_wait => true
  | keystate_down => false
  | keystate_repeat => false

/-- The value of `keyinfo->state` after the `switch` of `keypress`. -/
def keystate_next : keystate_t → keystate_t
  | keystate_off => keystate_down
  | keystate_wait => keystate_repeat
  | keystate_down => keystate_repeat
  | keystate_repeat => keystate_repeat

/-- The blocks "handle state" and "if the key wasn't already down, add the
event to the queue" of `keypress`. -/
def keypress_state (st : input_t) (key : Nat) : input_t :=
  let keyinfo := st.keyinfos key
  let press := keystate_press keyinfo.state
  let keyinfo : keyinfo_t := { keyinfo with state := keystate_next keyinfo.state }
  let st := { st with keyinfos := array_set st.keyinfos key keyinfo }
  if press then keybuffer_put st true key else st

/-- The body of `keypress` once `DG_GetTicksMs()` has returned `now`. -/
def keypress_at (st : input_t) (key : Nat) (duplicate : Bool) (now : Nat) : input_t :=
  let st := keypress_record st key now
  let st := if ! duplicate then detect_key_repeat st key else st
  keypress_state st key

/-- The function `keypress`: the press time is read from the clock. -/
def keypress (st : input_t) (key : Nat) (duplicate : Bool) : input_t :=
  let r := DG_GetTicksMs st
  keypress_at r.2 key duplicate r.1

/-- The library function `toupper` in the C locale. -/
def toupper (c : Int) : Int := if 97 ≤ c ∧ c ≤ 122 then c - 32 else c

/-- The library function `isdigit`. -/
def isdigit (c : Int) : Bool := decide (48 ≤ c ∧ c ≤ 57)

/-- The function `handle_input_byte`. -/
def handle_input_byte (K : doomkeys_t) (st : input_t) (c : Int) : input_t :=
  let c := toupper c
  let st :=
    if c = 10 then keypress st K.KEY_ENTER true
    else if c = 90 then keypress st K.KEY_FIRE true
    else if c = 32 then keypress st K.KEY_USE true
    else if c = 88 then keypress st K.KEY_LALT true
    else if c = 45 then keypress st K.KEY_MINUS true
    else if c = 43 ∨ c = 61 then keypress st K.KEY_EQUALS true
    else st
  if c ≥ 0 ∧ c ≤ 127 then keypress st c.toNat false else st

/-- The loop `while (isdigit(*c)) *c = getchar();` of `handle_csi`, on the
current byte and the bytes still to read. -/
def skip_digits : Int → List Int → Int × List Int
  | c, [] => if isdigit c then (-1, []) else (c, [])
  | c, x :: xs => if isdigit c then skip_digits x xs else (c, x :: xs)

/-- The function `handle_csi`; the result holds the new value of `*c`. -/
def handle_csi (K : doomkeys_t) (st : input_t) (c : Int) : input_t × Int :=
  if ! st.have_csi then (st, c)
  else
    let r := skip_digits c st.stdin
    let c := r.1
    let st := { st with stdin := r.2 }
    if c = -1 then (st, c)
    else
      let st := { st with have_csi := false }
      let key : Int :=
        if c = 65 then (K.KEY_UPARROW : Int)
        else if c = 66 then (K.KEY_DOWNARROW : Int)
        else if c = 67 then (K.KEY_RIGHTARROW : Int)
        else if c = 68 then (K.KEY_LEFTARROW : Int)
        else -1
      let st := if key ≠ -1 then keypress st key.toNat false else st
      let r := getchar st
      (r.2, r.1)

/-- The `for (;;)` loop of `doomcli_read_input` entered with the byte `c`;
`none` when the fuel does not suffice to reach the `break`. -/
def read_input_loop (K : doomkeys_t) : Nat → input_t → Int → Option input_t
  | 0, _, _ => none
  | fuel + 1, st, c =>
    if c = -1 then some st
    else
      let r := handle_csi K st c
      let st := r.1
      let c := r.2
      if c ≠ 27 then
        let st := handle_input_byte K st c
        let r := getchar st
        read_input_loop K fuel r.2 r.1
      else
        let r := getchar st
        let r := if r.1 = -1 then getchar r.2 else r
        let csi := r.1
        let st := r.2
        if csi ≠ 91 then
          let st := handle_input_byte K st c
          read_input_loop K fuel st csi
        else
          let st := { st with have_csi := true }
          let r := getchar st
          read_input_loop K fuel r.2 r.1

/-- The function `doomcli_read_input`. Every pass of the loop reads a byte, so
the number of bytes to read plus two bounds the number of passes. -/
def doomcli_read_input (K : doomkeys_t) (st : input_t) : Option input_t :=
  let r := getchar st
  read_input_loop K (st.stdin.length + 2) r.2 r.1

/-! ## Noise initialisation -/

/-- The constant `noise_texture_count` of `cli_data.h`. -/
def noise_texture_count : Nat := 64

/-- The `switch (cli_colors)` of `init_noise`: the scale in percent; the
24-bit mode takes the `default` branch and keeps `scale = 0`. -/
def noise_scale (colors : cli_colors_t) : Nat :=
  match colors with
  | cli_colors_dark => 95
  | cli_colors_light => 95
  | cli_colors_3bit => 30
  | cli_colors_4bit => 20
  | cli_colors_8bit => 2
  | cli_colors_24bit => 0

/-- The body of the inner loop of `init_noise` on the texel `val`, in
`uint32_t` arithmetic. -/
def noise_rescale (scale base val : Nat) : Nat :=
  let blue := (val >>> 16) &&& 0xff
  let green := (val >>> 8) &&& 0xff
  let red := val &&& 0xff
  let blue := (blue * scale % 4294967296 / 100 + base) % 4294967296
  let green := (green * scale % 4294967296 / 100 + base) % 4294967296
  let red := (red * scale % 4294967296 / 100 + base) % 4294967296
  ((blue <<< 16) % 4294967296) ||| ((green <<< 8) % 4294967296) ||| red

/-- The function `init_noise`, with `now` the value `DG_GetTicksMs()` returns;
the second component is `noise_last_time`. The inner loop runs over the row
`noise_textures[tex]`, the outer loop over the textures. -/
def init_noise (c : ctx_t) (now : Nat) : ctx_t × Nat :=
  let noise_last_time := now
  let scale := noise_scale c.cli_colors
  if scale = 0 then ({ c with noise_enabled := false }, noise_last_time)
  else
    let base := 255 * (100 - scale) / 200
    let textures := (List.range noise_texture_count).foldl
      (fun textures tex =>
        array_set textures tex
          ((List.range (16 * 16)).foldl
            (fun row i => array_set row i (noise_rescale scale base (row i))) (textures tex)))
      c.noise_textures
    ({ c with noise_textures := textures }, noise_last_time)

/-! ## Output buffering -/

/-- The statics `buffer`, `buffer_capacity` and `buffer_count`; the allocated
block is a function of the byte offset. -/
structure buffer_t where
  buffer : Nat → Nat
  buffer_capacity : Nat
  buffer_count : Nat

/-- How a call of `buffer_append` ends: it returns, it calls `abort()` after a
failed `realloc`, or the fuel of the model ran out before the doubling loop
ended. -/
inductive append_result_t
  | returned (b : buffer_t)
  | aborted
  | out_of_fuel

/-- The loop `while (total > buffer_capacity) buffer_capacity *= 2;` on a
64-bit `size_t`; `none` when the fuel does not suffice. -/
def grow_capacity : Nat → Nat → Nat → Option Nat
  | 0, _, _ => none
  | fuel + 1, total, buffer_capacity =>
    if total > buffer_capacity then
      grow_capacity fuel total (buffer_capacity * 2 % 18446744073709551616)
    else some buffer_capacity

/-- The library function `realloc`: `heap size` is `none` when the allocation
fails, else the bytes the new block holds beyond the old ones; the bytes of the
old block are kept up to the smaller of the two sizes. -/
def realloc (heap : Nat → Option (Nat → Nat)) (block : Nat → Nat) (old_size size : Nat) :
    Option (Nat → Nat) :=
  (heap size).map (fun fresh i => if i < min old_size size then block i else fresh i)

/-- The library function `memcpy(dest + offset, bytes, count)`. -/
def memcpy (dest : Nat → Nat) (offset : Nat) (bytes : List Nat) : Nat → Nat :=
  fun i => if offset ≤ i ∧ i < offset + bytes.length then bytes.getD (i - offset) 0 else dest i

/-- The function `buffer_append(bytes, count)` with `count` the length of
`bytes`; a doubling loop that ends does so within 65 passes. -/
def buffer_append (heap : Nat → Option (Nat → Nat)) (b : buffer_t) (bytes : List Nat) :
    append_result_t :=
  let total := (b.buffer_count + bytes.length) % 18446744073709551616
  if total > b.buffer_capacity then
    match grow_capacity 65 total b.buffer_capacity with
    | none => append_result_t.out_of_fuel
    | some buffer_capacity =>
      match realloc heap b.buffer b.buffer_capacity buffer_capacity with
      | none => append_result_t.aborted
      | some buffer =>
        append_result_t.returned
          ⟨memcpy buffer b.buffer_count bytes, buffer_capacity, total⟩
  else
    append_result_t.returned ⟨memcpy b.buffer b.buffer_count bytes, b.buffer_capacity, total⟩

/-! ## Release simulation and the key queue -/

/-- The slot of `keyinfo->time` that `simulate_release_events` reads:
`(keyinfo->time_next - 1 + TIME_CAPACITY) % TIME_CAPACITY` in `uint32_t`
arithmetic. -/
def last_time_index (keyinfo : keyinfo_t) : Nat :=
  (keyinfo.time_next + 4294967296 - 1 + TIME_CAPACITY) % 4294967296 % TIME_CAPACITY

/-- The local `expected` of `simulate_release_events`, a `uint32_t`. -/
def release_expected (st : input_t) (key : Nat) : Nat :=
  (2 * key_repeat_threshold
    + (if (st.keyinfos key).state = keystate_repeat then st.key_repeat_rate
        else st.key_repeat_delay)) % 4294967296

/-- Whether the body of the loop of `simulate_release_events` gets past its two
`continue` statements for `key`: the key is not off, and `now < last_time +
expected` fails, where `int last_time` is added to the `uint32_t expected` in
`uint32_t`. -/
def release_due (now : Nat) (st : input_t) (key : Nat) : Bool :=
  decide ((st.keyinfos key).state ≠ keystate_off ∧
    ¬ now < (to_uint32 (to_int32 ((st.keyinfos key).time (last_time_index (st.keyinfos key))))
        + release_expected st key) % 4294967296)

/-- The body of the loop of `simulate_release_events` for `key`. -/
def release_step (now : Nat) (st : input_t) (key : Nat) : input_t :=
  if release_due now st key then
    let keyinfo := st.keyinfos key
    let st := if keyinfo.state ≠ keystate_wait then keybuffer_put st false key else st
    let keyinfo : keyinfo_t :=
      { keyinfo with
        state := if keyinfo.state = keystate_down then keystate_wait else keystate_off }
    { st with keyinfos := array_set st.keyinfos key keyinfo }
  else st

/-- The function `simulate_release_events`: one pass over the 256 elements of
`keyinfos`. -/
def simulate_release_events (st : input_t) : input_t :=
  let r := DG_GetTicksMs st
  (List.range 256).foldl (release_step r.1) r.2

/-- The function `DG_GetKey`: the return value, `*out_pressed`, `*out_key` and
the new state; `none` only if `doomcli_read_input` ran out of fuel. -/
def DG_GetKey (K : doomkeys_t) (st : input_t) (out_pressed : Int) (out_key : Nat) :
    Option (Int × Int × Nat × input_t) :=
  (doomcli_read_input K st).map (fun st =>
    let st := simulate_release_events st
    if st.keybuffer_read ≠ st.keybuffer_write then
      (1, (if (st.keybuffer st.keybuffer_read).pressed then 1 else 0),
        (st.keybuffer st.keybuffer_read).key,
        { st with keybuffer_read := (st.keybuffer_read + 1) % KEYBUFFER_CAPACITY })
    else (0, out_pressed, out_key, st))

/-! ## Resampling and frame geometry -/

/-- Multiplication of two `int` values; a product outside the range of `int`
(no defined behaviour in C) is reduced to 32 bits, two's complement. -/
def int_mul (a b : Int) : Int := to_int32 (to_uint32 (a * b))

/-- Addition of two `int` values, reduced to 32 bits like `int_mul`. -/
def int_add (a b : Int) : Int := to_int32 (to_uint32 (a + b))

/-- Division of two `int` values: the quotient is rounded toward zero. -/
def int_div (a b : Int) : Int := Int.tdiv a b

/-- The macro `DOOMGENERIC_RESX`; the source refuses any value but 320. -/
def DOOMGENERIC_RESX : Int := 320

/-- The macro `DOOMGENERIC_RESY`; the source refuses any value but 200. -/
def DOOMGENERIC_RESY : Int := 200

/-- Modelled from the spec: the macro `SCREENWIDTH` of the Doom headers, the
width 320 of the source frame (the source index is `sy * 320 + sx`). -/
def SCREENWIDTH : Int := 320

/-- The index `sy * SCREENWIDTH + sx` that the body of the resampling loop of
`DG_DrawFrame` computes for the destination pixel `(x, y)`. -/
def resample_source (dest_width dest_height x y : Int) : Int :=
  let sy := int_div (int_mul y DOOMGENERIC_RESY) dest_height
  let sx := int_div (int_mul x DOOMGENERIC_RESX) dest_width
  int_add (int_mul sy SCREENWIDTH) sx

/-- The resampling loop of `DG_DrawFrame`: the pixels stored through
`*dest_pixel++`, in order. `I_VideoBuffer` (the palette indices of the source
frame, by offset) and `colors` (the palette entry read as a `uint32_t`) belong
to the Doom engine and are parameters. -/
def DG_DrawFrame_resample (dest_width dest_height : Int) (I_VideoBuffer : Int → Nat)
    (colors : Nat → Nat) : List Nat :=
  (List.range dest_height.toNat).foldl
    (fun (dest : List Nat) (y : Nat) =>
      (List.range dest_width.toNat).foldl
        (fun (dest : List Nat) (x : Nat) =>
          dest ++ [colors (I_VideoBuffer (resample_source dest_width dest_height x y))])
        dest)
    []

/-! ## Frame statistics -/

/-- The macro `stats_capacity`. -/
def stats_capacity : Nat := 20

/-- The statics `stats_times`, `stats_next` and `stats_count`; the two `int`
counters start at 0 and never become negative. The frame sizes kept next to
the times do not enter the frame rate and are left out. -/
structure stats_t where
  stats_times : Nat → Nat
  stats_next : Nat
  stats_count : Nat

/-- The statics at program start, zero-initialised. -/
def stats_initial : stats_t := ⟨fun _ => 0, 0, 0⟩

/-- The block "append statistics" of `DG_DrawFrame` as far as the frame rate
goes, with `now` the value `DG_GetTicksMs()` returned: the new statics and the
value of `fps` when the frame rate is printed. `current_time` is an `int`, the
difference `current_time - stats_times[stats_next]` and the quotient are
computed in `uint32_t`, and the quotient is stored in the `int fps`. A divisor
of 0 has no defined behaviour in C; the model yields `none`. -/
def DG_DrawFrame_stats (s : stats_t) (now : Nat) : Option (stats_t × Option Int) :=
  let current_time := to_int32 now
  let stats_times := array_set s.stats_times s.stats_next now
  let stats_next := (s.stats_next + 1) % stats_capacity
  if s.stats_count < stats_capacity then
    some (⟨stats_times, stats_next, s.stats_count + 1⟩, none)
  else
    let elapsed := u32_sub (to_uint32 current_time) (stats_times stats_next)
    if elapsed = 0 then none
    else
      let fps := to_int32 (1000 * stats_capacity / elapsed)
      some (⟨stats_times, stats_next, s.stats_count⟩, some fps)

/-- The enum `cli_mode_t`. -/
inductive cli_mode_t
  | cli_mode_sextant
  | cli_mode_quadrant
  | cli_mode_half
  | cli_mode_space
  deriving DecidableEq, Repr

open cli_mode_t

/-- The statement `dest_height &= ~1;` on an `int` in two's complement: the
lowest bit is cleared. -/
def int_clear_bit0 (v : Int) : Int := v - v % 2

/-- The part of `DG_Init` that sets `dest_width` and `dest_height` from
`columns` and `cli_mode`. -/
def DG_Init_geometry (cli_mode : cli_mode_t) (columns : Int) : Int × Int :=
  let dest_width := columns
  let dest_width :=
    match cli_mode with
    | cli_mode_space => dest_width
    | cli_mode_half => dest_width
    | cli_mode_quadrant => int_mul dest_width 2
    | cli_mode_sextant => int_mul dest_width 2
  let dest_height :=
    match cli_mode with
    | cli_mode_space => int_div (int_mul dest_width 12) 36
    | cli_mode_half => int_clear_bit0 (int_div (int_mul dest_width 24) 36)
    | cli_mode_quadrant => int_clear_bit0 (int_div (int_mul dest_width 12) 36)
    | cli_mode_sextant => int_mul (int_div (int_div (int_mul dest_width 18) 36) 3) 3
  (dest_width, dest_height)

/-- The values that the variable of a loop `for (int v = 0; v < stop; v +=
step)` takes, for a step of at least 1. -/
def loop_values (stop : Int) (step : Nat) : List Nat :=
  (List.range ((stop.toNat + step - 1) / step)).map (fun i => i * step)

/-- The statements `top += d; mid += d; bot += d;` on the row pointers of a
draw function, each held as an offset into `dest_buffer`. -/
def shift_ptrs (d : Int) (ptrs : List Int) : List Int := ptrs.map (fun p => p + d)

/-- The offsets into `dest_buffer` that one cell reads: `p[o]` for every row
pointer `p` and every column offset `o` of the cell. -/
def read_cell (ptrs : List Int) (cell : List Int) : List Int :=
  ptrs.flatMap (fun p => cell.map (fun o => p + o))

/-- The inner loop of a draw function: for every value of `x` the cell is read
and the row pointers advance by `dx`. The result holds the offsets read by each
cell and the row pointers after the loop. -/
def scan_cells (cell : List Int) (dx : Int) : List Nat → List Int → List (List Int) × List Int
  | [], ptrs => ([], ptrs)
  | _ :: xs, ptrs =>
    let r := scan_cells cell dx xs (shift_ptrs dx ptrs)
    (read_cell ptrs cell :: r.1, r.2)

/-- The outer loop of a draw function: for every value of `y` the inner loop
runs over the values `xs` of `x`, then the row pointers advance by `dy`. The
result holds, row by row and cell by cell, the offsets read. -/
def scan_rows (cell : List Int) (dx dy : Int) (xs : List Nat) :
    List Nat → List Int → List (List (List Int))
  | [], _ => []
  | _ :: ys, ptrs =>
    let r := scan_cells cell dx xs ptrs
    r.1 :: scan_rows cell dx dy xs ys (shift_ptrs dy r.2)

/-- The offsets into `dest_buffer` that `draw_space` reads: one pointer
`dest_pixel`, one pixel per cell, `++dest_pixel` after each cell. -/
def draw_space_reads (dest_width dest_height : Int) : List (List (List Int)) :=
  scan_rows [0] 1 0 (loop_values dest_width 1) (loop_values dest_height 1) [0]

/-- The offsets that `draw_half` reads: `top = dest_buffer`, `bot = dest_buffer
+ dest_width`; each cell reads `top[0]` and `bot[0]`, then `++top; ++bot;`;
each row (`y += 2`) ends with `top += dest_width; bot += dest_width;`. -/
def draw_half_reads (dest_width dest_height : Int) : List (List (List Int)) :=
  scan_rows [0] 1 dest_width (loop_values dest_width 1) (loop_values dest_height 2)
    [0, 0 + dest_width]

/-- The offsets that `draw_quadrant` reads: `top = dest_buffer`, `bot =
dest_buffer + dest_width`; each cell (`x += 2`) reads `top[0]`, `top[1]`,
`bot[0]`, `bot[1]`, then `top += 2; bot += 2;`; each row (`y += 2`) ends with
`top += dest_width; bot += dest_width;`. -/
def draw_quadrant_reads (dest_width dest_height : Int) : List (List (List Int)) :=
  scan_rows [0, 1] 2 dest_width (loop_values dest_width 2) (loop_values dest_height 2)
    [0, 0 + dest_width]

/-- The offsets that `draw_sextant` reads: `top = dest_buffer`, `mid = top +
dest_width`, `bot = mid + dest_width`; each cell (`x += 2`) reads two pixels
through each pointer, then the pointers advance by 2; each row (`y += 3`) ends
with `top += dest_width << 1;` and the same for `mid` and `bot`. -/
def draw_sextant_reads (dest_width dest_height : Int) : List (List (List Int)) :=
  scan_rows [0, 1] 2 (int_mul dest_width 2) (loop_values dest_width 2)
    (loop_values dest_height 3) [0, 0 + dest_width, 0 + dest_width + dest_width]

/-- The offsets that `draw_sextant_bw` reads; it walks `dest_buffer` like
`draw_sextant`. -/
def draw_sextant_bw_reads (dest_width dest_height : Int) : List (List (List Int)) :=
  scan_rows [0, 1] 2 (int_mul dest_width 2) (loop_values dest_width 2)
    (loop_values dest_height 3) [0, 0 + dest_width, 0 + dest_width + dest_width]

/-- The `switch (cli_mode)` of `DG_DrawFrame` that picks the draw function: the
offsets the chosen function reads. In the sextant charset `draw_sextant_bw`
serves the dark and light modes and `draw_sextant` the others. -/
def DG_DrawFrame_reads (cli_mode : cli_mode_t) (cli_colors : cli_colors_t)
    (dest_width dest_height : Int) : List (List (List Int)) :=
  match cli_mode with
  | cli_mode_space => draw_space_reads dest_width dest_height
  | cli_mode_half => draw_half_reads dest_width dest_height
  | cli_mode_quadrant => draw_quadrant_reads dest_width dest_height
  | cli_mode_sextant =>
    if cli_colors = cli_colors_dark ∨ cli_colors = cli_colors_light then
      draw_sextant_bw_reads dest_width dest_height
    else draw_sextant_reads dest_width dest_height

/-! ## Output buffer set-up -/

/-- The statements `buffer_capacity = 1024*1024; buffer_count = 0; buffer =
malloc(buffer_capacity);` of `DG_Init`, with `block` the memory that `malloc`
returns (the program aborts when it returns `NULL`). -/
def DG_Init_buffer (block : Nat → Nat) : buffer_t :=
  { buffer := block, buffer_capacity := 1024 * 1024, buffer_count := 0 }

/-- The statement `buffer_count = 0;` that ends `DG_DrawFrame`, after the
buffer has been written out. -/
def buffer_reset (b : buffer_t) : buffer_t := { b with buffer_count := 0 }

/-! ## Specification-side definitions

The definitions below follow the wording of the specification, not the
source; the theorems compare them with the embedding above. -/

/-- Luma of a pixel as the specification writes it:
`18*blue + 183*green + 54*red`. -/
def spec_luma (p : pixel_t) : Nat := 18 * p.blue.val + 183 * p.green.val + 54 * p.red.val

/-- The floor of the mean luma of a block of pixels. -/
def spec_avg (ps : List pixel_t) : Nat := (ps.map spec_luma).sum / ps.length

/-- The floor-mean of a list of channel values (`0` for the empty list). -/
def spec_floor_mean (vs : List Nat) : Nat := vs.sum / vs.length

/-- The pixels of a block whose mask bit is set: luma above the block average. -/
def spec_fg_group (ps : List pixel_t) : List pixel_t :=
  ps.filter (fun p => decide (spec_luma p > spec_avg ps))

/-- The remaining pixels of a block. -/
def spec_bg_group (ps : List pixel_t) : List pixel_t :=
  ps.filter (fun p => ! decide (spec_luma p > spec_avg ps))

/-- The per-channel floor-mean (red, green, blue) of a group of pixels. -/
def spec_colour (ps : List pixel_t) : Nat × Nat × Nat :=
  (spec_floor_mean (ps.map (fun p => p.red.val)),
   spec_floor_mean (ps.map (fun p => p.green.val)),
   spec_floor_mean (ps.map (fun p => p.blue.val)))

/-- The entry `e` is the first entry of `table`, in table order, that minimises
`f`: every entry before it has a strictly larger value, no entry after it has a
smaller one. -/
def first_minimiser (table : List palette_entry) (f : palette_entry → Int)
    (e : palette_entry) : Prop :=
  ∃ pre post, table = pre ++ e :: post ∧ (∀ x ∈ pre, f e < f x) ∧ (∀ x ∈ post, f e ≤ f x)

/-- The weighted squared distance `(5*(r-rc))^2 + (7*(g-gc))^2 + (4*(b-bc))^2`
of a colour to a palette entry. -/
def spec_error (r g b : Int) (e : palette_entry) : Int :=
  (5 * (r - e.red)) ^ 2 + (7 * (g - e.green)) ^ 2 + (4 * (b - e.blue)) ^ 2

/-- The clamp of a channel to `0..255`: `min(255, max(0, v))`. -/
def spec_clamp (v : Int) : Int := min 255 (max 0 v)

/-- The cube level `floor(clamp(v) / 43)` of a channel. -/
def spec_level6 (v : Int) : Int := spec_clamp v / 43

/-- The error `error6` of the colour-cube candidate. -/
def spec_error6 (r g b : Int) : Int :=
  (5 * (spec_clamp r - 43 * spec_level6 r)) ^ 2 + (7 * (spec_clamp g - 43 * spec_level6 g)) ^ 2
    + (4 * (spec_clamp b - 43 * spec_level6 b)) ^ 2

/-- The luma `18*B + 183*G + 54*R` of the clamped colour. -/
def spec_luma8 (r g b : Int) : Int := 18 * spec_clamp b + 183 * spec_clamp g + 54 * spec_clamp r

/-- The grey step `floor(24*luma / 65536)`. -/
def spec_gray (r g b : Int) : Int := 24 * spec_luma8 r g b / 65536

/-- The grey value `floor(256*gray / 24)` of the grey step. -/
def spec_gray_value (r g b : Int) : Int := 256 * spec_gray r g b / 24

/-- The error `errorg` of the grey-ramp candidate. -/
def spec_errorg (r g b : Int) : Int :=
  (5 * (spec_clamp r - spec_gray_value r g b)) ^ 2 + (7 * (spec_clamp g - spec_gray_value r g b)) ^ 2
    + (4 * (spec_clamp b - spec_gray_value r g b)) ^ 2

/-- Spec side: the level `l_i` of a sub-pixel `p` whose own coordinate is
`(px, py)`: `floor(luma / 256)`, replaced when noise is enabled by the signed
value `l_i + n_i - 128` clamped to `0..255`, where `n_i` is the low byte of the
noise texel at that coordinate. -/
def spec_bw_level (c : ctx_t) (p : pixel_t) (px py : Nat) : Int :=
  if c.noise_enabled then
    spec_clamp (((spec_luma p / 256 : Nat) : Int) + ((NOISE_SAMPLE c px py % 256 : Nat) : Int) - 128)
  else ((spec_luma p / 256 : Nat) : Int)

/-- Spec side: one call of the decoder with the bytes `chunk` newly available. -/
def poll (K : doomkeys_t) (st : input_t) (chunk : List Int) : Option input_t :=
  doomcli_read_input K { st with stdin := st.stdin ++ chunk }

/-- Spec side: successive calls of the decoder, one per chunk of bytes; between
two calls no further byte is available. -/
def poll_all (K : doomkeys_t) (st : input_t) : List (List Int) → Option input_t
  | [] => some st
  | chunk :: chunks => (poll K st chunk).bind (fun st' => poll_all K st' chunks)

/-- Spec side: the event `e` appended to the key event queue. -/
def queue_push (st : input_t) (e : keyevent_t) : input_t :=
  { st with
    keybuffer := array_set st.keybuffer st.keybuffer_write e
    keybuffer_write := (st.keybuffer_write + 1) % 64 }

/-- Spec side: between the states `a` and `b` exactly the events `evs` were
enqueued, in this order, and none was dequeued. -/
def enqueued (a b : input_t) (evs : List keyevent_t) : Prop :=
  b.keybuffer = (evs.foldl queue_push a).keybuffer ∧
  b.keybuffer_write = (evs.foldl queue_push a).keybuffer_write ∧
  b.keybuffer_read = a.keybuffer_read

/-- Spec side: the key dispatched by the terminating byte of an escape
sequence, if any. -/
def csi_key (K : doomkeys_t) (t : Int) : Option Nat :=
  if t = 65 then some K.KEY_UPARROW
  else if t = 66 then some K.KEY_DOWNARROW
  else if t = 67 then some K.KEY_RIGHTARROW
  else if t = 68 then some K.KEY_LEFTARROW
  else none

/-- Modelled from the spec: the header `doomkeys.h` is not among the sources.
`KEY_ENTER`, `KEY_FIRE`, `KEY_USE`, `KEY_LALT`, `KEY_MINUS` and `KEY_EQUALS`
have the values the specification lists (13, 0xa3, 0xa2, 0xb8, 0x2d, 0x3d);
the specification gives no value for the four arrow keys, the codes 0xae,
0xac, 0xad, 0xaf are only used to instantiate general statements. -/
def doomkeys_h : doomkeys_t :=
  { KEY_RIGHTARROW := 0xae
    KEY_LEFTARROW := 0xac
    KEY_UPARROW := 0xad
    KEY_DOWNARROW := 0xaf
    KEY_ENTER := 13
    KEY_FIRE := 0xa3
    KEY_USE := 0xa2
    KEY_LALT := 0xb8
    KEY_MINUS := 0x2d
    KEY_EQUALS := 0x3d }

/-- Spec side: the state after `n` successive non-duplicate presses of `key`,
with no other call in between. -/
def presses (st : input_t) (key : Nat) : Nat → input_t
  | 0 => st
  | n + 1 => keypress (presses st key n) key false

/-- Spec side: the measurement history and the two estimates derived from it. -/
def measurements (st : input_t) : Nat × Nat × (Nat → Nat) × (Nat → Nat) × Nat × Nat :=
  (st.key_measure_count, st.key_measure_next, st.key_measure_delays, st.key_measure_rates,
    st.key_repeat_delay, st.key_repeat_rate)

/-- Spec side: the distance `|a - b|` of two numbers. -/
def spec_abs_diff (a b : Nat) : Nat := if b ≤ a then a - b else b - a

/-- Spec side: `mean = floor((e1 + e2 + e3) / 3)` of the three interior deltas. -/
def spec_delta_mean (e1 e2 e3 : Nat) : Nat := (e1 + e2 + e3) / 3

/-- Spec side: `variance = |e1 - mean| + |e2 - mean| + |e3 - mean|`. -/
def spec_delta_variance (e1 e2 e3 : Nat) : Nat :=
  spec_abs_diff e1 (spec_delta_mean e1 e2 e3) + spec_abs_diff e2 (spec_delta_mean e1 e2 e3)
    + spec_abs_diff e3 (spec_delta_mean e1 e2 e3)

/-- Spec side: the UTF-8 encoding of a Unicode code point, as a list of bytes. -/
def spec_utf8 (cp : Nat) : List Nat :=
  if cp < 0x80 then [cp]
  else if cp < 0x800 then [0xC0 + cp / 64, 0x80 + cp % 64]
  else if cp < 0x10000 then [0xE0 + cp / 4096, 0x80 + cp / 64 % 64, 0x80 + cp % 64]
  else [0xF0 + cp / 262144, 0x80 + cp / 4096 % 64, 0x80 + cp / 64 % 64, 0x80 + cp % 64]

/-- Spec side: the code point of the Unicode block character whose lit
quadrants are the given ones (Block Elements chart: U+2596 QUADRANT LOWER LEFT
to U+259F, the half blocks U+2580, U+2584, U+258C, U+2590, the full block
U+2588), the space when none is lit. -/
def spec_quadrant_codepoint (upper_left upper_right lower_left lower_right : Bool) : Nat :=
  match upper_left, upper_right, lower_left, lower_right with
  | false, false, false, false => 0x20
  | true, false, false, false => 0x2598
  | false, true, false, false => 0x259D
  | true, true, false, false => 0x2580
  | false, false, true, false => 0x2596
  | true, false, true, false => 0x258C
  | false, true, true, false => 0x259E
  | true, true, true, false => 0x259B
  | false, false, false, true => 0x2597
  | true, false, false, true => 0x259A
  | false, true, false, true => 0x2590
  | true, true, false, true => 0x259C
  | false, false, true, true => 0x2584
  | true, false, true, true => 0x2599
  | false, true, true, true => 0x259F
  | true, true, true, true => 0x2588

/-- Spec side: the code point of the sextant glyph for mask `m`: the space, the
two half blocks and the full block for 0, 21, 42 and 63, and otherwise
`U+1FB00 + m - 1 - [m > 21] - [m > 42]`. -/
def spec_sextant_codepoint (m : Nat) : Nat :=
  if m = 0 then 0x20
  else if m = 21 then 0x258C
  else if m = 42 then 0x2590
  else if m = 63 then 0x2588
  else 0x1FB00 + m - 1 - (if m > 21 then 1 else 0) - (if m > 42 then 1 else 0)

/-- Spec side: the bytes that the format `ESC[38;2;R;G;Bm ESC[48;2;R;G;Bm`
(without the space) produces, each channel printed in decimal. -/
def spec_sgr_24bit (fg_red fg_green fg_blue bg_red bg_green bg_blue : Nat) : List Nat :=
  ascii ("\x1b[38;2;" ++ Nat.repr fg_red ++ ";" ++ Nat.repr fg_green ++ ";" ++ Nat.repr fg_blue
    ++ "m\x1b[48;2;" ++ Nat.repr bg_red ++ ";" ++ Nat.repr bg_green ++ ";" ++ Nat.repr bg_blue
    ++ "m")

/-- Spec side: the rescaled channel
`floor(c * scale / 100) + floor(255 * (100 - scale) / 200)`. -/
def spec_noise_channel (scale ch : Nat) : Nat := ch * scale / 100 + 255 * (100 - scale) / 200

/-- Spec side: the 8-bit channel in byte position `k` of a texel. -/
def spec_byte (k val : Nat) : Nat := val / 256 ^ k % 256

/-- Spec side: the contents of the output buffer, its first `buffer_count`
bytes. -/
def buffer_contents (b : buffer_t) : List Nat := (List.range b.buffer_count).map b.buffer

/-- Spec side: the time of the last recorded press of a key, the slot before
`time_next` in the circular history. -/
def spec_last_press (keyinfo : keyinfo_t) : Nat :=
  keyinfo.time ((keyinfo.time_next + 4) % 5)

/-- Spec side: the window `2 * 10 + (key_repeat_rate if the key is repeating,
else key_repeat_delay)`. -/
def spec_window (st : input_t) (key : Nat) : Nat :=
  2 * 10 + (if (st.keyinfos key).state = keystate_repeat then st.key_repeat_rate
    else st.key_repeat_delay)

/-- Spec side: the release events that one sweep at time `now` enqueues, in key
order: one for every key that is due and not waiting. -/
def sweep_events (now : Nat) (st : input_t) : List keyevent_t :=
  (List.range 256).filterMap (fun key =>
    if release_due now st key = true ∧ (st.keyinfos key).state ≠ keystate_wait then
      some ⟨false, key⟩
    else none)

/-- Spec side: the state after `n` successive sweeps with no other call in
between. -/
def sweeps (st : input_t) : Nat → input_t
  | 0 => st
  | n + 1 => simulate_release_events (sweeps st n)

/-- Spec side: the release events of `n` successive sweeps, in order. -/
def sweeps_events (st : input_t) : Nat → List keyevent_t
  | 0 => []
  | n + 1 => sweeps_events st n
      ++ sweep_events ((sweeps st n).clock (sweeps st n).clock_calls % 4294967296) (sweeps st n)

/-- Spec side: no sweep of the state would enqueue a release event, whatever
the clock reads: a key that is due is waiting. -/
def no_release_pending (st : input_t) : Prop :=
  ∀ n key, key < 256 → release_due (st.clock n % 4294967296) st key = true →
    (st.keyinfos key).state = keystate_wait

/-- Spec side: the results of `n` successive calls of `DG_GetKey`: for each
call the return value and the two outputs after it. -/
def DG_GetKey_calls (K : doomkeys_t) :
    Nat → input_t → Int → Nat → Option (List (Int × Int × Nat) × input_t)
  | 0, st, _, _ => some ([], st)
  | n + 1, st, out_pressed, out_key =>
    (DG_GetKey K st out_pressed out_key).bind (fun r =>
      (DG_GetKey_calls K n r.2.2.2 r.2.1 r.2.2.1).map (fun rest =>
        ((r.1, r.2.1, r.2.2.1) :: rest.1, rest.2)))

/-- Spec side: the value of `*out_pressed` for an event. -/
def pressed_value (e : keyevent_t) : Int := if e.pressed then 1 else 0

/-- Spec side: the two outputs as the last of the calls that returned the
events `evs` left them, starting from the values `out_pressed`, `out_key`. -/
def last_outputs : List keyevent_t → Int → Nat → Int × Nat
  | [], out_pressed, out_key => (out_pressed, out_key)
  | e :: es, _, _ => last_outputs es (pressed_value e) e.key

/-- Spec side: the samples stored in the first `count` slots of a measurement
array, in slot order. -/
def spec_samples (a : Nat → Nat) (count : Nat) : List Nat := (List.range count).map a

/-- Spec side: `d` is the sample of the list closest to `mean`, the first such
sample in list order on a tie. -/
def spec_first_nearest (samples : List Nat) (mean d : Nat) : Prop :=
  ∃ pre post, samples = pre ++ d :: post ∧
    (∀ x ∈ pre, spec_abs_diff d mean < spec_abs_diff x mean) ∧
    (∀ x ∈ post, spec_abs_diff d mean ≤ spec_abs_diff x mean)

/-- Spec side: the measurement ring of `st` holds the history `ps` of recorded
pairs (oldest first): it counts `min (length ps) 16` samples, the next slot is
`length ps mod 16`, and each of the latest 16 pairs stands in the slot of its
index modulo 16. -/
def ring_holds (st : input_t) (ps : List (Nat × Nat)) : Prop :=
  st.key_measure_count = min ps.length 16 ∧
  st.key_measure_next = ps.length % 16 ∧
  ∀ j, j < ps.length → ps.length ≤ j + 16 →
    ps[j]? = some (st.key_measure_delays (j % 16), st.key_measure_rates (j % 16))

/-- Spec side: a call that touches the key states: `keypress(key, duplicate)`
or `simulate_release_events()`. -/
inductive key_call
  | press (key : Nat) (duplicate : Bool)
  | sweep

/-- Spec side: the key of a `keypress` call is an index into `keyinfos[256]`. -/
def key_call_ok : key_call → Prop
  | key_call.press key _ => key < 256
  | key_call.sweep => True

/-- Spec side: the state after one call. -/
def key_call_run (st : input_t) : key_call → input_t
  | key_call.press key duplicate => keypress st key duplicate
  | key_call.sweep => simulate_release_events st

/-- Spec side: the events one call enqueues: a press when the key was off or
waiting, the release events of a sweep. -/
def key_call_events (st : input_t) : key_call → List keyevent_t
  | key_call.press key _ =>
    if keystate_press (st.keyinfos key).state = true then [⟨true, key⟩] else []
  | key_call.sweep => sweep_events (st.clock st.clock_calls % 4294967296) st

/-- Spec side: the state after a sequence of calls. -/
def key_calls_run (st : input_t) : List key_call → input_t
  | [] => st
  | c :: cs => key_calls_run (key_call_run st c) cs

/-- Spec side: the events a sequence of calls enqueues, in order. -/
def key_calls_events (st : input_t) : List key_call → List keyevent_t
  | [] => []
  | c :: cs => key_call_events st c ++ key_calls_events (key_call_run st c) cs

/-- Spec side: the events alternate between press and release, the first one
having `pressed = first`. -/
def alternates : Bool → List keyevent_t → Prop
  | _, [] => True
  | first, e :: es => e.pressed = first ∧ alternates (! first) es

/-- Spec side: the key is held as far as the game knows: its state is down or
repeating. -/
def keystate_held : keystate_t → Bool
  | keystate_off => false
  | keystate_down => true
  | keystate_wait => false
  | keystate_repeat => true

/-- Spec side: the statics after frames drawn at the clock readings `ts`, in
order; `none` when a frame divides by zero. -/
def stats_after (s : stats_t) (ts : List Nat) : Option stats_t :=
  ts.foldl (fun r t => r.bind (fun s => (DG_DrawFrame_stats s t).map Prod.fst)) (some s)

/-- Spec side: the statics hold the frame times `ts` (oldest first): the next
slot is `length ts mod 20`, the count is `min (length ts) 20`, and each of the
latest 20 times stands in the slot of its index modulo 20. -/
def stats_holds (s : stats_t) (ts : List Nat) : Prop :=
  s.stats_next = ts.length % 20 ∧
  s.stats_count = min ts.length 20 ∧
  ∀ i, i < ts.length → ts.length ≤ i + 20 → ts[i]? = some (s.stats_times (i % 20))

/-- Spec side: the clock readings of `n` frames drawn at the constant interval
`d`, the first at `t0`. -/
def frame_times (t0 d n : Nat) : List Nat := (List.range n).map (fun i => t0 + i * d)

/-- Spec side: the value `v` is a legitimate average of the channel `ch` over
the group: a byte, 0 for the empty group, and otherwise between the channel of
some pixel of the group and the channel of some other, that is between the
least and the greatest channel value of the group. -/
def spec_channel_ok (group : List pixel_t) (ch : pixel_t → Nat) (v : Nat) : Prop :=
  v ≤ 255 ∧ (group = [] → v = 0) ∧
  (group ≠ [] → (∃ p ∈ group, ch p ≤ v) ∧ (∃ q ∈ group, v ≤ ch q))

/-- Spec side: the width of a character cell in pixels: 1 for the space and
half charsets, 2 for quadrant and sextant. -/
def spec_cell_width : cli_mode_t → Nat
  | cli_mode_t.cli_mode_space => 1
  | cli_mode_t.cli_mode_half => 1
  | cli_mode_t.cli_mode_quadrant => 2
  | cli_mode_t.cli_mode_sextant => 2

/-- Spec side: the height of a character cell in pixels: 1 for space, 2 for
half and quadrant, 3 for sextant. -/
def spec_cell_height : cli_mode_t → Nat
  | cli_mode_t.cli_mode_space => 1
  | cli_mode_t.cli_mode_half => 2
  | cli_mode_t.cli_mode_quadrant => 2
  | cli_mode_t.cli_mode_sextant => 3

/-- Spec side: the number of character rows that `DG_Init` arrives at. -/
def spec_rows (cli_mode : cli_mode_t) (columns : Nat) : Nat :=
  match cli_mode with
  | cli_mode_t.cli_mode_space => columns * 12 / 36
  | cli_mode_t.cli_mode_half => columns * 24 / 36 / 2
  | cli_mode_t.cli_mode_quadrant => columns * 2 * 12 / 36 / 2
  | cli_mode_t.cli_mode_sextant => columns * 2 * 18 / 36 / 3

/-- Spec side: what the program does to the output buffer after `DG_Init`: it
appends a byte string, or it empties the buffer at the end of a frame. -/
inductive buffer_op
  | append (bytes : List Nat)
  | reset

/-- Spec side: the buffer after a sequence of operations; `none` when one of
the appends does not return. -/
def buffer_run (heap : Nat → Option (Nat → Nat)) : buffer_t → List buffer_op → Option buffer_t
  | b, [] => some b
  | b, buffer_op.append bytes :: ops =>
    match buffer_append heap b bytes with
    | append_result_t.returned b' => buffer_run heap b' ops
    | _ => none
  | b, buffer_op.reset :: ops => buffer_run heap (buffer_reset b) ops

/-- Spec side: a colour channel as the colour-output routine quantizes and
prints it: offset by `(sample - 128)` when the noise is enabled, where `sample`
is byte `k` of the noise texel of the cell (2 red, 1 green, 0 blue), and
unchanged when the noise is off. -/
def spec_dither (c : ctx_t) (x y k v : Nat) : Int :=
  if c.noise_enabled then (v : Int) + (spec_byte k (NOISE_SAMPLE c x y) : Int) - 128 else (v : Int)

/-- Spec side: the escape sequence that selects the background colour of a
cell, by colour mode: `ESC[48;2;R;G;Bm` in 24-bit mode, `ESC[48;5;Nm` with the
256-colour code `N` in 8-bit mode, and `ESC[Nm` with `N` the palette code plus
10 (40..47, 100..107) in the 4-bit and 3-bit modes, every number in decimal.
The monochrome modes have no colour sequence. -/
def spec_sgr_bg (c : ctx_t) (x y red green blue : Nat) : List Nat :=
  match c.cli_colors with
  | cli_colors_24bit =>
    ascii ("\x1b[48;2;" ++ Nat.repr (spec_dither c x y 2 red).toNat ++ ";"
      ++ Nat.repr (spec_dither c x y 1 green).toNat ++ ";"
      ++ Nat.repr (spec_dither c x y 0 blue).toNat ++ "m")
  | cli_colors_8bit =>
    ascii ("\x1b[48;5;"
      ++ Nat.repr (color_8bit (spec_dither c x y 2 red) (spec_dither c x y 1 green)
          (spec_dither c x y 0 blue)).toNat ++ "m")
  | cli_colors_4bit =>
    ascii ("\x1b["
      ++ Nat.repr (color_4bit (spec_dither c x y 2 red) (spec_dither c x y 1 green)
          (spec_dither c x y 0 blue) + 10).toNat ++ "m")
  | cli_colors_3bit =>
    ascii ("\x1b["
      ++ Nat.repr (color_3bit (spec_dither c x y 2 red) (spec_dither c x y 1 green)
          (spec_dither c x y 0 blue) + 10).toNat ++ "m")
  | cli_colors_light => []
  | cli_colors_dark => []

/-- Spec side: the escape sequences that select the foreground and the
background colour of a cell, by colour mode: `ESC[38;2;R;G;Bm ESC[48;2;R;G;Bm`
(without the space) in 24-bit mode, `ESC[38;5;Nm ESC[48;5;Mm` (without the
space) with the 256-colour codes in 8-bit mode, and `ESC[N;Mm` with `N` the
palette code of the foreground and `M` the palette code of the background plus
10 in the 4-bit and 3-bit modes, every number in decimal. The monochrome modes
have no colour sequence. -/
def spec_sgr_fg_bg (c : ctx_t) (x y fg_red fg_green fg_blue bg_red bg_green bg_blue : Nat) :
    List Nat :=
  match c.cli_colors with
  | cli_colors_24bit =>
    spec_sgr_24bit (spec_dither c x y 2 fg_red).toNat (spec_dither c x y 1 fg_green).toNat
      (spec_dither c x y 0 fg_blue).toNat (spec_dither c x y 2 bg_red).toNat
      (spec_dither c x y 1 bg_green).toNat (spec_dither c x y 0 bg_blue).toNat
  | cli_colors_8bit =>
    ascii ("\x1b[38;5;"
      ++ Nat.repr (color_8bit (spec_dither c x y 2 fg_red) (spec_dither c x y 1 fg_green)
          (spec_dither c x y 0 fg_blue)).toNat
      ++ "m\x1b[48;5;"
      ++ Nat.repr (color_8bit (spec_dither c x y 2 bg_red) (spec_dither c x y 1 bg_green)
          (spec_dither c x y 0 bg_blue)).toNat ++ "m")
  | cli_colors_4bit =>
    ascii ("\x1b["
      ++ Nat.repr (color_4bit (spec_dither c x y 2 fg_red) (spec_dither c x y 1 fg_green)
          (spec_dither c x y 0 fg_blue)).toNat
      ++ ";"
      ++ Nat.repr (color_4bit (spec_dither c x y 2 bg_red) (spec_dither c x y 1 bg_green)
          (spec_dither c x y 0 bg_blue) + 10).toNat ++ "m")
  | cli_colors_3bit =>
    ascii ("\x1b["
      ++ Nat.repr (color_3bit (spec_dither c x y 2 fg_red) (spec_dither c x y 1 fg_green)
          (spec_dither c x y 0 fg_blue)).toNat
      ++ ";"
      ++ Nat.repr (color_3bit (spec_dither c x y 2 bg_red) (spec_dither c x y 1 bg_green)
          (spec_dither c x y 0 bg_blue) + 10).toNat ++ "m")
  | cli_colors_light => []
  | cli_colors_dark => []

/-! ## Properties of the integer conversions -/

/-- For a byte-valued channel and noise byte, the `uint32_t` round trip of
`channel += noise_byte - 128` is the signed sum. -/
theorem add_noise_eq (channel : Int) (n : Nat) (hc : 0 ≤ channel ∧ channel ≤ 255)
    (hn : n ≤ 255) : add_noise channel n = channel + (n : Int) - 128 := by
  unfold add_noise to_int32 to_uint32
  split_ifs <;> omega

/-- For a byte-valued luma and noise byte, the dithered luma of
`draw_sextant_bw` is the signed sum clamped to `0..255`. -/
theorem bw_noise_eq (l n : Nat) (hl : l ≤ 255) (hn : n ≤ 255) :
    (bw_noise l n : Int) = clamp ((l : Int) + (n : Int) - 128) 0 255 := by
  unfold bw_noise to_int32 to_uint32 clamp
  split_ifs <;> omega

/-! ## Properties of the colour quantizers -/

/-- The error computed by the loop body is the weighted squared distance of the
specification. -/
theorem color_error_eq_spec (e : palette_entry) (r g b : Int) :
    color_error e r g b = spec_error r g b e := by
  simp only [color_error, spec_error, DIFF_WEIGHT_RED, DIFF_WEIGHT_GREEN, DIFF_WEIGHT_BLUE]
  ring

/-- Invariant of the search loop: either no row beats the incoming best error
and the incoming code is returned, or the code of the first row of least error
is returned and that error is below the incoming one. -/
theorem color_search_loop_spec (red green blue : Int) (rows : List palette_entry) :
    ∀ best_code best_error : Int,
      (color_search_loop rows red green blue best_code best_error = best_code ∧
        ∀ x ∈ rows, best_error ≤ color_error x red green blue) ∨
      (∃ pre e post, rows = pre ++ e :: post ∧
        color_search_loop rows red green blue best_code best_error = (e.code : Int) ∧
        color_error e red green blue < best_error ∧
        (∀ x ∈ pre, color_error e red green blue < color_error x red green blue) ∧
        (∀ x ∈ post, color_error e red green blue ≤ color_error x red green blue)) := by
  induction rows with
  | nil =>
    intro bc be
    left
    exact ⟨rfl, by simp⟩
  | cons r0 rest ih =>
    intro bc be
    by_cases h : color_error r0 red green blue < be
    · have hstep : color_search_loop (r0 :: rest) red green blue bc be =
          color_search_loop rest red green blue (r0.code : Int) (color_error r0 red green blue) := by
        simp only [color_search_loop, h, if_true]
      rcases ih (r0.code : Int) (color_error r0 red green blue) with ⟨heq, hall⟩ | ⟨pre, e, post, hrows, heq, hlt, hpre, hpost⟩
      · right
        exact ⟨[], r0, rest, rfl, by rw [hstep, heq], h, by simp, hall⟩
      · right
        refine ⟨r0 :: pre, e, post, by rw [hrows]; rfl, by rw [hstep, heq], lt_trans hlt h, ?_, hpost⟩
        intro x hx
        rcases List.mem_cons.mp hx with rfl | hx
        · exact hlt
        · exact hpre x hx
    · have hstep : color_search_loop (r0 :: rest) red green blue bc be =
          color_search_loop rest red green blue bc be := by
        simp only [color_search_loop, h, if_false]
      rcases ih bc be with ⟨heq, hall⟩ | ⟨pre, e, post, hrows, heq, hlt, hpre, hpost⟩
      · left
        refine ⟨by rw [hstep, heq], ?_⟩
        intro x hx
        rcases List.mem_cons.mp hx with rfl | hx
        · exact not_lt.mp h
        · exact hall x hx
      · right
        refine ⟨r0 :: pre, e, post, by rw [hrows]; rfl, by rw [hstep, heq], hlt, ?_, hpost⟩
        intro x hx
        rcases List.mem_cons.mp hx with rfl | hx
        · exact lt_of_lt_of_le hlt (not_lt.mp h)
        · exact hpre x hx

/-- A square is bounded by the square of a bound on the absolute value. -/
theorem sq_le_of_abs_le (a k : Int) (h1 : -k ≤ a) (h2 : a ≤ k) : a * a ≤ k * k := by
  nlinarith

/-- For inputs in `-128..383` and byte-valued palette channels the error of a
row is non-negative and below `INT_MAX`: the `int` arithmetic of the loop does
not overflow and the first row always replaces the initial `best_error`. -/
theorem color_error_lt_INT_MAX (e : palette_entry) (r g b : Int)
    (he : e.red ≤ 255 ∧ e.green ≤ 255 ∧ e.blue ≤ 255)
    (hr : -128 ≤ r ∧ r ≤ 383) (hg : -128 ≤ g ∧ g ≤ 383) (hb : -128 ≤ b ∧ b ≤ 383) :
    0 ≤ color_error e r g b ∧ color_error e r g b < INT_MAX := by
  obtain ⟨h1, h2, h3⟩ := he
  have h1' : ((e.red : Nat) : Int) ≤ 255 := by exact_mod_cast h1
  have h2' : ((e.green : Nat) : Int) ≤ 255 := by exact_mod_cast h2
  have h3' : ((e.blue : Nat) : Int) ≤ 255 := by exact_mod_cast h3
  have n1 : (0 : Int) ≤ (e.red : Int) := Int.ofNat_nonneg _
  have n2 : (0 : Int) ≤ (e.green : Int) := Int.ofNat_nonneg _
  have n3 : (0 : Int) ≤ (e.blue : Int) := Int.ofNat_nonneg _
  simp only [color_error, DIFF_WEIGHT_RED, DIFF_WEIGHT_GREEN, DIFF_WEIGHT_BLUE, INT_MAX]
  have a := sq_le_of_abs_le ((r - e.red) * 5) 1915 (by omega) (by omega)
  have b' := sq_le_of_abs_le ((g - e.green) * 7) 2681 (by omega) (by omega)
  have c := sq_le_of_abs_le ((b - e.blue) * 4) 1532 (by omega) (by omega)
  have a0 := mul_self_nonneg ((r - (e.red : Int)) * 5)
  have b0 := mul_self_nonneg ((g - (e.green : Int)) * 7)
  have c0 := mul_self_nonneg ((b - (e.blue : Int)) * 4)
  constructor <;> omega

/-- On a non-empty table whose first row has an error below `INT_MAX`,
`color_search` returns the code of the first minimiser of the error. -/
theorem color_search_first_minimiser (table : List palette_entry) (r0 : palette_entry)
    (rest : List palette_entry) (htable : table = r0 :: rest) (r g b : Int)
    (h0 : color_error r0 r g b < INT_MAX) :
    ∃ e, first_minimiser table (spec_error r g b) e ∧
      color_search table table.length r g b = (e.code : Int) := by
  unfold color_search
  rw [List.take_length]
  rcases color_search_loop_spec r g b table 0 INT_MAX with ⟨_, hall⟩ | ⟨pre, e, post, hrows, heq, _, hpre, hpost⟩
  · exfalso
    have := hall r0 (by rw [htable]; exact List.mem_cons_self _ _)
    omega
  · refine ⟨e, ⟨pre, post, hrows, ?_, ?_⟩, heq⟩
    · intro x hx
      rw [← color_error_eq_spec, ← color_error_eq_spec]
      exact hpre x hx
    · intro x hx
      rw [← color_error_eq_spec, ← color_error_eq_spec]
      exact hpost x hx

/-- C5: for all integers r, g, b in -128..383, `color_3bit` and `color_4bit`
return the code of the first entry, in table order, of their palette that
minimises `(5*(r-rc))^2 + (7*(g-gc))^2 + (4*(b-bc))^2`; an entry before it has
a strictly larger error, so a later entry of equal error never replaces it. -/
theorem C5_color_search_first_minimiser (r g b : Int)
    (hr : -128 ≤ r ∧ r ≤ 383) (hg : -128 ≤ g ∧ g ≤ 383) (hb : -128 ≤ b ∧ b ≤ 383) :
    (∃ e, first_minimiser colors_3bit (spec_error r g b) e ∧ color_3bit r g b = (e.code : Int)) ∧
    (∃ e, first_minimiser colors_4bit (spec_error r g b) e ∧ color_4bit r g b = (e.code : Int)) := by
  constructor
  · exact color_search_first_minimiser colors_3bit _ _ rfl r g b
      (color_error_lt_INT_MAX _ r g b (by decide) hr hg hb).2
  · exact color_search_first_minimiser colors_4bit _ _ rfl r g b
      (color_error_lt_INT_MAX _ r g b (by decide) hr hg hb).2

/-- C5 at the input (190, 256, 0), which lies in the range. -/
theorem C5_color_search_first_minimiser_witness :
    ((-128 : Int) ≤ 190 ∧ (190 : Int) ≤ 383) ∧ ((-128 : Int) ≤ 256 ∧ (256 : Int) ≤ 383) ∧
    ((-128 : Int) ≤ 0 ∧ (0 : Int) ≤ 383) ∧
    (∃ e, first_minimiser colors_3bit (spec_error 190 256 0) e ∧ color_3bit 190 256 0 = (e.code : Int)) ∧
    (∃ e, first_minimiser colors_4bit (spec_error 190 256 0) e ∧ color_4bit 190 256 0 = (e.code : Int)) :=
  ⟨by decide, by decide, by decide,
    C5_color_search_first_minimiser 190 256 0 (by decide) (by decide) (by decide)⟩


/-- The function `clamp` with bounds 0 and 255 is `min(255, max(0, v))`. -/
theorem clamp_eq_spec (v : Int) : clamp v 0 255 = spec_clamp v := by
  unfold clamp spec_clamp
  split_ifs <;> omega

/-- A clamped channel lies in `0..255`. -/
theorem spec_clamp_bounds (v : Int) : 0 ≤ spec_clamp v ∧ spec_clamp v ≤ 255 := by
  unfold spec_clamp
  omega

/-- A cube level lies in `0..5`. -/
theorem spec_level6_bounds (v : Int) : 0 ≤ spec_level6 v ∧ spec_level6 v ≤ 5 := by
  have h := spec_clamp_bounds v
  unfold spec_level6
  omega

/-- A grey step lies in `0..23`. -/
theorem spec_gray_bounds (r g b : Int) : 0 ≤ spec_gray r g b ∧ spec_gray r g b ≤ 23 := by
  have hr := spec_clamp_bounds r
  have hg := spec_clamp_bounds g
  have hb := spec_clamp_bounds b
  unfold spec_gray spec_luma8
  omega

/-- The function `color_8bit` in the terms of the specification: the cube code
when `error6 < errorg`, the grey code otherwise (a tie goes to the grey ramp). -/
theorem color_8bit_eq (r g b : Int) :
    color_8bit r g b =
      if spec_error6 r g b < spec_errorg r g b then
        16 + 36 * spec_level6 r + 6 * spec_level6 g + spec_level6 b
      else 232 + spec_gray r g b := by
  have hR := spec_clamp_bounds r
  have hG := spec_clamp_bounds g
  have hB := spec_clamp_bounds b
  have hr6 : Int.tdiv (spec_clamp r) 43 = spec_level6 r := Int.tdiv_eq_ediv hR.1 (by norm_num)
  have hg6 : Int.tdiv (spec_clamp g) 43 = spec_level6 g := Int.tdiv_eq_ediv hG.1 (by norm_num)
  have hb6 : Int.tdiv (spec_clamp b) 43 = spec_level6 b := Int.tdiv_eq_ediv hB.1 (by norm_num)
  have hl : LUMA (spec_clamp r) (spec_clamp g) (spec_clamp b) = spec_luma8 r g b := by
    simp only [LUMA, spec_luma8, LUMA_WEIGHT_RED, LUMA_WEIGHT_GREEN, LUMA_WEIGHT_BLUE]
    push_cast
    ring
  have hgray : (spec_luma8 r g b * 24) >>> (16 : Nat) = spec_gray r g b := by
    rw [Int.shiftRight_eq_div_pow, mul_comm]
    rfl
  have hgray0 := spec_gray_bounds r g b
  have hgv : Int.tdiv (spec_gray r g b * 256) 24 = spec_gray_value r g b := by
    rw [Int.tdiv_eq_ediv (by omega) (by norm_num), mul_comm]
    rfl
  unfold color_8bit
  simp only [clamp_eq_spec, hr6, hg6, hb6, hl, hgray, hgv, DIFF_WEIGHT_RED, DIFF_WEIGHT_GREEN,
    DIFF_WEIGHT_BLUE]
  have e6 : (spec_clamp r - spec_level6 r * 43) * 5 * ((spec_clamp r - spec_level6 r * 43) * 5)
      + (spec_clamp g - spec_level6 g * 43) * 7 * ((spec_clamp g - spec_level6 g * 43) * 7)
      + (spec_clamp b - spec_level6 b * 43) * 4 * ((spec_clamp b - spec_level6 b * 43) * 4)
      = spec_error6 r g b := by
    unfold spec_error6
    ring
  have eg : (spec_clamp r - spec_gray_value r g b) * 5 * ((spec_clamp r - spec_gray_value r g b) * 5)
      + (spec_clamp g - spec_gray_value r g b) * 7 * ((spec_clamp g - spec_gray_value r g b) * 7)
      + (spec_clamp b - spec_gray_value r g b) * 4 * ((spec_clamp b - spec_gray_value r g b) * 4)
      = spec_errorg r g b := by
    unfold spec_errorg
    ring
  rw [e6, eg]
  split_ifs
  · ring
  · rfl

/-- C10: with R, G, B the clamps of r, g, b to 0..255, `r6 = floor(R/43)` (and
g6, b6 alike), `error6` the weighted squared distance to the cube colour,
`gray = floor(24*luma/65536)` and `errorg` the weighted squared distance to the
grey `floor(256*gray/24)`: `color_8bit` returns `16 + 36*r6 + 6*g6 + b6` when
`error6 < errorg` and `232 + gray` when `errorg < error6`. -/
theorem C10_color_8bit_selection (r g b : Int) :
    (spec_error6 r g b < spec_errorg r g b →
      color_8bit r g b = 16 + 36 * spec_level6 r + 6 * spec_level6 g + spec_level6 b) ∧
    (spec_errorg r g b < spec_error6 r g b → color_8bit r g b = 232 + spec_gray r g b) := by
  rw [color_8bit_eq]
  constructor
  · intro h
    rw [if_pos h]
  · intro h
    rw [if_neg (not_lt.mpr (le_of_lt h))]

/-- The code returned by `color_search` is the code of a row of the table. -/
theorem color_search_mem (table : List palette_entry) (r0 : palette_entry)
    (rest : List palette_entry) (htable : table = r0 :: rest) (r g b : Int)
    (h0 : color_error r0 r g b < INT_MAX) :
    ∃ e ∈ table, color_search table table.length r g b = (e.code : Int) := by
  obtain ⟨e, ⟨pre, post, hrows, _, _⟩, heq⟩ :=
    color_search_first_minimiser table r0 rest htable r g b h0
  exact ⟨e, by rw [hrows]; simp, heq⟩

/-- C6: for r, g, b in -128..383 `color_3bit` returns a code in 30..37 and
`color_4bit` a code in 30..37 or 90..97; for all integers r, g, b `color_8bit`
returns a code in 16..255, in 16..231 when it picks the colour cube
(`error6 < errorg`) and in 232..255 when it picks the grey ramp. -/
theorem C6_quantizer_ranges (r g b : Int) :
    ((-128 ≤ r ∧ r ≤ 383) ∧ (-128 ≤ g ∧ g ≤ 383) ∧ (-128 ≤ b ∧ b ≤ 383) →
      (30 ≤ color_3bit r g b ∧ color_3bit r g b ≤ 37) ∧
      ((30 ≤ color_4bit r g b ∧ color_4bit r g b ≤ 37) ∨
        (90 ≤ color_4bit r g b ∧ color_4bit r g b ≤ 97))) ∧
    (16 ≤ color_8bit r g b ∧ color_8bit r g b ≤ 255) ∧
    (spec_error6 r g b < spec_errorg r g b →
      16 ≤ color_8bit r g b ∧ color_8bit r g b ≤ 231) ∧
    (¬ spec_error6 r g b < spec_errorg r g b →
      232 ≤ color_8bit r g b ∧ color_8bit r g b ≤ 255) := by
  have h1 := spec_level6_bounds r
  have h2 := spec_level6_bounds g
  have h3 := spec_level6_bounds b
  have h4 := spec_gray_bounds r g b
  refine ⟨?_, ?_, ?_, ?_⟩
  · rintro ⟨hr, hg, hb⟩
    constructor
    · obtain ⟨e, he, heq⟩ := color_search_mem colors_3bit _ _ rfl r g b
        (color_error_lt_INT_MAX _ r g b (by decide) hr hg hb).2
      have hc : ∀ x ∈ colors_3bit, 30 ≤ x.code ∧ x.code ≤ 37 := by decide
      have := hc e he
      unfold color_3bit
      rw [heq]
      omega
    · obtain ⟨e, he, heq⟩ := color_search_mem colors_4bit _ _ rfl r g b
        (color_error_lt_INT_MAX _ r g b (by decide) hr hg hb).2
      have hc : ∀ x ∈ colors_4bit,
          (30 ≤ x.code ∧ x.code ≤ 37) ∨ (90 ≤ x.code ∧ x.code ≤ 97) := by decide
      have := hc e he
      unfold color_4bit
      rw [heq]
      omega
  · rw [color_8bit_eq]
    split_ifs <;> omega
  · intro h
    rw [color_8bit_eq, if_pos h]
    omega
  · intro h
    rw [color_8bit_eq, if_neg h]
    omega

/-- C7: for every entry (code, r, g, b) of the 3-bit palette
`color_3bit r g b = code`, and for every entry of the 4-bit palette
`color_4bit r g b = code`. -/
theorem C7_palette_members_fixed :
    (∀ e ∈ colors_3bit, color_3bit e.red e.green e.blue = (e.code : Int)) ∧
    (∀ e ∈ colors_4bit, color_4bit e.red e.green e.blue = (e.code : Int)) := by
  constructor <;> decide

/-- Apart from black, every colour `(43*a, 43*b, 43*c)` of the cube is
quantized to its own cube code. -/
theorem color_8bit_cube_members :
    ∀ a ∈ List.range 6, ∀ b ∈ List.range 6, ∀ c ∈ List.range 6, (a, b, c) ≠ (0, 0, 0) →
      color_8bit (43 * a) (43 * b) (43 * c) = 16 + 36 * a + 6 * b + c := by
  decide

/-- C8, the code at two palette members: the cube colour with levels
a = b = c = 0 is quantized to 232 and not to `16 + 36*0 + 6*0 + 0`, and the
grey step k = 1, of value `floor(256*1/24) = 10`, is quantized to 232 and not
to `232 + 1`. -/
theorem C8_color_8bit_palette_members_moved :
    color_8bit (43 * 0) (43 * 0) (43 * 0) = 232 ∧
    color_8bit (43 * 0) (43 * 0) (43 * 0) ≠ 16 + 36 * 0 + 6 * 0 + 0 ∧
    color_8bit (256 * 1 / 24) (256 * 1 / 24) (256 * 1 / 24) = 232 ∧
    color_8bit (256 * 1 / 24) (256 * 1 / 24) (256 * 1 / 24) ≠ 232 + 1 := by
  decide

/-- C9, the code at two inputs outside 0..255: `color_3bit 190 256 0` is 32
while the clamped input (190, 255, 0) gives 33, and `color_4bit (-1) 51 83` is
30 while the clamped input (0, 51, 83) gives 90. -/
theorem C9_color_search_does_not_clamp :
    color_3bit 190 256 0 = 32 ∧
    color_3bit (spec_clamp 190) (spec_clamp 256) (spec_clamp 0) = 33 ∧
    color_4bit (-1) 51 83 = 30 ∧
    color_4bit (spec_clamp (-1)) (spec_clamp 51) (spec_clamp 83) = 90 := by
  decide

/-- C6 at the input (190, 256, 0): the 3-bit and 4-bit codes are in range. -/
theorem C6_quantizer_ranges_witness :
    (30 ≤ color_3bit 190 256 0 ∧ color_3bit 190 256 0 ≤ 37) ∧
    ((30 ≤ color_4bit 190 256 0 ∧ color_4bit 190 256 0 ≤ 37) ∨
      (90 ≤ color_4bit 190 256 0 ∧ color_4bit 190 256 0 ≤ 97)) :=
  (C6_quantizer_ranges 190 256 0).1 (by decide)

/-- C10 at pure red, where the cube wins, and at the grey (128, 128, 128),
where the grey ramp wins. -/
theorem C10_color_8bit_selection_witness :
    color_8bit 255 0 0 = 16 + 36 * 5 + 6 * 0 + 0 ∧ color_8bit 128 128 128 = 232 + 11 :=
  ⟨(C10_color_8bit_selection 255 0 0).1 (by decide),
    (C10_color_8bit_selection 128 128 128).2 (by decide)⟩

/-! ## Properties of the glyph synthesis -/

/-- The macro `LUMA_P` computes the luma of the specification. -/
theorem LUMA_P_eq_spec (p : pixel_t) : LUMA_P p = spec_luma p := by
  simp only [LUMA_P, spec_luma, LUMA_WEIGHT_RED, LUMA_WEIGHT_GREEN, LUMA_WEIGHT_BLUE]
  omega

/-- The average `>> 2` of `draw_quadrant` is the floor-mean luma of the block. -/
theorem spec_avg_quadrant (tl tr bl br : pixel_t) :
    (spec_luma tl + spec_luma tr + spec_luma bl + spec_luma br) >>> 2
      = spec_avg [tl, tr, bl, br] := by
  simp only [spec_avg, List.map, List.sum_cons, List.sum_nil, List.length,
    Nat.shiftRight_eq_div_pow]
  norm_num
  ring_nf

/-- The average `/ 6` of `draw_sextant` is the floor-mean luma of the block. -/
theorem spec_avg_sextant (tl tr ml mr bl br : pixel_t) :
    (spec_luma tl + spec_luma tr + spec_luma ml + spec_luma mr + spec_luma bl + spec_luma br) / 6
      = spec_avg [tl, tr, ml, mr, bl, br] := by
  simp only [spec_avg, List.map, List.sum_cons, List.sum_nil, List.length]
  norm_num
  ring_nf

/-! Field by field, the effect of one step and of the final divisions. -/

section projections
variable (s : cell_t) (p : pixel_t) (lit : Bool) (bit : Nat)

theorem sextant_step_index : (sextant_step s p lit bit).index
    = s.index ||| (if lit then bit else 0) := by
  cases lit <;> simp [sextant_step, add_fg, add_bg]
theorem sextant_step_fg_red : (sextant_step s p lit bit).fg_red
    = s.fg_red + (if lit then p.red.val else 0) := by
  cases lit <;> simp [sextant_step, add_fg, add_bg]
theorem sextant_step_fg_green : (sextant_step s p lit bit).fg_green
    = s.fg_green + (if lit then p.green.val else 0) := by
  cases lit <;> simp [sextant_step, add_fg, add_bg]
theorem sextant_step_fg_blue : (sextant_step s p lit bit).fg_blue
    = s.fg_blue + (if lit then p.blue.val else 0) := by
  cases lit <;> simp [sextant_step, add_fg, add_bg]
theorem sextant_step_fg_count : (sextant_step s p lit bit).fg_count
    = s.fg_count + (if lit then 1 else 0) := by
  cases lit <;> simp [sextant_step, add_fg, add_bg]
theorem sextant_step_bg_red : (sextant_step s p lit bit).bg_red
    = s.bg_red + (if lit then 0 else p.red.val) := by
  cases lit <;> simp [sextant_step, add_fg, add_bg]
theorem sextant_step_bg_green : (sextant_step s p lit bit).bg_green
    = s.bg_green + (if lit then 0 else p.green.val) := by
  cases lit <;> simp [sextant_step, add_fg, add_bg]
theorem sextant_step_bg_blue : (sextant_step s p lit bit).bg_blue
    = s.bg_blue + (if lit then 0 else p.blue.val) := by
  cases lit <;> simp [sextant_step, add_fg, add_bg]
theorem sextant_step_bg_count : (sextant_step s p lit bit).bg_count
    = s.bg_count + (if lit then 0 else 1) := by
  cases lit <;> simp [sextant_step, add_fg, add_bg]

theorem quadrant_step_index : (quadrant_step s p lit).index = s.index := by
  cases lit <;> simp [quadrant_step, add_fg, add_bg]
theorem quadrant_step_fg_red : (quadrant_step s p lit).fg_red
    = s.fg_red + (if lit then p.red.val else 0) := by
  cases lit <;> simp [quadrant_step, add_fg, add_bg]
theorem quadrant_step_fg_green : (quadrant_step s p lit).fg_green
    = s.fg_green + (if lit then p.green.val else 0) := by
  cases lit <;> simp [quadrant_step, add_fg, add_bg]
theorem quadrant_step_fg_blue : (quadrant_step s p lit).fg_blue
    = s.fg_blue + (if lit then p.blue.val else 0) := by
  cases lit <;> simp [quadrant_step, add_fg, add_bg]
theorem quadrant_step_fg_count : (quadrant_step s p lit).fg_count
    = s.fg_count + (if lit then 1 else 0) := by
  cases lit <;> simp [quadrant_step, add_fg, add_bg]
theorem quadrant_step_bg_red : (quadrant_step s p lit).bg_red
    = s.bg_red + (if lit then 0 else p.red.val) := by
  cases lit <;> simp [quadrant_step, add_fg, add_bg]
theorem quadrant_step_bg_green : (quadrant_step s p lit).bg_green
    = s.bg_green + (if lit then 0 else p.green.val) := by
  cases lit <;> simp [quadrant_step, add_fg, add_bg]
theorem quadrant_step_bg_blue : (quadrant_step s p lit).bg_blue
    = s.bg_blue + (if lit then 0 else p.blue.val) := by
  cases lit <;> simp [quadrant_step, add_fg, add_bg]
theorem quadrant_step_bg_count : (quadrant_step s p lit).bg_count
    = s.bg_count + (if lit then 0 else 1) := by
  cases lit <;> simp [quadrant_step, add_fg, add_bg]

theorem divide_counts_index : (divide_counts s).index = s.index := by
  unfold divide_counts; dsimp only; split_ifs <;> rfl
theorem divide_counts_fg_count : (divide_counts s).fg_count = s.fg_count := by
  unfold divide_counts; dsimp only; split_ifs <;> rfl
theorem divide_counts_bg_count : (divide_counts s).bg_count = s.bg_count := by
  unfold divide_counts; dsimp only; split_ifs <;> rfl
theorem divide_counts_fg_red : (divide_counts s).fg_red
    = if s.fg_count > 0 then s.fg_red / s.fg_count else s.fg_red := by
  unfold divide_counts; dsimp only; split_ifs <;> rfl
theorem divide_counts_fg_green : (divide_counts s).fg_green
    = if s.fg_count > 0 then s.fg_green / s.fg_count else s.fg_green := by
  unfold divide_counts; dsimp only; split_ifs <;> rfl
theorem divide_counts_fg_blue : (divide_counts s).fg_blue
    = if s.fg_count > 0 then s.fg_blue / s.fg_count else s.fg_blue := by
  unfold divide_counts; dsimp only; split_ifs <;> rfl
theorem divide_counts_bg_red : (divide_counts s).bg_red
    = if s.bg_count > 0 then s.bg_red / s.bg_count else s.bg_red := by
  unfold divide_counts; dsimp only; split_ifs <;> rfl
theorem divide_counts_bg_green : (divide_counts s).bg_green
    = if s.bg_count > 0 then s.bg_green / s.bg_count else s.bg_green := by
  unfold divide_counts; dsimp only; split_ifs <;> rfl
theorem divide_counts_bg_blue : (divide_counts s).bg_blue
    = if s.bg_count > 0 then s.bg_blue / s.bg_count else s.bg_blue := by
  unfold divide_counts; dsimp only; split_ifs <;> rfl

end projections


/-- Bits of a conditionally set value. -/
theorem testBit_ite (c : Bool) (v i : Nat) :
    Nat.testBit (if c = true then v else 0) i = (c && Nat.testBit v i) := by
  cases c <;> simp

/-- A conditionally set value below a power of two. -/
theorem ite_lt_two_pow (c : Bool) (v n : Nat) (h : v < 2 ^ n) :
    (if c = true then v else 0) < 2 ^ n := by
  cases c
  · simp
  · simpa using h

/-- Summing a channel over the selected pixels is summing over the filtered
list. -/
theorem sum_map_ite_eq_filter (sel : pixel_t → Bool) (f : pixel_t → Nat) (l : List pixel_t) :
    (l.map (fun p => if sel p = true then f p else 0)).sum = ((l.filter sel).map f).sum := by
  induction l with
  | nil => rfl
  | cons x xs ih =>
    cases hx : sel x <;> simp [List.filter_cons, hx, ih]

/-- Counting the selected pixels is the length of the filtered list. -/
theorem count_map_ite_eq_filter (sel : pixel_t → Bool) (l : List pixel_t) :
    (l.map (fun p => if sel p = true then 1 else 0)).sum = (l.filter sel).length := by
  induction l with
  | nil => rfl
  | cons x xs ih =>
    cases hx : sel x
    · simp [List.filter_cons, hx, ih]
    · simp [List.filter_cons, hx, ih]
      omega

/-- The guarded division of the source is the floor-mean over the selected
pixels (both are 0 when none is selected). -/
theorem fg_mean_eq (sel : pixel_t → Bool) (f : pixel_t → Nat) (l : List pixel_t) :
    (if (l.map (fun p => if sel p = true then 1 else 0)).sum > 0 then
        (l.map (fun p => if sel p = true then f p else 0)).sum
          / (l.map (fun p => if sel p = true then 1 else 0)).sum
      else (l.map (fun p => if sel p = true then f p else 0)).sum)
    = spec_floor_mean ((l.filter sel).map f) := by
  rw [count_map_ite_eq_filter sel l, sum_map_ite_eq_filter sel f l]
  unfold spec_floor_mean
  rw [List.length_map]
  split_ifs with h
  · rfl
  · have h0 : (l.filter sel).length = 0 := by omega
    rw [List.length_eq_zero.mp h0]
    simp

/-- The guarded division of the source for the pixels that are not selected. -/
theorem bg_mean_eq (sel : pixel_t → Bool) (f : pixel_t → Nat) (l : List pixel_t) :
    (if (l.map (fun p => if sel p = true then 0 else 1)).sum > 0 then
        (l.map (fun p => if sel p = true then 0 else f p)).sum
          / (l.map (fun p => if sel p = true then 0 else 1)).sum
      else (l.map (fun p => if sel p = true then 0 else f p)).sum)
    = spec_floor_mean ((l.filter (fun p => ! sel p)).map f) := by
  have h := fg_mean_eq (fun p => ! sel p) f l
  have e1 : (fun p => if (! sel p) = true then 1 else 0)
      = (fun p => if sel p = true then 0 else 1) := by
    funext p
    cases sel p <;> rfl
  have e2 : (fun p => if (! sel p) = true then f p else 0)
      = (fun p => if sel p = true then 0 else f p) := by
    funext p
    cases sel p <;> rfl
  simp only [e1, e2] at h
  exact h

/-- Bit i of the sextant mask is set iff pixel i has luma above the block
average, and no other bit is set. -/
theorem sextant_cell_index_bits (tl tr ml mr bl br : pixel_t) :
    (∀ i (h : i < 6), (sextant_cell tl tr ml mr bl br).index.testBit i =
        decide (spec_luma ([tl, tr, ml, mr, bl, br].get ⟨i, h⟩)
          > spec_avg [tl, tr, ml, mr, bl, br])) ∧
    (sextant_cell tl tr ml mr bl br).index < 64 := by
  simp only [sextant_cell, divide_counts_index, sextant_step_index, LUMA_P_eq_spec, spec_avg_sextant]
  generalize spec_avg [tl, tr, ml, mr, bl, br] = a
  have t : ∀ k < 6, ∀ i < 6, Nat.testBit (2 ^ k) i = decide (k = i) := by decide
  constructor
  · intro i h
    have t0 := t 0 (by omega) i h
    have t1 := t 1 (by omega) i h
    have t2 := t 2 (by omega) i h
    have t3 := t 3 (by omega) i h
    have t4 := t 4 (by omega) i h
    have t5 := t 5 (by omega) i h
    norm_num at t0 t1 t2 t3 t4 t5
    simp only [Nat.testBit_or, testBit_ite, t0, t1, t2, t3, t4, t5, Nat.zero_testBit, Bool.false_or]
    interval_cases i <;> simp <;> exact Iff.rfl
  · show _ < 2 ^ 6
    refine Nat.or_lt_two_pow (Nat.or_lt_two_pow (Nat.or_lt_two_pow (Nat.or_lt_two_pow
      (Nat.or_lt_two_pow (Nat.or_lt_two_pow (by decide) ?_) ?_) ?_) ?_) ?_) ?_ <;>
      exact ite_lt_two_pow _ _ _ (by decide)

/-- The sextant colours are the per-channel floor-means of the two groups. -/
theorem sextant_cell_colours (tl tr ml mr bl br : pixel_t) :
    (sextant_cell tl tr ml mr bl br).fg_red
      = spec_floor_mean ((spec_fg_group [tl, tr, ml, mr, bl, br]).map (fun p => p.red.val)) ∧
    (sextant_cell tl tr ml mr bl br).fg_green
      = spec_floor_mean ((spec_fg_group [tl, tr, ml, mr, bl, br]).map (fun p => p.green.val)) ∧
    (sextant_cell tl tr ml mr bl br).fg_blue
      = spec_floor_mean ((spec_fg_group [tl, tr, ml, mr, bl, br]).map (fun p => p.blue.val)) ∧
    (sextant_cell tl tr ml mr bl br).bg_red
      = spec_floor_mean ((spec_bg_group [tl, tr, ml, mr, bl, br]).map (fun p => p.red.val)) ∧
    (sextant_cell tl tr ml mr bl br).bg_green
      = spec_floor_mean ((spec_bg_group [tl, tr, ml, mr, bl, br]).map (fun p => p.green.val)) ∧
    (sextant_cell tl tr ml mr bl br).bg_blue
      = spec_floor_mean ((spec_bg_group [tl, tr, ml, mr, bl, br]).map (fun p => p.blue.val)) := by
  simp only [sextant_cell, divide_counts_fg_red, divide_counts_fg_green, divide_counts_fg_blue,
    divide_counts_bg_red, divide_counts_bg_green, divide_counts_bg_blue,
    sextant_step_fg_red, sextant_step_fg_green, sextant_step_fg_blue, sextant_step_fg_count,
    sextant_step_bg_red, sextant_step_bg_green, sextant_step_bg_blue, sextant_step_bg_count,
    LUMA_P_eq_spec, spec_avg_sextant, spec_fg_group, spec_bg_group]
  generalize spec_avg [tl, tr, ml, mr, bl, br] = a
  simp only [← bg_mean_eq]
  simp only [← fg_mean_eq, List.map_cons, List.map_nil, List.sum_cons,
    List.sum_nil, Nat.add_assoc, Nat.zero_add, Nat.add_zero, and_self]


/-- Bit i of the quadrant mask is set iff pixel i has luma above the block
average, and no other bit is set. -/
theorem quadrant_cell_index_bits (tl tr bl br : pixel_t) :
    (∀ i (h : i < 4), (quadrant_cell tl tr bl br).index.testBit i =
        decide (spec_luma ([tl, tr, bl, br].get ⟨i, h⟩) > spec_avg [tl, tr, bl, br])) ∧
    (quadrant_cell tl tr bl br).index < 16 := by
  simp only [quadrant_cell, divide_counts_index, quadrant_step_index, LUMA_P_eq_spec,
    spec_avg_quadrant]
  generalize spec_avg [tl, tr, bl, br] = a
  by_cases h1 : spec_luma tl > a <;> by_cases h2 : spec_luma tr > a <;>
    by_cases h3 : spec_luma bl > a <;> by_cases h4 : spec_luma br > a <;>
    simp only [h1, h2, h3, h4, if_true, if_false] <;>
    refine ⟨fun i h => ?_, by decide⟩ <;>
    interval_cases i <;>
    simp [Nat.testBit, h1, h2, h3, h4] <;>
    first | exact h4 | exact Nat.le_of_not_lt h4

/-- The quadrant colours are the per-channel floor-means of the two groups. -/
theorem quadrant_cell_colours (tl tr bl br : pixel_t) :
    (quadrant_cell tl tr bl br).fg_red
      = spec_floor_mean ((spec_fg_group [tl, tr, bl, br]).map (fun p => p.red.val)) ∧
    (quadrant_cell tl tr bl br).fg_green
      = spec_floor_mean ((spec_fg_group [tl, tr, bl, br]).map (fun p => p.green.val)) ∧
    (quadrant_cell tl tr bl br).fg_blue
      = spec_floor_mean ((spec_fg_group [tl, tr, bl, br]).map (fun p => p.blue.val)) ∧
    (quadrant_cell tl tr bl br).bg_red
      = spec_floor_mean ((spec_bg_group [tl, tr, bl, br]).map (fun p => p.red.val)) ∧
    (quadrant_cell tl tr bl br).bg_green
      = spec_floor_mean ((spec_bg_group [tl, tr, bl, br]).map (fun p => p.green.val)) ∧
    (quadrant_cell tl tr bl br).bg_blue
      = spec_floor_mean ((spec_bg_group [tl, tr, bl, br]).map (fun p => p.blue.val)) := by
  simp only [quadrant_cell, divide_counts_fg_red, divide_counts_fg_green, divide_counts_fg_blue,
    divide_counts_bg_red, divide_counts_bg_green, divide_counts_bg_blue,
    quadrant_step_fg_red, quadrant_step_fg_green, quadrant_step_fg_blue, quadrant_step_fg_count,
    quadrant_step_bg_red, quadrant_step_bg_green, quadrant_step_bg_blue, quadrant_step_bg_count,
    LUMA_P_eq_spec, spec_avg_quadrant, spec_fg_group, spec_bg_group]
  generalize spec_avg [tl, tr, bl, br] = a
  simp only [← bg_mean_eq]
  simp only [← fg_mean_eq, List.map_cons, List.map_nil, List.sum_cons,
    List.sum_nil, Nat.add_assoc, Nat.zero_add, Nat.add_zero, and_self]

/-- The average luma of four identical pixels is the luma of the pixel. -/
theorem spec_avg_uniform4 (p : pixel_t) : spec_avg [p, p, p, p] = spec_luma p := by
  simp only [spec_avg, List.map, List.sum_cons, List.sum_nil, List.length]
  omega

/-- The average luma of six identical pixels is the luma of the pixel. -/
theorem spec_avg_uniform6 (p : pixel_t) : spec_avg [p, p, p, p, p, p] = spec_luma p := by
  simp only [spec_avg, List.map, List.sum_cons, List.sum_nil, List.length]
  omega

/-- The locals of `draw_quadrant` on a uniform block: mask 0, no foreground
pixel, background equal to the pixel. -/
theorem quadrant_cell_uniform (p : pixel_t) :
    quadrant_cell p p p p = ⟨0, 0, 0, 0, 0, p.red.val, p.green.val, p.blue.val, 4⟩ := by
  have h : ¬ spec_luma p > spec_luma p := lt_irrefl _
  simp only [quadrant_cell, LUMA_P_eq_spec, spec_avg_quadrant, spec_avg_uniform4, h,
    quadrant_step, add_bg, divide_counts, if_false, decide_False]
  simp
  omega

/-- The locals of `draw_sextant` on a uniform block: mask 0, no foreground
pixel, background equal to the pixel. -/
theorem sextant_cell_uniform (p : pixel_t) :
    sextant_cell p p p p p p = ⟨0, 0, 0, 0, 0, p.red.val, p.green.val, p.blue.val, 6⟩ := by
  have h : ¬ spec_luma p > spec_luma p := lt_irrefl _
  simp only [sextant_cell, LUMA_P_eq_spec, spec_avg_sextant, spec_avg_uniform6, h,
    sextant_step, add_bg, divide_counts, if_false, decide_False]
  simp
  omega

/-- The monochrome mask of a uniform block without noise: all six bits agree. -/
theorem sextant_bw_index_uniform (c : ctx_t) (x y : Nat) (p : pixel_t)
    (hn : c.noise_enabled = false) :
    sextant_bw_index c x y p p p p p p =
      if c.cli_colors = cli_colors_light then
        (if spec_luma p / 256 > 127 then 0 else 63)
      else (if spec_luma p / 256 > 127 then 63 else 0) := by
  have e : spec_luma p >>> 8 = spec_luma p / 256 := by
    rw [Nat.shiftRight_eq_div_pow]
  simp only [sextant_bw_index, LUMA_P_eq_spec, hn, e]
  by_cases h : spec_luma p / 256 > 127 <;> by_cases hl : c.cli_colors = cli_colors_light <;>
    simp [h, hl] <;> decide

/-- C3, amended: for every 2x3 block of six identical pixels, in the 24-bit,
8-bit, 4-bit and 3-bit modes (noise on or off) the mask is 0 and the cell is
the background colour followed by the space glyph; in the dark and light modes
the fixed threshold 127 decides: with noise off the mask is 0 (space glyph)
when `floor(luma/256) <= 127` in dark mode, resp. `> 127` in light mode, and
63 (full block) otherwise. -/
theorem C3_uniform_sextant_block (c : ctx_t) (x y : Nat) (p : pixel_t) :
    ((c.cli_colors = cli_colors_24bit ∨ c.cli_colors = cli_colors_8bit ∨
        c.cli_colors = cli_colors_4bit ∨ c.cli_colors = cli_colors_3bit) →
      sextant_mode_index c x y p p p p p p = 0 ∧
      sextant_mode_cell c x y p p p p p p
        = output_bg_color c x y p.red.val p.green.val p.blue.val ++ [0x20]) ∧
    (c.cli_colors = cli_colors_dark ∧ c.noise_enabled = false →
      sextant_mode_index c x y p p p p p p = (if spec_luma p / 256 > 127 then 63 else 0) ∧
      sextant_mode_cell c x y p p p p p p
        = (if spec_luma p / 256 > 127 then [0xE2, 0x96, 0x88] else [0x20])) ∧
    (c.cli_colors = cli_colors_light ∧ c.noise_enabled = false →
      sextant_mode_index c x y p p p p p p = (if spec_luma p / 256 > 127 then 0 else 63) ∧
      sextant_mode_cell c x y p p p p p p
        = (if spec_luma p / 256 > 127 then [0x20] else [0xE2, 0x96, 0x88])) := by
  refine ⟨?_, ?_, ?_⟩
  · intro hc
    have hnd : ¬ (c.cli_colors = cli_colors_dark ∨ c.cli_colors = cli_colors_light) := by
      rcases hc with h | h | h | h <;> simp [h]
    simp only [sextant_mode_index, sextant_mode_cell, hnd, if_false, draw_sextant_cell,
      sextant_cell_uniform, if_true]
    exact ⟨trivial, rfl⟩
  · rintro ⟨hc, hn⟩
    simp only [sextant_mode_index, sextant_mode_cell, draw_sextant_bw_cell,
      sextant_bw_index_uniform c x y p hn, hc]
    by_cases h : spec_luma p / 256 > 127 <;> simp [h] <;> decide
  · rintro ⟨hc, hn⟩
    simp only [sextant_mode_index, sextant_mode_cell, draw_sextant_bw_cell,
      sextant_bw_index_uniform c x y p hn, hc]
    by_cases h : spec_luma p / 256 > 127 <;> simp [h] <;> decide

/-- C3, amended, at a uniform block in 8-bit mode with noise on. -/
theorem C3_uniform_sextant_block_witness :
    sextant_mode_index ⟨cli_colors_8bit, true, 0, fun _ _ => 0⟩ 2 3
        ⟨7, 8, 9⟩ ⟨7, 8, 9⟩ ⟨7, 8, 9⟩ ⟨7, 8, 9⟩ ⟨7, 8, 9⟩ ⟨7, 8, 9⟩ = 0 ∧
      sextant_mode_cell ⟨cli_colors_8bit, true, 0, fun _ _ => 0⟩ 2 3
        ⟨7, 8, 9⟩ ⟨7, 8, 9⟩ ⟨7, 8, 9⟩ ⟨7, 8, 9⟩ ⟨7, 8, 9⟩ ⟨7, 8, 9⟩
        = output_bg_color ⟨cli_colors_8bit, true, 0, fun _ _ => 0⟩ 2 3
            ((⟨7, 8, 9⟩ : pixel_t).red.val) ((⟨7, 8, 9⟩ : pixel_t).green.val)
            ((⟨7, 8, 9⟩ : pixel_t).blue.val) ++ [0x20] :=
  (C3_uniform_sextant_block ⟨cli_colors_8bit, true, 0, fun _ _ => 0⟩ 2 3 ⟨7, 8, 9⟩).1
    (Or.inr (Or.inl rfl))

/-- C3 as stated fails: in dark mode with noise off, six identical white
pixels give mask 63 and the full block glyph, not mask 0 and the space
glyph. -/
theorem C3_uniform_sextant_counterexample :
    sextant_mode_index ⟨cli_colors_dark, false, 0, fun _ _ => 0⟩ 0 0
        ⟨255, 255, 255⟩ ⟨255, 255, 255⟩ ⟨255, 255, 255⟩
        ⟨255, 255, 255⟩ ⟨255, 255, 255⟩ ⟨255, 255, 255⟩ = 63 ∧
      sextant_mode_cell ⟨cli_colors_dark, false, 0, fun _ _ => 0⟩ 0 0
        ⟨255, 255, 255⟩ ⟨255, 255, 255⟩ ⟨255, 255, 255⟩
        ⟨255, 255, 255⟩ ⟨255, 255, 255⟩ ⟨255, 255, 255⟩ = [0xE2, 0x96, 0x88] ∧
      sextants.getD 0 [] = [0x20] := by
  decide

/-- C4: in quadrant mode, for every 2x2 block whose two top pixels have luma
above the block's floor-mean luma and whose two bottom pixels do not, the mask
is 3, the foreground is the per-channel average of the two top pixels, the
background the per-channel average of the two bottom pixels, and the cell is
both colours followed by `quadrants[3]`, the bytes E2 96 80 of U+2580. -/
theorem C4_top_bright_quadrant (c : ctx_t) (x y : Nat) (tl tr bl br : pixel_t)
    (h1 : spec_luma tl > spec_avg [tl, tr, bl, br])
    (h2 : spec_luma tr > spec_avg [tl, tr, bl, br])
    (h3 : ¬ spec_luma bl > spec_avg [tl, tr, bl, br])
    (h4 : ¬ spec_luma br > spec_avg [tl, tr, bl, br]) :
    (quadrant_cell tl tr bl br).index = 3 ∧
    (quadrant_cell tl tr bl br).fg_red = (tl.red.val + tr.red.val) / 2 ∧
    (quadrant_cell tl tr bl br).fg_green = (tl.green.val + tr.green.val) / 2 ∧
    (quadrant_cell tl tr bl br).fg_blue = (tl.blue.val + tr.blue.val) / 2 ∧
    (quadrant_cell tl tr bl br).bg_red = (bl.red.val + br.red.val) / 2 ∧
    (quadrant_cell tl tr bl br).bg_green = (bl.green.val + br.green.val) / 2 ∧
    (quadrant_cell tl tr bl br).bg_blue = (bl.blue.val + br.blue.val) / 2 ∧
    quadrants.getD 3 [] = [0xE2, 0x96, 0x80] ∧
    draw_quadrant_cell c x y tl tr bl br =
      output_colors c x y
        (((tl.red.val + tr.red.val) / 2 : Nat) : Int) (((tl.green.val + tr.green.val) / 2 : Nat) : Int)
        (((tl.blue.val + tr.blue.val) / 2 : Nat) : Int) (((bl.red.val + br.red.val) / 2 : Nat) : Int)
        (((bl.green.val + br.green.val) / 2 : Nat) : Int) (((bl.blue.val + br.blue.val) / 2 : Nat) : Int)
        ++ [0xE2, 0x96, 0x80] := by
  have hq : quadrant_cell tl tr bl br =
      ⟨3, (tl.red.val + tr.red.val) / 2, (tl.green.val + tr.green.val) / 2,
        (tl.blue.val + tr.blue.val) / 2, 2, (bl.red.val + br.red.val) / 2,
        (bl.green.val + br.green.val) / 2, (bl.blue.val + br.blue.val) / 2, 2⟩ := by
    simp only [quadrant_cell, LUMA_P_eq_spec, spec_avg_quadrant, h1, h2, h3, h4,
      quadrant_step, add_fg, add_bg, divide_counts, if_true, if_false, decide_True, decide_False]
    simp
  rw [draw_quadrant_cell, hq]
  exact ⟨rfl, rfl, rfl, rfl, rfl, rfl, rfl, rfl, rfl⟩

/-- C4 at grey pixels of level 200, 200 on top and 50, 50 below. -/
theorem C4_top_bright_quadrant_witness :
    (quadrant_cell ⟨200, 200, 200⟩ ⟨200, 200, 200⟩ ⟨50, 50, 50⟩ ⟨50, 50, 50⟩).index = 3 ∧
    (quadrant_cell ⟨200, 200, 200⟩ ⟨200, 200, 200⟩ ⟨50, 50, 50⟩ ⟨50, 50, 50⟩).fg_red = 200 ∧
    (quadrant_cell ⟨200, 200, 200⟩ ⟨200, 200, 200⟩ ⟨50, 50, 50⟩ ⟨50, 50, 50⟩).bg_red = 50 ∧
    draw_quadrant_cell ⟨cli_colors_24bit, false, 0, fun _ _ => 0⟩ 0 0
        ⟨200, 200, 200⟩ ⟨200, 200, 200⟩ ⟨50, 50, 50⟩ ⟨50, 50, 50⟩ =
      output_colors ⟨cli_colors_24bit, false, 0, fun _ _ => 0⟩ 0 0 200 200 200 50 50 50
        ++ [0xE2, 0x96, 0x80] := by
  have h := C4_top_bright_quadrant ⟨cli_colors_24bit, false, 0, fun _ _ => 0⟩ 0 0
    ⟨200, 200, 200⟩ ⟨200, 200, 200⟩ ⟨50, 50, 50⟩ ⟨50, 50, 50⟩
    (by decide) (by decide) (by decide) (by decide)
  exact ⟨h.1, h.2.1, h.2.2.2.2.1, h.2.2.2.2.2.2.2.2⟩

/-! ## Properties of the monochrome sextant mask -/

/-- The level that `draw_sextant_bw` compares with the threshold is the level
of the specification. -/
theorem bw_level_eq (c : ctx_t) (p : pixel_t) (px py : Nat) :
    (((if c.noise_enabled = true then bw_noise (LUMA_P p >>> 8) (NOISE_SAMPLE c px py &&& 0xff)
        else LUMA_P p >>> 8 : Nat)) : Int) = spec_bw_level c p px py := by
  have e : LUMA_P p >>> 8 = spec_luma p / 256 := by
    rw [LUMA_P_eq_spec, Nat.shiftRight_eq_div_pow]
  have hl : spec_luma p / 256 ≤ 255 := by
    unfold spec_luma
    have := p.blue.isLt
    have := p.green.isLt
    have := p.red.isLt
    omega
  have hn : NOISE_SAMPLE c px py &&& 0xff = NOISE_SAMPLE c px py % 256 :=
    Nat.and_pow_two_sub_one_eq_mod _ 8
  have hn2 : NOISE_SAMPLE c px py % 256 ≤ 255 := by omega
  unfold spec_bw_level
  rw [e, hn]
  split_ifs
  · rw [bw_noise_eq _ _ hl hn2]
    unfold clamp spec_clamp
    split_ifs <;> omega
  · rfl

/-- The six-bit mask built from six comparisons, its bits, and its complement
as computed by `(~index) & 0x3f`. -/
theorem bw_mask_bool : ∀ b0 b1 b2 b3 b4 b5 : Bool,
    ((if b0 = true then 1 else 0) ||| ((if b1 = true then 1 else 0) <<< 1) |||
      ((if b2 = true then 1 else 0) <<< 2) ||| ((if b3 = true then 1 else 0) <<< 3) |||
      ((if b4 = true then 1 else 0) <<< 4) ||| ((if b5 = true then 1 else 0) <<< 5) : Nat) < 64 ∧
    (4294967295 - ((if b0 = true then 1 else 0) ||| ((if b1 = true then 1 else 0) <<< 1) |||
      ((if b2 = true then 1 else 0) <<< 2) ||| ((if b3 = true then 1 else 0) <<< 3) |||
      ((if b4 = true then 1 else 0) <<< 4) ||| ((if b5 = true then 1 else 0) <<< 5) : Nat)) &&& 0x3f
      = 63 - ((if b0 = true then 1 else 0) ||| ((if b1 = true then 1 else 0) <<< 1) |||
      ((if b2 = true then 1 else 0) <<< 2) ||| ((if b3 = true then 1 else 0) <<< 3) |||
      ((if b4 = true then 1 else 0) <<< 4) ||| ((if b5 = true then 1 else 0) <<< 5) : Nat) ∧
    Nat.testBit ((if b0 = true then 1 else 0) ||| ((if b1 = true then 1 else 0) <<< 1) |||
      ((if b2 = true then 1 else 0) <<< 2) ||| ((if b3 = true then 1 else 0) <<< 3) |||
      ((if b4 = true then 1 else 0) <<< 4) ||| ((if b5 = true then 1 else 0) <<< 5) : Nat) 0 = b0 ∧
    Nat.testBit ((if b0 = true then 1 else 0) ||| ((if b1 = true then 1 else 0) <<< 1) |||
      ((if b2 = true then 1 else 0) <<< 2) ||| ((if b3 = true then 1 else 0) <<< 3) |||
      ((if b4 = true then 1 else 0) <<< 4) ||| ((if b5 = true then 1 else 0) <<< 5) : Nat) 1 = b1 ∧
    Nat.testBit ((if b0 = true then 1 else 0) ||| ((if b1 = true then 1 else 0) <<< 1) |||
      ((if b2 = true then 1 else 0) <<< 2) ||| ((if b3 = true then 1 else 0) <<< 3) |||
      ((if b4 = true then 1 else 0) <<< 4) ||| ((if b5 = true then 1 else 0) <<< 5) : Nat) 2 = b2 ∧
    Nat.testBit ((if b0 = true then 1 else 0) ||| ((if b1 = true then 1 else 0) <<< 1) |||
      ((if b2 = true then 1 else 0) <<< 2) ||| ((if b3 = true then 1 else 0) <<< 3) |||
      ((if b4 = true then 1 else 0) <<< 4) ||| ((if b5 = true then 1 else 0) <<< 5) : Nat) 3 = b3 ∧
    Nat.testBit ((if b0 = true then 1 else 0) ||| ((if b1 = true then 1 else 0) <<< 1) |||
      ((if b2 = true then 1 else 0) <<< 2) ||| ((if b3 = true then 1 else 0) <<< 3) |||
      ((if b4 = true then 1 else 0) <<< 4) ||| ((if b5 = true then 1 else 0) <<< 5) : Nat) 4 = b4 ∧
    Nat.testBit ((if b0 = true then 1 else 0) ||| ((if b1 = true then 1 else 0) <<< 1) |||
      ((if b2 = true then 1 else 0) <<< 2) ||| ((if b3 = true then 1 else 0) <<< 3) |||
      ((if b4 = true then 1 else 0) <<< 4) ||| ((if b5 = true then 1 else 0) <<< 5) : Nat) 5 = b5 := by
  decide

/-- No sextant glyph contains the escape byte, and none is empty. -/
theorem sextants_no_escape :
    ∀ m, m < 64 → (27 : Nat) ∉ sextants.getD m [] ∧ sextants.getD m [] ≠ [] := by
  decide

/-- The noise texel does not depend on the colour mode. -/
theorem NOISE_SAMPLE_colors (c : ctx_t) (k : cli_colors_t) (x y : Nat) :
    NOISE_SAMPLE { c with cli_colors := k } x y = NOISE_SAMPLE c x y := rfl

/-- The six-bit mask built from six threshold comparisons. -/
theorem bw_mask_prop (v0 v1 v2 v3 v4 v5 : Nat) :
    ((if v0 > 127 then 1 else 0) ||| ((if v1 > 127 then 1 else 0) <<< 1) |||
      ((if v2 > 127 then 1 else 0) <<< 2) ||| ((if v3 > 127 then 1 else 0) <<< 3) |||
      ((if v4 > 127 then 1 else 0) <<< 4) ||| ((if v5 > 127 then 1 else 0) <<< 5) : Nat) < 64 ∧
    (4294967295 - ((if v0 > 127 then 1 else 0) ||| ((if v1 > 127 then 1 else 0) <<< 1) |||
      ((if v2 > 127 then 1 else 0) <<< 2) ||| ((if v3 > 127 then 1 else 0) <<< 3) |||
      ((if v4 > 127 then 1 else 0) <<< 4) ||| ((if v5 > 127 then 1 else 0) <<< 5) : Nat)) &&& 0x3f
      = 63 - ((if v0 > 127 then 1 else 0) ||| ((if v1 > 127 then 1 else 0) <<< 1) |||
      ((if v2 > 127 then 1 else 0) <<< 2) ||| ((if v3 > 127 then 1 else 0) <<< 3) |||
      ((if v4 > 127 then 1 else 0) <<< 4) ||| ((if v5 > 127 then 1 else 0) <<< 5) : Nat) ∧
    (Nat.testBit ((if v0 > 127 then 1 else 0) ||| ((if v1 > 127 then 1 else 0) <<< 1) |||
      ((if v2 > 127 then 1 else 0) <<< 2) ||| ((if v3 > 127 then 1 else 0) <<< 3) |||
      ((if v4 > 127 then 1 else 0) <<< 4) ||| ((if v5 > 127 then 1 else 0) <<< 5) : Nat) 0 = true
      ↔ v0 > 127) ∧
    (Nat.testBit ((if v0 > 127 then 1 else 0) ||| ((if v1 > 127 then 1 else 0) <<< 1) |||
      ((if v2 > 127 then 1 else 0) <<< 2) ||| ((if v3 > 127 then 1 else 0) <<< 3) |||
      ((if v4 > 127 then 1 else 0) <<< 4) ||| ((if v5 > 127 then 1 else 0) <<< 5) : Nat) 1 = true
      ↔ v1 > 127) ∧
    (Nat.testBit ((if v0 > 127 then 1 else 0) ||| ((if v1 > 127 then 1 else 0) <<< 1) |||
      ((if v2 > 127 then 1 else 0) <<< 2) ||| ((if v3 > 127 then 1 else 0) <<< 3) |||
      ((if v4 > 127 then 1 else 0) <<< 4) ||| ((if v5 > 127 then 1 else 0) <<< 5) : Nat) 2 = true
      ↔ v2 > 127) ∧
    (Nat.testBit ((if v0 > 127 then 1 else 0) ||| ((if v1 > 127 then 1 else 0) <<< 1) |||
      ((if v2 > 127 then 1 else 0) <<< 2) ||| ((if v3 > 127 then 1 else 0) <<< 3) |||
      ((if v4 > 127 then 1 else 0) <<< 4) ||| ((if v5 > 127 then 1 else 0) <<< 5) : Nat) 3 = true
      ↔ v3 > 127) ∧
    (Nat.testBit ((if v0 > 127 then 1 else 0) ||| ((if v1 > 127 then 1 else 0) <<< 1) |||
      ((if v2 > 127 then 1 else 0) <<< 2) ||| ((if v3 > 127 then 1 else 0) <<< 3) |||
      ((if v4 > 127 then 1 else 0) <<< 4) ||| ((if v5 > 127 then 1 else 0) <<< 5) : Nat) 4 = true
      ↔ v4 > 127) ∧
    (Nat.testBit ((if v0 > 127 then 1 else 0) ||| ((if v1 > 127 then 1 else 0) <<< 1) |||
      ((if v2 > 127 then 1 else 0) <<< 2) ||| ((if v3 > 127 then 1 else 0) <<< 3) |||
      ((if v4 > 127 then 1 else 0) <<< 4) ||| ((if v5 > 127 then 1 else 0) <<< 5) : Nat) 5 = true
      ↔ v5 > 127) := by
  have h := bw_mask_bool (decide (v0 > 127)) (decide (v1 > 127)) (decide (v2 > 127))
    (decide (v3 > 127)) (decide (v4 > 127)) (decide (v5 > 127))
  simp only [decide_eq_true_eq] at h
  obtain ⟨h1, h2, b0, b1, b2, b3, b4, b5⟩ := h
  refine ⟨h1, h2, ?_, ?_, ?_, ?_, ?_, ?_⟩
  · rw [b0, decide_eq_true_eq]
  · rw [b1, decide_eq_true_eq]
  · rw [b2, decide_eq_true_eq]
  · rw [b3, decide_eq_true_eq]
  · rw [b4, decide_eq_true_eq]
  · rw [b5, decide_eq_true_eq]

/-- The index of `draw_sextant_bw` is the mask of the six threshold
comparisons of the levels, complemented in the light mode. -/
theorem sextant_bw_index_levels (c : ctx_t) (x y : Nat) (tl tr ml mr bl br : pixel_t) :
    ∃ v0 v1 v2 v3 v4 v5 : Nat,
      (v0 : Int) = spec_bw_level c tl x y ∧
      (v1 : Int) = spec_bw_level c tr (x + 1) y ∧
      (v2 : Int) = spec_bw_level c ml x (y + 1) ∧
      (v3 : Int) = spec_bw_level c mr (x + 1) (y + 1) ∧
      (v4 : Int) = spec_bw_level c bl x (y + 2) ∧
      (v5 : Int) = spec_bw_level c br (x + 1) (y + 2) ∧
      (∀ k, sextant_bw_index { c with cli_colors := k } x y tl tr ml mr bl br
        = if k = cli_colors_light then (4294967295 - ((if v0 > 127 then 1 else 0) ||| ((if v1 > 127 then 1 else 0) <<< 1) |||
          ((if v2 > 127 then 1 else 0) <<< 2) ||| ((if v3 > 127 then 1 else 0) <<< 3) |||
          ((if v4 > 127 then 1 else 0) <<< 4) ||| ((if v5 > 127 then 1 else 0) <<< 5) : Nat)) &&& 0x3f
          else ((if v0 > 127 then 1 else 0) ||| ((if v1 > 127 then 1 else 0) <<< 1) |||
          ((if v2 > 127 then 1 else 0) <<< 2) ||| ((if v3 > 127 then 1 else 0) <<< 3) |||
          ((if v4 > 127 then 1 else 0) <<< 4) ||| ((if v5 > 127 then 1 else 0) <<< 5) : Nat)) ∧
      sextant_bw_index c x y tl tr ml mr bl br
        = if c.cli_colors = cli_colors_light then (4294967295 - ((if v0 > 127 then 1 else 0) ||| ((if v1 > 127 then 1 else 0) <<< 1) |||
          ((if v2 > 127 then 1 else 0) <<< 2) ||| ((if v3 > 127 then 1 else 0) <<< 3) |||
          ((if v4 > 127 then 1 else 0) <<< 4) ||| ((if v5 > 127 then 1 else 0) <<< 5) : Nat)) &&& 0x3f
          else ((if v0 > 127 then 1 else 0) ||| ((if v1 > 127 then 1 else 0) <<< 1) |||
          ((if v2 > 127 then 1 else 0) <<< 2) ||| ((if v3 > 127 then 1 else 0) <<< 3) |||
          ((if v4 > 127 then 1 else 0) <<< 4) ||| ((if v5 > 127 then 1 else 0) <<< 5) : Nat) :=
  ⟨_, _, _, _, _, _, bw_level_eq c tl x y, bw_level_eq c tr (x + 1) y,
    bw_level_eq c ml x (y + 1), bw_level_eq c mr (x + 1) (y + 1), bw_level_eq c bl x (y + 2),
    bw_level_eq c br (x + 1) (y + 2), fun _ => rfl, rfl⟩

/-- C11: the monochrome sextant mask of `draw_sextant_bw`, for every 2x3 block,
every cell position and every noise texture. With the level of each sub-pixel
`floor(luma / 256)`, replaced when noise is enabled by the signed value
`level + n - 128` clamped to `0..255` (`n` the low byte of the noise texel at
the sub-pixel's own coordinate), bit i of the dark-mode mask is set iff the
level of sub-pixel i exceeds 127, the mask has six bits, the light-mode mask is
63 minus the dark-mode mask, and the cell output is the glyph `sextants[mask]`
alone, which holds no escape byte. -/
theorem C11_monochrome_sextant_mask (c : ctx_t) (x y : Nat) (tl tr ml mr bl br : pixel_t) :
    (Nat.testBit (sextant_bw_index { c with cli_colors := cli_colors_dark } x y tl tr ml mr bl br)
        0 = true ↔ spec_bw_level c tl x y > 127) ∧
    (Nat.testBit (sextant_bw_index { c with cli_colors := cli_colors_dark } x y tl tr ml mr bl br)
        1 = true ↔ spec_bw_level c tr (x + 1) y > 127) ∧
    (Nat.testBit (sextant_bw_index { c with cli_colors := cli_colors_dark } x y tl tr ml mr bl br)
        2 = true ↔ spec_bw_level c ml x (y + 1) > 127) ∧
    (Nat.testBit (sextant_bw_index { c with cli_colors := cli_colors_dark } x y tl tr ml mr bl br)
        3 = true ↔ spec_bw_level c mr (x + 1) (y + 1) > 127) ∧
    (Nat.testBit (sextant_bw_index { c with cli_colors := cli_colors_dark } x y tl tr ml mr bl br)
        4 = true ↔ spec_bw_level c bl x (y + 2) > 127) ∧
    (Nat.testBit (sextant_bw_index { c with cli_colors := cli_colors_dark } x y tl tr ml mr bl br)
        5 = true ↔ spec_bw_level c br (x + 1) (y + 2) > 127) ∧
    sextant_bw_index { c with cli_colors := cli_colors_dark } x y tl tr ml mr bl br < 64 ∧
    sextant_bw_index { c with cli_colors := cli_colors_light } x y tl tr ml mr bl br
      = 63 - sextant_bw_index { c with cli_colors := cli_colors_dark } x y tl tr ml mr bl br ∧
    draw_sextant_bw_cell c x y tl tr ml mr bl br
      = sextants.getD (sextant_bw_index c x y tl tr ml mr bl br) [] ∧
    sextant_bw_index c x y tl tr ml mr bl br < 64 ∧
    (27 : Nat) ∉ draw_sextant_bw_cell c x y tl tr ml mr bl br ∧
    draw_sextant_bw_cell c x y tl tr ml mr bl br ≠ [] := by
  obtain ⟨v0, v1, v2, v3, v4, v5, l0, l1, l2, l3, l4, l5, hk, hc⟩ :=
    sextant_bw_index_levels c x y tl tr ml mr bl br
  obtain ⟨m1, m2, b0, b1, b2, b3, b4, b5⟩ := bw_mask_prop v0 v1 v2 v3 v4 v5
  have hlt : sextant_bw_index c x y tl tr ml mr bl br < 64 := by
    rw [hc]
    by_cases hl : c.cli_colors = cli_colors_light
    · rw [if_pos hl, m2]
      omega
    · rw [if_neg hl]
      exact m1
  rw [hk cli_colors_dark, hk cli_colors_light, if_neg (by decide), if_pos rfl, ← l0, ← l1, ← l2,
    ← l3, ← l4, ← l5]
  refine ⟨b0.trans (by omega), b1.trans (by omega), b2.trans (by omega), b3.trans (by omega),
    b4.trans (by omega), b5.trans (by omega), m1, m2, rfl, hlt,
    (sextants_no_escape _ hlt).1, (sextants_no_escape _ hlt).2⟩

/-! ## Properties of the key engine -/

/-- Reading `a[j]` after `a[i] = v`. -/
theorem array_set_apply {α : Type} (a : Nat → α) (i : Nat) (v : α) (j : Nat) :
    array_set a i v j = if j = i then v else a j := rfl

/-- Reading back the element just written. -/
theorem array_set_same {α : Type} (a : Nat → α) (i : Nat) (v : α) :
    array_set a i v i = v := by
  simp [array_set]

/-- Reading another element than the one written. -/
theorem array_set_other {α : Type} (a : Nat → α) (i : Nat) (v : α) (j : Nat) (h : j ≠ i) :
    array_set a i v j = a j := by
  simp [array_set, h]

/-- What `add_key_measurement` leaves unchanged. -/
theorem add_key_measurement_frame (st : input_t) (delay rate : Nat) :
    (add_key_measurement st delay rate).keyinfos = st.keyinfos ∧
    (add_key_measurement st delay rate).keybuffer = st.keybuffer ∧
    (add_key_measurement st delay rate).keybuffer_read = st.keybuffer_read ∧
    (add_key_measurement st delay rate).keybuffer_write = st.keybuffer_write ∧
    (add_key_measurement st delay rate).have_csi = st.have_csi ∧
    (add_key_measurement st delay rate).stdin = st.stdin ∧
    (add_key_measurement st delay rate).clock = st.clock ∧
    (add_key_measurement st delay rate).clock_calls = st.clock_calls :=
  ⟨rfl, rfl, rfl, rfl, rfl, rfl, rfl, rfl⟩

/-- What `detect_key_repeat` leaves unchanged. -/
theorem detect_key_repeat_frame (st : input_t) (key : Nat) :
    (detect_key_repeat st key).keybuffer = st.keybuffer ∧
    (detect_key_repeat st key).keybuffer_read = st.keybuffer_read ∧
    (detect_key_repeat st key).keybuffer_write = st.keybuffer_write ∧
    (detect_key_repeat st key).have_csi = st.have_csi ∧
    (detect_key_repeat st key).stdin = st.stdin ∧
    (detect_key_repeat st key).clock = st.clock ∧
    (detect_key_repeat st key).clock_calls = st.clock_calls := by
  unfold detect_key_repeat
  dsimp only
  split_ifs <;> exact ⟨rfl, rfl, rfl, rfl, rfl, rfl, rfl⟩

/-- Of the key's own record `detect_key_repeat` changes `detected_repeat`
only. -/
theorem detect_key_repeat_keyinfo (st : input_t) (key : Nat) :
    ((detect_key_repeat st key).keyinfos key).time = (st.keyinfos key).time ∧
    ((detect_key_repeat st key).keyinfos key).time_next = (st.keyinfos key).time_next ∧
    ((detect_key_repeat st key).keyinfos key).time_count = (st.keyinfos key).time_count ∧
    ((detect_key_repeat st key).keyinfos key).state = (st.keyinfos key).state := by
  unfold detect_key_repeat
  dsimp only
  split_ifs <;> simp [array_set, add_key_measurement]

/-- The records of the other keys are not touched by `detect_key_repeat`. -/
theorem detect_key_repeat_other (st : input_t) (key k : Nat) (h : k ≠ key) :
    (detect_key_repeat st key).keyinfos k = st.keyinfos k := by
  unfold detect_key_repeat
  dsimp only
  split_ifs <;> simp [array_set, add_key_measurement, h]

/-- What the state block of `keypress` leaves unchanged. -/
theorem keypress_state_frame (st : input_t) (key : Nat) :
    (keypress_state st key).have_csi = st.have_csi ∧
    (keypress_state st key).stdin = st.stdin ∧
    (keypress_state st key).clock = st.clock ∧
    (keypress_state st key).clock_calls = st.clock_calls ∧
    (keypress_state st key).key_measure_next = st.key_measure_next ∧
    (keypress_state st key).key_measure_count = st.key_measure_count ∧
    (keypress_state st key).key_measure_delays = st.key_measure_delays ∧
    (keypress_state st key).key_measure_rates = st.key_measure_rates ∧
    (keypress_state st key).key_repeat_delay = st.key_repeat_delay ∧
    (keypress_state st key).key_repeat_rate = st.key_repeat_rate := by
  unfold keypress_state keybuffer_put
  dsimp only
  split_ifs <;> exact ⟨rfl, rfl, rfl, rfl, rfl, rfl, rfl, rfl, rfl, rfl⟩

/-- What `keypress` leaves unchanged of the decoder state and the environment. -/
theorem keypress_at_frame (st : input_t) (key : Nat) (duplicate : Bool) (now : Nat) :
    (keypress_at st key duplicate now).have_csi = st.have_csi ∧
    (keypress_at st key duplicate now).stdin = st.stdin ∧
    (keypress_at st key duplicate now).clock = st.clock ∧
    (keypress_at st key duplicate now).clock_calls = st.clock_calls := by
  unfold keypress_at
  dsimp only
  obtain ⟨a1, a2, a3, a4, _⟩ := keypress_state_frame
    (if (! duplicate) = true then detect_key_repeat (keypress_record st key now) key
      else keypress_record st key now) key
  rw [a1, a2, a3, a4]
  obtain ⟨_, _, _, h1, h2, h3, h4⟩ := detect_key_repeat_frame (keypress_record st key now) key
  split_ifs
  · rw [h1, h2, h3, h4]
    exact ⟨rfl, rfl, rfl, rfl⟩
  · exact ⟨rfl, rfl, rfl, rfl⟩

/-- The function `keypress` touches neither `have_csi` nor the input. -/
theorem keypress_frame (st : input_t) (key : Nat) (duplicate : Bool) :
    (keypress st key duplicate).have_csi = st.have_csi ∧
    (keypress st key duplicate).stdin = st.stdin := by
  unfold keypress
  obtain ⟨h1, h2, _, _⟩ := keypress_at_frame (DG_GetTicksMs st).2 key duplicate (DG_GetTicksMs st).1
  exact ⟨h1, h2⟩

/-- The function `handle_input_byte` touches neither `have_csi` nor the input. -/
theorem handle_input_byte_frame (K : doomkeys_t) (st : input_t) (c : Int) :
    (handle_input_byte K st c).have_csi = st.have_csi ∧
    (handle_input_byte K st c).stdin = st.stdin := by
  unfold handle_input_byte
  dsimp only
  split_ifs <;> simp only [keypress_frame, and_self]

/-- The value `-1` of `getchar` is no key: `handle_input_byte` ignores it. -/
theorem handle_input_byte_eof (K : doomkeys_t) (st : input_t) :
    handle_input_byte K st (-1) = st := by
  simp [handle_input_byte, toupper]


/-- With nothing to read `getchar` returns `-1`. -/
theorem getchar_nil (st : input_t) (h : st.stdin = []) : getchar st = (-1, st) := by
  unfold getchar
  rw [h]

/-- With a byte to read `getchar` returns it and consumes it. -/
theorem getchar_cons (st : input_t) (c : Int) (rest : List Int) (h : st.stdin = c :: rest) :
    getchar st = (c, { st with stdin := rest }) := by
  unfold getchar
  rw [h]

/-- With no sequence pending `handle_csi` does nothing. -/
theorem handle_csi_idle (K : doomkeys_t) (st : input_t) (c : Int) (h : st.have_csi = false) :
    handle_csi K st c = (st, c) := by
  unfold handle_csi
  simp [h]

/-- The loop ends on the value `-1`. -/
theorem read_input_loop_eof (K : doomkeys_t) (fuel : Nat) (st : input_t) :
    read_input_loop K (fuel + 1) st (-1) = some st := by
  simp [read_input_loop]

/-- One pass of the loop on a byte other than ESC, with no sequence pending. -/
theorem read_input_loop_literal (K : doomkeys_t) (fuel : Nat) (st : input_t) (c : Int)
    (h : st.have_csi = false) (hc : c ≠ -1) (hc2 : c ≠ 27) :
    read_input_loop K (fuel + 1) st c =
      read_input_loop K fuel (getchar (handle_input_byte K st c)).2
        (getchar (handle_input_byte K st c)).1 := by
  rw [read_input_loop]
  simp only [hc, if_false, handle_csi_idle K st c h, ne_eq, hc2, not_false_eq_true, if_true]

/-- One pass of the loop on the byte ESC, with no sequence pending. -/
theorem read_input_loop_esc (K : doomkeys_t) (fuel : Nat) (st : input_t)
    (h : st.have_csi = false) :
    read_input_loop K (fuel + 1) st 27 =
      if (if (getchar st).1 = -1 then getchar (getchar st).2 else getchar st).1 ≠ 91 then
        read_input_loop K fuel
          (handle_input_byte K
            (if (getchar st).1 = -1 then getchar (getchar st).2 else getchar st).2 27)
          (if (getchar st).1 = -1 then getchar (getchar st).2 else getchar st).1
      else
        read_input_loop K fuel
          (getchar { (if (getchar st).1 = -1 then getchar (getchar st).2 else getchar st).2 with
            have_csi := true }).2
          (getchar { (if (getchar st).1 = -1 then getchar (getchar st).2 else getchar st).2 with
            have_csi := true }).1 := by
  rw [read_input_loop]
  simp only [handle_csi_idle K st 27 h]
  simp

/-- One pass of the loop on a byte that `handle_csi` does not turn into ESC. -/
theorem read_input_loop_pending (K : doomkeys_t) (fuel : Nat) (st : input_t) (c : Int)
    (hc : c ≠ -1) (h2 : (handle_csi K st c).2 ≠ 27) :
    read_input_loop K (fuel + 1) st c =
      read_input_loop K fuel (getchar (handle_input_byte K (handle_csi K st c).1 (handle_csi K st c).2)).2
        (getchar (handle_input_byte K (handle_csi K st c).1 (handle_csi K st c).2)).1 := by
  rw [read_input_loop]
  simp only [hc, if_false, ne_eq, h2, not_false_eq_true, if_true]


/-- The digits are the bytes `0x30..0x39`. -/
theorem isdigit_iff (c : Int) : isdigit c = true ↔ 48 ≤ c ∧ c ≤ 57 := by
  simp [isdigit]

/-- The digit loop stops at the first byte that is not a digit. -/
theorem skip_digits_run (digits : List Int) (t : Int) (rest : List Int)
    (hd : ∀ x ∈ digits, isdigit x = true) (ht : isdigit t = false) :
    ∀ (c : Int) (stdin : List Int), c :: stdin = digits ++ t :: rest →
      skip_digits c stdin = (t, rest) := by
  induction digits with
  | nil =>
    intro c stdin h
    simp only [List.nil_append, List.cons.injEq] at h
    obtain ⟨rfl, rfl⟩ := h
    cases stdin <;> simp [skip_digits, ht]
  | cons d ds ih =>
    intro c stdin h
    simp only [List.cons_append, List.cons.injEq] at h
    obtain ⟨rfl, rfl⟩ := h
    have hc : isdigit c = true := hd c (List.mem_cons_self _ _)
    have hds : ∀ x ∈ ds, isdigit x = true := fun x hx => hd x (List.mem_cons_of_mem _ hx)
    cases hl : ds ++ t :: rest with
    | nil => simp at hl
    | cons x xs =>
      simp only [skip_digits, hc, if_true]
      exact ih hds x xs hl.symm

/-- The digit loop on digits only runs out of input. -/
theorem skip_digits_out (digits : List Int) (hd : ∀ x ∈ digits, isdigit x = true) :
    ∀ (c : Int) (stdin : List Int), c :: stdin = digits → skip_digits c stdin = (-1, []) := by
  induction digits with
  | nil =>
    intro c stdin h
    simp at h
  | cons d ds ih =>
    intro c stdin h
    simp only [List.cons.injEq] at h
    obtain ⟨rfl, rfl⟩ := h
    have hc : isdigit c = true := hd c (List.mem_cons_self _ _)
    have hds : ∀ x ∈ stdin, isdigit x = true := fun x hx => hd x (List.mem_cons_of_mem _ hx)
    cases stdin with
    | nil => simp [skip_digits, hc]
    | cons x xs =>
      simp only [skip_digits, hc, if_true]
      exact ih hds x xs rfl

/-- The function `handle_csi` on a run of digits followed by a terminating byte. -/
theorem handle_csi_terminator (K : doomkeys_t) (st : input_t) (c : Int) (digits : List Int)
    (t : Int) (rest : List Int) (hcsi : st.have_csi = true)
    (hd : ∀ x ∈ digits, 48 ≤ x ∧ x ≤ 57) (hin : c :: st.stdin = digits ++ t :: rest)
    (ht : ¬ (48 ≤ t ∧ t ≤ 57)) (ht1 : t ≠ -1) :
    handle_csi K st c =
      ((getchar
          (if t = 65 then keypress { st with stdin := rest, have_csi := false } K.KEY_UPARROW false
           else if t = 66 then
             keypress { st with stdin := rest, have_csi := false } K.KEY_DOWNARROW false
           else if t = 67 then
             keypress { st with stdin := rest, have_csi := false } K.KEY_RIGHTARROW false
           else if t = 68 then
             keypress { st with stdin := rest, have_csi := false } K.KEY_LEFTARROW false
           else { st with stdin := rest, have_csi := false })).2,
       (getchar
          (if t = 65 then keypress { st with stdin := rest, have_csi := false } K.KEY_UPARROW false
           else if t = 66 then
             keypress { st with stdin := rest, have_csi := false } K.KEY_DOWNARROW false
           else if t = 67 then
             keypress { st with stdin := rest, have_csi := false } K.KEY_RIGHTARROW false
           else if t = 68 then
             keypress { st with stdin := rest, have_csi := false } K.KEY_LEFTARROW false
           else { st with stdin := rest, have_csi := false })).1) := by
  have hs : skip_digits c st.stdin = (t, rest) :=
    skip_digits_run digits t rest (fun x hx => (isdigit_iff x).mpr (hd x hx))
      (by simpa [isdigit] using ht) c st.stdin hin
  unfold handle_csi
  simp only [hcsi, Bool.not_true, Bool.false_eq_true, if_false, hs, ht1]
  by_cases h65 : t = 65
  · subst h65
    simp
  by_cases h66 : t = 66
  · subst h66
    simp
  by_cases h67 : t = 67
  · subst h67
    simp
  by_cases h68 : t = 68
  · subst h68
    simp
  simp [h65, h66, h67, h68]

/-- The function `handle_csi` on a run of digits after which the input runs out. -/
theorem handle_csi_out (K : doomkeys_t) (st : input_t) (c : Int) (digits : List Int)
    (hcsi : st.have_csi = true) (hd : ∀ x ∈ digits, 48 ≤ x ∧ x ≤ 57)
    (hin : c :: st.stdin = digits) :
    handle_csi K st c = ({ st with stdin := [] }, -1) := by
  have hs : skip_digits c st.stdin = (-1, []) :=
    skip_digits_out digits (fun x hx => (isdigit_iff x).mpr (hd x hx)) c st.stdin hin
  unfold handle_csi
  simp [hcsi, hs]


/-- The function `add_key_measurement` does not look at the input. -/
theorem add_key_measurement_stdin (st : input_t) (delay rate : Nat) (l : List Int) :
    add_key_measurement { st with stdin := l } delay rate
      = { add_key_measurement st delay rate with stdin := l } := rfl

/-- The function `detect_key_repeat` does not look at the input. -/
theorem detect_key_repeat_stdin (st : input_t) (key : Nat) (l : List Int) :
    detect_key_repeat { st with stdin := l } key = { detect_key_repeat st key with stdin := l } := by
  unfold detect_key_repeat
  dsimp only
  split_ifs <;> rfl

/-- The state block of `keypress` does not look at the input. -/
theorem keypress_state_stdin (st : input_t) (key : Nat) (l : List Int) :
    keypress_state { st with stdin := l } key = { keypress_state st key with stdin := l } := by
  unfold keypress_state
  dsimp only
  split_ifs <;> rfl

/-- The body of `keypress` does not look at the input. -/
theorem keypress_at_stdin (st : input_t) (key : Nat) (duplicate : Bool) (now : Nat)
    (l : List Int) :
    keypress_at { st with stdin := l } key duplicate now
      = { keypress_at st key duplicate now with stdin := l } := by
  unfold keypress_at
  dsimp only
  have h : keypress_record { st with stdin := l } key now
      = { keypress_record st key now with stdin := l } := rfl
  rw [h]
  cases duplicate
  · simp only [Bool.not_false, if_true]
    rw [detect_key_repeat_stdin, keypress_state_stdin]
  · simp only [Bool.not_true, Bool.false_eq_true, if_false]
    rw [keypress_state_stdin]

/-- The function `keypress` does not look at the input. -/
theorem keypress_stdin (st : input_t) (key : Nat) (duplicate : Bool) (l : List Int) :
    keypress { st with stdin := l } key duplicate = { keypress st key duplicate with stdin := l } := by
  unfold keypress
  exact keypress_at_stdin (DG_GetTicksMs st).2 key duplicate (DG_GetTicksMs st).1 l

/-- The function `handle_input_byte` does not look at the input. -/
theorem handle_input_byte_stdin (K : doomkeys_t) (st : input_t) (c : Int) (l : List Int) :
    handle_input_byte K { st with stdin := l } c = { handle_input_byte K st c with stdin := l } := by
  unfold handle_input_byte
  dsimp only
  split_ifs <;> simp only [keypress_stdin]

/-- A state whose input is already `l` is not changed by setting the input to `l`. -/
theorem with_stdin_self (st : input_t) (l : List Int) (h : st.stdin = l) :
    { st with stdin := l } = st := by
  cases st
  simp only at h
  subst h
  rfl


/-- With nothing to read `doomcli_read_input` returns at once. -/
theorem doomcli_read_input_nil (K : doomkeys_t) (st : input_t) (h : st.stdin = []) :
    doomcli_read_input K st = some st := by
  unfold doomcli_read_input
  rw [getchar_nil st h, h]
  exact read_input_loop_eof K _ st

/-- With a byte to read `doomcli_read_input` enters its loop with that byte. -/
theorem doomcli_read_input_cons (K : doomkeys_t) (st : input_t) (c : Int) (rest : List Int)
    (h : st.stdin = c :: rest) :
    doomcli_read_input K st = read_input_loop K (rest.length + 3) { st with stdin := rest } c := by
  unfold doomcli_read_input
  rw [getchar_cons st c rest h, h]
  rfl

/-- The bytes ESC `[` followed by a further byte: the sequence is pending when
the further byte is looked at. -/
theorem loop_esc_csi (K : doomkeys_t) (fuel : Nat) (st : input_t) (c : Int) (rest : List Int)
    (h : st.have_csi = false) (hs : st.stdin = 91 :: c :: rest) :
    read_input_loop K (fuel + 1) st 27
      = read_input_loop K fuel { st with stdin := rest, have_csi := true } c := by
  rw [read_input_loop_esc K fuel st h, getchar_cons st 91 (c :: rest) hs]
  simp only [show ((91 : Int) = -1) = False by decide, if_false, ne_eq, not_true_eq_false]
  rw [getchar_cons _ c rest rfl]

/-- The bytes ESC `[` with nothing after them: the loop ends with the sequence
pending. -/
theorem loop_esc_csi_end (K : doomkeys_t) (fuel : Nat) (st : input_t)
    (h : st.have_csi = false) (hs : st.stdin = [91]) :
    read_input_loop K (fuel + 2) st 27 = some { st with stdin := [], have_csi := true } := by
  rw [read_input_loop_esc K (fuel + 1) st h, getchar_cons st 91 [] hs]
  simp only [show ((91 : Int) = -1) = False by decide, if_false, ne_eq, not_true_eq_false]
  rw [getchar_nil _ rfl]
  exact read_input_loop_eof K fuel _

/-- The byte ESC with nothing after it, also at the second `getchar`: it is
handled as a literal byte. -/
theorem loop_esc_alone (K : doomkeys_t) (fuel : Nat) (st : input_t)
    (h : st.have_csi = false) (hs : st.stdin = []) :
    read_input_loop K (fuel + 2) st 27 = some (handle_input_byte K st 27) := by
  simp only [read_input_loop_esc K (fuel + 1) st h, getchar_nil st hs, if_true, ne_eq,
    show ((-1 : Int) = 91) = False by decide, not_false_eq_true]
  exact read_input_loop_eof K fuel _

/-- The byte ESC followed by a byte other than `[`: ESC is handled as a literal
byte and the loop goes on with the other byte. -/
theorem loop_esc_literal (K : doomkeys_t) (fuel : Nat) (st : input_t) (b : Int)
    (rest : List Int) (h : st.have_csi = false) (hs : st.stdin = b :: rest)
    (hb1 : b ≠ -1) (hb2 : b ≠ 91) :
    read_input_loop K (fuel + 1) st 27
      = read_input_loop K fuel (handle_input_byte K { st with stdin := rest } 27) b := by
  rw [read_input_loop_esc K fuel st h, getchar_cons st b rest hs]
  simp only [hb1, if_false, ne_eq, hb2, not_false_eq_true, if_true]

/-- A byte other than ESC followed by a further byte. -/
theorem loop_byte_next (K : doomkeys_t) (fuel : Nat) (st : input_t) (c c' : Int)
    (rest : List Int) (h : st.have_csi = false) (hc : c ≠ -1) (hc2 : c ≠ 27)
    (hs : st.stdin = c' :: rest) :
    read_input_loop K (fuel + 1) st c
      = read_input_loop K fuel (handle_input_byte K { st with stdin := rest } c) c' := by
  rw [read_input_loop_literal K fuel st c h hc hc2,
    getchar_cons (handle_input_byte K st c) c' rest
      ((handle_input_byte_frame K st c).2.trans hs),
    ← handle_input_byte_stdin]

/-- A byte other than ESC with nothing after it. -/
theorem loop_byte_last (K : doomkeys_t) (fuel : Nat) (st : input_t) (c : Int)
    (h : st.have_csi = false) (hc : c ≠ -1) (hc2 : c ≠ 27) (hs : st.stdin = []) :
    read_input_loop K (fuel + 2) st c = some (handle_input_byte K st c) := by
  rw [read_input_loop_literal K (fuel + 1) st c h hc hc2,
    getchar_nil (handle_input_byte K st c) ((handle_input_byte_frame K st c).2.trans hs)]
  exact read_input_loop_eof K fuel _

/-- The byte `A` with a sequence pending and nothing after it. -/
theorem loop_pending_up_last (K : doomkeys_t) (fuel : Nat) (st : input_t)
    (h : st.have_csi = true) (hs : st.stdin = []) :
    read_input_loop K (fuel + 2) st 65
      = some (keypress { st with have_csi := false } K.KEY_UPARROW false) := by
  have hcsi := handle_csi_terminator K st 65 [] 65 [] h (by simp) (by rw [hs]; rfl)
    (by decide) (by decide)
  simp only [if_true] at hcsi
  have hk : (keypress { st with stdin := [], have_csi := false } K.KEY_UPARROW false).stdin = [] :=
    (keypress_frame _ _ _).2
  rw [getchar_nil _ hk] at hcsi
  have e : ({ st with stdin := [], have_csi := false } : input_t) = { st with have_csi := false } := by
    cases st
    simp only at hs
    subst hs
    rfl
  rw [e] at hcsi hk
  have hcsi2 : handle_csi K st 65
      = (keypress { st with have_csi := false } K.KEY_UPARROW false, -1) := hcsi
  have hne : (handle_csi K st 65).2 ≠ 27 := by
    rw [hcsi2]
    show (-1 : Int) ≠ 27
    decide
  rw [read_input_loop_pending K (fuel + 1) st 65 (by decide) hne, hcsi2]
  simp only [handle_input_byte_eof]
  rw [getchar_nil _ hk]
  exact read_input_loop_eof K fuel _


/-- The call `getchar` does not add input. -/
theorem getchar_length (st : input_t) : (getchar st).2.stdin.length ≤ st.stdin.length := by
  unfold getchar
  cases h : st.stdin with
  | nil => simp [h]
  | cons x xs => simp

/-- After `getchar` the bytes left to read, counting the one returned, are at
most those before. -/
theorem getchar_measure (st : input_t) :
    (if (getchar st).1 = -1 then 0 else (getchar st).2.stdin.length + 1) ≤ st.stdin.length := by
  unfold getchar
  cases h : st.stdin with
  | nil => simp
  | cons x xs =>
    simp only [List.length_cons]
    split_ifs <;> omega

/-- The digit loop does not add input. -/
theorem skip_digits_length : ∀ (l : List Int) (c : Int), (skip_digits c l).2.length ≤ l.length := by
  intro l
  induction l with
  | nil =>
    intro c
    unfold skip_digits
    split_ifs <;> simp
  | cons x xs ih =>
    intro c
    unfold skip_digits
    split_ifs
    · exact Nat.le_succ_of_le (ih x)
    · simp

/-- The function `handle_csi` does not add input. -/
theorem handle_csi_length (K : doomkeys_t) (st : input_t) (c : Int) :
    (handle_csi K st c).1.stdin.length ≤ st.stdin.length := by
  unfold handle_csi
  have hs := skip_digits_length st.stdin c
  dsimp only
  by_cases hh : (! st.have_csi) = true
  · simp only [hh, if_true]
    exact le_refl _
  · by_cases h1 : (skip_digits c st.stdin).1 = -1
    · simp only [hh, h1, if_true, if_false]
      exact hs
    · simp only [hh, h1, if_false]
      refine le_trans (getchar_length _) ?_
      split_ifs <;> first
        | exact hs
        | (rw [(keypress_frame _ _ _).2]; exact hs)

/-- With fuel above the number of bytes to read the loop reaches its `break`. -/
theorem read_input_loop_total (K : doomkeys_t) :
    ∀ (fuel : Nat) (st : input_t) (c : Int),
      (if c = -1 then 0 else st.stdin.length + 1) < fuel →
      ∃ st', read_input_loop K fuel st c = some st' := by
  intro fuel
  induction fuel with
  | zero =>
    intro st c h
    omega
  | succ fuel ih =>
    intro st c h
    rw [read_input_loop]
    by_cases hc : c = -1
    · exact ⟨st, by simp [hc]⟩
    · simp only [hc, if_false] at h ⊢
      have h1 := handle_csi_length K st c
      by_cases h27 : (handle_csi K st c).2 = 27
      · simp only [h27, ne_eq, not_true_eq_false, if_false]
        have hm : (if (if (getchar (handle_csi K st c).1).1 = -1 then
              getchar (getchar (handle_csi K st c).1).2 else getchar (handle_csi K st c).1).1 = -1
            then 0 else (if (getchar (handle_csi K st c).1).1 = -1 then
              getchar (getchar (handle_csi K st c).1).2
              else getchar (handle_csi K st c).1).2.stdin.length + 1)
            ≤ (handle_csi K st c).1.stdin.length := by
          by_cases hg : (getchar (handle_csi K st c).1).1 = -1
          · simp only [hg, if_true]
            exact le_trans (getchar_measure _) (getchar_length _)
          · simp only [hg, if_false]
            have := getchar_measure (handle_csi K st c).1
            simp only [hg, if_false] at this
            exact this
        generalize (if (getchar (handle_csi K st c).1).1 = -1 then
              getchar (getchar (handle_csi K st c).1).2 else getchar (handle_csi K st c).1) = r at hm
        by_cases h91 : r.1 = 91
        · simp only [h91, not_true_eq_false, if_false]
          apply ih
          have hr : r.1 ≠ -1 := by rw [h91]; decide
          simp only [hr, if_false] at hm
          refine lt_of_le_of_lt (getchar_measure _) ?_
          show r.2.stdin.length < fuel
          omega
        · simp only [h91, not_false_eq_true, if_true]
          apply ih
          rw [(handle_input_byte_frame K r.2 27).2]
          omega
      · simp only [ne_eq, h27, not_false_eq_true, if_true]
        apply ih
        have hg := getchar_measure (handle_input_byte K (handle_csi K st c).1 (handle_csi K st c).2)
        rw [(handle_input_byte_frame K _ _).2] at hg
        omega

/-- The function `doomcli_read_input` returns on every state. -/
theorem doomcli_read_input_total (K : doomkeys_t) (st : input_t) :
    ∃ st', doomcli_read_input K st = some st' := by
  unfold doomcli_read_input
  apply read_input_loop_total
  have := getchar_measure st
  omega


/-- Effect of `keypress` on the key's record, the queue and the other keys. -/
theorem keypress_at_effect (st : input_t) (key : Nat) (duplicate : Bool) (now : Nat) :
    ((keypress_at st key duplicate now).keyinfos key).state
      = keystate_next (st.keyinfos key).state ∧
    ((keypress_at st key duplicate now).keyinfos key).time
      = array_set (st.keyinfos key).time (st.keyinfos key).time_next now ∧
    ((keypress_at st key duplicate now).keyinfos key).time_next
      = ((st.keyinfos key).time_next + 1) % TIME_CAPACITY ∧
    ((keypress_at st key duplicate now).keyinfos key).time_count
      = (if (st.keyinfos key).time_count < TIME_CAPACITY then (st.keyinfos key).time_count + 1
          else (st.keyinfos key).time_count) ∧
    (keypress_at st key duplicate now).keybuffer
      = (if keystate_press (st.keyinfos key).state = true then
          array_set st.keybuffer st.keybuffer_write ⟨true, key % 256⟩ else st.keybuffer) ∧
    (keypress_at st key duplicate now).keybuffer_write
      = (if keystate_press (st.keyinfos key).state = true then
          (st.keybuffer_write + 1) % KEYBUFFER_CAPACITY else st.keybuffer_write) ∧
    (keypress_at st key duplicate now).keybuffer_read = st.keybuffer_read ∧
    (∀ k, k ≠ key → (keypress_at st key duplicate now).keyinfos k = st.keyinfos k) := by
  have hs2 : ∀ s2 : input_t,
      (s2.keyinfos key).state = (st.keyinfos key).state →
      (s2.keyinfos key).time = array_set (st.keyinfos key).time (st.keyinfos key).time_next now →
      (s2.keyinfos key).time_next = ((st.keyinfos key).time_next + 1) % TIME_CAPACITY →
      (s2.keyinfos key).time_count
        = (if (st.keyinfos key).time_count < TIME_CAPACITY then (st.keyinfos key).time_count + 1
            else (st.keyinfos key).time_count) →
      s2.keybuffer = st.keybuffer → s2.keybuffer_write = st.keybuffer_write →
      s2.keybuffer_read = st.keybuffer_read →
      (∀ k, k ≠ key → s2.keyinfos k = st.keyinfos k) →
      ((keypress_state s2 key).keyinfos key).state = keystate_next (st.keyinfos key).state ∧
      ((keypress_state s2 key).keyinfos key).time
        = array_set (st.keyinfos key).time (st.keyinfos key).time_next now ∧
      ((keypress_state s2 key).keyinfos key).time_next
        = ((st.keyinfos key).time_next + 1) % TIME_CAPACITY ∧
      ((keypress_state s2 key).keyinfos key).time_count
        = (if (st.keyinfos key).time_count < TIME_CAPACITY then (st.keyinfos key).time_count + 1
            else (st.keyinfos key).time_count) ∧
      (keypress_state s2 key).keybuffer
        = (if keystate_press (st.keyinfos key).state = true then
            array_set st.keybuffer st.keybuffer_write ⟨true, key % 256⟩ else st.keybuffer) ∧
      (keypress_state s2 key).keybuffer_write
        = (if keystate_press (st.keyinfos key).state = true then
            (st.keybuffer_write + 1) % KEYBUFFER_CAPACITY else st.keybuffer_write) ∧
      (keypress_state s2 key).keybuffer_read = st.keybuffer_read ∧
      (∀ k, k ≠ key → (keypress_state s2 key).keyinfos k = st.keyinfos k) := by
    intro s2 e1 e2 e3 e4 e5 e6 e7 e8
    unfold keypress_state keybuffer_put
    dsimp only
    rw [e1]
    cases hp : keystate_press (st.keyinfos key).state
    · simp only [Bool.false_eq_true, if_false, array_set_same]
      refine ⟨trivial, e2, e3, e4, e5, e6, e7, ?_⟩
      intro k hk
      rw [array_set_other _ _ _ _ hk]
      exact e8 k hk
    · simp only [if_true, array_set_same]
      refine ⟨trivial, e2, e3, e4, by rw [e5, e6], by rw [e6], e7, ?_⟩
      intro k hk
      rw [array_set_other _ _ _ _ hk]
      exact e8 k hk
  have hrec : ∀ k, k ≠ key → (keypress_record st key now).keyinfos k = st.keyinfos k := by
    intro k hk
    unfold keypress_record
    dsimp only
    exact array_set_other _ _ _ _ hk
  have hreck : (keypress_record st key now).keyinfos key =
      { st.keyinfos key with
        time := array_set (st.keyinfos key).time (st.keyinfos key).time_next now
        time_next := ((st.keyinfos key).time_next + 1) % TIME_CAPACITY
        time_count := if (st.keyinfos key).time_count < TIME_CAPACITY then
          (st.keyinfos key).time_count + 1 else (st.keyinfos key).time_count } := by
    unfold keypress_record
    dsimp only
    exact array_set_same _ _ _
  unfold keypress_at
  dsimp only
  cases duplicate
  · simp only [Bool.not_false, if_true]
    obtain ⟨d1, d2, d3, d4⟩ := detect_key_repeat_keyinfo (keypress_record st key now) key
    obtain ⟨f1, f2, f3, _⟩ := detect_key_repeat_frame (keypress_record st key now) key
    apply hs2
    · rw [d4, hreck]
    · rw [d1, hreck]
    · rw [d2, hreck]
    · rw [d3, hreck]
    · rw [f1]; rfl
    · rw [f3]; rfl
    · rw [f2]; rfl
    · intro k hk
      rw [detect_key_repeat_other _ _ _ hk]
      exact hrec k hk
  · simp only [Bool.not_true, Bool.false_eq_true, if_false]
    apply hs2
    · rw [hreck]
    · rw [hreck]
    · rw [hreck]
    · rw [hreck]
    · rfl
    · rfl
    · rfl
    · exact hrec


/-- Effect of `keypress`, the press time being the clock reading. -/
theorem keypress_effect (st : input_t) (key : Nat) (duplicate : Bool) :
    ((keypress st key duplicate).keyinfos key).state = keystate_next (st.keyinfos key).state ∧
    ((keypress st key duplicate).keyinfos key).time
      = array_set (st.keyinfos key).time (st.keyinfos key).time_next
          (st.clock st.clock_calls % 4294967296) ∧
    ((keypress st key duplicate).keyinfos key).time_next
      = ((st.keyinfos key).time_next + 1) % TIME_CAPACITY ∧
    ((keypress st key duplicate).keyinfos key).time_count
      = (if (st.keyinfos key).time_count < TIME_CAPACITY then (st.keyinfos key).time_count + 1
          else (st.keyinfos key).time_count) ∧
    (keypress st key duplicate).keybuffer
      = (if keystate_press (st.keyinfos key).state = true then
          array_set st.keybuffer st.keybuffer_write ⟨true, key % 256⟩ else st.keybuffer) ∧
    (keypress st key duplicate).keybuffer_write
      = (if keystate_press (st.keyinfos key).state = true then
          (st.keybuffer_write + 1) % KEYBUFFER_CAPACITY else st.keybuffer_write) ∧
    (keypress st key duplicate).keybuffer_read = st.keybuffer_read ∧
    (∀ k, k ≠ key → (keypress st key duplicate).keyinfos k = st.keyinfos k) :=
  keypress_at_effect (DG_GetTicksMs st).2 key duplicate (DG_GetTicksMs st).1

/-- A keypress of a key that is off or waiting enqueues one press event. -/
theorem keypress_enqueues_press (st : input_t) (key : Nat) (duplicate : Bool)
    (hkey : key < 256)
    (hs : (st.keyinfos key).state = keystate_off ∨ (st.keyinfos key).state = keystate_wait) :
    enqueued st (keypress st key duplicate) [⟨true, key⟩] := by
  obtain ⟨_, _, _, _, e5, e6, e7, _⟩ := keypress_effect st key duplicate
  have hp : keystate_press (st.keyinfos key).state = true := by
    rcases hs with h | h <;> rw [h] <;> rfl
  rw [hp] at e5 e6
  simp only [if_true, Nat.mod_eq_of_lt hkey] at e5 e6
  exact ⟨e5, e6, e7⟩

/-- A keypress of a key that is down or repeating enqueues nothing. -/
theorem keypress_enqueues_nothing (st : input_t) (key : Nat) (duplicate : Bool)
    (hs : (st.keyinfos key).state = keystate_down ∨ (st.keyinfos key).state = keystate_repeat) :
    enqueued st (keypress st key duplicate) [] := by
  obtain ⟨_, _, _, _, e5, e6, e7, _⟩ := keypress_effect st key duplicate
  have hp : keystate_press (st.keyinfos key).state = false := by
    rcases hs with h | h <;> rw [h] <;> rfl
  rw [hp] at e5 e6
  simp only [Bool.false_eq_true, if_false] at e5 e6
  exact ⟨e5, e6, e7⟩

/-- The queue after a sequence of pushes depends on the queue only. -/
theorem foldl_queue_push_congr (evs : List keyevent_t) :
    ∀ (s t : input_t), s.keybuffer = t.keybuffer → s.keybuffer_write = t.keybuffer_write →
      (evs.foldl queue_push s).keybuffer = (evs.foldl queue_push t).keybuffer ∧
      (evs.foldl queue_push s).keybuffer_write = (evs.foldl queue_push t).keybuffer_write := by
  induction evs with
  | nil =>
    intro s t h1 h2
    exact ⟨h1, h2⟩
  | cons e es ih =>
    intro s t h1 h2
    simp only [List.foldl_cons]
    apply ih
    · simp only [queue_push, h1, h2]
    · simp only [queue_push, h2]

/-- Events enqueued one run after the other are enqueued in sequence. -/
theorem enqueued_trans (a b c : input_t) (xs ys : List keyevent_t)
    (h1 : enqueued a b xs) (h2 : enqueued b c ys) : enqueued a c (xs ++ ys) := by
  obtain ⟨p1, p2, p3⟩ := h1
  obtain ⟨q1, q2, q3⟩ := h2
  obtain ⟨r1, r2⟩ := foldl_queue_push_congr ys b (xs.foldl queue_push a) p1 p2
  refine ⟨?_, ?_, ?_⟩
  · rw [List.foldl_append, q1, r1]
  · rw [List.foldl_append, q2, r2]
  · rw [q3, p3]

/-- C17: state transitions of `keypress`, for every key code below 256 and
every prior state: off goes to down with one press event enqueued, waiting goes
to repeating with one press event enqueued, down and repeating go to repeating
with no event; the key never ends in off or waiting, the other keys keep their
state, and what is enqueued is nothing or one press event, never a release. -/
theorem C17_keypress_transitions (st : input_t) (key : Nat) (duplicate : Bool)
    (hkey : key < 256) :
    ((st.keyinfos key).state = keystate_off →
      ((keypress st key duplicate).keyinfos key).state = keystate_down ∧
      enqueued st (keypress st key duplicate) [⟨true, key⟩]) ∧
    ((st.keyinfos key).state = keystate_wait →
      ((keypress st key duplicate).keyinfos key).state = keystate_repeat ∧
      enqueued st (keypress st key duplicate) [⟨true, key⟩]) ∧
    ((st.keyinfos key).state = keystate_down →
      ((keypress st key duplicate).keyinfos key).state = keystate_repeat ∧
      enqueued st (keypress st key duplicate) []) ∧
    ((st.keyinfos key).state = keystate_repeat →
      ((keypress st key duplicate).keyinfos key).state = keystate_repeat ∧
      enqueued st (keypress st key duplicate) []) ∧
    ((keypress st key duplicate).keyinfos key).state ≠ keystate_off ∧
    ((keypress st key duplicate).keyinfos key).state ≠ keystate_wait ∧
    (∀ k, k ≠ key → ((keypress st key duplicate).keyinfos k).state = (st.keyinfos k).state) ∧
    (enqueued st (keypress st key duplicate) [] ∨
      enqueued st (keypress st key duplicate) [⟨true, key⟩]) := by
  obtain ⟨e1, _, _, _, _, _, _, e8⟩ := keypress_effect st key duplicate
  refine ⟨?_, ?_, ?_, ?_, ?_, ?_, ?_, ?_⟩
  · intro h
    exact ⟨by rw [e1, h]; rfl, keypress_enqueues_press st key duplicate hkey (Or.inl h)⟩
  · intro h
    exact ⟨by rw [e1, h]; rfl, keypress_enqueues_press st key duplicate hkey (Or.inr h)⟩
  · intro h
    exact ⟨by rw [e1, h]; rfl, keypress_enqueues_nothing st key duplicate (Or.inl h)⟩
  · intro h
    exact ⟨by rw [e1, h]; rfl, keypress_enqueues_nothing st key duplicate (Or.inr h)⟩
  · rw [e1]
    cases (st.keyinfos key).state <;> decide
  · rw [e1]
    cases (st.keyinfos key).state <;> decide
  · intro k hk
    rw [e8 k hk]
  · cases h : (st.keyinfos key).state
    · exact Or.inr (keypress_enqueues_press st key duplicate hkey (Or.inl h))
    · exact Or.inl (keypress_enqueues_nothing st key duplicate (Or.inl h))
    · exact Or.inr (keypress_enqueues_press st key duplicate hkey (Or.inr h))
    · exact Or.inl (keypress_enqueues_nothing st key duplicate (Or.inr h))

/-- C17 at the letter A in the initial state: off goes to down with one press
event. -/
theorem C17_keypress_transitions_witness :
    ((keypress (initial_input 0) 65 false).keyinfos 65).state = keystate_down ∧
    enqueued (initial_input 0) (keypress (initial_input 0) 65 false) [⟨true, 65⟩] :=
  (C17_keypress_transitions (initial_input 0) 65 false (by decide)).1 rfl

/-! ## Properties of the input decoder, call by call -/

/-- Setting an empty input to empty, and a cleared flag to cleared, changes
nothing. -/
theorem with_idle_self (st : input_t) (h1 : st.have_csi = false) (h2 : st.stdin = []) :
    ({ st with stdin := [], have_csi := false } : input_t) = st := by
  cases st
  simp only at h1 h2
  subst h1 h2
  rfl

/-- The literal byte ESC is dispatched as the key 27. -/
theorem handle_input_byte_esc (K : doomkeys_t) (st : input_t) :
    handle_input_byte K st 27 = keypress st 27 false := by
  simp [handle_input_byte, toupper]

/-- The literal byte `[` is dispatched as the key 91. -/
theorem handle_input_byte_bracket (K : doomkeys_t) (st : input_t) :
    handle_input_byte K st 91 = keypress st 91 false := by
  simp [handle_input_byte, toupper]

/-- The literal byte `A` is dispatched as the key 65. -/
theorem handle_input_byte_A (K : doomkeys_t) (st : input_t) :
    handle_input_byte K st 65 = keypress st 65 false := by
  simp [handle_input_byte, toupper]

/-- A call that finds new bytes enters the loop with the first of them. -/
theorem poll_cons (K : doomkeys_t) (st : input_t) (c : Int) (rest : List Int)
    (h2 : st.stdin = []) :
    poll K st (c :: rest) = read_input_loop K (rest.length + 3) { st with stdin := rest } c := by
  unfold poll
  rw [h2, List.nil_append]
  exact doomcli_read_input_cons K { st with stdin := c :: rest } c rest rfl

/-- A call that finds only ESC dispatches it as a literal byte. -/
theorem poll_esc_alone (K : doomkeys_t) (st : input_t)
    (h1 : st.have_csi = false) (h2 : st.stdin = []) :
    poll K st [27] = some (handle_input_byte K st 27) := by
  rw [poll_cons K st 27 [] h2, with_stdin_self st [] h2]
  exact loop_esc_alone K 1 st h1 h2

/-- A call that finds ESC and `[` only leaves the sequence pending. -/
theorem poll_esc_csi (K : doomkeys_t) (st : input_t)
    (h1 : st.have_csi = false) (h2 : st.stdin = []) :
    poll K st [27, 91] = some { st with stdin := [], have_csi := true } := by
  rw [poll_cons K st 27 [91] h2]
  exact loop_esc_csi_end K 2 { st with stdin := [91] } h1 rfl

/-- A call that finds `A` while a sequence is pending dispatches the up arrow. -/
theorem poll_pending_up (K : doomkeys_t) (st : input_t)
    (h1 : st.have_csi = true) (h2 : st.stdin = []) :
    poll K st [65] = some (keypress { st with have_csi := false } K.KEY_UPARROW false) := by
  rw [poll_cons K st 65 [] h2, with_stdin_self st [] h2]
  exact loop_pending_up_last K 1 st h1 h2

/-- A call that finds the whole sequence dispatches the up arrow. -/
theorem poll_esc_csi_up (K : doomkeys_t) (st : input_t)
    (h1 : st.have_csi = false) (h2 : st.stdin = []) :
    poll K st [27, 91, 65] = some (keypress st K.KEY_UPARROW false) := by
  rw [poll_cons K st 27 [91, 65] h2]
  have e1 := loop_esc_csi K 4 { st with stdin := [91, 65] } 65 [] h1 rfl
  have e2 := loop_pending_up_last K 2
    ({ st with stdin := [], have_csi := true } : input_t) rfl rfl
  have e3 : ({ ({ st with stdin := [], have_csi := true } : input_t) with have_csi := false }
      : input_t) = st := with_idle_self st h1 h2
  rw [e3] at e2
  exact e1.trans e2

/-- A call that finds one byte other than ESC dispatches it. -/
theorem poll_byte (K : doomkeys_t) (st : input_t) (c : Int)
    (h1 : st.have_csi = false) (h2 : st.stdin = []) (hc : c ≠ -1) (hc2 : c ≠ 27) :
    poll K st [c] = some (handle_input_byte K st c) := by
  rw [poll_cons K st c [] h2, with_stdin_self st [] h2]
  exact loop_byte_last K 1 st c h1 hc hc2 h2

/-- A call that finds two bytes other than ESC dispatches them in order. -/
theorem poll_two_bytes (K : doomkeys_t) (st : input_t) (c d : Int)
    (h1 : st.have_csi = false) (h2 : st.stdin = []) (hc : c ≠ -1) (hc2 : c ≠ 27)
    (hd : d ≠ -1) (hd2 : d ≠ 27) :
    poll K st [c, d] = some (handle_input_byte K (handle_input_byte K st c) d) := by
  rw [poll_cons K st c [d] h2]
  have e1 := loop_byte_next K 3 { st with stdin := [d] } c d [] h1 hc hc2 rfl
  have e0 : ({ ({ st with stdin := [d] } : input_t) with stdin := [] } : input_t) = st :=
    with_stdin_self st [] h2
  rw [e0] at e1
  exact e1.trans (loop_byte_last K 1 _ d ((handle_input_byte_frame K st c).1.trans h1) hd hd2
    ((handle_input_byte_frame K st c).2.trans h2))

/-- Three literal presses of keys that are off enqueue three press events. -/
theorem literal_escape_bracket_A (K : doomkeys_t) (st : input_t)
    (h27 : (st.keyinfos 27).state = keystate_off)
    (h91 : (st.keyinfos 91).state = keystate_off)
    (h65 : (st.keyinfos 65).state = keystate_off) :
    enqueued st
      (handle_input_byte K (handle_input_byte K (handle_input_byte K st 27) 91) 65)
      [⟨true, 27⟩, ⟨true, 91⟩, ⟨true, 65⟩] := by
  rw [handle_input_byte_esc, handle_input_byte_bracket, handle_input_byte_A]
  have a1 := keypress_enqueues_press st 27 false (by decide) (Or.inl h27)
  have s1 : ((keypress st 27 false).keyinfos 91).state = keystate_off := by
    rw [(keypress_effect st 27 false).2.2.2.2.2.2.2 91 (by decide)]
    exact h91
  have s1b : ((keypress st 27 false).keyinfos 65).state = keystate_off := by
    rw [(keypress_effect st 27 false).2.2.2.2.2.2.2 65 (by decide)]
    exact h65
  have a2 := keypress_enqueues_press (keypress st 27 false) 91 false (by decide) (Or.inl s1)
  have s2 : ((keypress (keypress st 27 false) 91 false).keyinfos 65).state = keystate_off := by
    rw [(keypress_effect (keypress st 27 false) 91 false).2.2.2.2.2.2.2 65 (by decide)]
    exact s1b
  have a3 := keypress_enqueues_press (keypress (keypress st 27 false) 91 false) 65 false
    (by decide) (Or.inl s2)
  exact enqueued_trans _ _ _ [⟨true, 27⟩, ⟨true, 91⟩] [⟨true, 65⟩]
    (enqueued_trans _ _ _ [⟨true, 27⟩] [⟨true, 91⟩] a1 a2) a3

/-- C12 (amended): starting with no escape sequence pending, no unread input
and the up-arrow key in state off, the bytes ESC, `[`, `A` enqueue exactly one
event, a press of KEY_UPARROW, when ESC and `[` arrive in the same call of
`doomcli_read_input` (all three together, or `A` in a later call). When the
split falls right after ESC, the calls dispatch the three bytes as literal
bytes, which with the keys 27, 91 and 65 off enqueues three press events. -/
theorem C12_escape_sequence_splits (K : doomkeys_t) (st : input_t)
    (h1 : st.have_csi = false) (h2 : st.stdin = [])
    (hup : (st.keyinfos K.KEY_UPARROW).state = keystate_off) (hlt : K.KEY_UPARROW < 256) :
    poll_all K st [[27, 91, 65]] = some (keypress st K.KEY_UPARROW false) ∧
    poll_all K st [[27, 91], [65]] = some (keypress st K.KEY_UPARROW false) ∧
    enqueued st (keypress st K.KEY_UPARROW false) [⟨true, K.KEY_UPARROW⟩] ∧
    poll_all K st [[27], [91, 65]]
      = some (handle_input_byte K (handle_input_byte K (handle_input_byte K st 27) 91) 65) ∧
    poll_all K st [[27], [91], [65]]
      = some (handle_input_byte K (handle_input_byte K (handle_input_byte K st 27) 91) 65) ∧
    ((st.keyinfos 27).state = keystate_off → (st.keyinfos 91).state = keystate_off →
      (st.keyinfos 65).state = keystate_off →
      enqueued st
        (handle_input_byte K (handle_input_byte K (handle_input_byte K st 27) 91) 65)
        [⟨true, 27⟩, ⟨true, 91⟩, ⟨true, 65⟩]) := by
  have f1 := handle_input_byte_frame K st 27
  have f2 := handle_input_byte_frame K (handle_input_byte K st 27) 91
  refine ⟨?_, ?_, ?_, ?_, ?_, ?_⟩
  · simp only [poll_all, poll_esc_csi_up K st h1 h2, Option.some_bind]
  · have e : poll K ({ st with stdin := [], have_csi := true } : input_t) [65]
        = some (keypress st K.KEY_UPARROW false) := by
      rw [poll_pending_up K _ rfl rfl]
      exact congrArg (fun s => some (keypress s K.KEY_UPARROW false)) (with_idle_self st h1 h2)
    simp only [poll_all, poll_esc_csi K st h1 h2, Option.some_bind, e]
  · exact keypress_enqueues_press st K.KEY_UPARROW false hlt (Or.inl hup)
  · simp only [poll_all, poll_esc_alone K st h1 h2, Option.some_bind,
      poll_two_bytes K (handle_input_byte K st 27) 91 65 (f1.1.trans h1) (f1.2.trans h2)
        (by decide) (by decide) (by decide) (by decide)]
  · simp only [poll_all, poll_esc_alone K st h1 h2, Option.some_bind,
      poll_byte K (handle_input_byte K st 27) 91 (f1.1.trans h1) (f1.2.trans h2)
        (by decide) (by decide),
      poll_byte K (handle_input_byte K (handle_input_byte K st 27) 91) 65
        (f2.1.trans (f1.1.trans h1)) (f2.2.trans (f1.2.trans h2)) (by decide) (by decide)]
  · exact literal_escape_bracket_A K st

/-- C12 (amended) in the initial state: the sequence delivered whole enqueues
one press of the up-arrow key. -/
theorem C12_escape_sequence_splits_witness :
    poll_all doomkeys_h (initial_input 0) [[27, 91, 65]]
      = some (keypress (initial_input 0) doomkeys_h.KEY_UPARROW false) ∧
    enqueued (initial_input 0) (keypress (initial_input 0) doomkeys_h.KEY_UPARROW false)
      [⟨true, doomkeys_h.KEY_UPARROW⟩] :=
  ⟨(C12_escape_sequence_splits doomkeys_h (initial_input 0) rfl rfl rfl (by decide)).1,
   (C12_escape_sequence_splits doomkeys_h (initial_input 0) rfl rfl rfl (by decide)).2.2.1⟩

/-- C12 as stated fails: in the initial state (nothing pending, up-arrow key
off), ESC alone in one call and `[`, `A` in the next enqueue three press events,
for the keys 27, 91 and 65, and no press of the up-arrow key. -/
theorem C12_escape_split_counterexample :
    (initial_input 0).have_csi = false ∧
    ((initial_input 0).keyinfos doomkeys_h.KEY_UPARROW).state = keystate_off ∧
    ∃ st', poll_all doomkeys_h (initial_input 0) [[27], [91, 65]] = some st' ∧
      st'.keybuffer_read = 0 ∧ st'.keybuffer_write = 3 ∧
      st'.keybuffer 0 = ⟨true, 27⟩ ∧ st'.keybuffer 1 = ⟨true, 91⟩ ∧
      st'.keybuffer 2 = ⟨true, 65⟩ ∧
      ¬ enqueued (initial_input 0) st' [⟨true, doomkeys_h.KEY_UPARROW⟩] := by
  refine ⟨rfl, rfl,
    handle_input_byte doomkeys_h
      (handle_input_byte doomkeys_h (handle_input_byte doomkeys_h (initial_input 0) 27) 91) 65,
    ?_, ?_⟩
  · have f1 := handle_input_byte_frame doomkeys_h (initial_input 0) 27
    simp only [poll_all, poll_esc_alone doomkeys_h (initial_input 0) rfl rfl, Option.some_bind,
      poll_two_bytes doomkeys_h (handle_input_byte doomkeys_h (initial_input 0) 27) 91 65
        (f1.1.trans rfl) (f1.2.trans rfl) (by decide) (by decide) (by decide) (by decide)]
  · refine ⟨by decide, by decide, by decide, by decide, by decide, ?_⟩
    intro h
    have h2 := h.2.1
    revert h2
    decide

/-- The state after `getchar` differs from the state before in the input only. -/
theorem getchar_snd (st : input_t) : (getchar st).2 = { st with stdin := st.stdin.tail } := by
  cases h : st.stdin with
  | nil =>
    rw [getchar_nil st h]
    exact (with_stdin_self st [] h).symm
  | cons c rest =>
    rw [getchar_cons st c rest h]
    rfl

/-- C15 (amended): an isolated escape byte (no further byte available in the
call) is not discarded: `doomcli_read_input` dispatches it as a literal byte,
that is as `keypress` of the key 27. The press time is recorded in the history
of key 27, and when that key is off it moves to down and one press event for
key 27 is enqueued; the other keys are unchanged and no sequence is pending
afterwards. -/
theorem C15_isolated_escape_is_key_27 (K : doomkeys_t) (st : input_t)
    (h1 : st.have_csi = false) (h2 : st.stdin = []) :
    poll K st [27] = some (keypress st 27 false) ∧
    (keypress st 27 false).have_csi = false ∧
    ((keypress st 27 false).keyinfos 27).time
      = array_set (st.keyinfos 27).time (st.keyinfos 27).time_next
          (st.clock st.clock_calls % 4294967296) ∧
    ((st.keyinfos 27).state = keystate_off →
      ((keypress st 27 false).keyinfos 27).state = keystate_down ∧
      enqueued st (keypress st 27 false) [⟨true, 27⟩]) ∧
    (∀ k, k ≠ 27 → (keypress st 27 false).keyinfos k = st.keyinfos k) := by
  obtain ⟨e1, e2, _, _, _, _, _, e8⟩ := keypress_effect st 27 false
  refine ⟨?_, ?_, e2, ?_, e8⟩
  · rw [poll_esc_alone K st h1 h2, handle_input_byte_esc]
  · rw [(keypress_frame st 27 false).1, h1]
  · intro h
    exact ⟨by rw [e1, h]; rfl, keypress_enqueues_press st 27 false (by decide) (Or.inl h)⟩

/-- C15 (amended) in the initial state. -/
theorem C15_isolated_escape_is_key_27_witness :
    poll doomkeys_h (initial_input 0) [27] = some (keypress (initial_input 0) 27 false) ∧
    enqueued (initial_input 0) (keypress (initial_input 0) 27 false) [⟨true, 27⟩] :=
  ⟨(C15_isolated_escape_is_key_27 doomkeys_h (initial_input 0) rfl rfl).1,
   ((C15_isolated_escape_is_key_27 doomkeys_h (initial_input 0) rfl rfl).2.2.2.1 rfl).2⟩

/-- C15 as stated fails: in the initial state a call that finds only ESC
enqueues a press event for key 27, moves that key to down and records a press
time for it. -/
theorem C15_isolated_escape_counterexample :
    ∃ st', poll doomkeys_h (initial_input 0) [27] = some st' ∧
      st'.keybuffer_write = 1 ∧ st'.keybuffer 0 = ⟨true, 27⟩ ∧
      (st'.keyinfos 27).state = keystate_down ∧ (st'.keyinfos 27).time_count = 1 ∧
      ((initial_input 0).keyinfos 27).state = keystate_off ∧
      ((initial_input 0).keyinfos 27).time_count = 0 ∧
      ¬ enqueued (initial_input 0) st' [] := by
  refine ⟨handle_input_byte doomkeys_h (initial_input 0) 27,
    poll_esc_alone doomkeys_h (initial_input 0) rfl rfl,
    by decide, by decide, by decide, by decide, rfl, rfl, ?_⟩
  intro h
  have h2 := h.2.1
  revert h2
  decide

/-- C14: with no escape sequence pending, for every byte `b` other than `[`,
the input ESC `b` followed by any further bytes is processed by
`doomcli_read_input` as the literal byte ESC handled by `handle_input_byte`
and then the input `b` and the further bytes processed from the resulting
state, and the call returns. In particular ESC ESC `[` `A` yields the literal
ESC dispatch followed by one up-arrow dispatch, which with both keys off
enqueues a press of key 27 and then a press of KEY_UPARROW. -/
theorem C14_escape_then_other_byte (K : doomkeys_t) (st : input_t) (b : Int)
    (rest : List Int) (h1 : st.have_csi = false) (hs : st.stdin = 27 :: b :: rest)
    (hb : b ≠ 91) (hb1 : b ≠ -1) :
    doomcli_read_input K st
      = doomcli_read_input K { handle_input_byte K st 27 with stdin := b :: rest } ∧
    (∃ st', doomcli_read_input K st = some st') ∧
    (b = 27 → rest = [91, 65] →
      doomcli_read_input K st
        = some (keypress { handle_input_byte K st 27 with stdin := [] } K.KEY_UPARROW false) ∧
      ((st.keyinfos 27).state = keystate_off →
        (st.keyinfos K.KEY_UPARROW).state = keystate_off →
        K.KEY_UPARROW ≠ 27 → K.KEY_UPARROW < 256 →
        enqueued st
          (keypress { handle_input_byte K st 27 with stdin := [] } K.KEY_UPARROW false)
          [⟨true, 27⟩, ⟨true, K.KEY_UPARROW⟩])) := by
  have hl : doomcli_read_input K st
      = read_input_loop K (rest.length + 3) { handle_input_byte K st 27 with stdin := rest } b := by
    rw [doomcli_read_input_cons K st 27 (b :: rest) hs, ← handle_input_byte_stdin]
    exact loop_esc_literal K (rest.length + 3) { st with stdin := b :: rest } b rest h1 rfl hb1 hb
  refine ⟨?_, doomcli_read_input_total K st, ?_⟩
  · rw [hl]
    exact (doomcli_read_input_cons K { handle_input_byte K st 27 with stdin := b :: rest }
      b rest rfl).symm
  · intro hb27 hrest
    subst hb27 hrest
    have f := handle_input_byte_frame K st 27
    have hk : read_input_loop K ([91, 65].length + 3)
        { handle_input_byte K st 27 with stdin := [91, 65] } 27
        = some (keypress { handle_input_byte K st 27 with stdin := [] } K.KEY_UPARROW false) := by
      have e1 := loop_esc_csi K 4 { handle_input_byte K st 27 with stdin := [91, 65] } 65 []
        (f.1.trans h1) rfl
      have e2 := loop_pending_up_last K 2
        ({ handle_input_byte K st 27 with stdin := [], have_csi := true } : input_t) rfl rfl
      have e3 : ({ ({ handle_input_byte K st 27 with stdin := [], have_csi := true } : input_t)
          with have_csi := false } : input_t) = { handle_input_byte K st 27 with stdin := [] } := by
        have := f.1.trans h1
        revert this
        cases handle_input_byte K st 27
        intro h
        simp only at h
        subst h
        rfl
      rw [e3] at e2
      exact e1.trans e2
    refine ⟨hl.trans hk, ?_⟩
    intro h27 hup hne hlt
    rw [handle_input_byte_esc]
    have a1 := keypress_enqueues_press st 27 false (by decide) (Or.inl h27)
    have a1b : enqueued st ({ keypress st 27 false with stdin := [] } : input_t) [⟨true, 27⟩] := a1
    have s1 : ((({ keypress st 27 false with stdin := [] } : input_t)).keyinfos
        K.KEY_UPARROW).state = keystate_off := by
      show ((keypress st 27 false).keyinfos K.KEY_UPARROW).state = keystate_off
      rw [(keypress_effect st 27 false).2.2.2.2.2.2.2 K.KEY_UPARROW hne]
      exact hup
    have a2 := keypress_enqueues_press ({ keypress st 27 false with stdin := [] } : input_t)
      K.KEY_UPARROW false hlt (Or.inl s1)
    exact enqueued_trans _ _ _ [⟨true, 27⟩] [⟨true, K.KEY_UPARROW⟩] a1b a2

/-- C14 on the input ESC ESC `[` `A` in the initial state. -/
theorem C14_escape_then_other_byte_witness :
    doomcli_read_input doomkeys_h { initial_input 0 with stdin := [27, 27, 91, 65] }
      = some (keypress
          { handle_input_byte doomkeys_h { initial_input 0 with stdin := [27, 27, 91, 65] } 27
            with stdin := [] }
          doomkeys_h.KEY_UPARROW false) :=
  ((C14_escape_then_other_byte doomkeys_h { initial_input 0 with stdin := [27, 27, 91, 65] }
    27 [91, 65] rfl rfl (by decide) (by decide)).2.2 rfl rfl).1

/-- C13: while an escape sequence is pending, a run of digit bytes followed
by a terminating byte `t` makes `handle_csi` clear the flag, consume the digits
and `t`, and dispatch exactly one `keypress` of KEY_UPARROW, KEY_DOWNARROW,
KEY_RIGHTARROW or KEY_LEFTARROW when `t` is `A`, `B`, `C` or `D`; for any
other `t` no key state changes and no event is enqueued. When the input runs
out after the digits the flag stays set and nothing but the input changes. -/
theorem C13_pending_escape_sequence (K : doomkeys_t) (st : input_t) (c : Int)
    (digits : List Int) (hcsi : st.have_csi = true)
    (hd : ∀ x ∈ digits, 48 ≤ x ∧ x ≤ 57) :
    (∀ (t : Int) (rest : List Int), c :: st.stdin = digits ++ t :: rest →
      ¬ (48 ≤ t ∧ t ≤ 57) → t ≠ -1 →
      handle_csi K st c
        = ((getchar (match csi_key K t with
              | some k => keypress { st with stdin := rest, have_csi := false } k false
              | none => { st with stdin := rest, have_csi := false })).2,
           (getchar (match csi_key K t with
              | some k => keypress { st with stdin := rest, have_csi := false } k false
              | none => { st with stdin := rest, have_csi := false })).1) ∧
      (handle_csi K st c).1.have_csi = false ∧
      (csi_key K t = none →
        (handle_csi K st c).1.keyinfos = st.keyinfos ∧
        enqueued st (handle_csi K st c).1 [])) ∧
    (c :: st.stdin = digits →
      handle_csi K st c = ({ st with stdin := [] }, -1) ∧
      (handle_csi K st c).1.have_csi = true ∧
      (handle_csi K st c).1.keyinfos = st.keyinfos ∧
      enqueued st (handle_csi K st c).1 []) := by
  constructor
  · intro t rest hin ht ht1
    have h := handle_csi_terminator K st c digits t rest hcsi hd hin ht ht1
    have hm : (match csi_key K t with
          | some k => keypress { st with stdin := rest, have_csi := false } k false
          | none => ({ st with stdin := rest, have_csi := false } : input_t))
        = (if t = 65 then keypress { st with stdin := rest, have_csi := false } K.KEY_UPARROW false
           else if t = 66 then
             keypress { st with stdin := rest, have_csi := false } K.KEY_DOWNARROW false
           else if t = 67 then
             keypress { st with stdin := rest, have_csi := false } K.KEY_RIGHTARROW false
           else if t = 68 then
             keypress { st with stdin := rest, have_csi := false } K.KEY_LEFTARROW false
           else { st with stdin := rest, have_csi := false }) := by
      unfold csi_key
      split_ifs <;> rfl
    rw [hm]
    refine ⟨h, ?_, ?_⟩
    · rw [h, getchar_snd]
      show (if t = 65 then _ else _ : input_t).have_csi = false
      split_ifs <;> first | rfl | exact (keypress_frame _ _ _).1
    · intro hnone
      have hk : ¬ t = 65 ∧ ¬ t = 66 ∧ ¬ t = 67 ∧ ¬ t = 68 := by
        unfold csi_key at hnone
        split_ifs at hnone with a b c d
        exact ⟨a, b, c, d⟩
      rw [h, getchar_snd]
      rw [if_neg hk.1, if_neg hk.2.1, if_neg hk.2.2.1, if_neg hk.2.2.2]
      exact ⟨rfl, rfl, rfl, rfl⟩
  · intro hin
    have h := handle_csi_out K st c digits hcsi hd hin
    rw [h]
    exact ⟨rfl, hcsi, rfl, rfl, rfl, rfl⟩

/-- C13 on the pending sequence `1`, `5`, `C` in the initial state with the flag
set. -/
theorem C13_pending_escape_sequence_witness :
    handle_csi doomkeys_h { initial_input 0 with have_csi := true, stdin := [53, 67] } 49
      = ((getchar (match csi_key doomkeys_h 67 with
            | some k =>
              keypress { ({ initial_input 0 with have_csi := true, stdin := [53, 67] } : input_t)
                with stdin := [], have_csi := false } k false
            | none =>
              { ({ initial_input 0 with have_csi := true, stdin := [53, 67] } : input_t)
                with stdin := [], have_csi := false })).2,
         (getchar (match csi_key doomkeys_h 67 with
            | some k =>
              keypress { ({ initial_input 0 with have_csi := true, stdin := [53, 67] } : input_t)
                with stdin := [], have_csi := false } k false
            | none =>
              { ({ initial_input 0 with have_csi := true, stdin := [53, 67] } : input_t)
                with stdin := [], have_csi := false })).1) :=
  ((C13_pending_escape_sequence doomkeys_h
    { initial_input 0 with have_csi := true, stdin := [53, 67] } 49 [49, 53] rfl
    (by decide)).1 67 [] rfl (by decide) (by decide)).1

/-- Two presses of different keys that are off enqueue two press events. -/
theorem two_keys_two_presses (st : input_t) (s a : Nat) (d1 d2 : Bool)
    (hne : a ≠ s) (hs : s < 256) (ha : a < 256)
    (hso : (st.keyinfos s).state = keystate_off) (hao : (st.keyinfos a).state = keystate_off) :
    enqueued st (keypress (keypress st s d1) a d2) [⟨true, s⟩, ⟨true, a⟩] := by
  have a1 := keypress_enqueues_press st s d1 hs (Or.inl hso)
  have s1 : ((keypress st s d1).keyinfos a).state = keystate_off := by
    rw [(keypress_effect st s d1).2.2.2.2.2.2.2 a hne]
    exact hao
  have a2 := keypress_enqueues_press (keypress st s d1) a d2 ha (Or.inl s1)
  exact enqueued_trans _ _ _ [⟨true, s⟩] [⟨true, a⟩] a1 a2

/-- Two presses of one key that is off enqueue one press event and leave the
key repeating. -/
theorem one_key_one_press (st : input_t) (a : Nat) (d1 d2 : Bool) (ha : a < 256)
    (hao : (st.keyinfos a).state = keystate_off) :
    enqueued st (keypress (keypress st a d1) a d2) [⟨true, a⟩] ∧
    ((keypress (keypress st a d1) a d2).keyinfos a).state = keystate_repeat ∧
    ((keypress (keypress st a d1) a d2).keyinfos a).time_count
      = (if (if (st.keyinfos a).time_count < TIME_CAPACITY then (st.keyinfos a).time_count + 1
              else (st.keyinfos a).time_count) < TIME_CAPACITY
          then (if (st.keyinfos a).time_count < TIME_CAPACITY then (st.keyinfos a).time_count + 1
              else (st.keyinfos a).time_count) + 1
          else (if (st.keyinfos a).time_count < TIME_CAPACITY then (st.keyinfos a).time_count + 1
              else (st.keyinfos a).time_count)) := by
  have a1 := keypress_enqueues_press st a d1 ha (Or.inl hao)
  have s1 : ((keypress st a d1).keyinfos a).state = keystate_down := by
    rw [(keypress_effect st a d1).1, hao]
    rfl
  have a2 := keypress_enqueues_nothing (keypress st a d1) a d2 (Or.inl s1)
  refine ⟨enqueued_trans _ _ _ [⟨true, a⟩] [] a1 a2, ?_, ?_⟩
  · rw [(keypress_effect (keypress st a d1) a d2).1, s1]
    rfl
  · rw [(keypress_effect (keypress st a d1) a d2).2.2.2.1, (keypress_effect st a d1).2.2.2.1]

/-- One event enqueued is not two events enqueued. -/
theorem enqueued_one_not_two (a b : input_t) (e e1 e2 : keyevent_t)
    (h : enqueued a b [e]) : ¬ enqueued a b [e1, e2] := by
  intro h2
  have w1 : b.keybuffer_write = (a.keybuffer_write + 1) % 64 := h.2.1
  have w2 : b.keybuffer_write = ((a.keybuffer_write + 1) % 64 + 1) % 64 := h2.2.1
  omega

/-- The bytes for which the special key differs from the upper-cased character
(newline, `z`, `Z`, space, `x`, `X`, `+` with the key codes 13, 0xa3, 0xa2,
0xb8, 0x3d): with both keys off `handle_input_byte` enqueues two press events,
the special key first. -/
theorem handle_input_byte_two_presses (K : doomkeys_t) (st : input_t)
    (hK : K.KEY_ENTER = 13 ∧ K.KEY_FIRE = 0xa3 ∧ K.KEY_USE = 0xa2 ∧ K.KEY_LALT = 0xb8 ∧
      K.KEY_EQUALS = 0x3d)
    (hoff : ∀ k, (st.keyinfos k).state = keystate_off) :
    enqueued st (handle_input_byte K st 10) [⟨true, 13⟩, ⟨true, 10⟩] ∧
    enqueued st (handle_input_byte K st 122) [⟨true, 0xa3⟩, ⟨true, 90⟩] ∧
    enqueued st (handle_input_byte K st 90) [⟨true, 0xa3⟩, ⟨true, 90⟩] ∧
    enqueued st (handle_input_byte K st 32) [⟨true, 0xa2⟩, ⟨true, 32⟩] ∧
    enqueued st (handle_input_byte K st 120) [⟨true, 0xb8⟩, ⟨true, 88⟩] ∧
    enqueued st (handle_input_byte K st 88) [⟨true, 0xb8⟩, ⟨true, 88⟩] ∧
    enqueued st (handle_input_byte K st 43) [⟨true, 0x3d⟩, ⟨true, 43⟩] := by
  obtain ⟨k1, k2, k3, k4, k5⟩ := hK
  have e1 : handle_input_byte K st 10 = keypress (keypress st 13 true) 10 false := by
    simp [handle_input_byte, toupper, k1]
  have e2 : handle_input_byte K st 122 = keypress (keypress st 0xa3 true) 90 false := by
    simp [handle_input_byte, toupper, k2]
  have e3 : handle_input_byte K st 90 = keypress (keypress st 0xa3 true) 90 false := by
    simp [handle_input_byte, toupper, k2]
  have e4 : handle_input_byte K st 32 = keypress (keypress st 0xa2 true) 32 false := by
    simp [handle_input_byte, toupper, k3]
  have e5 : handle_input_byte K st 120 = keypress (keypress st 0xb8 true) 88 false := by
    simp [handle_input_byte, toupper, k4]
  have e6 : handle_input_byte K st 88 = keypress (keypress st 0xb8 true) 88 false := by
    simp [handle_input_byte, toupper, k4]
  have e7 : handle_input_byte K st 43 = keypress (keypress st 0x3d true) 43 false := by
    simp [handle_input_byte, toupper, k5]
  rw [e1, e2, e3, e4, e5, e6, e7]
  exact ⟨two_keys_two_presses st 13 10 true false (by decide) (by decide) (by decide)
      (hoff _) (hoff _),
    two_keys_two_presses st 0xa3 90 true false (by decide) (by decide) (by decide)
      (hoff _) (hoff _),
    two_keys_two_presses st 0xa3 90 true false (by decide) (by decide) (by decide)
      (hoff _) (hoff _),
    two_keys_two_presses st 0xa2 32 true false (by decide) (by decide) (by decide)
      (hoff _) (hoff _),
    two_keys_two_presses st 0xb8 88 true false (by decide) (by decide) (by decide)
      (hoff _) (hoff _),
    two_keys_two_presses st 0xb8 88 true false (by decide) (by decide) (by decide)
      (hoff _) (hoff _),
    two_keys_two_presses st 0x3d 43 true false (by decide) (by decide) (by decide)
      (hoff _) (hoff _)⟩

/-- C16 fails for the bytes `-` and `=`: with KEY_MINUS = 0x2d and
KEY_EQUALS = 0x3d the special key is the character itself, so with every key
off `handle_input_byte` calls `keypress` twice on the same key, which enqueues
one press event only, leaves the key repeating and records two press times for
the one byte. -/
theorem C16_minus_equals_single_event (K : doomkeys_t) (st : input_t)
    (hK : K.KEY_MINUS = 0x2d ∧ K.KEY_EQUALS = 0x3d)
    (hoff : ∀ k, (st.keyinfos k).state = keystate_off)
    (hcount : ∀ k, (st.keyinfos k).time_count = 0) :
    enqueued st (handle_input_byte K st 45) [⟨true, 45⟩] ∧
    (∀ e1 e2, ¬ enqueued st (handle_input_byte K st 45) [e1, e2]) ∧
    ((handle_input_byte K st 45).keyinfos 45).state = keystate_repeat ∧
    ((handle_input_byte K st 45).keyinfos 45).time_count = 2 ∧
    enqueued st (handle_input_byte K st 61) [⟨true, 61⟩] ∧
    (∀ e1 e2, ¬ enqueued st (handle_input_byte K st 61) [e1, e2]) ∧
    ((handle_input_byte K st 61).keyinfos 61).state = keystate_repeat ∧
    ((handle_input_byte K st 61).keyinfos 61).time_count = 2 := by
  obtain ⟨k1, k2⟩ := hK
  have e1 : handle_input_byte K st 45 = keypress (keypress st 45 true) 45 false := by
    simp [handle_input_byte, toupper, k1]
  have e2 : handle_input_byte K st 61 = keypress (keypress st 61 true) 61 false := by
    simp [handle_input_byte, toupper, k2]
  rw [e1, e2]
  obtain ⟨a1, a2, a3⟩ := one_key_one_press st 45 true false (by decide) (hoff 45)
  obtain ⟨b1, b2, b3⟩ := one_key_one_press st 61 true false (by decide) (hoff 61)
  rw [hcount 45] at a3
  rw [hcount 61] at b3
  exact ⟨a1, fun e1 e2 => enqueued_one_not_two _ _ _ e1 e2 a1, a2, a3,
    b1, fun e1 e2 => enqueued_one_not_two _ _ _ e1 e2 b1, b2, b3⟩

/-- C16 at the byte `-` in the initial state: one press event, not two. -/
theorem C16_minus_equals_single_event_witness :
    enqueued (initial_input 0) (handle_input_byte doomkeys_h (initial_input 0) 45)
      [⟨true, 45⟩] ∧
    ¬ enqueued (initial_input 0) (handle_input_byte doomkeys_h (initial_input 0) 45)
      [⟨true, 45⟩, ⟨true, 45⟩] ∧
    ((handle_input_byte doomkeys_h (initial_input 0) 45).keyinfos 45).state = keystate_repeat :=
  ⟨(C16_minus_equals_single_event doomkeys_h (initial_input 0) ⟨rfl, rfl⟩
      (fun _ => rfl) (fun _ => rfl)).1,
   (C16_minus_equals_single_event doomkeys_h (initial_input 0) ⟨rfl, rfl⟩
      (fun _ => rfl) (fun _ => rfl)).2.1 _ _,
   (C16_minus_equals_single_event doomkeys_h (initial_input 0) ⟨rfl, rfl⟩
      (fun _ => rfl) (fun _ => rfl)).2.2.1⟩

/-! ## Properties of the repeat detection -/

/-- The call `abs(a - b)` on `uint32_t` values below 2^31 is the distance of
the two values. -/
theorem abs_u32_sub (a b : Nat) (ha : a < 2147483648) (hb : b < 2147483648) :
    abs_u32 (u32_sub a b) = spec_abs_diff a b := by
  unfold abs_u32 u32_sub to_int32 spec_abs_diff
  split_ifs <;> omega

/-- The two loops of `detect_key_repeat` compute the mean and the variance of
the three interior deltas, as long as the four latest press times ascend and
span less than 2^31 ms. -/
theorem key_variance_eq_spec (ki : keyinfo_t) (t1 t2 t3 t4 : Nat)
    (h1 : ki.time ((ki.time_next + 1) % TIME_CAPACITY) = t1)
    (h2 : ki.time ((ki.time_next + 2) % TIME_CAPACITY) = t2)
    (h3 : ki.time ((ki.time_next + 3) % TIME_CAPACITY) = t3)
    (h4 : ki.time ((ki.time_next + 4) % TIME_CAPACITY) = t4)
    (h12 : t1 ≤ t2) (h23 : t2 ≤ t3) (h34 : t3 ≤ t4)
    (hw : t4 < 4294967296) (hs : t4 - t1 < 2147483648) :
    key_mean ki = spec_delta_mean (t2 - t1) (t3 - t2) (t4 - t3) ∧
    key_variance ki = spec_delta_variance (t2 - t1) (t3 - t2) (t4 - t3) := by
  have d1 : key_delta ki 1 = t2 - t1 := by
    unfold key_delta
    rw [h1, h2]
    unfold u32_sub
    omega
  have d2 : key_delta ki 2 = t3 - t2 := by
    unfold key_delta
    rw [h2, h3]
    unfold u32_sub
    omega
  have d3 : key_delta ki 3 = t4 - t3 := by
    unfold key_delta
    rw [h3, h4]
    unfold u32_sub
    omega
  have hm : key_mean ki = spec_delta_mean (t2 - t1) (t3 - t2) (t4 - t3) := by
    unfold key_mean spec_delta_mean
    simp only [List.foldl, d1, d2, d3, TIME_CAPACITY]
    omega
  refine ⟨hm, ?_⟩
  have hmlt : spec_delta_mean (t2 - t1) (t3 - t2) (t4 - t3) < 2147483648 := by
    unfold spec_delta_mean
    omega
  unfold key_variance
  simp only [List.foldl, d1, d2, d3, hm]
  rw [abs_u32_sub _ _ (by omega) hmlt, abs_u32_sub _ _ (by omega) hmlt,
    abs_u32_sub _ _ (by omega) hmlt]
  unfold spec_delta_variance
  have b1 : spec_abs_diff (t2 - t1) (spec_delta_mean (t2 - t1) (t3 - t2) (t4 - t3))
      ≤ (t2 - t1) + spec_delta_mean (t2 - t1) (t3 - t2) (t4 - t3) := by
    unfold spec_abs_diff
    split_ifs <;> omega
  have b2 : spec_abs_diff (t3 - t2) (spec_delta_mean (t2 - t1) (t3 - t2) (t4 - t3))
      ≤ (t3 - t2) + spec_delta_mean (t2 - t1) (t3 - t2) (t4 - t3) := by
    unfold spec_abs_diff
    split_ifs <;> omega
  have b3 : spec_abs_diff (t4 - t3) (spec_delta_mean (t2 - t1) (t3 - t2) (t4 - t3))
      ≤ (t4 - t3) + spec_delta_mean (t2 - t1) (t3 - t2) (t4 - t3) := by
    unfold spec_abs_diff
    split_ifs <;> omega
  have b4 : 3 * spec_delta_mean (t2 - t1) (t3 - t2) (t4 - t3) ≤ t4 - t1 := by
    unfold spec_delta_mean
    omega
  omega

/-- Until five press times are recorded `detect_key_repeat` does nothing. -/
theorem detect_key_repeat_idle (st : input_t) (key : Nat)
    (h : (st.keyinfos key).time_count ≠ TIME_CAPACITY) : detect_key_repeat st key = st := by
  unfold detect_key_repeat
  simp only [h, ne_eq, not_false_eq_true, if_true]

/-- With a variance above the threshold `detect_key_repeat` clears
`detected_repeat` and does nothing else. -/
theorem detect_key_repeat_reject (st : input_t) (key : Nat)
    (h : (st.keyinfos key).time_count = TIME_CAPACITY)
    (hv : key_variance (st.keyinfos key) > key_repeat_threshold * (TIME_CAPACITY - 2)) :
    detect_key_repeat st key
      = { st with keyinfos :=
            array_set st.keyinfos key { st.keyinfos key with detected_repeat := false } } := by
  unfold detect_key_repeat
  simp only [h, ne_eq, not_true_eq_false, if_false, hv, if_true]

/-- With a variance up to the threshold and no repeat detected before,
`detect_key_repeat` adds a measurement and sets `detected_repeat`. -/
theorem detect_key_repeat_confirm (st : input_t) (key : Nat)
    (h : (st.keyinfos key).time_count = TIME_CAPACITY)
    (hv : ¬ key_variance (st.keyinfos key) > key_repeat_threshold * (TIME_CAPACITY - 2))
    (hd : (st.keyinfos key).detected_repeat = false) :
    detect_key_repeat st key
      = { add_key_measurement st
            (u32_sub ((st.keyinfos key).time (((st.keyinfos key).time_next + 1) % TIME_CAPACITY))
              ((st.keyinfos key).time ((st.keyinfos key).time_next % TIME_CAPACITY)))
            (key_mean (st.keyinfos key)) with
          keyinfos :=
            array_set st.keyinfos key { st.keyinfos key with detected_repeat := true } } := by
  unfold detect_key_repeat
  simp only [h, ne_eq, not_true_eq_false, if_false, hv, hd, Bool.not_false, if_true]
  rfl

/-- With a variance up to the threshold and a repeat detected before,
`detect_key_repeat` does nothing. -/
theorem detect_key_repeat_again (st : input_t) (key : Nat)
    (h : (st.keyinfos key).time_count = TIME_CAPACITY)
    (hv : ¬ key_variance (st.keyinfos key) > key_repeat_threshold * (TIME_CAPACITY - 2))
    (hd : (st.keyinfos key).detected_repeat = true) :
    detect_key_repeat st key = st := by
  unfold detect_key_repeat
  simp only [h, ne_eq, not_true_eq_false, if_false, hv, hd, Bool.not_true, Bool.false_eq_true]

/-- C20 (amended): `detect_key_repeat` does nothing until the key has five
recorded presses. With the five latest press times `t0 ≤ t1 ≤ ... ≤ t4`
(oldest first, no 32-bit wrap, the four latest spanning less than 2^31 ms),
the interior deltas `t2 - t1`, `t3 - t2`, `t4 - t3`, their floored mean and
the sum of their distances to it as variance, the press is classified as a
repeat if and only if the variance is at most 30: the code rejects only a
variance above `10 * 3`. A first confirmation adds the measurement with delay
`t1 - t0` and the mean as rate; a rejection only clears `detected_repeat`. -/
theorem C20_repeat_classification (st : input_t) (key : Nat) (t0 t1 t2 t3 t4 : Nat)
    (h0 : (st.keyinfos key).time ((st.keyinfos key).time_next % TIME_CAPACITY) = t0)
    (h1 : (st.keyinfos key).time (((st.keyinfos key).time_next + 1) % TIME_CAPACITY) = t1)
    (h2 : (st.keyinfos key).time (((st.keyinfos key).time_next + 2) % TIME_CAPACITY) = t2)
    (h3 : (st.keyinfos key).time (((st.keyinfos key).time_next + 3) % TIME_CAPACITY) = t3)
    (h4 : (st.keyinfos key).time (((st.keyinfos key).time_next + 4) % TIME_CAPACITY) = t4)
    (h01 : t0 ≤ t1) (h12 : t1 ≤ t2) (h23 : t2 ≤ t3) (h34 : t3 ≤ t4)
    (hw : t4 < 4294967296) (hs : t4 - t1 < 2147483648) :
    ((st.keyinfos key).time_count ≠ TIME_CAPACITY → detect_key_repeat st key = st) ∧
    ((st.keyinfos key).time_count = TIME_CAPACITY →
      (((detect_key_repeat st key).keyinfos key).detected_repeat = true
        ↔ spec_delta_variance (t2 - t1) (t3 - t2) (t4 - t3) ≤ 30) ∧
      (spec_delta_variance (t2 - t1) (t3 - t2) (t4 - t3) ≤ 30 →
        (st.keyinfos key).detected_repeat = false →
        detect_key_repeat st key
          = { add_key_measurement st (t1 - t0)
                (spec_delta_mean (t2 - t1) (t3 - t2) (t4 - t3)) with
              keyinfos :=
                array_set st.keyinfos key { st.keyinfos key with detected_repeat := true } }) ∧
      (spec_delta_variance (t2 - t1) (t3 - t2) (t4 - t3) ≤ 30 →
        (st.keyinfos key).detected_repeat = true → detect_key_repeat st key = st) ∧
      (30 < spec_delta_variance (t2 - t1) (t3 - t2) (t4 - t3) →
        detect_key_repeat st key
          = { st with keyinfos :=
                array_set st.keyinfos key { st.keyinfos key with detected_repeat := false } })) := by
  obtain ⟨hm, hv⟩ := key_variance_eq_spec (st.keyinfos key) t1 t2 t3 t4 h1 h2 h3 h4 h12 h23 h34
    hw hs
  have hthr : key_repeat_threshold * (TIME_CAPACITY - 2) = 30 := rfl
  have hdelay : u32_sub t1 t0 = t1 - t0 := by
    unfold u32_sub
    omega
  refine ⟨detect_key_repeat_idle st key, ?_⟩
  intro hc
  have hconf : spec_delta_variance (t2 - t1) (t3 - t2) (t4 - t3) ≤ 30 →
      (st.keyinfos key).detected_repeat = false →
      detect_key_repeat st key
        = { add_key_measurement st (t1 - t0)
              (spec_delta_mean (t2 - t1) (t3 - t2) (t4 - t3)) with
            keyinfos :=
              array_set st.keyinfos key { st.keyinfos key with detected_repeat := true } } := by
    intro hle hd
    have e := detect_key_repeat_confirm st key hc (by rw [hv, hthr]; omega) hd
    rw [h0, h1, hm, hdelay] at e
    exact e
  have hagain : spec_delta_variance (t2 - t1) (t3 - t2) (t4 - t3) ≤ 30 →
      (st.keyinfos key).detected_repeat = true → detect_key_repeat st key = st :=
    fun hle hd => detect_key_repeat_again st key hc (by rw [hv, hthr]; omega) hd
  have hrej : 30 < spec_delta_variance (t2 - t1) (t3 - t2) (t4 - t3) →
      detect_key_repeat st key
        = { st with keyinfos :=
              array_set st.keyinfos key { st.keyinfos key with detected_repeat := false } } :=
    fun hgt => detect_key_repeat_reject st key hc (by rw [hv, hthr]; exact hgt)
  refine ⟨?_, hconf, hagain, hrej⟩
  by_cases hle : spec_delta_variance (t2 - t1) (t3 - t2) (t4 - t3) ≤ 30
  · refine ⟨fun _ => hle, fun _ => ?_⟩
    cases hd : (st.keyinfos key).detected_repeat
    · rw [hconf hle hd]
      show (array_set st.keyinfos key _ key).detected_repeat = true
      rw [array_set_same]
    · rw [hagain hle hd]
      exact hd
  · refine ⟨fun h => ?_, fun h => absurd h hle⟩
    rw [hrej (by omega)] at h
    have h' : (array_set st.keyinfos key
        { st.keyinfos key with detected_repeat := false } key).detected_repeat = true := h
    rw [array_set_same] at h'
    exact Bool.noConfusion h'

/-- C20 (amended) on the press times 0, 100, 200, 300, 400: the repeat is
confirmed, the variance being 0. -/
theorem C20_repeat_classification_witness :
    ((detect_key_repeat
        { initial_input 0 with
          keyinfos := fun _ => ⟨fun i => i * 100, 0, 5, keystate_repeat, false⟩ } 65).keyinfos
          65).detected_repeat = true
      ↔ spec_delta_variance (200 - 100) (300 - 200) (400 - 300) ≤ 30 :=
  ((C20_repeat_classification
    { initial_input 0 with
      keyinfos := fun _ => ⟨fun i => i * 100, 0, 5, keystate_repeat, false⟩ } 65
    0 100 200 300 400 rfl rfl rfl rfl rfl (by decide) (by decide) (by decide) (by decide)
    (by decide) (by decide)).2 rfl).1

/-- C20 as stated fails at a variance of exactly 30: with the press times 0, 7,
92, 192, 307 the interior deltas are 85, 100, 115, their mean is 100 and the
variance is 30, which is not under 30, yet `detect_key_repeat` confirms the
repeat and records the measurement (delay 7, rate 100). -/
theorem C20_variance_at_threshold_counterexample :
    spec_delta_mean (92 - 7) (192 - 92) (307 - 192) = 100 ∧
    spec_delta_variance (92 - 7) (192 - 92) (307 - 192) = 30 ∧
    ¬ (spec_delta_variance (92 - 7) (192 - 92) (307 - 192) < 30) ∧
    ((detect_key_repeat
        { initial_input 0 with
          keyinfos := fun _ => ⟨fun i => [0, 7, 92, 192, 307].getD i 0, 0, 5, keystate_repeat,
            false⟩ } 65).keyinfos 65).detected_repeat = true ∧
    (detect_key_repeat
        { initial_input 0 with
          keyinfos := fun _ => ⟨fun i => [0, 7, 92, 192, 307].getD i 0, 0, 5, keystate_repeat,
            false⟩ } 65).key_measure_count = 1 ∧
    (detect_key_repeat
        { initial_input 0 with
          keyinfos := fun _ => ⟨fun i => [0, 7, 92, 192, 307].getD i 0, 0, 5, keystate_repeat,
            false⟩ } 65).key_measure_delays 0 = 7 ∧
    (detect_key_repeat
        { initial_input 0 with
          keyinfos := fun _ => ⟨fun i => [0, 7, 92, 192, 307].getD i 0, 0, 5, keystate_repeat,
            false⟩ } 65).key_measure_rates 0 = 100 := by
  refine ⟨by decide, by decide, by decide, by decide, by decide, by decide, by decide⟩

/-- The body of a non-duplicate `keypress`, block by block. -/
theorem keypress_blocks (st : input_t) (key : Nat) :
    keypress st key false
      = keypress_state
          (detect_key_repeat
            (keypress_record (DG_GetTicksMs st).2 key (DG_GetTicksMs st).1) key) key := rfl

/-- The key's record after the block that inserts the press time. -/
theorem keypress_record_keyinfo (st : input_t) (key now : Nat) :
    (keypress_record st key now).keyinfos key
      = { time := array_set (st.keyinfos key).time (st.keyinfos key).time_next now
          time_next := ((st.keyinfos key).time_next + 1) % TIME_CAPACITY
          time_count := if (st.keyinfos key).time_count < TIME_CAPACITY
            then (st.keyinfos key).time_count + 1 else (st.keyinfos key).time_count
          state := (st.keyinfos key).state
          detected_repeat := (st.keyinfos key).detected_repeat } := by
  unfold keypress_record
  exact array_set_same _ _ _

/-- The state block of `keypress` keeps the measurements and, of the key's
record, all but the state. -/
theorem keypress_state_keeps (st : input_t) (key : Nat) :
    measurements (keypress_state st key) = measurements st ∧
    ((keypress_state st key).keyinfos key).detected_repeat
      = (st.keyinfos key).detected_repeat ∧
    (keypress_state st key).clock = st.clock ∧
    (keypress_state st key).clock_calls = st.clock_calls := by
  obtain ⟨_, _, c1, c2, m1, m2, m3, m4, m5, m6⟩ := keypress_state_frame st key
  refine ⟨?_, ?_, c1, c2⟩
  · unfold measurements
    rw [m1, m2, m3, m4, m5, m6]
  · unfold keypress_state keybuffer_put
    dsimp only
    split_ifs <;> simp [array_set]

/-- A press that does not complete a history of five press times changes
neither the measurements nor `detected_repeat`. -/
theorem keypress_quiet (st : input_t) (key : Nat) (h : (st.keyinfos key).time_count < 4) :
    measurements (keypress st key false) = measurements st ∧
    ((keypress st key false).keyinfos key).detected_repeat
      = (st.keyinfos key).detected_repeat ∧
    (keypress st key false).clock = st.clock ∧
    (keypress st key false).clock_calls = st.clock_calls + 1 := by
  have hr := keypress_record_keyinfo (DG_GetTicksMs st).2 key (DG_GetTicksMs st).1
  have hc : ((keypress_record (DG_GetTicksMs st).2 key (DG_GetTicksMs st).1).keyinfos
      key).time_count ≠ TIME_CAPACITY := by
    rw [hr]
    show (if (st.keyinfos key).time_count < TIME_CAPACITY
      then (st.keyinfos key).time_count + 1 else (st.keyinfos key).time_count) ≠ TIME_CAPACITY
    unfold TIME_CAPACITY
    split_ifs <;> omega
  rw [keypress_blocks, detect_key_repeat_idle _ key hc]
  obtain ⟨k1, k2, k3, k4⟩ := keypress_state_keeps
    (keypress_record (DG_GetTicksMs st).2 key (DG_GetTicksMs st).1) key
  rw [k1, k2, k3, k4, hr]
  exact ⟨rfl, rfl, rfl, rfl⟩

/-- A press that completes a history of five press times: the outcome of
`detect_key_repeat` on the record with the new press time decides on the
measurements and on `detected_repeat`. -/
theorem keypress_detects (st : input_t) (key : Nat) :
    measurements (keypress st key false)
      = measurements (detect_key_repeat
          (keypress_record (DG_GetTicksMs st).2 key (DG_GetTicksMs st).1) key) ∧
    ((keypress st key false).keyinfos key).detected_repeat
      = ((detect_key_repeat
          (keypress_record (DG_GetTicksMs st).2 key (DG_GetTicksMs st).1) key).keyinfos
            key).detected_repeat := by
  rw [keypress_blocks]
  obtain ⟨k1, k2, _, _⟩ := keypress_state_keeps
    (detect_key_repeat (keypress_record (DG_GetTicksMs st).2 key (DG_GetTicksMs st).1) key) key
  exact ⟨k1, k2⟩

/-- One more press. -/
theorem presses_succ (st : input_t) (key n : Nat) :
    presses st key (n + 1) = keypress (presses st key n) key false := rfl

/-- The first four presses of a key with an empty history fill the history
with the clock readings and change neither the measurements nor
`detected_repeat`. -/
theorem presses_history (st : input_t) (key : Nat)
    (hc : (st.keyinfos key).time_count = 0) (hn : (st.keyinfos key).time_next = 0)
    (hd : (st.keyinfos key).detected_repeat = false) :
    ∀ n, n ≤ 4 →
      ((presses st key n).keyinfos key).time_count = n ∧
      ((presses st key n).keyinfos key).time_next = n ∧
      ((presses st key n).keyinfos key).detected_repeat = false ∧
      measurements (presses st key n) = measurements st ∧
      (presses st key n).clock = st.clock ∧
      (presses st key n).clock_calls = st.clock_calls + n ∧
      (∀ i, i < n → ((presses st key n).keyinfos key).time i
        = st.clock (st.clock_calls + i) % 4294967296) := by
  intro n
  induction n with
  | zero =>
    intro _
    exact ⟨hc, hn, hd, rfl, rfl, rfl, fun i hi => absurd hi (Nat.not_lt_zero _)⟩
  | succ n ih =>
    intro hle
    obtain ⟨a1, a2, a3, a4, a5, a6, a7⟩ := ih (by omega)
    obtain ⟨_, e2, e3, e4, _, _, _, _⟩ := keypress_effect (presses st key n) key false
    obtain ⟨q1, q2, q3, q4⟩ := keypress_quiet (presses st key n) key (by rw [a1]; omega)
    rw [presses_succ]
    refine ⟨?_, ?_, ?_, ?_, ?_, ?_, ?_⟩
    · rw [e4, a1, if_pos (by unfold TIME_CAPACITY; omega)]
    · rw [e3, a2]
      unfold TIME_CAPACITY
      omega
    · rw [q2]
      exact a3
    · rw [q1]
      exact a4
    · exact q3.trans a5
    · rw [q4, a6]
      omega
    · intro i hi
      rw [e2, a2, a5, a6]
      by_cases hin : i = n
      · subst hin
        exact array_set_same _ _ _
      · rw [array_set_other _ _ _ _ hin]
        exact a7 i (by omega)

/-- The record that `detect_key_repeat` sees in the fifth press of a key with
an empty history: the five clock readings, oldest first at index 0. -/
theorem fifth_press_record (st : input_t) (key : Nat)
    (hc : (st.keyinfos key).time_count = 0) (hn : (st.keyinfos key).time_next = 0)
    (hd : (st.keyinfos key).detected_repeat = false) :
    ((keypress_record (DG_GetTicksMs (presses st key 4)).2 key
        (DG_GetTicksMs (presses st key 4)).1).keyinfos key).time_count = TIME_CAPACITY ∧
    ((keypress_record (DG_GetTicksMs (presses st key 4)).2 key
        (DG_GetTicksMs (presses st key 4)).1).keyinfos key).time_next = 0 ∧
    ((keypress_record (DG_GetTicksMs (presses st key 4)).2 key
        (DG_GetTicksMs (presses st key 4)).1).keyinfos key).detected_repeat = false ∧
    measurements (keypress_record (DG_GetTicksMs (presses st key 4)).2 key
        (DG_GetTicksMs (presses st key 4)).1) = measurements st ∧
    (∀ i, i < 5 → ((keypress_record (DG_GetTicksMs (presses st key 4)).2 key
        (DG_GetTicksMs (presses st key 4)).1).keyinfos key).time i
          = st.clock (st.clock_calls + i) % 4294967296) := by
  obtain ⟨a1, a2, a3, a4, a5, a6, a7⟩ := presses_history st key hc hn hd 4 (le_refl 4)
  have hr := keypress_record_keyinfo (DG_GetTicksMs (presses st key 4)).2 key
    (DG_GetTicksMs (presses st key 4)).1
  have b1 : ((DG_GetTicksMs (presses st key 4)).2.keyinfos key) = (presses st key 4).keyinfos key :=
    rfl
  rw [b1, a1, a2, a3] at hr
  rw [hr]
  refine ⟨rfl, rfl, rfl, a4, ?_⟩
  intro i hi
  show array_set ((presses st key 4).keyinfos key).time 4
    ((presses st key 4).clock (presses st key 4).clock_calls % 4294967296) i = _
  rw [a5, a6]
  by_cases hin : i = 4
  · subst hin
    exact array_set_same _ _ _
  · rw [array_set_other _ _ _ _ hin]
    exact a7 i (by omega)

/-- The state of the key and the events enqueued over successive presses of a
key that was off: down after the first press, repeating after each later one,
one press event in all. -/
theorem presses_state (st : input_t) (key : Nat) (hkey : key < 256)
    (hoff : (st.keyinfos key).state = keystate_off) :
    ∀ n, ((presses st key (n + 1)).keyinfos key).state
        = (if n = 0 then keystate_down else keystate_repeat) ∧
      enqueued st (presses st key (n + 1)) [⟨true, key⟩] := by
  intro n
  induction n with
  | zero =>
    refine ⟨?_, keypress_enqueues_press st key false hkey (Or.inl hoff)⟩
    show ((keypress st key false).keyinfos key).state = keystate_down
    rw [(keypress_effect st key false).1, hoff]
    rfl
  | succ n ih =>
    obtain ⟨s1, q1⟩ := ih
    have hs : ((presses st key (n + 1)).keyinfos key).state = keystate_down ∨
        ((presses st key (n + 1)).keyinfos key).state = keystate_repeat := by
      rw [s1]
      split_ifs
      · exact Or.inl rfl
      · exact Or.inr rfl
    rw [presses_succ]
    refine ⟨?_, enqueued_trans _ _ _ [⟨true, key⟩] [] q1
      (keypress_enqueues_nothing (presses st key (n + 1)) key false hs)⟩
    rw [(keypress_effect (presses st key (n + 1)) key false).1, if_neg (Nat.succ_ne_zero n)]
    rcases hs with h | h <;> rw [h] <;> rfl

/-- The first measurement: it is the only element of the history, so both
estimates are taken from it, capped at 500 ms. -/
theorem add_key_measurement_first (st : input_t) (delay rate : Nat)
    (hc : st.key_measure_count = 0) (hn : st.key_measure_next = 0)
    (hd : delay < 4294967296) (hr : rate < 4294967296) :
    (add_key_measurement st delay rate).key_measure_count = 1 ∧
    (add_key_measurement st delay rate).key_measure_delays 0 = delay ∧
    (add_key_measurement st delay rate).key_measure_rates 0 = rate ∧
    (add_key_measurement st delay rate).key_repeat_delay = min delay 500 ∧
    (add_key_measurement st delay rate).key_repeat_rate = min rate 500 := by
  have z : ∀ x : Nat, x < 4294967296 → abs_u32 (u32_sub x x) = 0 := by
    intro x hx
    unfold abs_u32 u32_sub to_int32
    split_ifs <;> omega
  have r1 : List.range 1 = [0] := rfl
  unfold add_key_measurement
  simp only [hc, hn, KEY_MEASURE_CAPACITY, KEY_REPEAT_DELAY_MAX, KEY_REPEAT_RATE_MAX]
  simp only [Nat.zero_lt_succ, if_true, Nat.zero_add, r1, List.foldl,
    array_set_same, Nat.div_one, Nat.mod_eq_of_lt hd, Nat.mod_eq_of_lt hr, z delay hd, z rate hr]
  refine ⟨trivial, trivial, trivial, ?_, ?_⟩
  · rw [Nat.min_def]
    split_ifs <;> omega
  · rw [Nat.min_def]
    split_ifs <;> omega

/-- The two loops of `detect_key_repeat` on four press times at a constant
interval: the mean is the interval and the variance is 0. -/
theorem key_variance_constant (ki : keyinfo_t) (t1 d : Nat)
    (h1 : ki.time ((ki.time_next + 1) % TIME_CAPACITY) = t1)
    (h2 : ki.time ((ki.time_next + 2) % TIME_CAPACITY) = t1 + d)
    (h3 : ki.time ((ki.time_next + 3) % TIME_CAPACITY) = t1 + 2 * d)
    (h4 : ki.time ((ki.time_next + 4) % TIME_CAPACITY) = t1 + 3 * d)
    (hw : t1 + 3 * d < 4294967296) :
    key_mean ki = d ∧ key_variance ki = 0 := by
  have d1 : key_delta ki 1 = d := by
    unfold key_delta
    rw [h1, h2]
    unfold u32_sub
    omega
  have d2 : key_delta ki 2 = d := by
    unfold key_delta
    rw [h2, h3]
    unfold u32_sub
    omega
  have d3 : key_delta ki 3 = d := by
    unfold key_delta
    rw [h3, h4]
    unfold u32_sub
    omega
  have hm : key_mean ki = d := by
    unfold key_mean
    simp only [List.foldl, d1, d2, d3, TIME_CAPACITY]
    omega
  refine ⟨hm, ?_⟩
  have z : abs_u32 (u32_sub d d) = 0 := by
    unfold abs_u32 u32_sub to_int32
    split_ifs <;> omega
  unfold key_variance
  simp only [List.foldl, d1, d2, d3, hm, z]

/-- With the oldest press time at index 0 the history is read in index order. -/
theorem history_index (ki : keyinfo_t) (h : ki.time_next = 0) :
    ki.time (ki.time_next % TIME_CAPACITY) = ki.time 0 ∧
    ki.time ((ki.time_next + 1) % TIME_CAPACITY) = ki.time 1 ∧
    ki.time ((ki.time_next + 2) % TIME_CAPACITY) = ki.time 2 ∧
    ki.time ((ki.time_next + 3) % TIME_CAPACITY) = ki.time 3 ∧
    ki.time ((ki.time_next + 4) % TIME_CAPACITY) = ki.time 4 := by
  rw [h]
  exact ⟨rfl, rfl, rfl, rfl, rfl⟩

/-- The function `detect_key_repeat` on five press times at a constant interval,
with no measurement recorded before: one measurement, delay and rate the
interval. -/
theorem detect_key_repeat_constant (r : input_t) (key t0 d : Nat)
    (r1 : (r.keyinfos key).time_count = TIME_CAPACITY) (r2 : (r.keyinfos key).time_next = 0)
    (r3 : (r.keyinfos key).detected_repeat = false)
    (ht : ∀ i, i < 5 → (r.keyinfos key).time i = t0 + i * d)
    (hw : t0 + 4 * d < 4294967296)
    (hmc : r.key_measure_count = 0) (hmn : r.key_measure_next = 0) :
    (detect_key_repeat r key).key_measure_count = 1 ∧
    (detect_key_repeat r key).key_measure_delays 0 = d ∧
    (detect_key_repeat r key).key_measure_rates 0 = d ∧
    (detect_key_repeat r key).key_repeat_delay = min d 500 ∧
    (detect_key_repeat r key).key_repeat_rate = min d 500 ∧
    ((detect_key_repeat r key).keyinfos key).detected_repeat = true := by
  obtain ⟨i0, i1, i2, i3, i4⟩ := history_index (r.keyinfos key) r2
  obtain ⟨hmean, hvar⟩ := key_variance_constant (r.keyinfos key) (t0 + d) d
    (i1.trans ((ht 1 (by omega)).trans (by omega)))
    (i2.trans ((ht 2 (by omega)).trans (by omega)))
    (i3.trans ((ht 3 (by omega)).trans (by omega)))
    (i4.trans ((ht 4 (by omega)).trans (by omega))) (by omega)
  have hdet := detect_key_repeat_confirm r key r1 (by rw [hvar]; decide) r3
  have hdelay : u32_sub (t0 + 1 * d) (t0 + 0 * d) = d := by
    unfold u32_sub
    omega
  rw [hmean, i0, i1, ht 1 (by omega), ht 0 (by omega), hdelay] at hdet
  obtain ⟨m1, m2, m3, m4, m5⟩ := add_key_measurement_first r d d hmc hmn (by omega) (by omega)
  rw [hdet]
  exact ⟨m1, m2, m3, m4, m5, congrArg keyinfo_t.detected_repeat (array_set_same _ _ _)⟩

/-- The function `detect_key_repeat` on five press times whose interior gaps are
irregular: nothing but `detected_repeat`, cleared, is written. -/
theorem detect_key_repeat_irregular (r : input_t) (key t0 g1 g2 g3 g4 : Nat)
    (r1 : (r.keyinfos key).time_count = TIME_CAPACITY) (r2 : (r.keyinfos key).time_next = 0)
    (h1 : (r.keyinfos key).time 1 = t0 + g1)
    (h2 : (r.keyinfos key).time 2 = t0 + g1 + g2)
    (h3 : (r.keyinfos key).time 3 = t0 + g1 + g2 + g3)
    (h4 : (r.keyinfos key).time 4 = t0 + g1 + g2 + g3 + g4)
    (hw : t0 + g1 + g2 + g3 + g4 < 4294967296) (hs : g2 + g3 + g4 < 2147483648)
    (hirr : 30 < spec_delta_variance g2 g3 g4) :
    measurements (detect_key_repeat r key) = measurements r ∧
    ((detect_key_repeat r key).keyinfos key).detected_repeat = false := by
  obtain ⟨_, i1, i2, i3, i4⟩ := history_index (r.keyinfos key) r2
  obtain ⟨_, hvar⟩ := key_variance_eq_spec (r.keyinfos key)
    (t0 + g1) (t0 + g1 + g2) (t0 + g1 + g2 + g3) (t0 + g1 + g2 + g3 + g4)
    (i1.trans h1) (i2.trans h2) (i3.trans h3) (i4.trans h4)
    (by omega) (by omega) (by omega) hw (by omega)
  have e2 : t0 + g1 + g2 - (t0 + g1) = g2 := by omega
  have e3 : t0 + g1 + g2 + g3 - (t0 + g1 + g2) = g3 := by omega
  have e4 : t0 + g1 + g2 + g3 + g4 - (t0 + g1 + g2 + g3) = g4 := by omega
  rw [e2, e3, e4] at hvar
  rw [detect_key_repeat_reject r key r1 (by rw [hvar]; exact hirr)]
  exact ⟨rfl, congrArg keyinfo_t.detected_repeat (array_set_same _ _ _)⟩

/-- C18: five non-duplicate presses of a fresh key (state off, empty press
history, empty measurement history) at the clock readings t0, t0 + d, ...,
t0 + 4 d, without 32-bit wrap: the key is down after the first press and
repeating after each later one, one press event is enqueued in all, the first
four presses record no measurement, and the fifth records exactly one, with
delay d and rate d, and sets both estimates to min(d, 500). -/
theorem C18_constant_interval_presses (st : input_t) (key t0 d : Nat) (hkey : key < 256)
    (hoff : (st.keyinfos key).state = keystate_off)
    (hc : (st.keyinfos key).time_count = 0) (hn : (st.keyinfos key).time_next = 0)
    (hd : (st.keyinfos key).detected_repeat = false)
    (hmc : st.key_measure_count = 0) (hmn : st.key_measure_next = 0)
    (hclock : ∀ i, i < 5 → st.clock (st.clock_calls + i) = t0 + i * d)
    (hw : t0 + 4 * d < 4294967296) :
    ((presses st key 1).keyinfos key).state = keystate_down ∧
    ((presses st key 2).keyinfos key).state = keystate_repeat ∧
    ((presses st key 3).keyinfos key).state = keystate_repeat ∧
    ((presses st key 4).keyinfos key).state = keystate_repeat ∧
    ((presses st key 5).keyinfos key).state = keystate_repeat ∧
    enqueued st (presses st key 5) [⟨true, key⟩] ∧
    measurements (presses st key 4) = measurements st ∧
    (presses st key 5).key_measure_count = 1 ∧
    (presses st key 5).key_measure_delays 0 = d ∧
    (presses st key 5).key_measure_rates 0 = d ∧
    (presses st key 5).key_repeat_delay = min d 500 ∧
    (presses st key 5).key_repeat_rate = min d 500 ∧
    ((presses st key 5).keyinfos key).detected_repeat = true := by
  obtain ⟨r1, r2, r3, r4, r5⟩ := fifth_press_record st key hc hn hd
  obtain ⟨m1, m2, m3, m4, m5, m6⟩ := detect_key_repeat_constant
    (keypress_record (DG_GetTicksMs (presses st key 4)).2 key
      (DG_GetTicksMs (presses st key 4)).1) key t0 d r1 r2 r3
    (by
      intro i hi
      rw [r5 i hi, hclock i hi]
      have : i * d ≤ 4 * d := Nat.mul_le_mul_right d (by omega)
      omega)
    hw ((congrArg (fun m => m.1) r4).trans hmc) ((congrArg (fun m => m.2.1) r4).trans hmn)
  obtain ⟨k1, k2⟩ := keypress_detects (presses st key 4) key
  have s := presses_state st key hkey hoff
  refine ⟨(s 0).1, (s 1).1, (s 2).1, (s 3).1, (s 4).1, (s 4).2,
    (presses_history st key hc hn hd 4 (le_refl 4)).2.2.2.1, ?_, ?_, ?_, ?_, ?_, ?_⟩
  · exact (congrArg (fun m => m.1) k1).trans m1
  · exact (congrFun (congrArg (fun m => m.2.2.1) k1) 0).trans m2
  · exact (congrFun (congrArg (fun m => m.2.2.2.1) k1) 0).trans m3
  · exact (congrArg (fun m => m.2.2.2.2.1) k1).trans m4
  · exact (congrArg (fun m => m.2.2.2.2.2) k1).trans m5
  · exact k2.trans m6

/-- C18 for presses 100 ms apart from the initial state: one measurement with
delay 100 and rate 100. -/
theorem C18_constant_interval_presses_witness :
    (presses { initial_input 0 with clock := fun n => 1000 + n * 100 } 65 5).key_measure_count = 1 ∧
    (presses { initial_input 0 with clock := fun n => 1000 + n * 100 } 65 5).key_measure_delays 0
      = 100 ∧
    (presses { initial_input 0 with clock := fun n => 1000 + n * 100 } 65 5).key_measure_rates 0
      = 100 ∧
    (presses { initial_input 0 with clock := fun n => 1000 + n * 100 } 65 5).key_repeat_delay
      = min 100 500 ∧
    (presses { initial_input 0 with clock := fun n => 1000 + n * 100 } 65 5).key_repeat_rate
      = min 100 500 ∧
    ((presses { initial_input 0 with clock := fun n => 1000 + n * 100 } 65 5).keyinfos
      65).detected_repeat = true :=
  (C18_constant_interval_presses { initial_input 0 with clock := fun n => 1000 + n * 100 } 65
    1000 100 (by decide) rfl rfl rfl rfl rfl rfl
    (fun i _ => congrArg (fun k => 1000 + k * 100) (Nat.zero_add i)) (by decide)).2.2.2.2.2.2.2

/-- C19: five non-duplicate presses of a key with an empty press history whose
three interior gaps are irregular, in that the sum of their distances to their
floored mean exceeds 30 (no 32-bit wrap, the interior gaps spanning less than
2^31 ms), never confirm a repeat: after each of the five presses the
measurement history and both estimates are what they were and
`detected_repeat` is false. -/
theorem C19_irregular_presses (st : input_t) (key t0 g1 g2 g3 g4 : Nat)
    (hc : (st.keyinfos key).time_count = 0) (hn : (st.keyinfos key).time_next = 0)
    (hd : (st.keyinfos key).detected_repeat = false)
    (h1 : st.clock (st.clock_calls + 1) = t0 + g1)
    (h2 : st.clock (st.clock_calls + 2) = t0 + g1 + g2)
    (h3 : st.clock (st.clock_calls + 3) = t0 + g1 + g2 + g3)
    (h4 : st.clock (st.clock_calls + 4) = t0 + g1 + g2 + g3 + g4)
    (hw : t0 + g1 + g2 + g3 + g4 < 4294967296) (hs : g2 + g3 + g4 < 2147483648)
    (hirr : 30 < spec_delta_variance g2 g3 g4) :
    ∀ n, n ≤ 5 →
      measurements (presses st key n) = measurements st ∧
      (presses st key n).key_measure_count = st.key_measure_count ∧
      (presses st key n).key_repeat_delay = st.key_repeat_delay ∧
      (presses st key n).key_repeat_rate = st.key_repeat_rate ∧
      ((presses st key n).keyinfos key).detected_repeat = false := by
  have main : ∀ n, n ≤ 5 → measurements (presses st key n) = measurements st ∧
      ((presses st key n).keyinfos key).detected_repeat = false := by
    intro n hn5
    by_cases h4n : n ≤ 4
    · obtain ⟨_, _, a3, a4, _⟩ := presses_history st key hc hn hd n h4n
      exact ⟨a4, a3⟩
    · have hn : n = 5 := by omega
      subst hn
      obtain ⟨r1, r2, _, r4, r5⟩ := fifth_press_record st key hc hn hd
      have w1 : t0 + g1 < 4294967296 := by omega
      have w2 : t0 + g1 + g2 < 4294967296 := by omega
      have w3 : t0 + g1 + g2 + g3 < 4294967296 := by omega
      obtain ⟨d1, d2⟩ := detect_key_repeat_irregular
        (keypress_record (DG_GetTicksMs (presses st key 4)).2 key
          (DG_GetTicksMs (presses st key 4)).1) key t0 g1 g2 g3 g4 r1 r2
        (by rw [r5 1 (by omega), h1, Nat.mod_eq_of_lt w1])
        (by rw [r5 2 (by omega), h2, Nat.mod_eq_of_lt w2])
        (by rw [r5 3 (by omega), h3, Nat.mod_eq_of_lt w3])
        (by rw [r5 4 (by omega), h4, Nat.mod_eq_of_lt hw])
        hw hs hirr
      obtain ⟨k1, k2⟩ := keypress_detects (presses st key 4) key
      exact ⟨k1.trans (d1.trans r4), k2.trans d2⟩
  intro n hn5
  obtain ⟨m, dr⟩ := main n hn5
  exact ⟨m, congrArg (fun m => m.1) m, congrArg (fun m => m.2.2.2.2.1) m,
    congrArg (fun m => m.2.2.2.2.2) m, dr⟩

/-- C19 for the gaps 10, 800, 50, 600 ms from the initial state: after the
fifth press no measurement is recorded and the estimates are the initial 500
and 100. -/
theorem C19_irregular_presses_witness :
    (presses { initial_input 0 with
        clock := fun n => [1000, 1010, 1810, 1860, 2460].getD n 0 } 65 5).key_measure_count = 0 ∧
    (presses { initial_input 0 with
        clock := fun n => [1000, 1010, 1810, 1860, 2460].getD n 0 } 65 5).key_repeat_delay = 500 ∧
    (presses { initial_input 0 with
        clock := fun n => [1000, 1010, 1810, 1860, 2460].getD n 0 } 65 5).key_repeat_rate = 100 ∧
    ((presses { initial_input 0 with
        clock := fun n => [1000, 1010, 1810, 1860, 2460].getD n 0 } 65 5).keyinfos
          65).detected_repeat = false :=
  (C19_irregular_presses
    { initial_input 0 with clock := fun n => [1000, 1010, 1810, 1860, 2460].getD n 0 } 65
    1000 10 800 50 600 rfl rfl rfl rfl rfl rfl rfl (by decide) (by decide) (by decide)
    5 (le_refl 5)).2

/-! ## Properties of the noise sampling, the glyph tables and the decimal table -/

/-- The low four bits of a coordinate do not change when 16 is added. -/
theorem and_15_add_16 (x : Nat) : (x + 16) &&& 15 = x &&& 15 := by
  have h : ∀ z : Nat, z &&& 15 = z % 16 := fun z => Nat.and_pow_two_sub_one_eq_mod z 4
  rw [h, h]
  omega

/-- C28: noise sampling wraps every 16 pixels in both directions, for every
current texture and all coordinates, and the texel index
`(x & 15) + (y & 15) * 16` is at most 255. -/
theorem C28_noise_sample_wraps (c : ctx_t) (x y : Nat) :
    NOISE_SAMPLE c (x + 16) y = NOISE_SAMPLE c x y ∧
    NOISE_SAMPLE c x (y + 16) = NOISE_SAMPLE c x y ∧
    NOISE_SAMPLE c x y = c.noise_textures c.noise_current ((x &&& 15) + ((y &&& 15) * 16)) ∧
    (x &&& 15) + ((y &&& 15) * 16) ≤ 255 := by
  refine ⟨?_, ?_, rfl, ?_⟩
  · unfold NOISE_SAMPLE
    rw [and_15_add_16]
  · unfold NOISE_SAMPLE
    rw [and_15_add_16]
  · have h : ∀ z : Nat, z &&& 15 = z % 16 := fun z => Nat.and_pow_two_sub_one_eq_mod z 4
    rw [h, h]
    omega

/-- C29: the glyph tables match their masks. Entry m of `quadrants` is the
UTF-8 encoding of the block character whose lit quadrants are the set bits of m
(bit 0 upper left, bit 1 upper right, bit 2 lower left, bit 3 lower right, the
space for m = 0); entry m of `sextants` is the UTF-8 encoding of U+0020, U+258C,
U+2590, U+2588 for m = 0, 21, 42, 63 and of U+1FB00 + m - 1 - [m > 21] - [m > 42]
otherwise; the tables have 16 and 64 entries, pairwise distinct. -/
theorem C29_glyph_tables_match_masks :
    (∀ m, m < 16 → quadrants.getD m [] = spec_utf8 (spec_quadrant_codepoint
      (Nat.testBit m 0) (Nat.testBit m 1) (Nat.testBit m 2) (Nat.testBit m 3))) ∧
    (∀ m, m < 64 → sextants.getD m [] = spec_utf8 (spec_sextant_codepoint m)) ∧
    quadrants.length = 16 ∧ sextants.length = 64 ∧
    quadrants.Nodup ∧ sextants.Nodup := by
  refine ⟨by decide, by decide, rfl, rfl, by decide, by decide⟩

/-- The encoder of the specification agrees with the encoder of the Lean
library on the code points of the two tables. -/
theorem spec_utf8_library :
    (∀ a b c d : Bool,
      (String.utf8EncodeChar (Char.ofNat (spec_quadrant_codepoint a b c d))).map UInt8.toNat
        = spec_utf8 (spec_quadrant_codepoint a b c d)) ∧
    (∀ m, m < 64 → (String.utf8EncodeChar (Char.ofNat (spec_sextant_codepoint m))).map UInt8.toNat
      = spec_utf8 (spec_sextant_codepoint m)) := by
  constructor <;> decide

set_option maxRecDepth 100000 in
/-- Every entry of `u8_to_str` is the decimal representation of its index. -/
theorem u8_to_str_decimal : ∀ i, i < 256 → u8_to_str.getD i "" = Nat.repr i := by
  decide

/-- The entry of `u8_to_str` for a channel value in `0..255`. -/
theorem u8_to_str_at_decimal (v : Int) (h0 : 0 ≤ v) (h1 : v ≤ 255) :
    u8_to_str_at v = ascii (Nat.repr v.toNat) := by
  obtain ⟨n, rfl⟩ := Int.eq_ofNat_of_zero_le h0
  have hn : n < 256 := by omega
  show ascii (u8_to_str.getD n "") = ascii (Nat.repr n)
  rw [u8_to_str_decimal n hn]

set_option maxRecDepth 100000 in
/-- The decimal representation of a byte has at most three digits. -/
theorem repr_length_le_three : ∀ i, i < 256 → (Nat.repr i).length ≤ 3 := by
  decide

/-- The bytes of a concatenation of strings. -/
theorem ascii_append (s t : String) : ascii (s ++ t) = ascii s ++ ascii t := by
  show (s ++ t).data.map Char.toNat = s.data.map Char.toNat ++ t.data.map Char.toNat
  rw [String.data_append, List.map_append]

/-- The number of bytes of an ASCII string. -/
theorem ascii_length (s : String) : (ascii s).length = s.length := by
  simp [ascii]

/-- C30: in 24-bit mode with noise off, for all channel values in `0..255`,
`output_colors` appends exactly the bytes of `ESC[38;2;R;G;Bm` followed at once
by `ESC[48;2;R;G;Bm`, each channel in decimal without leading zeros; every
entry of `u8_to_str` is the decimal representation of its index; and the
sequence is at most 38 bytes long, within the 256-byte local buffer. -/
theorem C30_output_colors_24bit (c : ctx_t) (x y : Nat)
    (fg_red fg_green fg_blue bg_red bg_green bg_blue : Int)
    (hc : c.cli_colors = cli_colors_24bit) (hn : c.noise_enabled = false)
    (h1 : 0 ≤ fg_red ∧ fg_red ≤ 255) (h2 : 0 ≤ fg_green ∧ fg_green ≤ 255)
    (h3 : 0 ≤ fg_blue ∧ fg_blue ≤ 255) (h4 : 0 ≤ bg_red ∧ bg_red ≤ 255)
    (h5 : 0 ≤ bg_green ∧ bg_green ≤ 255) (h6 : 0 ≤ bg_blue ∧ bg_blue ≤ 255) :
    output_colors c x y fg_red fg_green fg_blue bg_red bg_green bg_blue
      = spec_sgr_24bit fg_red.toNat fg_green.toNat fg_blue.toNat
          bg_red.toNat bg_green.toNat bg_blue.toNat ∧
    (∀ i, i < 256 → u8_to_str.getD i "" = Nat.repr i) ∧
    (output_colors c x y fg_red fg_green fg_blue bg_red bg_green bg_blue).length ≤ 38 ∧
    (output_colors c x y fg_red fg_green fg_blue bg_red bg_green bg_blue).length ≤ 256 := by
  have e : output_colors c x y fg_red fg_green fg_blue bg_red bg_green bg_blue
      = spec_sgr_24bit fg_red.toNat fg_green.toNat fg_blue.toNat
          bg_red.toNat bg_green.toNat bg_blue.toNat := by
    unfold output_colors spec_sgr_24bit
    simp only [hn, hc, Bool.false_eq_true, if_false, ascii_append,
      u8_to_str_at_decimal _ h1.1 h1.2, u8_to_str_at_decimal _ h2.1 h2.2,
      u8_to_str_at_decimal _ h3.1 h3.2, u8_to_str_at_decimal _ h4.1 h4.2,
      u8_to_str_at_decimal _ h5.1 h5.2, u8_to_str_at_decimal _ h6.1 h6.2, List.append_assoc]
  have l1 := repr_length_le_three fg_red.toNat (by omega)
  have l2 := repr_length_le_three fg_green.toNat (by omega)
  have l3 := repr_length_le_three fg_blue.toNat (by omega)
  have l4 := repr_length_le_three bg_red.toNat (by omega)
  have l5 := repr_length_le_three bg_green.toNat (by omega)
  have l6 := repr_length_le_three bg_blue.toNat (by omega)
  have hlen : (spec_sgr_24bit fg_red.toNat fg_green.toNat fg_blue.toNat
      bg_red.toNat bg_green.toNat bg_blue.toNat).length ≤ 38 := by
    unfold spec_sgr_24bit
    simp only [ascii_length, String.length_append]
    have a1 : ("\x1b[38;2;" : String).length = 7 := by decide
    have a2 : (";" : String).length = 1 := by decide
    have a3 : ("m\x1b[48;2;" : String).length = 8 := by decide
    have a4 : ("m" : String).length = 1 := by decide
    rw [a1, a2, a3, a4]
    omega
  rw [e]
  exact ⟨rfl, u8_to_str_decimal, hlen, by omega⟩

/-- C30 for white on black. -/
theorem C30_output_colors_24bit_witness :
    output_colors ⟨cli_colors_24bit, false, 0, fun _ _ => 0⟩ 0 0 255 255 255 0 0 0
      = spec_sgr_24bit 255 255 255 0 0 0 :=
  (C30_output_colors_24bit ⟨cli_colors_24bit, false, 0, fun _ _ => 0⟩ 0 0 255 255 255 0 0 0
    rfl rfl (by decide) (by decide) (by decide) (by decide) (by decide) (by decide)).1

/-! ## Properties of the noise initialisation -/

/-- A loop that replaces each of the first `n` elements of an array by a
function of its old value. -/
theorem foldl_range_array_set {α : Type} (g : α → α) (n : Nat) (a : Nat → α) :
    (List.range n).foldl (fun t i => array_set t i (g (t i))) a
      = fun j => if j < n then g (a j) else a j := by
  induction n with
  | zero =>
    funext j
    simp
  | succ n ih =>
    rw [List.range_succ, List.foldl_append, ih]
    funext j
    simp only [List.foldl_cons, List.foldl_nil, array_set]
    by_cases h1 : j = n
    · subst h1
      simp
    · by_cases h2 : j < n
      · have : j < n + 1 := by omega
        simp [h1, h2, this]
      · have : ¬ j < n + 1 := by omega
        simp [h1, h2, this]

/-- Three bytes put together with shifts and `|` are the three digits of a
number in base 256. -/
theorem pack_three_bytes (b g r : Nat) (hg : g < 256) (hr : r < 256) :
    (b <<< 16) ||| (g <<< 8) ||| r = b * 65536 + g * 256 + r := by
  have e1 : b <<< 16 = 2 ^ 8 * (2 ^ 8 * b) := by
    rw [Nat.shiftLeft_eq]
    omega
  have e2 : g <<< 8 = 2 ^ 8 * g := by
    rw [Nat.shiftLeft_eq]
    omega
  have e3 : 2 ^ 8 * (2 ^ 8 * b) ||| 2 ^ 8 * g = 2 ^ 8 * (2 ^ 8 * b + g) := by
    have h := Nat.mul_add_lt_is_or (show 2 ^ 8 * g < 2 ^ 16 by omega) b
    have e4 : 2 ^ 8 * (2 ^ 8 * b) = 2 ^ 16 * b := by omega
    rw [e4, ← h]
    omega
  rw [e1, e2, e3, ← Nat.mul_add_lt_is_or (show r < 2 ^ 8 by omega)]
  omega

/-- The texel after the inner loop body: each channel rescaled in its own byte
position, the top byte cleared. -/
theorem noise_rescale_bytes (scale val : Nat) (hs : scale ≤ 100) :
    spec_byte 0 (noise_rescale scale (255 * (100 - scale) / 200) val)
      = spec_noise_channel scale (spec_byte 0 val) ∧
    spec_byte 1 (noise_rescale scale (255 * (100 - scale) / 200) val)
      = spec_noise_channel scale (spec_byte 1 val) ∧
    spec_byte 2 (noise_rescale scale (255 * (100 - scale) / 200) val)
      = spec_noise_channel scale (spec_byte 2 val) ∧
    spec_byte 3 (noise_rescale scale (255 * (100 - scale) / 200) val) = 0 ∧
    spec_noise_channel scale (spec_byte 0 val) ≤ 255 ∧
    spec_noise_channel scale (spec_byte 1 val) ≤ 255 ∧
    spec_noise_channel scale (spec_byte 2 val) ≤ 255 := by
  have m : ∀ z : Nat, z &&& 0xff = z % 256 := fun z => Nat.and_pow_two_sub_one_eq_mod z 8
  have c0 : ∀ ch : Nat, ch < 256 → ch * scale / 100 + 255 * (100 - scale) / 200 < 256 := by
    intro ch hch
    have h1 : ch * scale ≤ 255 * scale := Nat.mul_le_mul_right scale (by omega)
    omega
  have c1 : ∀ ch : Nat, ch < 256 →
      (ch * scale % 4294967296 / 100 + 255 * (100 - scale) / 200) % 4294967296
        = ch * scale / 100 + 255 * (100 - scale) / 200 := by
    intro ch hch
    have h1 : ch * scale ≤ 255 * scale := Nat.mul_le_mul_right scale (by omega)
    have h2 := c0 ch hch
    omega
  have hb : val >>> 16 % 256 < 256 := Nat.mod_lt _ (by decide)
  have hg : val >>> 8 % 256 < 256 := Nat.mod_lt _ (by decide)
  have hr : val % 256 < 256 := Nat.mod_lt _ (by decide)
  have e : noise_rescale scale (255 * (100 - scale) / 200) val
      = spec_noise_channel scale (val >>> 16 % 256) * 65536
        + spec_noise_channel scale (val >>> 8 % 256) * 256
        + spec_noise_channel scale (val % 256) := by
    unfold noise_rescale spec_noise_channel
    simp only [m, c1 _ hb, c1 _ hg, c1 _ hr]
    have s1 : ((val >>> 16 % 256 * scale / 100 + 255 * (100 - scale) / 200) <<< 16) % 4294967296
        = (val >>> 16 % 256 * scale / 100 + 255 * (100 - scale) / 200) <<< 16 := by
      rw [Nat.shiftLeft_eq]
      have := c0 _ hb
      omega
    have s2 : ((val >>> 8 % 256 * scale / 100 + 255 * (100 - scale) / 200) <<< 8) % 4294967296
        = (val >>> 8 % 256 * scale / 100 + 255 * (100 - scale) / 200) <<< 8 := by
      rw [Nat.shiftLeft_eq]
      have := c0 _ hg
      omega
    rw [s1, s2]
    exact pack_three_bytes _ _ _ (c0 _ hg) (c0 _ hr)
  have b0 := c0 _ hb
  have b1 := c0 _ hg
  have b2 := c0 _ hr
  have k0 : spec_byte 0 val = val % 256 := by
    unfold spec_byte
    omega
  have k1 : spec_byte 1 val = val >>> 8 % 256 := by
    unfold spec_byte
    rw [Nat.shiftRight_eq_div_pow]
    norm_num
  have k2 : spec_byte 2 val = val >>> 16 % 256 := by
    unfold spec_byte
    rw [Nat.shiftRight_eq_div_pow]
    norm_num
  rw [e, k0, k1, k2]
  unfold spec_noise_channel at b0 b1 b2 ⊢
  unfold spec_byte
  refine ⟨?_, ?_, ?_, ?_, ?_, ?_, ?_⟩ <;> omega

/-- The two loops of `init_noise`: every texel of the 64 textures is rescaled
once, nothing else is written. -/
theorem init_noise_loops (scale base : Nat) (textures : Nat → Nat → Nat) :
    (List.range noise_texture_count).foldl
      (fun textures tex =>
        array_set textures tex
          ((List.range (16 * 16)).foldl
            (fun row i => array_set row i (noise_rescale scale base (row i))) (textures tex)))
      textures
    = fun tex i =>
        if tex < noise_texture_count ∧ i < 256 then noise_rescale scale base (textures tex i)
        else textures tex i := by
  have inner : ∀ row : Nat → Nat,
      (List.range (16 * 16)).foldl
        (fun row i => array_set row i (noise_rescale scale base (row i))) row
      = fun j => if j < 16 * 16 then noise_rescale scale base (row j) else row j :=
    fun row => foldl_range_array_set _ (16 * 16) row
  simp only [inner]
  rw [foldl_range_array_set (fun row : Nat → Nat => fun j => if j < 16 * 16 then
      noise_rescale scale base (row j) else row j) noise_texture_count textures]
  funext tex i
  by_cases h1 : tex < noise_texture_count <;> by_cases h2 : i < 256 <;> simp [h1, h2]

/-- The function `init_noise` in a mode with a scale: the textures are rescaled,
the other globals are left alone. -/
theorem init_noise_textures (c : ctx_t) (now : Nat) (h : noise_scale c.cli_colors ≠ 0) :
    (init_noise c now).1.noise_textures
      = (fun tex i =>
          if tex < noise_texture_count ∧ i < 256 then
            noise_rescale (noise_scale c.cli_colors)
              (255 * (100 - noise_scale c.cli_colors) / 200) (c.noise_textures tex i)
          else c.noise_textures tex i) ∧
    (init_noise c now).1.noise_enabled = c.noise_enabled ∧
    (init_noise c now).1.cli_colors = c.cli_colors ∧
    (init_noise c now).1.noise_current = c.noise_current := by
  have e : ∀ T : Nat → Nat → Nat,
      T = (List.range noise_texture_count).foldl
        (fun textures tex =>
          array_set textures tex
            ((List.range (16 * 16)).foldl
              (fun row i => array_set row i
                (noise_rescale (noise_scale c.cli_colors)
                  (255 * (100 - noise_scale c.cli_colors) / 200) (row i))) (textures tex)))
        c.noise_textures →
      init_noise c now = ({ c with noise_textures := T }, now) := by
    intro T hT
    subst hT
    unfold init_noise
    simp only [h, if_false]
  rw [e _ (init_noise_loops _ _ _).symm]
  exact ⟨rfl, rfl, rfl, rfl⟩

/-- C27: `init_noise` uses the scale 95 in the dark and light modes, 30 in
3-bit, 20 in 4-bit and 2 in 8-bit mode, and in these modes replaces each of the
three 8-bit channels of every texel of all 64 textures by
`floor(c * scale / 100) + floor(255 * (100 - scale) / 200)`, each channel in its
own byte position (the result stays a byte, the fourth byte of the texel
becomes 0), leaving the noise switch as it was; in 24-bit mode it leaves every
texture unchanged and switches the noise off. -/
theorem C27_init_noise (c : ctx_t) (now : Nat) :
    noise_scale cli_colors_dark = 95 ∧ noise_scale cli_colors_light = 95 ∧
    noise_scale cli_colors_3bit = 30 ∧ noise_scale cli_colors_4bit = 20 ∧
    noise_scale cli_colors_8bit = 2 ∧ noise_texture_count = 64 ∧
    (c.cli_colors ≠ cli_colors_24bit →
      (init_noise c now).1.noise_enabled = c.noise_enabled ∧
      (init_noise c now).1.cli_colors = c.cli_colors ∧
      (init_noise c now).1.noise_current = c.noise_current ∧
      (∀ tex i, tex < 64 → i < 256 →
        spec_byte 0 ((init_noise c now).1.noise_textures tex i)
          = spec_noise_channel (noise_scale c.cli_colors) (spec_byte 0 (c.noise_textures tex i)) ∧
        spec_byte 1 ((init_noise c now).1.noise_textures tex i)
          = spec_noise_channel (noise_scale c.cli_colors) (spec_byte 1 (c.noise_textures tex i)) ∧
        spec_byte 2 ((init_noise c now).1.noise_textures tex i)
          = spec_noise_channel (noise_scale c.cli_colors) (spec_byte 2 (c.noise_textures tex i)) ∧
        spec_byte 3 ((init_noise c now).1.noise_textures tex i) = 0 ∧
        spec_noise_channel (noise_scale c.cli_colors) (spec_byte 0 (c.noise_textures tex i)) ≤ 255 ∧
        spec_noise_channel (noise_scale c.cli_colors) (spec_byte 1 (c.noise_textures tex i)) ≤ 255 ∧
        spec_noise_channel (noise_scale c.cli_colors) (spec_byte 2 (c.noise_textures tex i)) ≤ 255) ∧
      (∀ tex i, ¬ (tex < 64 ∧ i < 256) →
        (init_noise c now).1.noise_textures tex i = c.noise_textures tex i)) ∧
    (c.cli_colors = cli_colors_24bit →
      (init_noise c now).1.noise_enabled = false ∧
      (init_noise c now).1.noise_textures = c.noise_textures ∧
      (init_noise c now).1 = { c with noise_enabled := false }) ∧
    (init_noise c now).2 = now := by
  refine ⟨rfl, rfl, rfl, rfl, rfl, rfl, ?_, ?_, ?_⟩
  · intro hc
    have hs : noise_scale c.cli_colors ≠ 0 := by
      cases h : c.cli_colors <;> first | exact absurd h hc | (unfold noise_scale; decide)
    have hs100 : noise_scale c.cli_colors ≤ 100 := by
      cases h : c.cli_colors <;> (unfold noise_scale; decide)
    obtain ⟨t1, t2, t3, t4⟩ := init_noise_textures c now hs
    rw [t1]
    refine ⟨t2, t3, t4, ?_, ?_⟩
    · intro tex i ht hi
      have hti : tex < noise_texture_count ∧ i < 256 := ⟨ht, hi⟩
      simp only [hti, and_self, if_true]
      exact noise_rescale_bytes (noise_scale c.cli_colors) (c.noise_textures tex i) hs100
    · intro tex i hti
      have hti2 : ¬ (tex < noise_texture_count ∧ i < 256) := hti
      simp only [hti2, if_false]
  · intro hc
    have hs : noise_scale c.cli_colors = 0 := by
      rw [hc]
      rfl
    have e : init_noise c now = ({ c with noise_enabled := false }, now) := by
      unfold init_noise
      simp only [hs, if_true]
    rw [e]
    exact ⟨rfl, rfl, rfl⟩
  · unfold init_noise
    dsimp only
    split_ifs <;> rfl

/-! ## Properties of the output buffer -/

/-- With enough fuel the doubling loop ends at the first capacity
`capacity * 2^k` that holds `total` bytes. -/
theorem grow_capacity_spec (total : Nat) (ht : total < 9223372036854775808) :
    ∀ (n capacity : Nat), 1 ≤ capacity → total ≤ capacity * 2 ^ n →
      ∃ k, k ≤ n ∧ grow_capacity (n + 1) total capacity = some (capacity * 2 ^ k) ∧
        total ≤ capacity * 2 ^ k ∧ ∀ j, j < k → capacity * 2 ^ j < total := by
  intro n
  induction n with
  | zero =>
    intro capacity _ hle
    refine ⟨0, le_refl 0, ?_, hle, fun j hj => absurd hj (Nat.not_lt_zero j)⟩
    have h : ¬ total > capacity := by omega
    simp [grow_capacity, h]
  | succ n ih =>
    intro capacity hc hle
    by_cases h : total > capacity
    · have hm : capacity * 2 % 18446744073709551616 = capacity * 2 := by omega
      have hle2 : total ≤ capacity * 2 * 2 ^ n := by
        rw [Nat.mul_assoc, ← Nat.pow_succ']
        exact hle
      obtain ⟨k, hk, hg, h1, h2⟩ := ih (capacity * 2) (by omega) hle2
      refine ⟨k + 1, by omega, ?_, ?_, ?_⟩
      · rw [grow_capacity]
        simp only [h, if_true, hm]
        rw [hg, Nat.mul_assoc, ← Nat.pow_succ']
      · rw [Nat.pow_succ', ← Nat.mul_assoc]
        exact h1
      · intro j hj
        cases j with
        | zero =>
          rw [Nat.pow_zero, Nat.mul_one]
          exact h
        | succ j =>
          rw [Nat.pow_succ', ← Nat.mul_assoc]
          exact h2 j (by omega)
    · refine ⟨0, Nat.zero_le _, ?_, by omega, fun j hj => absurd hj (Nat.not_lt_zero j)⟩
      rw [grow_capacity]
      simp [h]

/-- Reading a list back element by element. -/
theorem map_range_getD (bytes : List Nat) :
    (List.range bytes.length).map (fun j => bytes.getD j 0) = bytes := by
  apply List.ext_getElem
  · simp
  · intro i h1 h2
    simp [List.getD_eq_getElem?_getD, List.getElem?_eq_getElem h2]

/-- The contents after `memcpy` at the end of the old contents. -/
theorem buffer_contents_memcpy (block old : Nat → Nat) (count : Nat) (bytes : List Nat)
    (h : ∀ i, i < count → block i = old i) :
    (List.range (count + bytes.length)).map (memcpy block count bytes)
      = (List.range count).map old ++ bytes := by
  rw [List.range_add, List.map_append, List.map_map]
  congr 1
  · apply List.map_congr_left
    intro i hi
    have hi2 : i < count := List.mem_range.mp hi
    have : ¬ (count ≤ i ∧ i < count + bytes.length) := by omega
    simp only [memcpy, this, if_false]
    exact h i hi2
  · have e : (memcpy block count bytes ∘ fun x => count + x) = fun j =>
        if j < bytes.length then bytes.getD j 0 else block (count + j) := by
      funext j
      simp only [memcpy, Function.comp]
      by_cases hj : j < bytes.length
      · have : count ≤ count + j ∧ count + j < count + bytes.length := by omega
        simp only [this, and_self, if_true, hj, Nat.add_sub_cancel_left]
      · have : ¬ (count ≤ count + j ∧ count + j < count + bytes.length) := by omega
        simp only [this, if_false, hj]
    rw [e]
    conv_rhs => rw [← map_range_getD bytes]
    apply List.map_congr_left
    intro j hj
    have hj2 : j < bytes.length := List.mem_range.mp hj
    simp only [hj2, if_true]

/-- C26: for every buffer with capacity at least 1 and used length at most the
capacity, and every byte string whose length added to the used length stays
below 2^63, `buffer_append` returns (given that `realloc` of a larger block
succeeds) with contents = old contents followed by the string, used length =
old length + the string's length, and capacity = old capacity * 2^k for the
least k that makes the capacity hold the new length (k = 0 when the string
fits); the capacity is again at least the used length. -/
theorem C26_buffer_append (heap : Nat → Option (Nat → Nat)) (b : buffer_t) (bytes : List Nat)
    (hcap : 1 ≤ b.buffer_capacity) (hcount : b.buffer_count ≤ b.buffer_capacity)
    (hsize : b.buffer_count + bytes.length < 9223372036854775808)
    (hheap : ∀ size, b.buffer_capacity < size → heap size ≠ none) :
    ∃ k b',
      buffer_append heap b bytes = append_result_t.returned b' ∧
      buffer_contents b' = buffer_contents b ++ bytes ∧
      b'.buffer_count = b.buffer_count + bytes.length ∧
      b'.buffer_capacity = b.buffer_capacity * 2 ^ k ∧
      b.buffer_count + bytes.length ≤ b.buffer_capacity * 2 ^ k ∧
      (∀ j, j < k → b.buffer_capacity * 2 ^ j < b.buffer_count + bytes.length) ∧
      (b.buffer_count + bytes.length ≤ b.buffer_capacity → k = 0) ∧
      b'.buffer_count ≤ b'.buffer_capacity := by
  have hm : (b.buffer_count + bytes.length) % 18446744073709551616
      = b.buffer_count + bytes.length := by omega
  by_cases hfit : b.buffer_count + bytes.length > b.buffer_capacity
  · have hpow : b.buffer_count + bytes.length ≤ b.buffer_capacity * 2 ^ 64 := by
      have : b.buffer_capacity * 1 ≤ b.buffer_capacity * 2 ^ 64 :=
        Nat.mul_le_mul_left _ (by norm_num)
      have e : (2 : Nat) ^ 64 = 18446744073709551616 := by norm_num
      rw [e] at this ⊢
      omega
    obtain ⟨k, _, hg, h1, h2⟩ := grow_capacity_spec (b.buffer_count + bytes.length) hsize 64
      b.buffer_capacity hcap hpow
    have hk : b.buffer_capacity < b.buffer_capacity * 2 ^ k := by omega
    obtain ⟨fresh, hfresh⟩ := Option.ne_none_iff_exists'.mp (hheap _ hk)
    refine ⟨k, ⟨memcpy (fun i => if i < min b.buffer_capacity (b.buffer_capacity * 2 ^ k)
      then b.buffer i else fresh i) b.buffer_count bytes, b.buffer_capacity * 2 ^ k,
      b.buffer_count + bytes.length⟩, ?_, ?_, rfl, rfl, h1, h2, ?_, h1⟩
    · unfold buffer_append
      simp only [hm, hfit, if_true, hg, realloc, hfresh, Option.map_some']
    · unfold buffer_contents
      apply buffer_contents_memcpy
      intro i hi
      have : i < min b.buffer_capacity (b.buffer_capacity * 2 ^ k) := by
        rw [Nat.lt_min]
        omega
      simp only [this, if_true]
    · intro hle
      omega
  · refine ⟨0, ⟨memcpy b.buffer b.buffer_count bytes, b.buffer_capacity,
      b.buffer_count + bytes.length⟩, ?_, ?_, rfl, by simp, by simp; omega,
      fun j hj => absurd hj (Nat.not_lt_zero j), fun _ => rfl, ?_⟩
    · unfold buffer_append
      simp only [hm, hfit, if_false]
    · unfold buffer_contents
      exact buffer_contents_memcpy _ _ _ _ (fun _ _ => rfl)
    · show b.buffer_count + bytes.length ≤ b.buffer_capacity
      omega

/-- C26 on a buffer of capacity 4 holding 3 bytes, to which 7 bytes are
appended: the capacity doubles twice. -/
theorem C26_buffer_append_witness :
    ∃ k b',
      buffer_append (fun _ => some (fun _ => 0)) ⟨fun i => i + 65, 4, 3⟩ [1, 2, 3, 4, 5, 6, 7]
        = append_result_t.returned b' ∧
      buffer_contents b' = buffer_contents ⟨fun i => i + 65, 4, 3⟩ ++ [1, 2, 3, 4, 5, 6, 7] ∧
      b'.buffer_count = 3 + 7 ∧
      b'.buffer_capacity = 4 * 2 ^ k ∧
      3 + 7 ≤ 4 * 2 ^ k ∧
      (∀ j, j < k → 4 * 2 ^ j < 3 + 7) ∧
      (3 + 7 ≤ 4 → k = 0) ∧
      b'.buffer_count ≤ b'.buffer_capacity :=
  C26_buffer_append (fun _ => some (fun _ => 0)) ⟨fun i => i + 65, 4, 3⟩ [1, 2, 3, 4, 5, 6, 7]
    (by decide) (by decide) (by decide) (fun _ _ => by simp)

/-! ## Properties of the release simulation -/

/-- The state of a key after a sweep that is due for it. -/
theorem release_step_keyinfos (now : Nat) (st : input_t) (key k : Nat) :
    (release_step now st key).keyinfos k
      = if k = key ∧ release_due now st key = true then
          { st.keyinfos key with
            state := if (st.keyinfos key).state = keystate_down then keystate_wait
              else keystate_off }
        else st.keyinfos k := by
  unfold release_step
  by_cases hd : release_due now st key = true
  · simp only [hd, if_true, and_true]
    by_cases hw : (st.keyinfos key).state ≠ keystate_wait
    · simp only [hw, ne_eq, not_false_eq_true, if_true]
      show array_set st.keyinfos key _ k = _
      rw [array_set_apply]
    · simp only [hw, if_false]
      show array_set st.keyinfos key _ k = _
      rw [array_set_apply]
  · simp only [hd, and_false, if_false, Bool.false_eq_true]

/-- What one pass of the sweep leaves unchanged. -/
theorem release_step_frame (now : Nat) (st : input_t) (key : Nat) :
    (release_step now st key).key_repeat_rate = st.key_repeat_rate ∧
    (release_step now st key).key_repeat_delay = st.key_repeat_delay ∧
    (release_step now st key).keybuffer_read = st.keybuffer_read ∧
    (release_step now st key).stdin = st.stdin ∧
    (release_step now st key).have_csi = st.have_csi ∧
    (release_step now st key).clock = st.clock ∧
    (release_step now st key).clock_calls = st.clock_calls ∧
    measurements (release_step now st key) = measurements st := by
  unfold release_step
  dsimp only
  split_ifs <;> exact ⟨rfl, rfl, rfl, rfl, rfl, rfl, rfl, rfl⟩

/-- What one pass of the sweep enqueues. -/
theorem release_step_enqueues (now : Nat) (st : input_t) (key : Nat) (hkey : key < 256) :
    enqueued st (release_step now st key)
      (if release_due now st key = true ∧ (st.keyinfos key).state ≠ keystate_wait then
        [⟨false, key⟩] else []) := by
  unfold release_step
  by_cases hd : release_due now st key = true
  · simp only [hd, if_true, true_and]
    by_cases hw : (st.keyinfos key).state ≠ keystate_wait
    · simp only [hw, ne_eq, not_false_eq_true, if_true]
      refine ⟨?_, rfl, rfl⟩
      show array_set st.keybuffer st.keybuffer_write ⟨false, key % 256⟩ = _
      rw [Nat.mod_eq_of_lt hkey]
      rfl
    · simp only [hw, if_false]
      exact ⟨rfl, rfl, rfl⟩
  · simp only [hd, false_and, if_false, Bool.false_eq_true]
    exact ⟨rfl, rfl, rfl⟩

/-- Whether a key is due depends on its own record and the two estimates. -/
theorem release_due_congr (now : Nat) (s t : input_t) (key : Nat)
    (h1 : s.keyinfos key = t.keyinfos key) (h2 : s.key_repeat_rate = t.key_repeat_rate)
    (h3 : s.key_repeat_delay = t.key_repeat_delay) :
    release_due now s key = release_due now t key := by
  unfold release_due release_expected
  rw [h1, h2, h3]

/-- The state after the first `n` passes of the loop of
`simulate_release_events`. -/
theorem release_loop_effect (now : Nat) (st : input_t) :
    ∀ n, n ≤ 256 →
      (∀ k, ((List.range n).foldl (release_step now) st).keyinfos k
        = if k < n ∧ release_due now st k = true then
            { st.keyinfos k with
              state := if (st.keyinfos k).state = keystate_down then keystate_wait
                else keystate_off }
          else st.keyinfos k) ∧
      ((List.range n).foldl (release_step now) st).key_repeat_rate = st.key_repeat_rate ∧
      ((List.range n).foldl (release_step now) st).key_repeat_delay = st.key_repeat_delay ∧
      ((List.range n).foldl (release_step now) st).stdin = st.stdin ∧
      ((List.range n).foldl (release_step now) st).have_csi = st.have_csi ∧
      ((List.range n).foldl (release_step now) st).clock = st.clock ∧
      ((List.range n).foldl (release_step now) st).clock_calls = st.clock_calls ∧
      measurements ((List.range n).foldl (release_step now) st) = measurements st ∧
      enqueued st ((List.range n).foldl (release_step now) st)
        ((List.range n).filterMap (fun key =>
          if release_due now st key = true ∧ (st.keyinfos key).state ≠ keystate_wait then
            some ⟨false, key⟩
          else none)) := by
  intro n
  induction n with
  | zero =>
    intro _
    refine ⟨fun k => ?_, rfl, rfl, rfl, rfl, rfl, rfl, rfl, rfl, rfl, rfl⟩
    simp
  | succ n ih =>
    intro hn
    obtain ⟨a1, a2, a3, a4, a5, a6, a7, a8, a9⟩ := ih (by omega)
    rw [List.range_succ, List.foldl_append, List.filterMap_append]
    simp only [List.foldl_cons, List.foldl_nil]
    have hdue : release_due now ((List.range n).foldl (release_step now) st) n
        = release_due now st n := by
      apply release_due_congr _ _ _ _ _ a2 a3
      rw [a1 n]
      simp
    have hrec : ((List.range n).foldl (release_step now) st).keyinfos n = st.keyinfos n := by
      rw [a1 n]
      simp
    obtain ⟨f1, f2, _, f4, f5, f6, f7, f8⟩ :=
      release_step_frame now ((List.range n).foldl (release_step now) st) n
    refine ⟨fun k => ?_, f1.trans a2, f2.trans a3, f4.trans a4, f5.trans a5, f6.trans a6,
      f7.trans a7, f8.trans a8, ?_⟩
    · rw [release_step_keyinfos, hdue, hrec, a1 k]
      by_cases hk : k = n
      · subst hk
        by_cases hd : release_due now st k = true
        · simp [hd]
        · simp [hd]
      · by_cases hk2 : k < n
        · have : k < n + 1 := by omega
          simp [hk, hk2, this]
        · have : ¬ k < n + 1 := by omega
          simp [hk, hk2, this]
    · have e := release_step_enqueues now ((List.range n).foldl (release_step now) st) n
        (by omega)
      rw [hdue, hrec] at e
      have e2 : List.filterMap (fun key =>
          if release_due now st key = true ∧ (st.keyinfos key).state ≠ keystate_wait then
            some (⟨false, key⟩ : keyevent_t)
          else none) [n]
          = (if release_due now st n = true ∧ (st.keyinfos n).state ≠ keystate_wait then
              [⟨false, n⟩] else []) := by
        by_cases hc : release_due now st n = true ∧ (st.keyinfos n).state ≠ keystate_wait
        · simp [hc]
        · simp only [List.filterMap_cons, hc, if_false, List.filterMap_nil]
      rw [e2]
      exact enqueued_trans _ _ _ _ _ a9 e

/-- The function `simulate_release_events` as its loop, started at the state
after the clock was read. -/
theorem simulate_release_events_loop (st : input_t) :
    simulate_release_events st
      = (List.range 256).foldl (release_step (st.clock st.clock_calls % 4294967296))
          { st with clock_calls := st.clock_calls + 1 } := by
  unfold simulate_release_events DG_GetTicksMs
  rfl

/-- Events enqueued after a state are enqueued after every state with the same
queue. -/
theorem enqueued_of_same_queue (a a' b : input_t) (evs : List keyevent_t)
    (h1 : a'.keybuffer = a.keybuffer) (h2 : a'.keybuffer_write = a.keybuffer_write)
    (h3 : a'.keybuffer_read = a.keybuffer_read) (h : enqueued a b evs) : enqueued a' b evs := by
  obtain ⟨p1, p2, p3⟩ := h
  obtain ⟨r1, r2⟩ := foldl_queue_push_congr evs a' a h1 h2
  exact ⟨p1.trans r1.symm, p2.trans r2.symm, p3.trans h3.symm⟩

/-- The effect of one call of `simulate_release_events` that reads the time
`now` from the clock: every key that is due changes state, a release event is
enqueued for those of them that are not waiting, in key order, and nothing else
changes but the count of clock readings. -/
theorem sweep_effect (st : input_t) :
    (∀ k, (simulate_release_events st).keyinfos k
      = if k < 256 ∧ release_due (st.clock st.clock_calls % 4294967296) st k = true then
          { st.keyinfos k with
            state := if (st.keyinfos k).state = keystate_down then keystate_wait
              else keystate_off }
        else st.keyinfos k) ∧
    (simulate_release_events st).key_repeat_rate = st.key_repeat_rate ∧
    (simulate_release_events st).key_repeat_delay = st.key_repeat_delay ∧
    (simulate_release_events st).stdin = st.stdin ∧
    (simulate_release_events st).have_csi = st.have_csi ∧
    (simulate_release_events st).clock = st.clock ∧
    (simulate_release_events st).clock_calls = st.clock_calls + 1 ∧
    measurements (simulate_release_events st) = measurements st ∧
    enqueued st (simulate_release_events st)
      (sweep_events (st.clock st.clock_calls % 4294967296) st) := by
  obtain ⟨h1, h2, h3, h4, h5, h6, h7, h8, h9⟩ :=
    release_loop_effect (st.clock st.clock_calls % 4294967296)
      { st with clock_calls := st.clock_calls + 1 } 256 (le_refl 256)
  rw [simulate_release_events_loop]
  have hd : ∀ k, release_due (st.clock st.clock_calls % 4294967296)
      { st with clock_calls := st.clock_calls + 1 } k
      = release_due (st.clock st.clock_calls % 4294967296) st k :=
    fun k => release_due_congr _ _ _ k rfl rfl rfl
  refine ⟨fun k => ?_, h2, h3, h4, h5, h6, h7, h8, ?_⟩
  · rw [h1 k, hd k]
  · unfold sweep_events
    simp only [hd] at h9
    exact enqueued_of_same_queue { st with clock_calls := st.clock_calls + 1 } st _ _
      rfl rfl rfl h9

/-- A key that is off is never due. -/
theorem release_due_off (now : Nat) (st : input_t) (key : Nat)
    (h : (st.keyinfos key).state = keystate_off) : release_due now st key = false := by
  unfold release_due
  simp [h]

/-- Without 32-bit wrap a key is due iff it is not off and the time `now` has
reached the last recorded press plus the window. -/
theorem release_due_iff (now : Nat) (st : input_t) (key : Nat)
    (htn : (st.keyinfos key).time_next < 5)
    (hw : spec_last_press (st.keyinfos key) + spec_window st key < 4294967296) :
    release_due now st key = true
      ↔ (st.keyinfos key).state ≠ keystate_off ∧
        spec_last_press (st.keyinfos key) + spec_window st key ≤ now := by
  have hi : last_time_index (st.keyinfos key) = ((st.keyinfos key).time_next + 4) % 5 := by
    unfold last_time_index TIME_CAPACITY
    omega
  have he : release_expected st key = spec_window st key := by
    unfold release_expected spec_window key_repeat_threshold at *
    split_ifs at hw ⊢ <;> omega
  have hl : to_uint32 (to_int32 (spec_last_press (st.keyinfos key)))
      = spec_last_press (st.keyinfos key) := by
    unfold to_uint32 to_int32
    split_ifs <;> omega
  unfold release_due
  rw [hi, he]
  unfold spec_last_press at hl hw ⊢
  rw [hl, decide_eq_true_eq, Nat.mod_eq_of_lt hw, Nat.not_lt]

/-- The events for one key among the release events of keys picked from a list
without repetition. -/
theorem filter_release_events (c : Nat → Prop) [DecidablePred c] (key : Nat) :
    ∀ l : List Nat, l.Nodup →
      (l.filterMap (fun k => if c k then some (⟨false, k⟩ : keyevent_t) else none)).filter
          (fun e => decide (e.key = key))
        = if key ∈ l ∧ c key then [⟨false, key⟩] else [] := by
  intro l
  induction l with
  | nil =>
    intro _
    simp
  | cons x xs ih =>
    intro hnd
    rw [List.nodup_cons] at hnd
    obtain ⟨hx, hxs⟩ := hnd
    have ih2 := ih hxs
    by_cases hcx : c x
    · by_cases hk : x = key
      · subst hk
        have hnot : ¬ (x ∈ xs ∧ c x) := fun h => hx h.1
        rw [if_neg hnot] at ih2
        simp [List.filterMap_cons, hcx, ih2]
      · have hk2 : ¬ key = x := fun h => hk h.symm
        simp only [List.filterMap_cons, hcx, if_true, List.filter_cons, hk, decide_False,
          Bool.false_eq_true, if_false, ih2, List.mem_cons, hk2, false_or]
    · by_cases hk : x = key
      · subst hk
        have hnot : ¬ (x ∈ xs ∧ c x) := fun h => hx h.1
        rw [if_neg hnot] at ih2
        simp [List.filterMap_cons, hcx, ih2]
      · have hk2 : ¬ key = x := fun h => hk h.symm
        simp only [List.filterMap_cons, hcx, if_false, ih2, List.mem_cons, hk2, false_or]

/-- The release events of one sweep for one key: one event if the key is due
and not waiting, none otherwise. -/
theorem sweep_events_of_key (now : Nat) (st : input_t) (key : Nat) (hkey : key < 256) :
    (sweep_events now st).filter (fun e => decide (e.key = key))
      = if release_due now st key = true ∧ (st.keyinfos key).state ≠ keystate_wait then
          [⟨false, key⟩] else [] := by
  unfold sweep_events
  rw [filter_release_events
    (fun k => release_due now st k = true ∧ (st.keyinfos k).state ≠ keystate_wait) key
    (List.range 256) (List.nodup_range 256)]
  have hm : key ∈ List.range 256 := List.mem_range.mpr hkey
  simp only [hm, true_and]

/-- One more sweep. -/
theorem sweeps_succ (st : input_t) (n : Nat) :
    sweeps st (n + 1) = simulate_release_events (sweeps st n) := rfl

/-- The events of one more sweep. -/
theorem sweeps_events_succ (st : input_t) (n : Nat) :
    sweeps_events st (n + 1) = sweeps_events st n
      ++ sweep_events ((sweeps st n).clock (sweeps st n).clock_calls % 4294967296)
          (sweeps st n) := rfl

/-- Successive sweeps enqueue their release events in order. -/
theorem sweeps_enqueue (st : input_t) : ∀ n, enqueued st (sweeps st n) (sweeps_events st n) := by
  intro n
  induction n with
  | zero => exact ⟨rfl, rfl, rfl⟩
  | succ n ih =>
    rw [sweeps_succ, sweeps_events_succ]
    exact enqueued_trans _ _ _ _ _ ih (sweep_effect (sweeps st n)).2.2.2.2.2.2.2.2

/-- A sweep enqueues no event for a key that is waiting or off, and leaves it
waiting or off. -/
theorem sweep_of_released_key (st : input_t) (key : Nat) (hkey : key < 256)
    (hs : (st.keyinfos key).state = keystate_wait ∨ (st.keyinfos key).state = keystate_off) :
    (sweep_events (st.clock st.clock_calls % 4294967296) st).filter
        (fun e => decide (e.key = key)) = [] ∧
    (((simulate_release_events st).keyinfos key).state = keystate_wait ∨
      ((simulate_release_events st).keyinfos key).state = keystate_off) := by
  constructor
  · rw [sweep_events_of_key _ st key hkey]
    rcases hs with h | h
    · rw [if_neg (fun x => x.2 h)]
    · rw [if_neg (fun x => by rw [release_due_off _ st key h] at x; exact Bool.noConfusion x.1)]
  · rw [(sweep_effect st).1 key]
    by_cases hd : key < 256 ∧ release_due (st.clock st.clock_calls % 4294967296) st key = true
    · rw [if_pos hd]
      rcases hs with h | h
      · right
        show (if (st.keyinfos key).state = keystate_down then keystate_wait else keystate_off)
          = keystate_off
        rw [h]
        rfl
      · rw [release_due_off _ st key h] at hd
        exact Bool.noConfusion hd.2
    · rw [if_neg hd]
      exact hs

/-- C22, amended: for every key below 256 in state down whose last recorded
press is more than `2 * 10 + key_repeat_delay` ms before the clock reading,
where the 32-bit clock has not wrapped since the press (the reading of the
sweep is below 2^32 and above the press time plus the window), one call of
`simulate_release_events` moves the key to waiting, not off, and enqueues
exactly one release event for it; over any number of further sweeps, whatever
the clock reads, that release event stays the only event enqueued for the key,
which is then waiting or off. -/
theorem C22_down_key_release (st : input_t) (key : Nat) (hkey : key < 256)
    (hdown : (st.keyinfos key).state = keystate_down)
    (htn : (st.keyinfos key).time_next < 5)
    (hnow : st.clock st.clock_calls < 4294967296)
    (hlate : spec_last_press (st.keyinfos key) + (2 * 10 + st.key_repeat_delay)
      < st.clock st.clock_calls) :
    ((simulate_release_events st).keyinfos key).state = keystate_wait ∧
    (sweep_events (st.clock st.clock_calls % 4294967296) st).filter
      (fun e => decide (e.key = key)) = [⟨false, key⟩] ∧
    enqueued st (simulate_release_events st)
      (sweep_events (st.clock st.clock_calls % 4294967296) st) ∧
    (∀ n, enqueued st (sweeps st (n + 1)) (sweeps_events st (n + 1)) ∧
      (sweeps_events st (n + 1)).filter (fun e => decide (e.key = key)) = [⟨false, key⟩] ∧
      (((sweeps st (n + 1)).keyinfos key).state = keystate_wait ∨
        ((sweeps st (n + 1)).keyinfos key).state = keystate_off)) := by
  have hwin : spec_window st key = 2 * 10 + st.key_repeat_delay := by
    unfold spec_window
    rw [hdown]
    rfl
  have hmod : st.clock st.clock_calls % 4294967296 = st.clock st.clock_calls :=
    Nat.mod_eq_of_lt hnow
  have hd : release_due (st.clock st.clock_calls % 4294967296) st key = true := by
    rw [release_due_iff _ st key htn (by rw [hwin]; omega), hwin, hmod]
    exact ⟨by rw [hdown]; decide, by omega⟩
  have h1 : ((simulate_release_events st).keyinfos key).state = keystate_wait := by
    rw [(sweep_effect st).1 key, if_pos ⟨hkey, hd⟩]
    show (if (st.keyinfos key).state = keystate_down then keystate_wait else keystate_off)
      = keystate_wait
    rw [if_pos hdown]
  have h2 : (sweep_events (st.clock st.clock_calls % 4294967296) st).filter
      (fun e => decide (e.key = key)) = [⟨false, key⟩] := by
    rw [sweep_events_of_key _ st key hkey, if_pos ⟨hd, by rw [hdown]; decide⟩]
  refine ⟨h1, h2, (sweep_effect st).2.2.2.2.2.2.2.2, ?_⟩
  intro n
  refine ⟨sweeps_enqueue st (n + 1), ?_⟩
  induction n with
  | zero =>
    have z1 : sweeps st (0 + 1) = simulate_release_events st := rfl
    have z2 : sweeps_events st (0 + 1)
        = sweep_events (st.clock st.clock_calls % 4294967296) st := rfl
    rw [z1, z2]
    exact ⟨h2, Or.inl h1⟩
  | succ n ih =>
    obtain ⟨e1, s1⟩ := ih
    obtain ⟨e2, s2⟩ := sweep_of_released_key (sweeps st (n + 1)) key hkey s1
    rw [sweeps_succ st (n + 1), sweeps_events_succ st (n + 1), List.filter_append, e1, e2,
      List.append_nil]
    exact ⟨rfl, s2⟩

/-- C22 on a key that is down, last pressed at 1000, with the delay estimate
500, swept at time 2000 and again later. -/
theorem C22_down_key_release_witness :
    ((simulate_release_events
        { initial_input 2000 with
          keyinfos := fun _ => ⟨fun _ => 1000, 1, 1, keystate_down, false⟩ }).keyinfos
      65).state = keystate_wait ∧
    (sweeps_events
        { initial_input 2000 with
          keyinfos := fun _ => ⟨fun _ => 1000, 1, 1, keystate_down, false⟩ } (2 + 1)).filter
      (fun e => decide (e.key = 65)) = [⟨false, 65⟩] :=
  ⟨(C22_down_key_release
      { initial_input 2000 with
        keyinfos := fun _ => ⟨fun _ => 1000, 1, 1, keystate_down, false⟩ } 65 (by decide) rfl
      (by decide) (by decide) (by decide)).1,
   ((C22_down_key_release
      { initial_input 2000 with
        keyinfos := fun _ => ⟨fun _ => 1000, 1, 1, keystate_down, false⟩ } 65 (by decide) rfl
      (by decide) (by decide) (by decide)).2.2.2 2).2.1⟩

/-- Counterexample to claim C22 as stated: the key 65 is down, last pressed at
the reading 4294966296 (1000 ms before the 32-bit clock wraps), with the delay
estimate 500. The sweep comes 1100 ms after the press, more than
`2 * 10 + 500` ms later, but the clock has wrapped and reads 100. The test
`now < last_time + expected` compares 100 with 4294966816, finds the key not
due, and the sweep leaves it down and enqueues no release event for it. -/
theorem C22_clock_wrap_counterexample :
    (({ initial_input 4294967396 with
        keyinfos := fun _ => ⟨fun _ => 4294966296, 1, 1, keystate_down, false⟩ }
      : input_t).keyinfos 65).state = keystate_down ∧
    spec_last_press (({ initial_input 4294967396 with
        keyinfos := fun _ => ⟨fun _ => 4294966296, 1, 1, keystate_down, false⟩ }
      : input_t).keyinfos 65)
      + (2 * 10 + ({ initial_input 4294967396 with
        keyinfos := fun _ => ⟨fun _ => 4294966296, 1, 1, keystate_down, false⟩ }
      : input_t).key_repeat_delay) < 4294967396 ∧
    (initial_input 4294967396).clock (initial_input 4294967396).clock_calls % 4294967296
      = 100 ∧
    ((simulate_release_events
        { initial_input 4294967396 with
          keyinfos := fun _ => ⟨fun _ => 4294966296, 1, 1, keystate_down, false⟩ }).keyinfos
      65).state = keystate_down ∧
    (sweep_events 100
        { initial_input 4294967396 with
          keyinfos := fun _ => ⟨fun _ => 4294966296, 1, 1, keystate_down, false⟩ }).filter
      (fun e => decide (e.key = 65)) = [] ∧
    (simulate_release_events
        { initial_input 4294967396 with
          keyinfos := fun _ => ⟨fun _ => 4294966296, 1, 1, keystate_down, false⟩ }).keybuffer_write
      = 0 := by
  refine ⟨rfl, by decide, by decide, ?_, ?_, ?_⟩
  · rw [(sweep_effect _).1 65]
    decide
  · rw [sweep_events_of_key _ _ 65 (by decide)]
    decide
  · rw [(sweep_effect _).2.2.2.2.2.2.2.2.2.1]
    have h : sweep_events 100
        { initial_input 4294967396 with
          keyinfos := fun _ => ⟨fun _ => 4294966296, 1, 1, keystate_down, false⟩ } = [] := by
      unfold sweep_events
      rw [List.filterMap_eq_nil_iff]
      intro k _
      rw [if_neg]
      rintro ⟨h, _⟩
      have h65 : release_due 100
          { initial_input 4294967396 with
            keyinfos := fun _ => ⟨fun _ => 4294966296, 1, 1, keystate_down, false⟩ } 65
          = true := h
      revert h65
      decide
    show ((sweep_events 100 _).foldl queue_push _).keybuffer_write = 0
    rw [h]
    rfl

/-! ## Properties of the key queue -/

/-- The write index after a run of pushes. -/
theorem foldl_queue_push_write (evs : List keyevent_t) :
    ∀ a : input_t, a.keybuffer_write < 64 →
      (evs.foldl queue_push a).keybuffer_write = (a.keybuffer_write + evs.length) % 64 := by
  induction evs with
  | nil =>
    intro a ha
    exact (Nat.mod_eq_of_lt ha).symm
  | cons e es ih =>
    intro a ha
    rw [List.foldl_cons, ih (queue_push a e) (Nat.mod_lt _ (by decide))]
    show ((a.keybuffer_write + 1) % 64 + es.length) % 64 = _
    rw [List.length_cons]
    omega

/-- A run of pushes writes only the slots from the write index on. -/
theorem foldl_queue_push_frame (evs : List keyevent_t) :
    ∀ a : input_t, a.keybuffer_write < 64 → ∀ j,
      (∀ i, i < evs.length → j ≠ (a.keybuffer_write + i) % 64) →
      (evs.foldl queue_push a).keybuffer j = a.keybuffer j := by
  induction evs with
  | nil =>
    intro a _ j _
    rfl
  | cons e es ih =>
    intro a ha j hj
    rw [List.foldl_cons, ih (queue_push a e) (Nat.mod_lt _ (by decide)) j]
    · show array_set a.keybuffer a.keybuffer_write e j = _
      have h0 := hj 0 (by simp)
      rw [Nat.add_zero, Nat.mod_eq_of_lt ha] at h0
      exact array_set_other _ _ _ _ h0
    · intro i hi
      have h1 := hj (i + 1) (by simp; omega)
      show j ≠ ((a.keybuffer_write + 1) % 64 + i) % 64
      omega

/-- Up to 64 pushes are found in the slots from the write index on, in order. -/
theorem foldl_queue_push_content (evs : List keyevent_t) :
    ∀ a : input_t, a.keybuffer_write < 64 → evs.length ≤ 64 → ∀ i, i < evs.length →
      evs[i]? = some ((evs.foldl queue_push a).keybuffer ((a.keybuffer_write + i) % 64)) := by
  induction evs with
  | nil =>
    intro a _ _ i hi
    exact absurd hi (Nat.not_lt_zero i)
  | cons e es ih =>
    intro a ha hl i hi
    rw [List.length_cons] at hl hi
    rw [List.foldl_cons]
    cases i with
    | zero =>
      rw [foldl_queue_push_frame es (queue_push a e) (Nat.mod_lt _ (by decide))]
      · rw [Nat.add_zero, Nat.mod_eq_of_lt ha]
        show _ = some (array_set a.keybuffer a.keybuffer_write e a.keybuffer_write)
        rw [array_set_same, List.getElem?_cons_zero]
      · intro i hi2
        show (a.keybuffer_write + 0) % 64 ≠ ((a.keybuffer_write + 1) % 64 + i) % 64
        omega
    | succ i =>
      have h := ih (queue_push a e) (Nat.mod_lt _ (by decide)) (by omega) i (by omega)
      have e1 : ((queue_push a e).keybuffer_write + i) % 64 = (a.keybuffer_write + (i + 1)) % 64 := by
        show ((a.keybuffer_write + 1) % 64 + i) % 64 = _
        omega
      rw [e1] at h
      rw [List.getElem?_cons_succ]
      exact h

/-- With no release pending a sweep enqueues nothing. -/
theorem sweep_events_nil (st : input_t) (hq : no_release_pending st) :
    sweep_events (st.clock st.clock_calls % 4294967296) st = [] := by
  unfold sweep_events
  rw [List.filterMap_eq_nil_iff]
  intro key hkey
  rw [if_neg]
  intro h
  exact h.2 (hq st.clock_calls key (List.mem_range.mp hkey) h.1)

/-- With no release pending a sweep leaves the queue, the input and the clock
alone, and no release is pending after it. -/
theorem sweep_quiet (st : input_t) (hq : no_release_pending st) :
    (simulate_release_events st).keybuffer = st.keybuffer ∧
    (simulate_release_events st).keybuffer_write = st.keybuffer_write ∧
    (simulate_release_events st).keybuffer_read = st.keybuffer_read ∧
    (simulate_release_events st).stdin = st.stdin ∧
    no_release_pending (simulate_release_events st) := by
  obtain ⟨h1, h2, h3, h4, _, h6, _, _, h9⟩ := sweep_effect st
  rw [sweep_events_nil st hq] at h9
  refine ⟨h9.1, h9.2.1, h9.2.2, h4, ?_⟩
  intro n key hkey hdue
  rw [h6] at hdue
  by_cases hd : release_due (st.clock st.clock_calls % 4294967296) st key = true
  · have hwait := hq st.clock_calls key hkey hd
    have hoff : ((simulate_release_events st).keyinfos key).state = keystate_off := by
      rw [h1 key, if_pos ⟨hkey, hd⟩]
      show (if (st.keyinfos key).state = keystate_down then keystate_wait else keystate_off)
        = keystate_off
      rw [hwait]
      rfl
    rw [release_due_off _ _ key hoff] at hdue
    exact Bool.noConfusion hdue
  · have hrec : (simulate_release_events st).keyinfos key = st.keyinfos key := by
      rw [h1 key, if_neg (fun x => hd x.2)]
    rw [release_due_congr _ _ st key hrec h2 h3] at hdue
    rw [hrec]
    exact hq n key hkey hdue

/-- Moving the read index does not make a release pending. -/
theorem no_release_pending_read (st : input_t) (r : Nat) (hq : no_release_pending st) :
    no_release_pending { st with keybuffer_read := r } := by
  intro n key hkey hdue
  exact hq n key hkey ((release_due_congr _ _ st key rfl rfl rfl).symm.trans hdue)

/-- A call of `DG_GetKey` with no new input and no release pending, on a queue
that is not empty: the oldest event is returned and the read index advances. -/
theorem DG_GetKey_event (K : doomkeys_t) (st : input_t) (out_pressed : Int) (out_key : Nat)
    (hs : st.stdin = []) (hq : no_release_pending st)
    (hne : st.keybuffer_read ≠ st.keybuffer_write) :
    ∃ st', DG_GetKey K st out_pressed out_key
        = some (1, pressed_value (st.keybuffer st.keybuffer_read),
            (st.keybuffer st.keybuffer_read).key, st') ∧
      st'.stdin = [] ∧ no_release_pending st' ∧ st'.keybuffer = st.keybuffer ∧
      st'.keybuffer_write = st.keybuffer_write ∧
      st'.keybuffer_read = (st.keybuffer_read + 1) % 64 := by
  obtain ⟨q1, q2, q3, q4, q5⟩ := sweep_quiet st hq
  have e : DG_GetKey K st out_pressed out_key
      = some (if (simulate_release_events st).keybuffer_read
            ≠ (simulate_release_events st).keybuffer_write then
          (1, (if ((simulate_release_events st).keybuffer
              (simulate_release_events st).keybuffer_read).pressed then 1 else 0),
            ((simulate_release_events st).keybuffer
              (simulate_release_events st).keybuffer_read).key,
            { simulate_release_events st with
              keybuffer_read :=
                ((simulate_release_events st).keybuffer_read + 1) % KEYBUFFER_CAPACITY })
        else (0, out_pressed, out_key, simulate_release_events st)) := by
    unfold DG_GetKey
    rw [doomcli_read_input_nil K st hs, Option.map_some']
  rw [e]
  revert q1 q2 q3 q4 q5
  generalize simulate_release_events st = S
  intro q1 q2 q3 q4 q5
  have hne2 : S.keybuffer_read ≠ S.keybuffer_write := by
    rw [q2, q3]
    exact hne
  rw [if_pos hne2, q1, q3]
  exact ⟨_, rfl, q4.trans hs, no_release_pending_read S _ q5, q1, q2, rfl⟩

/-- A call of `DG_GetKey` with no new input and no release pending, on an empty
queue: 0 is returned and the outputs are not written. -/
theorem DG_GetKey_empty (K : doomkeys_t) (st : input_t) (out_pressed : Int) (out_key : Nat)
    (hs : st.stdin = []) (hq : no_release_pending st)
    (he : st.keybuffer_read = st.keybuffer_write) :
    ∃ st', DG_GetKey K st out_pressed out_key = some (0, out_pressed, out_key, st') ∧
      st'.stdin = [] ∧ no_release_pending st' ∧ st'.keybuffer = st.keybuffer ∧
      st'.keybuffer_write = st.keybuffer_write ∧
      st'.keybuffer_read = st.keybuffer_read := by
  obtain ⟨q1, q2, q3, q4, q5⟩ := sweep_quiet st hq
  have e : DG_GetKey K st out_pressed out_key
      = some (if (simulate_release_events st).keybuffer_read
            ≠ (simulate_release_events st).keybuffer_write then
          (1, (if ((simulate_release_events st).keybuffer
              (simulate_release_events st).keybuffer_read).pressed then 1 else 0),
            ((simulate_release_events st).keybuffer
              (simulate_release_events st).keybuffer_read).key,
            { simulate_release_events st with
              keybuffer_read :=
                ((simulate_release_events st).keybuffer_read + 1) % KEYBUFFER_CAPACITY })
        else (0, out_pressed, out_key, simulate_release_events st)) := by
    unfold DG_GetKey
    rw [doomcli_read_input_nil K st hs, Option.map_some']
  rw [e]
  revert q1 q2 q3 q4 q5
  generalize simulate_release_events st = S
  intro q1 q2 q3 q4 q5
  have he2 : S.keybuffer_read = S.keybuffer_write := by
    rw [q2, q3]
    exact he
  rw [if_neg (fun h => h he2)]
  exact ⟨S, rfl, q4.trans hs, q5, q1, q2, q3⟩

/-- One more call of `DG_GetKey`. -/
theorem DG_GetKey_calls_succ (K : doomkeys_t) (n : Nat) (st : input_t) (out_pressed : Int)
    (out_key : Nat) (r : Int × Int × Nat × input_t)
    (h : DG_GetKey K st out_pressed out_key = some r) :
    DG_GetKey_calls K (n + 1) st out_pressed out_key
      = (DG_GetKey_calls K n r.2.2.2 r.2.1 r.2.2.1).map (fun rest =>
          ((r.1, r.2.1, r.2.2.1) :: rest.1, rest.2)) := by
  rw [DG_GetKey_calls, h, Option.some_bind]

/-- No call of `DG_GetKey`. -/
theorem DG_GetKey_calls_zero (K : doomkeys_t) (st : input_t) (out_pressed : Int)
    (out_key : Nat) : DG_GetKey_calls K 0 st out_pressed out_key = some ([], st) := rfl

/-- Draining a queue that holds the events `evs` in its slots from the read
index on: each call returns the next event, the call after the last returns 0
and leaves the outputs as they were. -/
theorem DG_GetKey_calls_drain (K : doomkeys_t) :
    ∀ (evs : List keyevent_t) (st : input_t) (out_pressed : Int) (out_key : Nat),
      st.stdin = [] → no_release_pending st → st.keybuffer_read < 64 → evs.length ≤ 63 →
      st.keybuffer_write = (st.keybuffer_read + evs.length) % 64 →
      (∀ i, i < evs.length → evs[i]? = some (st.keybuffer ((st.keybuffer_read + i) % 64))) →
      ∃ st', DG_GetKey_calls K (evs.length + 1) st out_pressed out_key
        = some (evs.map (fun e => (1, pressed_value e, e.key))
            ++ [(0, (last_outputs evs out_pressed out_key).1,
                  (last_outputs evs out_pressed out_key).2)], st') := by
  intro evs
  induction evs with
  | nil =>
    intro st p k hs hq hr _ hw _
    have he : st.keybuffer_read = st.keybuffer_write := by
      rw [hw, List.length_nil, Nat.add_zero, Nat.mod_eq_of_lt hr]
    obtain ⟨S, hS, _⟩ := DG_GetKey_empty K st p k hs hq he
    refine ⟨S, ?_⟩
    rw [List.length_nil, DG_GetKey_calls_succ K 0 st p k _ hS]
    dsimp only
    rw [DG_GetKey_calls_zero, Option.map_some']
    rfl
  | cons e es ih =>
    intro st p k hs hq hr hl hw hc
    rw [List.length_cons] at hl hw
    have hne : st.keybuffer_read ≠ st.keybuffer_write := by
      rw [hw]
      omega
    have h0 := hc 0 (by simp)
    rw [List.getElem?_cons_zero, Nat.add_zero, Nat.mod_eq_of_lt hr] at h0
    have he : st.keybuffer st.keybuffer_read = e := (Option.some.inj h0).symm
    obtain ⟨S, hS, s1, s2, s3, s4, s5⟩ := DG_GetKey_event K st p k hs hq hne
    rw [he] at hS
    obtain ⟨st', hst'⟩ := ih S (pressed_value e) e.key s1 s2
      (by rw [s5]; exact Nat.mod_lt _ (by decide)) (by omega)
      (by
        rw [s4, s5, hw]
        omega)
      (by
        intro i hi
        have h1 := hc (i + 1) (by simp; omega)
        rw [List.getElem?_cons_succ] at h1
        rw [s3, s5, h1]
        have e1 : ((st.keybuffer_read + 1) % 64 + i) % 64 = (st.keybuffer_read + (i + 1)) % 64 := by
          omega
        rw [e1])
    refine ⟨st', ?_⟩
    rw [List.length_cons, DG_GetKey_calls_succ K (es.length + 1) st p k _ hS]
    dsimp only
    rw [hst', Option.map_some']
    rfl

/-- C24: the key event queue is first in, first out. For every sequence of at
most 63 events enqueued into an empty queue, as many successive calls of
`DG_GetKey` that find no new input and no release to simulate each return 1
with one event's `(pressed, key)` pair, in the order of enqueueing, and the
next call returns 0 and leaves the outputs as the last call set them. -/
theorem C24_key_queue_fifo (K : doomkeys_t) (st0 st : input_t) (evs : List keyevent_t)
    (out_pressed : Int) (out_key : Nat)
    (hempty : st0.keybuffer_read = st0.keybuffer_write) (hr : st0.keybuffer_write < 64)
    (hlen : evs.length ≤ 63) (henq : enqueued st0 st evs)
    (hs : st.stdin = []) (hq : no_release_pending st) :
    ∃ st', DG_GetKey_calls K (evs.length + 1) st out_pressed out_key
      = some (evs.map (fun e => (1, pressed_value e, e.key))
          ++ [(0, (last_outputs evs out_pressed out_key).1,
                (last_outputs evs out_pressed out_key).2)], st') := by
  obtain ⟨e1, e2, e3⟩ := henq
  have hread : st.keybuffer_read = st0.keybuffer_write := e3.trans hempty
  apply DG_GetKey_calls_drain K evs st out_pressed out_key hs hq (by rw [hread]; exact hr) hlen
  · rw [e2, foldl_queue_push_write evs st0 hr, hread]
  · intro i hi
    rw [e1, hread]
    exact foldl_queue_push_content evs st0 hr (by omega) i hi

/-- C24 on a press and a release of the key 65 enqueued in the initial state:
two calls return them in order, the third returns 0 and leaves the outputs of
the second. -/
theorem C24_key_queue_fifo_witness :
    ∃ st', DG_GetKey_calls doomkeys_h (2 + 1)
        ([(⟨true, 65⟩ : keyevent_t), ⟨false, 65⟩].foldl queue_push (initial_input 0)) 7 7
      = some ([(1, 1, 65), (1, 0, 65), (0, 0, 65)], st') :=
  C24_key_queue_fifo doomkeys_h (initial_input 0)
    ([(⟨true, 65⟩ : keyevent_t), ⟨false, 65⟩].foldl queue_push (initial_input 0))
    [⟨true, 65⟩, ⟨false, 65⟩] 7 7 rfl (by decide) (by decide) ⟨rfl, rfl, rfl⟩ rfl
    (fun _ key _ h => by
      rw [release_due_off _ _ key rfl] at h
      exact Bool.noConfusion h)

/-- C25 fails: when 64 events are enqueued into an empty queue with no dequeue
in between, the write index has gone once round the 64 slots and equals the
read index again, so the queue reads as empty: every following call of
`DG_GetKey` (with no new input and no release to simulate) returns 0 and leaves
the outputs untouched, and none of the 64 events is returned. -/
theorem C25_sixty_four_events_lost (K : doomkeys_t) (st0 st : input_t) (evs : List keyevent_t)
    (out_pressed : Int) (out_key : Nat)
    (hempty : st0.keybuffer_read = st0.keybuffer_write) (hr : st0.keybuffer_write < 64)
    (hlen : evs.length = 64) (henq : enqueued st0 st evs)
    (hs : st.stdin = []) (hq : no_release_pending st) :
    st.keybuffer_read = st.keybuffer_write ∧
    (∀ i, i < 64 → evs[i]? = some (st.keybuffer ((st.keybuffer_read + i) % 64))) ∧
    ∀ n, ∃ st', DG_GetKey_calls K n st out_pressed out_key
      = some (List.replicate n (0, out_pressed, out_key), st') := by
  obtain ⟨e1, e2, e3⟩ := henq
  have hread : st.keybuffer_read = st0.keybuffer_write := e3.trans hempty
  have hrw : st.keybuffer_read = st.keybuffer_write := by
    rw [e2, foldl_queue_push_write evs st0 hr, hlen, hread]
    omega
  refine ⟨hrw, ?_, ?_⟩
  · intro i hi
    rw [e1, hread]
    exact foldl_queue_push_content evs st0 hr (by omega) i (by omega)
  · intro n
    have gen : ∀ n (s : input_t), s.stdin = [] → no_release_pending s →
        s.keybuffer_read = s.keybuffer_write →
        ∃ st', DG_GetKey_calls K n s out_pressed out_key
          = some (List.replicate n (0, out_pressed, out_key), st') := by
      intro n
      induction n with
      | zero =>
        intro s _ _ _
        exact ⟨s, rfl⟩
      | succ n ih =>
        intro s h1 h2 h3
        obtain ⟨S, hS, s1, s2, _, s4, s5⟩ := DG_GetKey_empty K s out_pressed out_key h1 h2 h3
        obtain ⟨st', hst'⟩ := ih S s1 s2 (by rw [s4, s5]; exact h3)
        refine ⟨st', ?_⟩
        rw [DG_GetKey_calls_succ K n s out_pressed out_key _ hS]
        dsimp only
        rw [hst', Option.map_some']
        rfl
    exact gen n st hs hq hrw

/-- C25 at 64 presses of the keys 0 to 63 enqueued in the initial state: the
next call of `DG_GetKey` returns 0. -/
theorem C25_sixty_four_events_lost_witness :
    ((List.range 64).map (fun i => (⟨true, i⟩ : keyevent_t))).length = 64 ∧
    ∃ st', DG_GetKey_calls doomkeys_h 1
        (((List.range 64).map (fun i => (⟨true, i⟩ : keyevent_t))).foldl queue_push
          (initial_input 0)) 7 7
      = some ([(0, 7, 7)], st') :=
  ⟨rfl,
   (C25_sixty_four_events_lost doomkeys_h (initial_input 0)
    (((List.range 64).map (fun i => (⟨true, i⟩ : keyevent_t))).foldl queue_push
      (initial_input 0))
    ((List.range 64).map (fun i => (⟨true, i⟩ : keyevent_t))) 7 7 rfl (by decide) rfl
    ⟨rfl, rfl, rfl⟩ rfl
    (fun _ key _ h => by
      rw [release_due_off _ _ key rfl] at h
      exact Bool.noConfusion h)).2.2 1⟩

/-! ## Properties of the measurement history -/

/-- A sum accumulated in `uint32_t` is the sum as long as it stays below 2^32. -/
theorem foldl_add_mod (f : Nat → Nat) (l : List Nat) :
    ∀ acc, acc + (l.map f).sum < 4294967296 →
      l.foldl (fun m i => (m + f i) % 4294967296) acc = acc + (l.map f).sum := by
  induction l with
  | nil =>
    intro acc _
    simp
  | cons x xs ih =>
    intro acc h
    rw [List.map_cons, List.sum_cons] at h
    rw [List.foldl_cons, List.map_cons, List.sum_cons, Nat.mod_eq_of_lt (by omega),
      ih (acc + f x) (by omega)]
    omega

/-- Invariant of the loop that keeps the sample of least error: either no
sample beats the incoming error and the incoming pair is kept, or the first
sample of least error is returned, with its error. -/
theorem nearest_fold_spec (err : Nat → Nat) (xs : List Nat) :
    ∀ b : Nat × Nat,
      (xs.foldl (fun (b : Nat × Nat) x => if err x < b.2 then (x, err x) else b) b = b ∧
        ∀ x ∈ xs, b.2 ≤ err x) ∨
      (∃ pre e post, xs = pre ++ e :: post ∧
        xs.foldl (fun (b : Nat × Nat) x => if err x < b.2 then (x, err x) else b) b
          = (e, err e) ∧
        err e < b.2 ∧ (∀ x ∈ pre, err e < err x) ∧ (∀ x ∈ post, err e ≤ err x)) := by
  induction xs with
  | nil =>
    intro b
    left
    exact ⟨rfl, by simp⟩
  | cons x0 rest ih =>
    intro b
    by_cases h : err x0 < b.2
    · have hstep : (x0 :: rest).foldl
          (fun (b : Nat × Nat) x => if err x < b.2 then (x, err x) else b) b
          = rest.foldl (fun (b : Nat × Nat) x => if err x < b.2 then (x, err x) else b)
              (x0, err x0) := by
        simp only [List.foldl_cons, h, if_true]
      rcases ih (x0, err x0) with ⟨heq, hall⟩ | ⟨pre, e, post, hrows, heq, hlt, hpre, hpost⟩
      · right
        exact ⟨[], x0, rest, rfl, by rw [hstep, heq], h, by simp, hall⟩
      · right
        refine ⟨x0 :: pre, e, post, by rw [hrows]; rfl, by rw [hstep, heq],
          lt_trans hlt h, ?_, hpost⟩
        intro x hx
        rcases List.mem_cons.mp hx with rfl | hx
        · exact hlt
        · exact hpre x hx
    · have hstep : (x0 :: rest).foldl
          (fun (b : Nat × Nat) x => if err x < b.2 then (x, err x) else b) b
          = rest.foldl (fun (b : Nat × Nat) x => if err x < b.2 then (x, err x) else b) b := by
        simp only [List.foldl_cons, h, if_false]
      rcases ih b with ⟨heq, hall⟩ | ⟨pre, e, post, hrows, heq, hlt, hpre, hpost⟩
      · left
        refine ⟨by rw [hstep, heq], ?_⟩
        intro x hx
        rcases List.mem_cons.mp hx with rfl | hx
        · exact not_lt.mp h
        · exact hall x hx
      · right
        refine ⟨x0 :: pre, e, post, by rw [hrows]; rfl, by rw [hstep, heq], hlt, ?_, hpost⟩
        intro x hx
        rcases List.mem_cons.mp hx with rfl | hx
        · exact lt_of_lt_of_le hlt (not_lt.mp h)
        · exact hpre x hx

/-- The sum of a list of numbers below a bound. -/
theorem sum_lt_of_forall_lt (B : Nat) (l : List Nat) (h : ∀ x ∈ l, x < B) (hl : 0 < l.length) :
    l.sum < l.length * B ∧ l.sum / l.length < B := by
  have hle : l.sum ≤ l.length * (B - 1) := by
    induction l with
    | nil => simp
    | cons x xs ih =>
      have hx := h x (List.mem_cons_self _ _)
      by_cases hxs : 0 < xs.length
      · have := ih (fun y hy => h y (List.mem_cons_of_mem _ hy)) hxs
        rw [List.sum_cons, List.length_cons, Nat.add_mul]
        omega
      · have : xs = [] := List.length_eq_zero.mp (by omega)
        subst this
        simp
        omega
  have hB : 0 < B := by
    cases l with
    | nil => exact absurd hl (by simp)
    | cons x xs => exact Nat.lt_of_le_of_lt (Nat.zero_le _) (h x (List.mem_cons_self _ _))
  have h1 : l.length * (B - 1) < l.length * B := Nat.mul_lt_mul_of_pos_left (by omega) hl
  refine ⟨by omega, ?_⟩
  rw [Nat.div_lt_iff_lt_mul hl, Nat.mul_comm]
  omega

/-- The estimate that the two loops of `add_key_measurement` derive from the
first `n` slots of an array whose samples are below 2^28: the first sample
closest to the floored mean. -/
theorem estimate_spec (a : Nat → Nat) (n : Nat) (hn : 0 < n) (hn16 : n ≤ 16)
    (ha : ∀ i, i < n → a i < 268435456) :
    ∃ d, spec_first_nearest (spec_samples a n) (spec_floor_mean (spec_samples a n)) d ∧
      ((List.range n).foldl
        (fun (b : Nat × Nat) i =>
          let delay := a i
          if abs_u32 (u32_sub delay
              ((List.range n).foldl (fun m i => (m + a i) % 4294967296) 0 / n)) < b.2 then
            (delay, abs_u32 (u32_sub delay
              ((List.range n).foldl (fun m i => (m + a i) % 4294967296) 0 / n)))
          else b) (0, 999999999)).1 = d ∧
      d ∈ spec_samples a n := by
  have hall : ∀ x ∈ spec_samples a n, x < 268435456 := by
    intro x hx
    unfold spec_samples at hx
    obtain ⟨i, hi, rfl⟩ := List.mem_map.mp hx
    exact ha i (List.mem_range.mp hi)
  have hlen : (spec_samples a n).length = n := by
    unfold spec_samples
    simp
  obtain ⟨hs1, hs2⟩ := sum_lt_of_forall_lt 268435456 (spec_samples a n) hall (by omega)
  rw [hlen] at hs1 hs2
  have hsum : (List.range n).foldl (fun m i => (m + a i) % 4294967296) 0
      = (spec_samples a n).sum := by
    rw [foldl_add_mod a (List.range n) 0 (by
      show 0 + (spec_samples a n).sum < 4294967296
      omega)]
    show 0 + (spec_samples a n).sum = _
    omega
  have hmean : (List.range n).foldl (fun m i => (m + a i) % 4294967296) 0 / n
      = spec_floor_mean (spec_samples a n) := by
    rw [hsum]
    unfold spec_floor_mean
    rw [hlen]
  rw [hmean]
  have hm : spec_floor_mean (spec_samples a n) < 268435456 := by
    unfold spec_floor_mean
    rw [hlen]
    exact hs2
  generalize spec_floor_mean (spec_samples a n) = mean at hm ⊢
  have hfold : (List.range n).foldl
      (fun (b : Nat × Nat) i =>
        let delay := a i
        if abs_u32 (u32_sub delay mean) < b.2 then (delay, abs_u32 (u32_sub delay mean))
        else b) (0, 999999999)
      = (spec_samples a n).foldl
          (fun (b : Nat × Nat) x =>
            if abs_u32 (u32_sub x mean) < b.2 then (x, abs_u32 (u32_sub x mean)) else b)
          (0, 999999999) := by
    unfold spec_samples
    rw [List.foldl_map]
  rw [hfold]
  have herr : ∀ x ∈ spec_samples a n, abs_u32 (u32_sub x mean) = spec_abs_diff x mean :=
    fun x hx => abs_u32_sub x mean (by have := hall x hx; omega) (by omega)
  have hne : spec_samples a n ≠ [] := by
    intro h
    rw [h] at hlen
    simp at hlen
    omega
  rcases nearest_fold_spec (fun x => abs_u32 (u32_sub x mean)) (spec_samples a n)
      (0, 999999999) with ⟨_, hall2⟩ | ⟨pre, e, post, hrows, heq, _, hpre, hpost⟩
  · exfalso
    obtain ⟨x, hx⟩ := List.exists_mem_of_ne_nil _ hne
    have h1 := hall2 x hx
    have h2 := herr x hx
    have h3 := hall x hx
    have h4 : spec_abs_diff x mean < 268435456 := by
      unfold spec_abs_diff
      split_ifs <;> omega
    simp only at h1
    omega
  · have hmem : e ∈ spec_samples a n := by
      rw [hrows]
      simp
    refine ⟨e, ⟨pre, post, hrows, ?_, ?_⟩, by rw [heq], hmem⟩
    · intro x hx
      have hx2 : x ∈ spec_samples a n := by
        rw [hrows]
        simp [hx]
      rw [← herr e hmem, ← herr x hx2]
      exact hpre x hx
    · intro x hx
      have hx2 : x ∈ spec_samples a n := by
        rw [hrows]
        simp [hx]
      rw [← herr e hmem, ← herr x hx2]
      exact hpost x hx

/-- The ring fields after `add_key_measurement`. -/
theorem add_key_measurement_ring (st : input_t) (delay rate : Nat) :
    (add_key_measurement st delay rate).key_measure_count
      = (if st.key_measure_count < 16 then st.key_measure_count + 1
         else st.key_measure_count) ∧
    (add_key_measurement st delay rate).key_measure_next = (st.key_measure_next + 1) % 16 ∧
    (add_key_measurement st delay rate).key_measure_delays
      = array_set st.key_measure_delays st.key_measure_next delay ∧
    (add_key_measurement st delay rate).key_measure_rates
      = array_set st.key_measure_rates st.key_measure_next rate :=
  ⟨rfl, rfl, rfl, rfl⟩

/-- Recording a pair extends the history held by the ring: the pair takes the
slot of the oldest pair once 16 are stored. -/
theorem ring_holds_add (st : input_t) (ps : List (Nat × Nat)) (delay rate : Nat)
    (h : ring_holds st ps) :
    ring_holds (add_key_measurement st delay rate) (ps ++ [(delay, rate)]) := by
  obtain ⟨hc, hn, hs⟩ := h
  obtain ⟨e1, e2, e3, e4⟩ := add_key_measurement_ring st delay rate
  refine ⟨?_, ?_, ?_⟩
  · rw [e1, hc, List.length_append, List.length_singleton]
    split_ifs <;> omega
  · rw [e2, hn, List.length_append, List.length_singleton]
    omega
  · intro j hj hle
    rw [List.length_append, List.length_singleton] at hj hle
    rw [e3, e4, hn]
    by_cases hjl : j = ps.length
    · subst hjl
      rw [array_set_same, array_set_same, List.getElem?_append_right (le_refl _)]
      simp
    · have hne : j % 16 ≠ ps.length % 16 := by omega
      rw [array_set_other _ _ _ _ hne, array_set_other _ _ _ _ hne,
        List.getElem?_append_left (by omega)]
      exact hs j (by omega) (by omega)

/-- The estimates of `add_key_measurement` when the stored samples and the new
pair are below 2^28: each is the first stored sample closest to the floored
mean of the stored samples, capped at 500. -/
theorem add_key_measurement_estimates (st : input_t) (delay rate : Nat)
    (hcount : st.key_measure_count ≤ 16)
    (hd : delay < 268435456) (hr : rate < 268435456)
    (hb : ∀ i, i < st.key_measure_count →
      st.key_measure_delays i < 268435456 ∧ st.key_measure_rates i < 268435456)
    (hfill : st.key_measure_count < 16 → st.key_measure_next = st.key_measure_count) :
    (∃ d, spec_first_nearest
        (spec_samples (add_key_measurement st delay rate).key_measure_delays
          (add_key_measurement st delay rate).key_measure_count)
        (spec_floor_mean
          (spec_samples (add_key_measurement st delay rate).key_measure_delays
            (add_key_measurement st delay rate).key_measure_count)) d ∧
      (add_key_measurement st delay rate).key_repeat_delay = min 500 d) ∧
    (∃ r, spec_first_nearest
        (spec_samples (add_key_measurement st delay rate).key_measure_rates
          (add_key_measurement st delay rate).key_measure_count)
        (spec_floor_mean
          (spec_samples (add_key_measurement st delay rate).key_measure_rates
            (add_key_measurement st delay rate).key_measure_count)) r ∧
      (add_key_measurement st delay rate).key_repeat_rate = min 500 r) := by
  obtain ⟨e1, _, e3, e4⟩ := add_key_measurement_ring st delay rate
  have hn0 : 0 < (add_key_measurement st delay rate).key_measure_count := by
    rw [e1]
    split_ifs <;> omega
  have hn16 : (add_key_measurement st delay rate).key_measure_count ≤ 16 := by
    rw [e1]
    split_ifs <;> omega
  have hslot : ∀ i, i < (add_key_measurement st delay rate).key_measure_count →
      i = st.key_measure_next ∨ i < st.key_measure_count := by
    intro i hi
    rw [e1] at hi
    by_cases hlt : st.key_measure_count < 16
    · rw [if_pos hlt] at hi
      have := hfill hlt
      omega
    · rw [if_neg hlt] at hi
      exact Or.inr hi
  have hbd : ∀ i, i < (add_key_measurement st delay rate).key_measure_count →
      (add_key_measurement st delay rate).key_measure_delays i < 268435456 := by
    intro i hi
    rw [e3, array_set_apply]
    split_ifs with h
    · exact hd
    · rcases hslot i hi with h1 | h1
      · exact absurd h1 h
      · exact (hb i h1).1
  have hbr : ∀ i, i < (add_key_measurement st delay rate).key_measure_count →
      (add_key_measurement st delay rate).key_measure_rates i < 268435456 := by
    intro i hi
    rw [e4, array_set_apply]
    split_ifs with h
    · exact hr
    · rcases hslot i hi with h1 | h1
      · exact absurd h1 h
      · exact (hb i h1).2
  obtain ⟨d, hd1, hd2, _⟩ := estimate_spec _ _ hn0 hn16 hbd
  obtain ⟨r, hr1, hr2, _⟩ := estimate_spec _ _ hn0 hn16 hbr
  refine ⟨⟨d, hd1, ?_⟩, ⟨r, hr1, ?_⟩⟩
  · have e : (add_key_measurement st delay rate).key_repeat_delay
        = if d > KEY_REPEAT_DELAY_MAX then KEY_REPEAT_DELAY_MAX else d := by
      rw [← hd2]
      rfl
    rw [e]
    unfold KEY_REPEAT_DELAY_MAX
    split_ifs <;> omega
  · have e : (add_key_measurement st delay rate).key_repeat_rate
        = if r > KEY_REPEAT_RATE_MAX then KEY_REPEAT_RATE_MAX else r := by
      rw [← hr2]
      rfl
    rw [e]
    unfold KEY_REPEAT_RATE_MAX
    split_ifs <;> omega

/-- A sample that is first nearest to the mean is one of the samples. -/
theorem spec_first_nearest_mem (samples : List Nat) (mean d : Nat)
    (h : spec_first_nearest samples mean d) : d ∈ samples := by
  obtain ⟨pre, post, hrows, _, _⟩ := h
  rw [hrows]
  simp

/-- The ring is empty at program start. -/
theorem ring_holds_initial (now : Nat) : ring_holds (initial_input now) [] :=
  ⟨rfl, rfl, fun _ hj _ => absurd hj (Nat.not_lt_zero _)⟩

/-- Both estimates of `add_key_measurement` are at most 500 after every call,
whatever the samples are. -/
theorem add_key_measurement_capped (st : input_t) (delay rate : Nat) :
    (add_key_measurement st delay rate).key_repeat_delay ≤ 500 ∧
    (add_key_measurement st delay rate).key_repeat_rate ≤ 500 := by
  constructor
  · show (if _ > KEY_REPEAT_DELAY_MAX then KEY_REPEAT_DELAY_MAX else _) ≤ 500
    unfold KEY_REPEAT_DELAY_MAX
    split_ifs <;> omega
  · show (if _ > KEY_REPEAT_RATE_MAX then KEY_REPEAT_RATE_MAX else _) ≤ 500
    unfold KEY_REPEAT_RATE_MAX
    split_ifs <;> omega

/-- What `add_key_measurement(delay, rate)` does when the measurement ring
holds the history `ps`. For every call: the pair is stored in slot
`key_measure_next`, so that the ring holds the history extended by the pair
(the pair replaces the oldest one once 16 are stored), and both estimates are
at most 500. When, in addition, the stored samples and the new pair are below
2^28: `key_repeat_delay = min(500, d)` and `key_repeat_rate = min(500, r)`,
where `d` (`r`) is the stored delay (rate) sample closest to the floored mean
of the stored delays (rates), the first in slot order on a tie, and each
estimate is a stored sample or 500. -/
theorem add_key_measurement_behaviour (st : input_t) (ps : List (Nat × Nat))
    (delay rate : Nat) (hring : ring_holds st ps) :
    (add_key_measurement st delay rate).key_measure_delays
      = array_set st.key_measure_delays st.key_measure_next delay ∧
    (add_key_measurement st delay rate).key_measure_rates
      = array_set st.key_measure_rates st.key_measure_next rate ∧
    ring_holds (add_key_measurement st delay rate) (ps ++ [(delay, rate)]) ∧
    (add_key_measurement st delay rate).key_repeat_delay ≤ 500 ∧
    (add_key_measurement st delay rate).key_repeat_rate ≤ 500 ∧
    (delay < 268435456 → rate < 268435456 →
      (∀ i, i < st.key_measure_count →
        st.key_measure_delays i < 268435456 ∧ st.key_measure_rates i < 268435456) →
      (∃ d, spec_first_nearest
          (spec_samples (add_key_measurement st delay rate).key_measure_delays
            (add_key_measurement st delay rate).key_measure_count)
          (spec_floor_mean
            (spec_samples (add_key_measurement st delay rate).key_measure_delays
              (add_key_measurement st delay rate).key_measure_count)) d ∧
        (add_key_measurement st delay rate).key_repeat_delay = min 500 d) ∧
      (∃ r, spec_first_nearest
          (spec_samples (add_key_measurement st delay rate).key_measure_rates
            (add_key_measurement st delay rate).key_measure_count)
          (spec_floor_mean
            (spec_samples (add_key_measurement st delay rate).key_measure_rates
              (add_key_measurement st delay rate).key_measure_count)) r ∧
        (add_key_measurement st delay rate).key_repeat_rate = min 500 r) ∧
      ((add_key_measurement st delay rate).key_repeat_delay
          ∈ spec_samples (add_key_measurement st delay rate).key_measure_delays
            (add_key_measurement st delay rate).key_measure_count ∨
        (add_key_measurement st delay rate).key_repeat_delay = 500) ∧
      ((add_key_measurement st delay rate).key_repeat_rate
          ∈ spec_samples (add_key_measurement st delay rate).key_measure_rates
            (add_key_measurement st delay rate).key_measure_count ∨
        (add_key_measurement st delay rate).key_repeat_rate = 500)) := by
  refine ⟨rfl, rfl, ring_holds_add st ps delay rate hring,
    (add_key_measurement_capped st delay rate).1,
    (add_key_measurement_capped st delay rate).2, ?_⟩
  intro hd hr hb
  have hcount : st.key_measure_count ≤ 16 := by
    rw [hring.1]
    omega
  have hfill : st.key_measure_count < 16 → st.key_measure_next = st.key_measure_count := by
    intro h
    rw [hring.1] at h
    rw [hring.1, hring.2.1]
    omega
  obtain ⟨⟨d, hd1, hd2⟩, ⟨r, hr1, hr2⟩⟩ :=
    add_key_measurement_estimates st delay rate hcount hd hr hb hfill
  have hdm := spec_first_nearest_mem _ _ _ hd1
  have hrm := spec_first_nearest_mem _ _ _ hr1
  refine ⟨⟨d, hd1, hd2⟩, ⟨r, hr1, hr2⟩, ?_, ?_⟩
  · rw [hd2]
    by_cases h : d ≤ 500
    · left
      rw [Nat.min_eq_right h]
      exact hdm
    · right
      omega
  · rw [hr2]
    by_cases h : r ≤ 500
    · left
      rw [Nat.min_eq_right h]
      exact hrm
    · right
      omega

/-- The behaviour of `add_key_measurement` at a ring that holds the pair
(250, 30) when the pair (300, 34) is recorded: the samples are 250, 300 and 30,
34, the floored means 275 and 32, and the estimates the first samples at
distance 25 and 2, that is 250 and 30. -/
theorem add_key_measurement_behaviour_example :
    ring_holds (add_key_measurement (add_key_measurement (initial_input 0) 250 30) 300 34)
        [(250, 30), (300, 34)] ∧
      (add_key_measurement (add_key_measurement (initial_input 0) 250 30) 300 34).key_repeat_delay
        = 250 ∧
      (add_key_measurement (add_key_measurement (initial_input 0) 250 30) 300 34).key_repeat_rate
        = 30 ∧
      (∃ d, spec_first_nearest [250, 300] 275 d ∧
        (add_key_measurement (add_key_measurement (initial_input 0) 250 30)
          300 34).key_repeat_delay = min 500 d) :=
  have h := add_key_measurement_behaviour (add_key_measurement (initial_input 0) 250 30)
    [(250, 30)] 300 34
    (ring_holds_add (initial_input 0) [] 250 30 (ring_holds_initial 0))
  ⟨h.2.2.1, by decide, by decide,
    (h.2.2.2.2.2 (by decide) (by decide)
      (fun i hi => by
        have h1 : i < 1 := hi
        have h0 : i = 0 := by omega
        subst h0
        exact ⟨by decide, by decide⟩)).1⟩

/-- C21: the search of `add_key_measurement` can end without a sample, against
the comment of the function (the closest value in the array to the mean is
chosen). With the stored delay sample 1, the call
`add_key_measurement(2000000001, 100)` stores the pair, so that the ring holds
the delays 1 and 2000000001, whose floored mean is 1000000001; both samples lie
1000000000 from it, which is not below the initial best error 999999999, so the
test `error < best_error` never passes, the initial `best_delay = 0` is kept,
and `key_repeat_delay` becomes 0: neither `min(500, d)` for a stored sample `d`
nor 500. The estimate is still at most 500, and the rate estimate of the same
call is the stored sample 100. -/
theorem C21_sentinel_leaves_no_sample :
    ring_holds (add_key_measurement (initial_input 0) 1 100) [(1, 100)] ∧
    ring_holds
      (add_key_measurement (add_key_measurement (initial_input 0) 1 100) 2000000001 100)
      [(1, 100), (2000000001, 100)] ∧
    spec_samples
      (add_key_measurement (add_key_measurement (initial_input 0) 1 100)
        2000000001 100).key_measure_delays
      (add_key_measurement (add_key_measurement (initial_input 0) 1 100)
        2000000001 100).key_measure_count = [1, 2000000001] ∧
    spec_floor_mean [1, 2000000001] = 1000000001 ∧
    spec_abs_diff 1 1000000001 = 1000000000 ∧
    spec_abs_diff 2000000001 1000000001 = 1000000000 ∧
    (add_key_measurement (add_key_measurement (initial_input 0) 1 100)
      2000000001 100).key_repeat_delay = 0 ∧
    ¬ (∃ d, d ∈ spec_samples
        (add_key_measurement (add_key_measurement (initial_input 0) 1 100)
          2000000001 100).key_measure_delays
        (add_key_measurement (add_key_measurement (initial_input 0) 1 100)
          2000000001 100).key_measure_count ∧
      (add_key_measurement (add_key_measurement (initial_input 0) 1 100)
        2000000001 100).key_repeat_delay = min 500 d) ∧
    (add_key_measurement (add_key_measurement (initial_input 0) 1 100)
      2000000001 100).key_repeat_delay ≠ 500 ∧
    (add_key_measurement (add_key_measurement (initial_input 0) 1 100)
      2000000001 100).key_repeat_rate = 100 := by
  have hs : spec_samples
      (add_key_measurement (add_key_measurement (initial_input 0) 1 100)
        2000000001 100).key_measure_delays
      (add_key_measurement (add_key_measurement (initial_input 0) 1 100)
        2000000001 100).key_measure_count = [1, 2000000001] := by decide
  have hk : (add_key_measurement (add_key_measurement (initial_input 0) 1 100)
      2000000001 100).key_repeat_delay = 0 := by decide
  have h1 : ring_holds (add_key_measurement (initial_input 0) 1 100) [(1, 100)] :=
    ring_holds_add (initial_input 0) [] 1 100 (ring_holds_initial 0)
  refine ⟨h1, ring_holds_add _ _ 2000000001 100 h1, hs, by decide,
    by decide, by decide, hk, ?_, ?_, by decide⟩
  · rintro ⟨d, hmem, heq⟩
    rw [hs] at hmem
    rw [hk] at heq
    simp only [List.mem_cons, List.mem_singleton, List.not_mem_nil, or_false] at hmem
    rcases hmem with h | h <;> subst h <;> omega
  · rw [hk]
    decide

/-! ## Properties of the noise offsets -/

/-- The rescaled channel for the four scales of `init_noise`: its least value
(at 0) and its greatest value (at 255). -/
theorem spec_noise_channel_range (c : Nat) (hc : c ≤ 255) :
    (6 ≤ spec_noise_channel 95 c ∧ spec_noise_channel 95 c ≤ 248) ∧
    (89 ≤ spec_noise_channel 30 c ∧ spec_noise_channel 30 c ≤ 165) ∧
    (102 ≤ spec_noise_channel 20 c ∧ spec_noise_channel 20 c ≤ 153) ∧
    (124 ≤ spec_noise_channel 2 c ∧ spec_noise_channel 2 c ≤ 129) := by
  unfold spec_noise_channel
  omega

/-- C39: noise rescaling stays inside a byte. For every scale of `init_noise`
(95, 30, 20, 2) and every channel value `c` in `0..255`, the rescaled channel
`floor(c * scale / 100) + floor(255 * (100 - scale) / 200)` lies in `0..255`;
the texel repacked by the loop body of `init_noise` holds each rescaled channel
in its own byte and nothing in the fourth byte, so no channel carries into its
neighbour; the offsets `value - 128`, which is what `output_bg_color` and
`output_colors` add to a channel, lie in -122..120 for scale 95, -39..37 for
scale 30, -26..25 for scale 20 and -4..1 for scale 2, and these bounds are
reached at `c = 0` and `c = 255`. -/
theorem C39_noise_rescale_in_byte :
    (∀ colors, colors ≠ cli_colors_24bit →
      noise_scale colors = 95 ∨ noise_scale colors = 30 ∨ noise_scale colors = 20 ∨
        noise_scale colors = 2) ∧
    (∀ scale c, (scale = 95 ∨ scale = 30 ∨ scale = 20 ∨ scale = 2) → c ≤ 255 →
      spec_noise_channel scale c ≤ 255) ∧
    (∀ scale val, (scale = 95 ∨ scale = 30 ∨ scale = 20 ∨ scale = 2) →
      spec_byte 0 (noise_rescale scale (255 * (100 - scale) / 200) val)
        = spec_noise_channel scale (spec_byte 0 val) ∧
      spec_byte 1 (noise_rescale scale (255 * (100 - scale) / 200) val)
        = spec_noise_channel scale (spec_byte 1 val) ∧
      spec_byte 2 (noise_rescale scale (255 * (100 - scale) / 200) val)
        = spec_noise_channel scale (spec_byte 2 val) ∧
      spec_byte 3 (noise_rescale scale (255 * (100 - scale) / 200) val) = 0) ∧
    (∀ c, c ≤ 255 →
      (-122 ≤ (spec_noise_channel 95 c : Int) - 128 ∧ (spec_noise_channel 95 c : Int) - 128 ≤ 120) ∧
      (-39 ≤ (spec_noise_channel 30 c : Int) - 128 ∧ (spec_noise_channel 30 c : Int) - 128 ≤ 37) ∧
      (-26 ≤ (spec_noise_channel 20 c : Int) - 128 ∧ (spec_noise_channel 20 c : Int) - 128 ≤ 25) ∧
      (-4 ≤ (spec_noise_channel 2 c : Int) - 128 ∧ (spec_noise_channel 2 c : Int) - 128 ≤ 1)) ∧
    ((spec_noise_channel 95 0 : Int) - 128 = -122 ∧ (spec_noise_channel 95 255 : Int) - 128 = 120 ∧
      (spec_noise_channel 30 0 : Int) - 128 = -39 ∧ (spec_noise_channel 30 255 : Int) - 128 = 37 ∧
      (spec_noise_channel 20 0 : Int) - 128 = -26 ∧ (spec_noise_channel 20 255 : Int) - 128 = 25 ∧
      (spec_noise_channel 2 0 : Int) - 128 = -4 ∧ (spec_noise_channel 2 255 : Int) - 128 = 1) ∧
    (∀ scale c (channel : Int), (scale = 95 ∨ scale = 30 ∨ scale = 20 ∨ scale = 2) → c ≤ 255 →
      0 ≤ channel → channel ≤ 255 →
      add_noise channel (spec_noise_channel scale c)
        = channel + ((spec_noise_channel scale c : Int) - 128)) := by
  refine ⟨?_, ?_, ?_, ?_, by decide, ?_⟩
  · intro colors h
    cases colors <;> simp [noise_scale] at h ⊢
  · intro scale c hs hc
    have h := spec_noise_channel_range c hc
    rcases hs with rfl | rfl | rfl | rfl <;> omega
  · intro scale val hs
    have h := noise_rescale_bytes scale val (by rcases hs with rfl | rfl | rfl | rfl <;> omega)
    exact ⟨h.1, h.2.1, h.2.2.1, h.2.2.2.1⟩
  · intro c hc
    have h := spec_noise_channel_range c hc
    omega
  · intro scale c channel hs hc h0 h1
    have h := spec_noise_channel_range c hc
    rw [add_noise_eq channel _ ⟨h0, h1⟩ (by rcases hs with rfl | rfl | rfl | rfl <;> omega)]
    omega

/-! ## Properties of the block mask -/

/-- The number of pixels outside the foreground group, as the source counts
them, is the length of the background group. -/
theorem bg_count_eq_filter (sel : pixel_t → Bool) (l : List pixel_t) :
    (l.map (fun p => if sel p = true then 0 else 1)).sum = (l.filter (fun p => ! sel p)).length := by
  induction l with
  | nil => rfl
  | cons x xs ih =>
    cases hx : sel x
    · simp [List.filter_cons, hx, ih]
      omega
    · simp [List.filter_cons, hx, ih]

/-- Some pixel of a non-empty block has a luma that is at most the floored
mean luma of the block. -/
theorem exists_luma_le_avg (ps : List pixel_t) (h : ps ≠ []) :
    ∃ p ∈ ps, spec_luma p ≤ spec_avg ps := by
  by_contra hcon
  push_neg at hcon
  have hsum : ∀ l : List pixel_t, (∀ p ∈ l, spec_avg ps < spec_luma p) →
      l.length * (spec_avg ps + 1) ≤ (l.map spec_luma).sum := by
    intro l
    induction l with
    | nil => intro _; simp
    | cons x xs ih =>
      intro hl
      have h1 := hl x (List.mem_cons_self _ _)
      have h2 := ih (fun p hp => hl p (List.mem_cons_of_mem _ hp))
      rw [List.map_cons, List.sum_cons, List.length_cons, Nat.add_mul]
      omega
  have h1 := hsum ps hcon
  have hlen : 0 < ps.length := List.length_pos.mpr h
  have h2 : (ps.map spec_luma).sum < ps.length * (spec_avg ps + 1) := by
    unfold spec_avg
    have := Nat.lt_mul_div_succ (ps.map spec_luma).sum hlen
    rw [Nat.mul_add, Nat.mul_one]
    exact this
  omega

/-- The background group of a non-empty block is not empty. -/
theorem spec_bg_group_ne_nil (ps : List pixel_t) (h : ps ≠ []) : spec_bg_group ps ≠ [] := by
  obtain ⟨p, hp, hle⟩ := exists_luma_le_avg ps h
  intro hnil
  have hm : p ∈ spec_bg_group ps := by
    unfold spec_bg_group
    rw [List.mem_filter]
    refine ⟨hp, ?_⟩
    simp only [Bool.not_eq_true', decide_eq_false_iff_not, not_lt]
    exact hle
  rw [hnil] at hm
  exact absurd hm (List.not_mem_nil _)

/-- The count `bg_count` of `draw_quadrant` is the size of the background
group. -/
theorem quadrant_cell_bg_count (tl tr bl br : pixel_t) :
    (quadrant_cell tl tr bl br).bg_count = (spec_bg_group [tl, tr, bl, br]).length := by
  simp only [quadrant_cell, divide_counts_bg_count, quadrant_step_bg_count, LUMA_P_eq_spec,
    spec_avg_quadrant, spec_bg_group]
  generalize spec_avg [tl, tr, bl, br] = a
  rw [← bg_count_eq_filter]
  simp only [List.map_cons, List.map_nil, List.sum_cons, List.sum_nil, Nat.add_assoc,
    Nat.zero_add, Nat.add_zero]

/-- The count `bg_count` of `draw_sextant` is the size of the background
group. -/
theorem sextant_cell_bg_count (tl tr ml mr bl br : pixel_t) :
    (sextant_cell tl tr ml mr bl br).bg_count
      = (spec_bg_group [tl, tr, ml, mr, bl, br]).length := by
  simp only [sextant_cell, divide_counts_bg_count, sextant_step_bg_count, LUMA_P_eq_spec,
    spec_avg_sextant, spec_bg_group]
  generalize spec_avg [tl, tr, ml, mr, bl, br] = a
  rw [← bg_count_eq_filter]
  simp only [List.map_cons, List.map_nil, List.sum_cons, List.sum_nil, Nat.add_assoc,
    Nat.zero_add, Nat.add_zero]

/-- The mask of `draw_quadrant` is never 15. -/
theorem quadrant_cell_index_le (tl tr bl br : pixel_t) :
    (quadrant_cell tl tr bl br).index ≤ 14 := by
  obtain ⟨hbits, hlt⟩ := quadrant_cell_index_bits tl tr bl br
  by_contra hcon
  have h15 : (quadrant_cell tl tr bl br).index = 15 := by omega
  obtain ⟨p, hp, hle⟩ := exists_luma_le_avg [tl, tr, bl, br] (by simp)
  have b0 := hbits 0 (by decide)
  have b1 := hbits 1 (by decide)
  have b2 := hbits 2 (by decide)
  have b3 := hbits 3 (by decide)
  rw [h15] at b0 b1 b2 b3
  simp only [List.get] at b0 b1 b2 b3
  have t0 : Nat.testBit 15 0 = true := by decide
  have t1 : Nat.testBit 15 1 = true := by decide
  have t2 : Nat.testBit 15 2 = true := by decide
  have t3 : Nat.testBit 15 3 = true := by decide
  rw [t0] at b0
  rw [t1] at b1
  rw [t2] at b2
  rw [t3] at b3
  have c0 := of_decide_eq_true b0.symm
  have c1 := of_decide_eq_true b1.symm
  have c2 := of_decide_eq_true b2.symm
  have c3 := of_decide_eq_true b3.symm
  simp only [List.mem_cons, List.mem_singleton, List.not_mem_nil, or_false] at hp
  rcases hp with rfl | rfl | rfl | rfl <;> omega

/-- The mask of `draw_sextant` is never 63. -/
theorem sextant_cell_index_le (tl tr ml mr bl br : pixel_t) :
    (sextant_cell tl tr ml mr bl br).index ≤ 62 := by
  obtain ⟨hbits, hlt⟩ := sextant_cell_index_bits tl tr ml mr bl br
  by_contra hcon
  have h63 : (sextant_cell tl tr ml mr bl br).index = 63 := by omega
  obtain ⟨p, hp, hle⟩ := exists_luma_le_avg [tl, tr, ml, mr, bl, br] (by simp)
  have b0 := hbits 0 (by decide)
  have b1 := hbits 1 (by decide)
  have b2 := hbits 2 (by decide)
  have b3 := hbits 3 (by decide)
  have b4 := hbits 4 (by decide)
  have b5 := hbits 5 (by decide)
  rw [h63] at b0 b1 b2 b3 b4 b5
  simp only [List.get] at b0 b1 b2 b3 b4 b5
  have t0 : Nat.testBit 63 0 = true := by decide
  have t1 : Nat.testBit 63 1 = true := by decide
  have t2 : Nat.testBit 63 2 = true := by decide
  have t3 : Nat.testBit 63 3 = true := by decide
  have t4 : Nat.testBit 63 4 = true := by decide
  have t5 : Nat.testBit 63 5 = true := by decide
  rw [t0] at b0
  rw [t1] at b1
  rw [t2] at b2
  rw [t3] at b3
  rw [t4] at b4
  rw [t5] at b5
  have c0 := of_decide_eq_true b0.symm
  have c1 := of_decide_eq_true b1.symm
  have c2 := of_decide_eq_true b2.symm
  have c3 := of_decide_eq_true b3.symm
  have c4 := of_decide_eq_true b4.symm
  have c5 := of_decide_eq_true b5.symm
  simp only [List.mem_cons, List.mem_singleton, List.not_mem_nil, or_false] at hp
  rcases hp with rfl | rfl | rfl | rfl | rfl | rfl <;> omega

/-- No entry of `quadrants` before the last is the full block U+2588. -/
theorem quadrants_not_full_block :
    ∀ m, m ≤ 14 → quadrants.getD m [] ≠ spec_utf8 0x2588 := by
  decide

/-- No entry of `sextants` before the last is the full block U+2588. -/
theorem sextants_not_full_block :
    ∀ m, m ≤ 62 → sextants.getD m [] ≠ spec_utf8 0x2588 := by
  decide

/-- C33: in `draw_quadrant` and `draw_sextant` the mask is never all ones. For
every block of four (six) pixels some pixel has a luma that is at most the
floored mean luma, so the mask is at most 14 (62); the background group is not
empty, `bg_count` is its size and at least 1, so the background average divides
by a count of at least 1; and the glyph taken from the table is never the full
block U+2588 (the last entry of either table), in particular in the sextant
charset with a colour mode other than dark and light. -/
theorem C33_mask_never_all_ones (c : ctx_t) (x y : Nat) (tl tr ml mr bl br : pixel_t) :
    ((∃ p ∈ [tl, tr, bl, br], spec_luma p ≤ spec_avg [tl, tr, bl, br]) ∧
      (quadrant_cell tl tr bl br).index ≤ 14 ∧
      spec_bg_group [tl, tr, bl, br] ≠ [] ∧
      (quadrant_cell tl tr bl br).bg_count = (spec_bg_group [tl, tr, bl, br]).length ∧
      1 ≤ (quadrant_cell tl tr bl br).bg_count ∧
      quadrants.getD 15 [] = spec_utf8 0x2588 ∧
      quadrants.getD (quadrant_cell tl tr bl br).index [] ≠ spec_utf8 0x2588) ∧
    ((∃ p ∈ [tl, tr, ml, mr, bl, br], spec_luma p ≤ spec_avg [tl, tr, ml, mr, bl, br]) ∧
      (sextant_cell tl tr ml mr bl br).index ≤ 62 ∧
      spec_bg_group [tl, tr, ml, mr, bl, br] ≠ [] ∧
      (sextant_cell tl tr ml mr bl br).bg_count
        = (spec_bg_group [tl, tr, ml, mr, bl, br]).length ∧
      1 ≤ (sextant_cell tl tr ml mr bl br).bg_count ∧
      sextants.getD 63 [] = spec_utf8 0x2588 ∧
      sextants.getD (sextant_cell tl tr ml mr bl br).index [] ≠ spec_utf8 0x2588) ∧
    (c.cli_colors ≠ cli_colors_dark → c.cli_colors ≠ cli_colors_light →
      sextant_mode_index c x y tl tr ml mr bl br ≤ 62 ∧
      sextants.getD (sextant_mode_index c x y tl tr ml mr bl br) [] ≠ spec_utf8 0x2588) := by
  have q1 := quadrant_cell_index_le tl tr bl br
  have q2 := spec_bg_group_ne_nil [tl, tr, bl, br] (by simp)
  have q3 := quadrant_cell_bg_count tl tr bl br
  have s1 := sextant_cell_index_le tl tr ml mr bl br
  have s2 := spec_bg_group_ne_nil [tl, tr, ml, mr, bl, br] (by simp)
  have s3 := sextant_cell_bg_count tl tr ml mr bl br
  refine ⟨⟨exists_luma_le_avg _ (by simp), q1, q2, q3, ?_, by decide,
      quadrants_not_full_block _ q1⟩,
    ⟨exists_luma_le_avg _ (by simp), s1, s2, s3, ?_, by decide,
      sextants_not_full_block _ s1⟩, ?_⟩
  · rw [q3]
    exact List.length_pos.mpr q2
  · rw [s3]
    exact List.length_pos.mpr s2
  · intro hd hl
    have e : sextant_mode_index c x y tl tr ml mr bl br
        = (sextant_cell tl tr ml mr bl br).index := by
      unfold sextant_mode_index
      rw [if_neg (by
        intro h
        rcases h with h | h
        · exact hd h
        · exact hl h)]
    rw [e]
    exact ⟨s1, sextants_not_full_block _ s1⟩

/-! ## Properties of the channel averages -/

/-- Some element of a non-empty list is at most the floored mean. -/
theorem exists_le_floor_mean (l : List Nat) (h : l ≠ []) : ∃ v ∈ l, v ≤ spec_floor_mean l := by
  by_contra hcon
  push_neg at hcon
  have hsum : ∀ t : List Nat, (∀ v ∈ t, spec_floor_mean l < v) →
      t.length * (spec_floor_mean l + 1) ≤ t.sum := by
    intro t
    induction t with
    | nil => intro _; simp
    | cons x xs ih =>
      intro ht
      have h1 := ht x (List.mem_cons_self _ _)
      have h2 := ih (fun v hv => ht v (List.mem_cons_of_mem _ hv))
      rw [List.sum_cons, List.length_cons, Nat.add_mul]
      omega
  have h1 := hsum l hcon
  have hlen : 0 < l.length := List.length_pos.mpr h
  have h2 : l.sum < l.length * (spec_floor_mean l + 1) := by
    unfold spec_floor_mean
    have := Nat.lt_mul_div_succ l.sum hlen
    rw [Nat.mul_add, Nat.mul_one]
    exact this
  omega

/-- Some element of a non-empty list is at least the floored mean. -/
theorem exists_ge_floor_mean (l : List Nat) (h : l ≠ []) : ∃ v ∈ l, spec_floor_mean l ≤ v := by
  by_contra hcon
  push_neg at hcon
  have hlen : 0 < l.length := List.length_pos.mpr h
  have hsum : ∀ t : List Nat, (∀ v ∈ t, v + 1 ≤ spec_floor_mean l) →
      t.sum + t.length ≤ t.length * spec_floor_mean l := by
    intro t
    induction t with
    | nil => intro _; simp
    | cons x xs ih =>
      intro ht
      have h1 := ht x (List.mem_cons_self _ _)
      have h2 := ih (fun v hv => ht v (List.mem_cons_of_mem _ hv))
      rw [List.sum_cons, List.length_cons, Nat.add_mul]
      omega
  have h1 := hsum l (fun v hv => hcon v hv)
  have h2 : l.length * spec_floor_mean l ≤ l.sum := by
    unfold spec_floor_mean
    exact Nat.mul_div_le l.sum l.length
  omega

/-- The floored mean of a channel over a group of byte-valued pixels is a
legitimate average. -/
theorem floor_mean_channel_ok (group : List pixel_t) (ch : pixel_t → Nat)
    (hch : ∀ p, ch p ≤ 255) :
    spec_channel_ok group ch (spec_floor_mean (group.map ch)) := by
  have hnil : group = [] → spec_floor_mean (group.map ch) = 0 := by
    intro h
    rw [h]
    simp [spec_floor_mean]
  have hne : group ≠ [] → (∃ p ∈ group, ch p ≤ spec_floor_mean (group.map ch)) ∧
      (∃ q ∈ group, spec_floor_mean (group.map ch) ≤ ch q) := by
    intro h
    have hm : group.map ch ≠ [] := by
      intro h0
      exact h (List.map_eq_nil_iff.mp h0)
    obtain ⟨v, hv, hle⟩ := exists_le_floor_mean _ hm
    obtain ⟨w, hw, hge⟩ := exists_ge_floor_mean _ hm
    obtain ⟨p, hp, rfl⟩ := List.mem_map.mp hv
    obtain ⟨q, hq, rfl⟩ := List.mem_map.mp hw
    exact ⟨⟨p, hp, hle⟩, ⟨q, hq, hge⟩⟩
  refine ⟨?_, hnil, hne⟩
  by_cases h : group = []
  · rw [hnil h]
    omega
  · obtain ⟨_, ⟨q, _, hq⟩⟩ := hne h
    exact le_trans hq (hch q)

/-- In 24-bit mode with noise off, `output_colors` on byte-valued channels
reads `u8_to_str` inside the table and emits the two colour sequences. -/
theorem output_colors_24bit_bytes (c : ctx_t) (x y : Nat)
    (fg_red fg_green fg_blue bg_red bg_green bg_blue : Nat)
    (hc : c.cli_colors = cli_colors_24bit) (hn : c.noise_enabled = false)
    (h1 : fg_red ≤ 255) (h2 : fg_green ≤ 255) (h3 : fg_blue ≤ 255)
    (h4 : bg_red ≤ 255) (h5 : bg_green ≤ 255) (h6 : bg_blue ≤ 255) :
    output_colors c x y fg_red fg_green fg_blue bg_red bg_green bg_blue
      = spec_sgr_24bit fg_red fg_green fg_blue bg_red bg_green bg_blue := by
  unfold output_colors spec_sgr_24bit
  simp only [hn, hc, Bool.false_eq_true, if_false, ascii_append,
    u8_to_str_at_decimal _ (Int.natCast_nonneg fg_red) (by omega),
    u8_to_str_at_decimal _ (Int.natCast_nonneg fg_green) (by omega),
    u8_to_str_at_decimal _ (Int.natCast_nonneg fg_blue) (by omega),
    u8_to_str_at_decimal _ (Int.natCast_nonneg bg_red) (by omega),
    u8_to_str_at_decimal _ (Int.natCast_nonneg bg_green) (by omega),
    u8_to_str_at_decimal _ (Int.natCast_nonneg bg_blue) (by omega),
    Int.toNat_ofNat, List.append_assoc]

/-- In 24-bit mode `init_noise` switches the noise off and changes nothing
else. -/
theorem init_noise_24bit (c : ctx_t) (now : Nat) (hc : c.cli_colors = cli_colors_24bit) :
    (init_noise c now).1 = { c with noise_enabled := false } := by
  unfold init_noise
  simp [hc, noise_scale]

/-- C37: for every quadrant or sextant block of byte-valued pixels, each
foreground and background channel that the block hands to `output_colors` and
`output_bg_color` lies in `0..255`: it is 0 for an empty group and otherwise
lies between the least and the greatest value of that channel in the group. In
24-bit mode `init_noise` leaves the noise switched off, so `output_colors`
indexes `u8_to_str` with these channels unchanged, inside the 256-entry table,
and emits the two colour sequences in decimal. -/
theorem C37_channels_are_bytes (c : ctx_t) (now x y : Nat) (tl tr ml mr bl br : pixel_t) :
    (spec_channel_ok (spec_fg_group [tl, tr, bl, br]) (fun p => p.red.val)
        (quadrant_cell tl tr bl br).fg_red ∧
      spec_channel_ok (spec_fg_group [tl, tr, bl, br]) (fun p => p.green.val)
        (quadrant_cell tl tr bl br).fg_green ∧
      spec_channel_ok (spec_fg_group [tl, tr, bl, br]) (fun p => p.blue.val)
        (quadrant_cell tl tr bl br).fg_blue ∧
      spec_channel_ok (spec_bg_group [tl, tr, bl, br]) (fun p => p.red.val)
        (quadrant_cell tl tr bl br).bg_red ∧
      spec_channel_ok (spec_bg_group [tl, tr, bl, br]) (fun p => p.green.val)
        (quadrant_cell tl tr bl br).bg_green ∧
      spec_channel_ok (spec_bg_group [tl, tr, bl, br]) (fun p => p.blue.val)
        (quadrant_cell tl tr bl br).bg_blue) ∧
    (spec_channel_ok (spec_fg_group [tl, tr, ml, mr, bl, br]) (fun p => p.red.val)
        (sextant_cell tl tr ml mr bl br).fg_red ∧
      spec_channel_ok (spec_fg_group [tl, tr, ml, mr, bl, br]) (fun p => p.green.val)
        (sextant_cell tl tr ml mr bl br).fg_green ∧
      spec_channel_ok (spec_fg_group [tl, tr, ml, mr, bl, br]) (fun p => p.blue.val)
        (sextant_cell tl tr ml mr bl br).fg_blue ∧
      spec_channel_ok (spec_bg_group [tl, tr, ml, mr, bl, br]) (fun p => p.red.val)
        (sextant_cell tl tr ml mr bl br).bg_red ∧
      spec_channel_ok (spec_bg_group [tl, tr, ml, mr, bl, br]) (fun p => p.green.val)
        (sextant_cell tl tr ml mr bl br).bg_green ∧
      spec_channel_ok (spec_bg_group [tl, tr, ml, mr, bl, br]) (fun p => p.blue.val)
        (sextant_cell tl tr ml mr bl br).bg_blue) ∧
    (c.cli_colors = cli_colors_24bit →
      (init_noise c now).1.noise_enabled = false ∧
      (init_noise c now).1.cli_colors = cli_colors_24bit ∧
      (∀ v : Nat, v ≤ 255 → u8_to_str_at (v : Int) = ascii (Nat.repr v)) ∧
      output_colors (init_noise c now).1 x y
          (quadrant_cell tl tr bl br).fg_red (quadrant_cell tl tr bl br).fg_green
          (quadrant_cell tl tr bl br).fg_blue (quadrant_cell tl tr bl br).bg_red
          (quadrant_cell tl tr bl br).bg_green (quadrant_cell tl tr bl br).bg_blue
        = spec_sgr_24bit
          (quadrant_cell tl tr bl br).fg_red (quadrant_cell tl tr bl br).fg_green
          (quadrant_cell tl tr bl br).fg_blue (quadrant_cell tl tr bl br).bg_red
          (quadrant_cell tl tr bl br).bg_green (quadrant_cell tl tr bl br).bg_blue ∧
      output_colors (init_noise c now).1 x y
          (sextant_cell tl tr ml mr bl br).fg_red (sextant_cell tl tr ml mr bl br).fg_green
          (sextant_cell tl tr ml mr bl br).fg_blue (sextant_cell tl tr ml mr bl br).bg_red
          (sextant_cell tl tr ml mr bl br).bg_green (sextant_cell tl tr ml mr bl br).bg_blue
        = spec_sgr_24bit
          (sextant_cell tl tr ml mr bl br).fg_red (sextant_cell tl tr ml mr bl br).fg_green
          (sextant_cell tl tr ml mr bl br).fg_blue (sextant_cell tl tr ml mr bl br).bg_red
          (sextant_cell tl tr ml mr bl br).bg_green (sextant_cell tl tr ml mr bl br).bg_blue) := by
  have hr : ∀ p : pixel_t, p.red.val ≤ 255 := fun p => by have := p.red.isLt; omega
  have hg : ∀ p : pixel_t, p.green.val ≤ 255 := fun p => by have := p.green.isLt; omega
  have hb : ∀ p : pixel_t, p.blue.val ≤ 255 := fun p => by have := p.blue.isLt; omega
  obtain ⟨qa, qb, qc, qd, qe, qf⟩ := quadrant_cell_colours tl tr bl br
  obtain ⟨sa, sb, sc, sd, se, sf⟩ := sextant_cell_colours tl tr ml mr bl br
  have Q1 : spec_channel_ok (spec_fg_group [tl, tr, bl, br]) (fun p => p.red.val)
      (quadrant_cell tl tr bl br).fg_red := by
    rw [qa]; exact floor_mean_channel_ok _ _ hr
  have Q2 : spec_channel_ok (spec_fg_group [tl, tr, bl, br]) (fun p => p.green.val)
      (quadrant_cell tl tr bl br).fg_green := by
    rw [qb]; exact floor_mean_channel_ok _ _ hg
  have Q3 : spec_channel_ok (spec_fg_group [tl, tr, bl, br]) (fun p => p.blue.val)
      (quadrant_cell tl tr bl br).fg_blue := by
    rw [qc]; exact floor_mean_channel_ok _ _ hb
  have Q4 : spec_channel_ok (spec_bg_group [tl, tr, bl, br]) (fun p => p.red.val)
      (quadrant_cell tl tr bl br).bg_red := by
    rw [qd]; exact floor_mean_channel_ok _ _ hr
  have Q5 : spec_channel_ok (spec_bg_group [tl, tr, bl, br]) (fun p => p.green.val)
      (quadrant_cell tl tr bl br).bg_green := by
    rw [qe]; exact floor_mean_channel_ok _ _ hg
  have Q6 : spec_channel_ok (spec_bg_group [tl, tr, bl, br]) (fun p => p.blue.val)
      (quadrant_cell tl tr bl br).bg_blue := by
    rw [qf]; exact floor_mean_channel_ok _ _ hb
  have S1 : spec_channel_ok (spec_fg_group [tl, tr, ml, mr, bl, br]) (fun p => p.red.val)
      (sextant_cell tl tr ml mr bl br).fg_red := by
    rw [sa]; exact floor_mean_channel_ok _ _ hr
  have S2 : spec_channel_ok (spec_fg_group [tl, tr, ml, mr, bl, br]) (fun p => p.green.val)
      (sextant_cell tl tr ml mr bl br).fg_green := by
    rw [sb]; exact floor_mean_channel_ok _ _ hg
  have S3 : spec_channel_ok (spec_fg_group [tl, tr, ml, mr, bl, br]) (fun p => p.blue.val)
      (sextant_cell tl tr ml mr bl br).fg_blue := by
    rw [sc]; exact floor_mean_channel_ok _ _ hb
  have S4 : spec_channel_ok (spec_bg_group [tl, tr, ml, mr, bl, br]) (fun p => p.red.val)
      (sextant_cell tl tr ml mr bl br).bg_red := by
    rw [sd]; exact floor_mean_channel_ok _ _ hr
  have S5 : spec_channel_ok (spec_bg_group [tl, tr, ml, mr, bl, br]) (fun p => p.green.val)
      (sextant_cell tl tr ml mr bl br).bg_green := by
    rw [se]; exact floor_mean_channel_ok _ _ hg
  have S6 : spec_channel_ok (spec_bg_group [tl, tr, ml, mr, bl, br]) (fun p => p.blue.val)
      (sextant_cell tl tr ml mr bl br).bg_blue := by
    rw [sf]; exact floor_mean_channel_ok _ _ hb
  refine ⟨⟨Q1, Q2, Q3, Q4, Q5, Q6⟩, ⟨S1, S2, S3, S4, S5, S6⟩, ?_⟩
  intro hc
  have e := init_noise_24bit c now hc
  have hn : (init_noise c now).1.noise_enabled = false := by rw [e]
  have hm : (init_noise c now).1.cli_colors = cli_colors_24bit := by rw [e]; exact hc
  refine ⟨hn, hm, ?_, ?_, ?_⟩
  · intro v hv
    have := u8_to_str_at_decimal (v : Int) (Int.natCast_nonneg v) (by omega)
    rw [this, Int.toNat_ofNat]
  · exact output_colors_24bit_bytes _ x y _ _ _ _ _ _ hm hn Q1.1 Q2.1 Q3.1 Q4.1 Q5.1 Q6.1
  · exact output_colors_24bit_bytes _ x y _ _ _ _ _ _ hm hn S1.1 S2.1 S3.1 S4.1 S5.1 S6.1

/-! ## Properties of the duplicate dispatch -/

/-- A duplicate dispatch skips `detect_key_repeat`: it records the press time
and runs the state block. -/
theorem keypress_duplicate_eq (st : input_t) (key : Nat) :
    keypress st key true
      = keypress_state (keypress_record (DG_GetTicksMs st).2 key (DG_GetTicksMs st).1) key :=
  rfl

/-- The record of the key after a duplicate dispatch: only the press history
and the state change, the flag `detected_repeat` is kept. -/
theorem keypress_duplicate_record (st : input_t) (key : Nat) :
    ((keypress st key true).keyinfos key).detected_repeat
      = (st.keyinfos key).detected_repeat := by
  rw [keypress_duplicate_eq]
  unfold keypress_state keypress_record DG_GetTicksMs keybuffer_put
  dsimp only
  split_ifs <;> simp [array_set]

/-- The measurement history and the estimates after a duplicate dispatch. -/
theorem keypress_duplicate_measurements (st : input_t) (key : Nat) :
    measurements (keypress st key true) = measurements st := by
  rw [keypress_duplicate_eq]
  unfold keypress_state keypress_record DG_GetTicksMs keybuffer_put measurements
  dsimp only
  split_ifs <;> rfl

/-- C34: a duplicate dispatch does not feed the repeat-timing statistics. For
every key and every state, `keypress(key, true)` leaves the measurement history
(`key_measure_delays`, `key_measure_rates`, `key_measure_count`,
`key_measure_next`), `key_repeat_delay`, `key_repeat_rate` and the flag
`detected_repeat` of every key unchanged, and changes the record (state and
press history) of no key other than `key`. -/
theorem C34_duplicate_keypress_frame (st : input_t) (key : Nat) :
    (keypress st key true).key_measure_delays = st.key_measure_delays ∧
    (keypress st key true).key_measure_rates = st.key_measure_rates ∧
    (keypress st key true).key_measure_count = st.key_measure_count ∧
    (keypress st key true).key_measure_next = st.key_measure_next ∧
    (keypress st key true).key_repeat_delay = st.key_repeat_delay ∧
    (keypress st key true).key_repeat_rate = st.key_repeat_rate ∧
    (∀ k, ((keypress st key true).keyinfos k).detected_repeat
      = (st.keyinfos k).detected_repeat) ∧
    (∀ k, k ≠ key → (keypress st key true).keyinfos k = st.keyinfos k) := by
  have hm := keypress_duplicate_measurements st key
  unfold measurements at hm
  simp only [Prod.mk.injEq] at hm
  obtain ⟨m1, m2, m3, m4, m5, m6⟩ := hm
  have hother := (keypress_effect st key true).2.2.2.2.2.2.2
  refine ⟨m3, m4, m1, m2, m5, m6, ?_, hother⟩
  intro k
  by_cases hk : k = key
  · rw [hk]
    exact keypress_duplicate_record st key
  · rw [hother k hk]

/-! ## Properties of the capacity doubling -/

/-- The doubling loop makes exactly `k` passes, `k` being the least number with
`capacity * 2^k ≥ total`: it ends with `k + 1` evaluations of its test and not
with fewer. -/
theorem grow_capacity_exact (total : Nat) (ht : total ≤ 9223372036854775808) :
    ∀ (k capacity : Nat), total ≤ capacity * 2 ^ k → (∀ j, j < k → capacity * 2 ^ j < total) →
      ∀ fuel, grow_capacity fuel total capacity
        = if k < fuel then some (capacity * 2 ^ k) else none := by
  intro k
  induction k with
  | zero =>
    intro capacity hle _ fuel
    cases fuel with
    | zero => rfl
    | succ fuel =>
      have h : ¬ total > capacity := by omega
      rw [grow_capacity]
      simp [h]
  | succ k ih =>
    intro capacity hle hmin fuel
    have h : total > capacity := by
      have := hmin 0 (by omega)
      omega
    cases fuel with
    | zero => rfl
    | succ fuel =>
      have hm : capacity * 2 % 18446744073709551616 = capacity * 2 := by omega
      have hle2 : total ≤ capacity * 2 * 2 ^ k := by
        rw [Nat.mul_assoc, ← Nat.pow_succ']
        exact hle
      have hmin2 : ∀ j, j < k → capacity * 2 * 2 ^ j < total := by
        intro j hj
        have := hmin (j + 1) (by omega)
        rw [Nat.mul_assoc, ← Nat.pow_succ']
        exact this
      rw [grow_capacity]
      simp only [h, if_true, hm]
      rw [ih (capacity * 2) hle2 hmin2 fuel, Nat.mul_assoc, ← Nat.pow_succ']
      by_cases hk : k < fuel
      · rw [if_pos hk, if_pos (by omega)]
      · rw [if_neg hk, if_neg (by omega)]

/-- The least number of doublings exists and is at most 63. -/
theorem least_doubling (capacity total : Nat) (hc : 1 ≤ capacity)
    (ht : total ≤ 9223372036854775808) :
    ∃ k, k ≤ 63 ∧ total ≤ capacity * 2 ^ k ∧ ∀ j, j < k → capacity * 2 ^ j < total := by
  have hex : ∃ k, total ≤ capacity * 2 ^ k := by
    refine ⟨63, ?_⟩
    have h1 : 1 * 2 ^ 63 ≤ capacity * 2 ^ 63 := Nat.mul_le_mul_right _ hc
    norm_num at h1 ⊢
    omega
  refine ⟨Nat.find hex, ?_, Nat.find_spec hex, ?_⟩
  · apply Nat.find_min' hex
    have h1 : 1 * 2 ^ 63 ≤ capacity * 2 ^ 63 := Nat.mul_le_mul_right _ hc
    norm_num at h1 ⊢
    omega
  · intro j hj
    have := Nat.find_min hex hj
    omega

/-- A capacity of 0 is never enough: the loop does not end. -/
theorem grow_capacity_zero (total : Nat) (ht : 0 < total) :
    ∀ fuel, grow_capacity fuel total 0 = none := by
  intro fuel
  induction fuel with
  | zero => rfl
  | succ fuel ih =>
    rw [grow_capacity]
    simp only [gt_iff_lt, ht, if_true]
    exact ih

/-- Doubling a power of two that is at most 2^63: when the loop ends, the
capacity is a power of two that is not smaller and at most 2^63. -/
theorem grow_capacity_pow (total : Nat) :
    ∀ (fuel m c : Nat), m ≤ 63 → grow_capacity fuel total (2 ^ m) = some c →
      ∃ m', m ≤ m' ∧ m' ≤ 63 ∧ c = 2 ^ m' := by
  intro fuel
  induction fuel with
  | zero =>
    intro m c _ h
    exact absurd h (by simp [grow_capacity])
  | succ fuel ih =>
    intro m c hm h
    rw [grow_capacity] at h
    by_cases hgt : total > 2 ^ m
    · rw [if_pos hgt] at h
      by_cases h63 : m = 63
      · subst h63
        have hz : 2 ^ 63 * 2 % 18446744073709551616 = 0 := by norm_num
        rw [hz, grow_capacity_zero total (by omega) fuel] at h
        exact absurd h (by simp)
      · have hp : 2 ^ (m + 1) ≤ 2 ^ 63 := Nat.pow_le_pow_right (by norm_num) (by omega)
        have hmod : 2 ^ m * 2 % 18446744073709551616 = 2 ^ (m + 1) := by
          rw [← Nat.pow_succ]
          generalize 2 ^ (m + 1) = v at hp
          norm_num at hp
          omega
        rw [hmod] at h
        obtain ⟨m', h1, h2, h3⟩ := ih (m + 1) c (by omega) h
        exact ⟨m', by omega, h2, h3⟩
    · rw [if_neg hgt] at h
      exact ⟨m, le_refl m, hm, (Option.some.inj h).symm⟩

/-- A call of `buffer_append` that returns keeps the capacity a power of two
between 2^20 and 2^63 and does not lower it. -/
theorem buffer_append_capacity (heap : Nat → Option (Nat → Nat)) (b b' : buffer_t)
    (bytes : List Nat) (m : Nat) (hm : m ≤ 63) (hcap : b.buffer_capacity = 2 ^ m)
    (h : buffer_append heap b bytes = append_result_t.returned b') :
    ∃ m', m ≤ m' ∧ m' ≤ 63 ∧ b'.buffer_capacity = 2 ^ m' := by
  unfold buffer_append at h
  dsimp only at h
  split_ifs at h with hgt
  · split at h
    · exact absurd h (by simp)
    · rename_i c hc
      split at h
      · exact absurd h (by simp)
      · rw [hcap] at hc
        obtain ⟨m', h1, h2, h3⟩ := grow_capacity_pow _ 65 m c hm hc
        have e := append_result_t.returned.inj h
        refine ⟨m', h1, h2, ?_⟩
        rw [← e]
        exact h3
  · have e := append_result_t.returned.inj h
    refine ⟨m, le_refl m, hm, ?_⟩
    rw [← e]
    exact hcap

/-- Every state the buffer reaches from a capacity that is a power of two at
most 2^63 has such a capacity again, and not a smaller one. -/
theorem buffer_run_capacity (heap : Nat → Option (Nat → Nat)) :
    ∀ (ops : List buffer_op) (b b' : buffer_t) (m : Nat), m ≤ 63 → b.buffer_capacity = 2 ^ m →
      buffer_run heap b ops = some b' →
      ∃ m', m ≤ m' ∧ m' ≤ 63 ∧ b'.buffer_capacity = 2 ^ m' := by
  intro ops
  induction ops with
  | nil =>
    intro b b' m hm hcap h
    have e : b = b' := Option.some.inj h
    exact ⟨m, le_refl m, hm, by rw [← e]; exact hcap⟩
  | cons op ops ih =>
    intro b b' m hm hcap h
    cases op with
    | append bytes =>
      rw [buffer_run] at h
      split at h
      · rename_i b1 hb1
        obtain ⟨m1, h1, h2, h3⟩ := buffer_append_capacity heap b b1 bytes m hm hcap hb1
        obtain ⟨m', h4, h5, h6⟩ := ih b1 b' m1 h2 h3 h
        exact ⟨m', by omega, h5, h6⟩
      · exact absurd h (by simp)
    | reset =>
      rw [buffer_run] at h
      exact ih (buffer_reset b) b' m hm hcap h

/-- A run with one more operation is the run followed by that operation. -/
theorem buffer_run_append (heap : Nat → Option (Nat → Nat)) (op : buffer_op) :
    ∀ (ops : List buffer_op) (b : buffer_t),
      buffer_run heap b (ops ++ [op])
        = (buffer_run heap b ops).bind (fun b1 => buffer_run heap b1 [op]) := by
  intro ops
  induction ops with
  | nil =>
    intro b
    rfl
  | cons o ops ih =>
    intro b
    cases o with
    | append bytes =>
      rw [List.cons_append, buffer_run, buffer_run]
      split
      · exact ih _
      · rfl
    | reset =>
      rw [List.cons_append, buffer_run, buffer_run]
      exact ih _

/-- C40: the capacity-doubling loop of `buffer_append` terminates for every
capacity of at least 1 and every requested total of at most 2^63 (with a 64-bit
`size_t`): it makes exactly `k` passes, where `k` is the least number with
`capacity * 2^k ≥ total`, and ends with the capacity `capacity * 2^k`; `k` is
at most 63. `DG_Init` starts the capacity at 1048576, and over every sequence
of appends and buffer resets that follows no operation lowers it, so the
capacity is at least 1048576, hence at least 1, at every call. -/
theorem C40_doubling_terminates (heap : Nat → Option (Nat → Nat)) (block : Nat → Nat)
    (capacity total : Nat) (hc : 1 ≤ capacity) (ht : total ≤ 9223372036854775808) :
    (∃ k, k ≤ 63 ∧ total ≤ capacity * 2 ^ k ∧ (∀ j, j < k → capacity * 2 ^ j < total) ∧
      (∀ fuel, grow_capacity fuel total capacity
        = if k < fuel then some (capacity * 2 ^ k) else none) ∧
      grow_capacity 65 total capacity = some (capacity * 2 ^ k)) ∧
    (DG_Init_buffer block).buffer_capacity = 1048576 ∧
    (∀ ops b, buffer_run heap (DG_Init_buffer block) ops = some b →
      1048576 ≤ b.buffer_capacity ∧ 1 ≤ b.buffer_capacity) ∧
    (∀ ops op b b', buffer_run heap (DG_Init_buffer block) ops = some b →
      buffer_run heap (DG_Init_buffer block) (ops ++ [op]) = some b' →
      b.buffer_capacity ≤ b'.buffer_capacity) := by
  have hinit : (DG_Init_buffer block).buffer_capacity = 2 ^ 20 := by
    unfold DG_Init_buffer
    norm_num
  refine ⟨?_, by rw [hinit]; norm_num, ?_, ?_⟩
  · obtain ⟨k, hk, hle, hmin⟩ := least_doubling capacity total hc ht
    have hex := grow_capacity_exact total ht k capacity hle hmin
    refine ⟨k, hk, hle, hmin, hex, ?_⟩
    rw [hex 65, if_pos (by omega)]
  · intro ops b h
    obtain ⟨m', h1, _, h3⟩ := buffer_run_capacity heap ops _ b 20 (by omega) hinit h
    have hp : 2 ^ 20 ≤ 2 ^ m' := Nat.pow_le_pow_right (by norm_num) h1
    rw [h3]
    generalize 2 ^ m' = v at hp
    norm_num at hp
    omega
  · intro ops op b b' h h'
    obtain ⟨m1, _, h2, h3⟩ := buffer_run_capacity heap ops _ b 20 (by omega) hinit h
    rw [buffer_run_append, h] at h'
    obtain ⟨m', h4, _, h6⟩ := buffer_run_capacity heap [op] b b' m1 h2 h3 h'
    rw [h3, h6]
    exact Nat.pow_le_pow_right (by norm_num) h4

/-- C40 at capacity 4 and total 7: one doubling, to capacity 8. -/
theorem C40_doubling_terminates_witness :
    ∃ k, k ≤ 63 ∧ 7 ≤ 4 * 2 ^ k ∧ (∀ j, j < k → 4 * 2 ^ j < 7) ∧
      (∀ fuel, grow_capacity fuel 7 4 = if k < fuel then some (4 * 2 ^ k) else none) ∧
      grow_capacity 65 7 4 = some (4 * 2 ^ k) :=
  (C40_doubling_terminates (fun _ => none) (fun _ => 0) 4 7 (by decide) (by decide)).1

/-! ## Properties of the frame statistics -/

/-- One more frame: the statics hold the times extended by the new reading;
while fewer than 20 frames were drawn nothing is printed, afterwards the frame
rate printed is 20000 divided by the time elapsed since the frame drawn 19
frames before, provided that time is not 0. -/
theorem stats_frame_step (s : stats_t) (ts : List Nat) (t : Nat) (h : stats_holds s ts) :
    (ts.length < 20 →
      ∃ s', DG_DrawFrame_stats s t = some (s', none) ∧ stats_holds s' (ts ++ [t])) ∧
    (20 ≤ ts.length → ∀ t19, ts[ts.length - 19]? = some t19 →
      (u32_sub (to_uint32 (to_int32 t)) t19 = 0 → DG_DrawFrame_stats s t = none) ∧
      (u32_sub (to_uint32 (to_int32 t)) t19 ≠ 0 →
        ∃ s', DG_DrawFrame_stats s t
            = some (s', some (to_int32 (20000 / u32_sub (to_uint32 (to_int32 t)) t19))) ∧
          stats_holds s' (ts ++ [t]))) := by
  obtain ⟨hn, hc, hs⟩ := h
  have hold : ∀ (cnt : Nat), cnt = min (ts.length + 1) 20 →
      stats_holds ⟨array_set s.stats_times s.stats_next t,
        (s.stats_next + 1) % stats_capacity, cnt⟩ (ts ++ [t]) := by
    intro cnt hcnt
    refine ⟨?_, ?_, ?_⟩
    · show (s.stats_next + 1) % 20 = (ts ++ [t]).length % 20
      rw [hn, List.length_append, List.length_singleton]
      omega
    · show cnt = min (ts ++ [t]).length 20
      rw [List.length_append, List.length_singleton]
      exact hcnt
    · intro i hi hle
      rw [List.length_append, List.length_singleton] at hi hle
      show (ts ++ [t])[i]? = some (array_set s.stats_times s.stats_next t (i % 20))
      rw [hn]
      by_cases hil : i = ts.length
      · subst hil
        rw [array_set_same, List.getElem?_append_right (le_refl _)]
        simp
      · have hne : i % 20 ≠ ts.length % 20 := by omega
        rw [array_set_other _ _ _ _ hne, List.getElem?_append_left (by omega)]
        exact hs i (by omega) (by omega)
  constructor
  · intro hlt
    have hcl : s.stats_count < stats_capacity := by
      rw [hc]
      show min ts.length 20 < 20
      omega
    refine ⟨_, ?_, hold (s.stats_count + 1) (by rw [hc]; omega)⟩
    unfold DG_DrawFrame_stats
    rw [if_pos hcl]
  · intro hge t19 h19
    have hcl : ¬ s.stats_count < stats_capacity := by
      rw [hc]
      show ¬ min ts.length 20 < 20
      omega
    have hslot : array_set s.stats_times s.stats_next t ((s.stats_next + 1) % stats_capacity)
        = t19 := by
      show array_set s.stats_times s.stats_next t ((s.stats_next + 1) % 20) = t19
      have hne : (s.stats_next + 1) % 20 ≠ s.stats_next := by
        rw [hn]
        omega
      rw [array_set_other _ _ _ _ hne, hn]
      have h1 := hs (ts.length - 19) (by omega) (by omega)
      rw [h19] at h1
      have h2 : (ts.length - 19) % 20 = (ts.length % 20 + 1) % 20 := by omega
      rw [h2] at h1
      exact (Option.some.inj h1).symm
    constructor
    · intro hz
      unfold DG_DrawFrame_stats
      rw [if_neg hcl]
      dsimp only
      rw [hslot, if_pos hz]
    · intro hnz
      refine ⟨_, ?_, hold s.stats_count (by rw [hc]; omega)⟩
      unfold DG_DrawFrame_stats
      rw [if_neg hcl]
      dsimp only
      rw [hslot, if_neg hnz]
      rfl

/-- The statics after one more frame. -/
theorem stats_after_append (s : stats_t) (ts : List Nat) (t : Nat) :
    stats_after s (ts ++ [t])
      = (stats_after s ts).bind (fun s' => (DG_DrawFrame_stats s' t).map Prod.fst) := by
  unfold stats_after
  rw [List.foldl_append]
  rfl

/-- The readings of one more frame at a constant interval. -/
theorem frame_times_succ (t0 d n : Nat) :
    frame_times t0 d (n + 1) = frame_times t0 d n ++ [t0 + n * d] := by
  unfold frame_times
  rw [List.range_succ, List.map_append]
  rfl

/-- The number of readings. -/
theorem frame_times_length (t0 d n : Nat) : (frame_times t0 d n).length = n := by
  unfold frame_times
  simp

/-- The reading of frame `i`. -/
theorem frame_times_get (t0 d n i : Nat) (h : i < n) :
    (frame_times t0 d n)[i]? = some (t0 + i * d) := by
  unfold frame_times
  simp [h]

/-- A clock reading survives the round trip through `int`. -/
theorem to_uint32_to_int32 (u : Nat) (h : u < 4294967296) : to_uint32 (to_int32 u) = u := by
  unfold to_uint32 to_int32
  split_ifs <;> omega

/-- At a constant interval `d` the time elapsed since the frame drawn 19
frames before is `19 * d`. -/
theorem elapsed_constant (t0 d n : Nat) (hn : 19 ≤ n) (hfit : t0 + n * d < 4294967296) :
    u32_sub (to_uint32 (to_int32 (t0 + n * d))) (t0 + (n - 19) * d) = 19 * d := by
  have hsplit : (n - 19) * d + 19 * d = n * d := by
    rw [← Nat.add_mul]
    congr 1
    omega
  rw [to_uint32_to_int32 _ hfit]
  unfold u32_sub
  generalize n * d = a at hfit hsplit
  generalize (n - 19) * d = b at hsplit
  omega

/-- Frames drawn at a constant interval of at least 1 ms never divide by zero,
and the statics hold their readings. -/
theorem stats_after_constant (t0 d : Nat) (hd : 1 ≤ d) :
    ∀ n, t0 + n * d < 4294967296 + d →
      ∃ s, stats_after stats_initial (frame_times t0 d n) = some s ∧
        stats_holds s (frame_times t0 d n) := by
  intro n
  induction n with
  | zero =>
    intro _
    exact ⟨stats_initial, rfl, rfl, rfl, fun _ hi _ => absurd hi (Nat.not_lt_zero _)⟩
  | succ n ih =>
    intro hfit
    have hmul : (n + 1) * d = n * d + d := by rw [Nat.add_mul, Nat.one_mul]
    obtain ⟨s, hs, hh⟩ := ih (by omega)
    have hlen := frame_times_length t0 d n
    obtain ⟨p1, p2⟩ := stats_frame_step s (frame_times t0 d n) (t0 + n * d) hh
    rw [frame_times_succ, stats_after_append, hs]
    by_cases hn : n < 20
    · obtain ⟨s', e1, e2⟩ := p1 (by rw [hlen]; exact hn)
      refine ⟨s', ?_, e2⟩
      rw [Option.some_bind, e1]
      rfl
    · have h19 : (frame_times t0 d n)[(frame_times t0 d n).length - 19]?
          = some (t0 + (n - 19) * d) := by
        rw [hlen]
        exact frame_times_get t0 d n (n - 19) (by omega)
      have ht : t0 + n * d < 4294967296 := by omega
      have hn20 : 20 ≤ n := by omega
      have hel : u32_sub (to_uint32 (to_int32 (t0 + n * d))) (t0 + (n - 19) * d) ≠ 0 := by
        rw [elapsed_constant t0 d n (by omega) ht]
        omega
      obtain ⟨s', e1, e2⟩ := (p2 (by rw [hlen]; exact hn20) _ h19).2 hel
      refine ⟨s', ?_, e2⟩
      rw [Option.some_bind, e1]
      rfl

/-- Claim C35 against the code: for frames drawn at a constant interval of
`d ≥ 1` ms (readings below 2^32), the statistics block never divides by zero;
the first 20 frames print no frame rate, and every later frame prints
`floor(20000 / (19 * d))`: the 20 slots span 19 intervals, since the reading of
the current frame takes one of them, so the printed frame rate is not
`floor(1000 / d)`. -/
theorem C35_frame_rate_spans_19_intervals (t0 d n : Nat) (hd : 1 ≤ d)
    (hfit : t0 + n * d < 4294967296) :
    ∃ s, stats_after stats_initial (frame_times t0 d n) = some s ∧
      (n < 20 → ∃ s', DG_DrawFrame_stats s (t0 + n * d) = some (s', none)) ∧
      (20 ≤ n → ∃ s', DG_DrawFrame_stats s (t0 + n * d)
        = some (s', some ((20000 / (19 * d) : Nat) : Int))) := by
  obtain ⟨s, hs, hh⟩ := stats_after_constant t0 d hd n (by omega)
  have hlen := frame_times_length t0 d n
  obtain ⟨p1, p2⟩ := stats_frame_step s (frame_times t0 d n) (t0 + n * d) hh
  refine ⟨s, hs, ?_, ?_⟩
  · intro hn
    obtain ⟨s', e1, _⟩ := p1 (by rw [hlen]; exact hn)
    exact ⟨s', e1⟩
  · intro hn
    have h19 : (frame_times t0 d n)[(frame_times t0 d n).length - 19]?
        = some (t0 + (n - 19) * d) := by
      rw [hlen]
      exact frame_times_get t0 d n (n - 19) (by omega)
    have hel := elapsed_constant t0 d n (by omega) hfit
    obtain ⟨s', e1, _⟩ := (p2 (by rw [hlen]; omega) _ h19).2 (by rw [hel]; omega)
    refine ⟨s', ?_⟩
    rw [e1, hel]
    have hq : 20000 / (19 * d) ≤ 20000 := Nat.div_le_self _ _
    have e : to_int32 (20000 / (19 * d)) = ((20000 / (19 * d) : Nat) : Int) := by
      generalize 20000 / (19 * d) = q at hq
      unfold to_int32
      split_ifs <;> omega
    rw [e]

/-- Claim C35 at 21 frames drawn every 10 ms from time 0: the 21st frame prints
105 FPS, where `floor(1000 / 10)` is 100; the same value results from running
the 21 frames directly. -/
theorem C35_frame_rate_spans_19_intervals_witness :
    (∃ s, stats_after stats_initial (frame_times 0 10 20) = some s ∧
      (20 < 20 → ∃ s', DG_DrawFrame_stats s (0 + 20 * 10) = some (s', none)) ∧
      (20 ≤ 20 → ∃ s', DG_DrawFrame_stats s (0 + 20 * 10)
        = some (s', some ((20000 / (19 * 10) : Nat) : Int)))) ∧
    ((20000 / (19 * 10) : Nat) : Int) = 105 ∧ (1000 / 10 : Nat) = 100 ∧
    (stats_after stats_initial (frame_times 0 10 20)).bind
      (fun s => (DG_DrawFrame_stats s 200).map Prod.snd) = some (some 105) :=
  ⟨C35_frame_rate_spans_19_intervals 0 10 20 (by decide) (by decide), by decide, by decide,
    by decide⟩

/-! ## Properties of the resampling -/

/-- A loop that stores one element per pass appends the elements in order. -/
theorem foldl_append_singleton {α : Type} (g : Nat → α) (l : List Nat) :
    ∀ d : List α, l.foldl (fun dest x => dest ++ [g x]) d = d ++ l.map g := by
  induction l with
  | nil =>
    intro d
    simp
  | cons x xs ih =>
    intro d
    rw [List.foldl_cons, ih, List.map_cons, List.append_assoc]
    rfl

/-- Rows of equal length stored one after the other: the length of the result
and the element at row `y`, column `x`. -/
theorem rows_get {α : Type} (w : Nat) (f : Nat → Nat → α) :
    ∀ h : Nat,
      ((List.range h).foldl (fun dest y => dest ++ (List.range w).map (f y)) []).length = h * w ∧
      ∀ y x, y < h → x < w →
        ((List.range h).foldl (fun dest y => dest ++ (List.range w).map (f y)) [])[y * w + x]?
          = some (f y x) := by
  intro h
  induction h with
  | zero =>
    refine ⟨by simp, ?_⟩
    intro y x hy _
    exact absurd hy (Nat.not_lt_zero _)
  | succ h ih =>
    obtain ⟨hlen, hget⟩ := ih
    rw [List.range_succ, List.foldl_append]
    simp only [List.foldl_cons, List.foldl_nil]
    refine ⟨?_, ?_⟩
    · rw [List.length_append, hlen, List.length_map, List.length_range, Nat.succ_mul]
    · intro y x hy hx
      by_cases hyh : y < h
      · have hlt : y * w + x < h * w := by
          have : (y + 1) * w ≤ h * w := Nat.mul_le_mul_right w hyh
          rw [Nat.add_mul, Nat.one_mul] at this
          omega
        rw [List.getElem?_append_left (by rw [hlen]; exact hlt)]
        exact hget y x hyh hx
      · have hyeq : y = h := by omega
        subst hyeq
        rw [List.getElem?_append_right (by rw [hlen]; omega), hlen]
        have e : y * w + x - y * w = x := by omega
        rw [e]
        simp [hx]

/-- The pixel stored at index `y * dest_width + x` is the palette colour of the
source index that the loop body computes for `(x, y)`; the loop stores
`dest_width * dest_height` pixels. -/
theorem resample_get (w h : Nat) (I_VideoBuffer : Int → Nat) (colors : Nat → Nat) :
    (DG_DrawFrame_resample w h I_VideoBuffer colors).length = h * w ∧
    ∀ y x, y < h → x < w →
      (DG_DrawFrame_resample w h I_VideoBuffer colors)[y * w + x]?
        = some (colors (I_VideoBuffer (resample_source w h x y))) := by
  have e : DG_DrawFrame_resample w h I_VideoBuffer colors
      = (List.range h).foldl (fun (dest : List Nat) (y : Nat) => dest ++ (List.range w).map
          (fun (x : Nat) => colors (I_VideoBuffer (resample_source w h x y)))) [] := by
    unfold DG_DrawFrame_resample
    simp only [Int.toNat_ofNat]
    congr 1
    funext dest y
    exact foldl_append_singleton _ _ dest
  rw [e]
  exact rows_get w (fun (y x : Nat) => colors (I_VideoBuffer (resample_source w h x y))) h

/-- A product that fits an `int`. -/
theorem int_mul_eq (a b : Int) (h0 : 0 ≤ a * b) (h1 : a * b < 2147483648) :
    int_mul a b = a * b := by
  unfold int_mul to_int32 to_uint32
  generalize a * b = p at h0 h1
  split_ifs <;> omega

/-- A sum that fits an `int`. -/
theorem int_add_eq (a b : Int) (h0 : 0 ≤ a + b) (h1 : a + b < 2147483648) :
    int_add a b = a + b := by
  unfold int_add to_int32 to_uint32
  generalize a + b = p at h0 h1
  split_ifs <;> omega

/-- The source index for sizes whose products fit an `int`: the nearest pixel
`(floor(x * 320 / dest_width), floor(y * 200 / dest_height))`, inside the source
frame. -/
theorem resample_source_eq (w h x y : Nat) (hw : w ≤ 6710887) (hh : h ≤ 10737419)
    (hx : x < w) (hy : y < h) :
    resample_source w h x y = ((y * 200 / h * 320 + x * 320 / w : Nat) : Int) ∧
    x * 320 / w < 320 ∧ y * 200 / h < 200 ∧ y * 200 / h * 320 + x * 320 / w < 64000 := by
  have hsx : x * 320 / w < 320 := by
    rw [Nat.div_lt_iff_lt_mul (by omega)]
    omega
  have hsy : y * 200 / h < 200 := by
    rw [Nat.div_lt_iff_lt_mul (by omega)]
    omega
  refine ⟨?_, hsx, hsy, by omega⟩
  unfold resample_source DOOMGENERIC_RESX DOOMGENERIC_RESY SCREENWIDTH int_div
  dsimp only
  rw [int_mul_eq (y : Int) 200 (by omega) (by omega),
    int_mul_eq (x : Int) 320 (by omega) (by omega)]
  have e1 : ((y : Int) * 200).tdiv (h : Int) = ((y * 200 / h : Nat) : Int) := by
    rw [Int.tdiv_eq_ediv (by omega) (by omega)]
    push_cast
    rfl
  have e2 : ((x : Int) * 320).tdiv (w : Int) = ((x * 320 / w : Nat) : Int) := by
    rw [Int.tdiv_eq_ediv (by omega) (by omega)]
    push_cast
    rfl
  rw [e1, e2]
  generalize y * 200 / h = sy at hsy
  generalize x * 320 / w = sx at hsx
  rw [int_mul_eq (sy : Int) 320 (by omega) (by omega),
    int_add_eq _ _ (by omega) (by omega)]
  push_cast
  rfl

/-- Claim C31, amended: downsampling is nearest-pixel and in bounds for every
destination size with `1 ≤ dest_width ≤ 6710887` and `1 ≤ dest_height ≤
10737419` (the sizes for which `x * 320` and `y * 200` fit an `int`). For every
destination pixel `0 ≤ x < dest_width`, `0 ≤ y < dest_height`, the pixel stored
at index `y * dest_width + x` is the palette colour of the source palette index
at `(sx, sy)` with `sx = floor(x * 320 / dest_width)` and `sy = floor(y * 200 /
dest_height)`; `sx < 320`, `sy < 200`, the source index `sy * 320 + sx` is below
64000, and `dest_width * dest_height` pixels are stored. -/
theorem C31_downsample_nearest (w h x y : Nat) (I_VideoBuffer : Int → Nat) (colors : Nat → Nat)
    (hw : w ≤ 6710887) (hh : h ≤ 10737419) (hx : x < w) (hy : y < h) :
    (DG_DrawFrame_resample w h I_VideoBuffer colors)[y * w + x]?
      = some (colors (I_VideoBuffer ((y * 200 / h * 320 + x * 320 / w : Nat) : Int))) ∧
    x * 320 / w < 320 ∧ y * 200 / h < 200 ∧ y * 200 / h * 320 + x * 320 / w < 64000 ∧
    (DG_DrawFrame_resample w h I_VideoBuffer colors).length = h * w := by
  obtain ⟨hlen, hget⟩ := resample_get w h I_VideoBuffer colors
  obtain ⟨e, h1, h2, h3⟩ := resample_source_eq w h x y hw hh hx hy
  refine ⟨?_, h1, h2, h3, hlen⟩
  rw [hget y x hy hx, e]

/-- The amended claim C31 for an 80 by 40 destination at its last pixel: the
source pixel is `(316, 195)`. -/
theorem C31_downsample_nearest_witness :
    (DG_DrawFrame_resample (80 : Nat) (40 : Nat) (fun i => i.toNat) (fun c => c))[39 * 80 + 79]?
      = some (((39 * 200 / 40 * 320 + 79 * 320 / 80 : Nat) : Int).toNat) ∧
    79 * 320 / 80 < 320 ∧ 39 * 200 / 40 < 200 ∧ 39 * 200 / 40 * 320 + 79 * 320 / 80 < 64000 ∧
    (DG_DrawFrame_resample (80 : Nat) (40 : Nat) (fun i => i.toNat) (fun c => c)).length
      = 40 * 80 :=
  C31_downsample_nearest 80 40 79 39 (fun i => i.toNat) (fun c => c) (by decide) (by decide)
    (by decide) (by decide)

/-- Counterexample to claim C31 as stated: for `dest_width = 6710888` and
`dest_height = 3355443` (the geometry of 3355444 columns in the sextant
charset) and the pixel `x = 6710887`, `y = 0`, the product `x * 320 =
2147483840` does not fit an `int`; reduced to 32 bits it is -2147483456, the
loop body computes `sx = -319` and reads the source at index -319, outside the
frame, where the claim names `sx = floor(x * 320 / dest_width) = 319`. With a
source that holds 1 at offset -319 and 0 elsewhere, the pixel stored at index
6710887 is 1 and not the colour 0 of the source pixel `(319, 0)`. -/
theorem C31_downsample_overflow_counterexample :
    DG_Init_geometry cli_mode_t.cli_mode_sextant 3355444 = (6710888, 3355443) ∧
    resample_source 6710888 3355443 6710887 0 = -319 ∧
    (6710887 * 320 / 6710888 : Nat) = 319 ∧ (0 * 200 / 3355443 : Nat) = 0 ∧
    (DG_DrawFrame_resample (6710888 : Nat) (3355443 : Nat) (fun i => if i = -319 then 1 else 0)
        (fun c => c))[0 * 6710888 + 6710887]? = some 1 ∧
    (fun c : Nat => c) ((fun i : Int => if i = -319 then 1 else 0)
      (((0 * 200 / 3355443 * 320 + 6710887 * 320 / 6710888 : Nat) : Int))) = 0 := by
  have hsrc : resample_source ((6710888 : Nat) : Int) ((3355443 : Nat) : Int)
      ((6710887 : Nat) : Int) ((0 : Nat) : Int) = -319 := by decide
  refine ⟨by decide, by decide, by decide, by decide, ?_, by decide⟩
  have hget := (resample_get 6710888 3355443 (fun i => if i = -319 then 1 else 0)
    (fun c => c)).2 0 6710887 (by decide) (by decide)
  rw [hsrc] at hget
  exact hget

/-! ## Properties of the waiting state -/

/-- Claim C36, amended: the waiting state lasts at most one sweep as long as
the deadline of the first sweep does not wrap around 2^32. If a call of
`simulate_release_events` at the reading `now1` moves a key (below 256, with a
valid history index) from down to waiting, and the last recorded press plus
`2 * 10 + key_repeat_delay` is below 2^32, then the next call, made at a
reading `now2 ≥ now1` in a state where the record of the key is as the first
call left it (no press in between) and `key_repeat_delay` is not larger, moves
the key to off and enqueues no event for it. -/
theorem C36_waiting_lasts_one_sweep (st1 st2 : input_t) (key : Nat) (hkey : key < 256)
    (hdown : (st1.keyinfos key).state = keystate_down)
    (hmoved : ((simulate_release_events st1).keyinfos key).state = keystate_wait)
    (hsame : st2.keyinfos key = (simulate_release_events st1).keyinfos key)
    (hdelay : st2.key_repeat_delay ≤ st1.key_repeat_delay)
    (hlater : st1.clock st1.clock_calls % 4294967296 ≤ st2.clock st2.clock_calls % 4294967296)
    (htn : (st1.keyinfos key).time_next < 5)
    (hw : spec_last_press (st1.keyinfos key) + (2 * 10 + st1.key_repeat_delay) < 4294967296) :
    ((simulate_release_events st2).keyinfos key).state = keystate_off ∧
    (sweep_events (st2.clock st2.clock_calls % 4294967296) st2).filter
      (fun e => decide (e.key = key)) = [] ∧
    enqueued st2 (simulate_release_events st2)
      (sweep_events (st2.clock st2.clock_calls % 4294967296) st2) := by
  have h1 := (sweep_effect st1).1 key
  have h2 := sweep_effect st2
  have hwin1 : spec_window st1 key = 2 * 10 + st1.key_repeat_delay := by
    unfold spec_window
    rw [hdown]
    rfl
  have hdue1 : release_due (st1.clock st1.clock_calls % 4294967296) st1 key = true := by
    by_contra hno
    rw [h1, if_neg (fun x => hno x.2), hdown] at hmoved
    exact absurd hmoved (by decide)
  have hle1 := ((release_due_iff _ st1 key htn (by rw [hwin1]; exact hw)).mp hdue1).2
  rw [hwin1] at hle1
  have hrec : st2.keyinfos key = { st1.keyinfos key with state := keystate_wait } := by
    rw [hsame, h1, if_pos ⟨hkey, hdue1⟩, hdown]
    rfl
  have hst2 : (st2.keyinfos key).state = keystate_wait := by rw [hrec]
  have hlast : spec_last_press (st2.keyinfos key) = spec_last_press (st1.keyinfos key) := by
    rw [hrec]
    rfl
  have htn2 : (st2.keyinfos key).time_next < 5 := by
    rw [hrec]
    exact htn
  have hwin2 : spec_window st2 key = 2 * 10 + st2.key_repeat_delay := by
    unfold spec_window
    rw [hst2]
    rfl
  have hdue2 : release_due (st2.clock st2.clock_calls % 4294967296) st2 key = true := by
    rw [release_due_iff _ st2 key htn2 (by rw [hlast, hwin2]; omega)]
    refine ⟨by rw [hst2]; decide, ?_⟩
    rw [hlast, hwin2]
    omega
  refine ⟨?_, ?_, h2.2.2.2.2.2.2.2.2⟩
  · rw [h2.1 key, if_pos ⟨hkey, hdue2⟩, hst2]
    rfl
  · rw [sweep_events_of_key _ st2 key hkey, if_neg (fun x => x.2 hst2)]

/-- The amended claim C36 on the key 65, down, last pressed at 1000 with the
delay estimate 500: swept at 2000 it goes to waiting; swept again at 2010, with
the estimate lowered to 400, it goes to off without an event. -/
theorem C36_waiting_lasts_one_sweep_witness :
    ((simulate_release_events
        { initial_input 2010 with
          keyinfos := fun _ => ⟨fun _ => 1000, 1, 1, keystate_wait, false⟩
          key_repeat_delay := 400 }).keyinfos 65).state = keystate_off ∧
    (sweep_events (2010 % 4294967296)
        { initial_input 2010 with
          keyinfos := fun _ => ⟨fun _ => 1000, 1, 1, keystate_wait, false⟩
          key_repeat_delay := 400 }).filter (fun e => decide (e.key = 65)) = [] :=
  have h := C36_waiting_lasts_one_sweep
    { initial_input 2000 with
      keyinfos := fun _ => ⟨fun _ => 1000, 1, 1, keystate_down, false⟩ }
    { initial_input 2010 with
      keyinfos := fun _ => ⟨fun _ => 1000, 1, 1, keystate_wait, false⟩
      key_repeat_delay := 400 }
    65 (by decide) rfl
    (by
      rw [(sweep_effect _).1 65]
      decide)
    (by
      rw [(sweep_effect _).1 65, if_pos ⟨by decide, by decide⟩]
      rfl)
    (by decide) (by decide) (by decide) (by decide)
  ⟨h.1, h.2.1⟩

/-- Counterexample to claim C36 as stated: the key 65 is down, last pressed at
the reading 4294967196 (100 ms before the 32-bit clock wraps), with the delay
estimate 500. The deadline 4294967196 + 520 wraps to 420, so the sweep at the
reading 4294967246 finds the key due and moves it to waiting. Before the next
sweep, at the reading 4294967256, the estimate has dropped to 50; the deadline
4294967196 + 70 = 4294967266 no longer wraps and is not reached, so the key
stays waiting instead of going to off. -/
theorem C36_clock_wrap_counterexample :
    ((simulate_release_events
        { initial_input 4294967246 with
          keyinfos := fun _ => ⟨fun _ => 4294967196, 1, 1, keystate_down, false⟩ }).keyinfos
      65).state = keystate_wait ∧
    ({ initial_input 4294967256 with
        keyinfos := fun _ => ⟨fun _ => 4294967196, 1, 1, keystate_wait, false⟩
        key_repeat_delay := 50 } : input_t).keyinfos 65
      = (simulate_release_events
          { initial_input 4294967246 with
            keyinfos := fun _ => ⟨fun _ => 4294967196, 1, 1, keystate_down, false⟩ }).keyinfos
        65 ∧
    (50 : Nat) ≤ (initial_input 4294967246).key_repeat_delay ∧
    (4294967246 : Nat) % 4294967296 ≤ 4294967256 % 4294967296 ∧
    ((simulate_release_events
        { initial_input 4294967256 with
          keyinfos := fun _ => ⟨fun _ => 4294967196, 1, 1, keystate_wait, false⟩
          key_repeat_delay := 50 }).keyinfos 65).state = keystate_wait := by
  refine ⟨?_, ?_, by decide, by decide, ?_⟩
  · rw [(sweep_effect _).1 65]
    decide
  · rw [(sweep_effect _).1 65, if_pos ⟨by decide, by decide⟩]
    rfl
  · rw [(sweep_effect _).1 65]
    decide

/-! ## Properties of the event order -/

/-- The state after a `keypress` call. -/
theorem key_call_run_press (st : input_t) (key : Nat) (duplicate : Bool) :
    key_call_run st (key_call.press key duplicate) = keypress st key duplicate := rfl

/-- The state after a sweep. -/
theorem key_call_run_sweep (st : input_t) :
    key_call_run st key_call.sweep = simulate_release_events st := rfl

/-- The events of a `keypress` call. -/
theorem key_call_events_press (st : input_t) (key : Nat) (duplicate : Bool) :
    key_call_events st (key_call.press key duplicate)
      = if keystate_press (st.keyinfos key).state = true then [⟨true, key⟩] else [] := rfl

/-- The events of a sweep. -/
theorem key_call_events_sweep (st : input_t) :
    key_call_events st key_call.sweep
      = sweep_events (st.clock st.clock_calls % 4294967296) st := rfl

/-- The events that one call enqueues are in the queue afterwards. -/
theorem key_call_enqueues (st : input_t) (c : key_call) (hc : key_call_ok c) :
    enqueued st (key_call_run st c) (key_call_events st c) := by
  cases c with
  | press key duplicate =>
    rw [key_call_run_press, key_call_events_press]
    cases hs : (st.keyinfos key).state
    · exact keypress_enqueues_press st key duplicate hc (Or.inl hs)
    · exact keypress_enqueues_nothing st key duplicate (Or.inl hs)
    · exact keypress_enqueues_press st key duplicate hc (Or.inr hs)
    · exact keypress_enqueues_nothing st key duplicate (Or.inr hs)
  | sweep =>
    rw [key_call_run_sweep, key_call_events_sweep]
    exact (sweep_effect st).2.2.2.2.2.2.2.2

/-- The events that a sequence of calls enqueues are in the queue afterwards,
in order. -/
theorem key_calls_enqueue :
    ∀ (calls : List key_call) (st : input_t), (∀ c ∈ calls, key_call_ok c) →
      enqueued st (key_calls_run st calls) (key_calls_events st calls) := by
  intro calls
  induction calls with
  | nil =>
    intro st _
    exact ⟨rfl, rfl, rfl⟩
  | cons c cs ih =>
    intro st hv
    exact enqueued_trans _ _ _ _ _
      (key_call_enqueues st c (hv c (List.mem_cons_self _ _)))
      (ih (key_call_run st c) (fun c' hc' => hv c' (List.mem_cons_of_mem _ hc')))

/-- One call and one key: either the call enqueues no event for the key and
leaves it held or not held as it was, or it enqueues one event, a press if the
key was not held and a release if it was, and the key is held afterwards iff
the event is a press. -/
theorem key_call_step (st : input_t) (c : key_call) (key : Nat) (hkey : key < 256) :
    ((key_call_events st c).filter (fun e => decide (e.key = key)) = [] ∧
      keystate_held ((key_call_run st c).keyinfos key).state
        = keystate_held (st.keyinfos key).state) ∨
    (∃ e, (key_call_events st c).filter (fun e => decide (e.key = key)) = [e] ∧
      e.pressed = (! keystate_held (st.keyinfos key).state) ∧
      keystate_held ((key_call_run st c).keyinfos key).state = e.pressed) := by
  cases c with
  | press k duplicate =>
    obtain ⟨e1, _, _, _, _, _, _, e8⟩ := keypress_effect st k duplicate
    by_cases hk : k = key
    · subst hk
      rw [key_call_run_press, key_call_events_press, e1]
      cases hs : (st.keyinfos k).state
      · right
        exact ⟨⟨true, k⟩, by simp [keystate_press], rfl, rfl⟩
      · left
        exact ⟨by simp [keystate_press], rfl⟩
      · right
        exact ⟨⟨true, k⟩, by simp [keystate_press], rfl, rfl⟩
      · left
        exact ⟨by simp [keystate_press], rfl⟩
    · left
      rw [key_call_run_press, key_call_events_press, e8 key (fun h => hk h.symm)]
      refine ⟨?_, rfl⟩
      split_ifs
      · simp [hk]
      · rfl
  | sweep =>
    have hev := sweep_events_of_key (st.clock st.clock_calls % 4294967296) st key hkey
    have hrec := (sweep_effect st).1 key
    rw [key_call_run_sweep, key_call_events_sweep]
    have hcases : (st.keyinfos key).state = keystate_off ∨ (st.keyinfos key).state = keystate_down ∨
        (st.keyinfos key).state = keystate_wait ∨ (st.keyinfos key).state = keystate_repeat := by
      cases (st.keyinfos key).state <;> simp
    by_cases hdue : release_due (st.clock st.clock_calls % 4294967296) st key = true
    · have hrec2 : ((simulate_release_events st).keyinfos key).state
          = if (st.keyinfos key).state = keystate_down then keystate_wait else keystate_off := by
        rw [hrec, if_pos ⟨hkey, hdue⟩]
      rcases hcases with hs | hs | hs | hs
      · rw [release_due_off _ st key hs] at hdue
        exact absurd hdue (by decide)
      · right
        refine ⟨⟨false, key⟩, ?_, ?_, ?_⟩
        · rw [hev, if_pos ⟨hdue, by rw [hs]; decide⟩]
        · rw [hs]
          rfl
        · rw [hrec2, hs]
          rfl
      · left
        refine ⟨?_, ?_⟩
        · rw [hev, if_neg (fun h => h.2 hs)]
        · rw [hrec2, hs]
          rfl
      · right
        refine ⟨⟨false, key⟩, ?_, ?_, ?_⟩
        · rw [hev, if_pos ⟨hdue, by rw [hs]; decide⟩]
        · rw [hs]
          rfl
        · rw [hrec2, hs]
          rfl
    · left
      rw [hev, hrec, if_neg (fun h => hdue h.1), if_neg (fun h => hdue h.2)]
      exact ⟨rfl, rfl⟩

/-- The events for one key over a sequence of calls alternate, beginning with a
press if the key is not held and with a release if it is; the key is held after
the calls iff the last of these events is a press, or, when there is none, iff
it was held before. -/
theorem key_calls_alternate (key : Nat) (hkey : key < 256) :
    ∀ (calls : List key_call) (st : input_t),
      alternates (! keystate_held (st.keyinfos key).state)
        ((key_calls_events st calls).filter (fun e => decide (e.key = key))) ∧
      keystate_held ((key_calls_run st calls).keyinfos key).state
        = ((((key_calls_events st calls).filter (fun e => decide (e.key = key))).getLast?).map
            keyevent_t.pressed).getD (keystate_held (st.keyinfos key).state) := by
  intro calls
  induction calls with
  | nil =>
    intro st
    exact ⟨trivial, rfl⟩
  | cons c cs ih =>
    intro st
    obtain ⟨ih1, ih2⟩ := ih (key_call_run st c)
    have hev : key_calls_events st (c :: cs)
        = key_call_events st c ++ key_calls_events (key_call_run st c) cs := rfl
    have hrun : key_calls_run st (c :: cs) = key_calls_run (key_call_run st c) cs := rfl
    rw [hev, hrun, List.filter_append]
    rcases key_call_step st c key hkey with ⟨h1, h2⟩ | ⟨e, h1, h2, h3⟩
    · rw [h1, List.nil_append]
      rw [h2] at ih1 ih2
      exact ⟨ih1, ih2⟩
    · rw [h1, List.singleton_append]
      rw [h3] at ih1 ih2
      refine ⟨⟨h2, ?_⟩, ?_⟩
      · rw [← h2]
        exact ih1
      · rw [ih2]
        cases hfr : (key_calls_events (key_call_run st c) cs).filter
            (fun e => decide (e.key = key)) with
        | nil => rfl
        | cons x xs =>
          rw [List.getLast?_cons_cons]
          rfl

/-- C32: for every sequence of `keypress` and `simulate_release_events` calls
starting from a state with all keys off, and for every key (below 256; the keys
of the calls index `keyinfos[256]`), the events enqueued for that key strictly
alternate press, release, press, ..., beginning with a press. The key is in
state down or repeating exactly when the last event enqueued for it is a press,
and in state off or waiting exactly when that event is a release or there is
none. The events are those that the calls put into the queue, in order. -/
theorem C32_events_alternate (st : input_t) (calls : List key_call) (key : Nat)
    (hkey : key < 256) (hoff : ∀ k, (st.keyinfos k).state = keystate_off)
    (hvalid : ∀ c ∈ calls, key_call_ok c) :
    enqueued st (key_calls_run st calls) (key_calls_events st calls) ∧
    alternates true ((key_calls_events st calls).filter (fun e => decide (e.key = key))) ∧
    ((((key_calls_run st calls).keyinfos key).state = keystate_down ∨
        ((key_calls_run st calls).keyinfos key).state = keystate_repeat) ↔
      ∃ e, ((key_calls_events st calls).filter (fun e => decide (e.key = key))).getLast?
        = some e ∧ e.pressed = true) ∧
    ((((key_calls_run st calls).keyinfos key).state = keystate_off ∨
        ((key_calls_run st calls).keyinfos key).state = keystate_wait) ↔
      (((key_calls_events st calls).filter (fun e => decide (e.key = key))).getLast? = none ∨
        ∃ e, ((key_calls_events st calls).filter (fun e => decide (e.key = key))).getLast?
          = some e ∧ e.pressed = false)) := by
  obtain ⟨h1, h2⟩ := key_calls_alternate key hkey calls st
  rw [hoff key] at h1 h2
  refine ⟨key_calls_enqueue calls st hvalid, h1, ?_, ?_⟩
  · have hheld : (((key_calls_run st calls).keyinfos key).state = keystate_down ∨
        ((key_calls_run st calls).keyinfos key).state = keystate_repeat)
        ↔ keystate_held ((key_calls_run st calls).keyinfos key).state = true := by
      cases ((key_calls_run st calls).keyinfos key).state <;> simp [keystate_held]
    rw [hheld, h2]
    cases ((key_calls_events st calls).filter (fun e => decide (e.key = key))).getLast? with
    | none => simp [keystate_held]
    | some e => simp
  · have hheld : (((key_calls_run st calls).keyinfos key).state = keystate_off ∨
        ((key_calls_run st calls).keyinfos key).state = keystate_wait)
        ↔ keystate_held ((key_calls_run st calls).keyinfos key).state = false := by
      cases ((key_calls_run st calls).keyinfos key).state <;> simp [keystate_held]
    rw [hheld, h2]
    cases ((key_calls_events st calls).filter (fun e => decide (e.key = key))).getLast? with
    | none => simp [keystate_held]
    | some e => simp

/-- C32 on the calls press 65, press 66, sweep, press 65 from the initial
state, for the key 65. -/
theorem C32_events_alternate_witness :
    alternates true
      ((key_calls_events (initial_input 0)
        [key_call.press 65 false, key_call.press 66 true, key_call.sweep,
          key_call.press 65 false]).filter (fun e => decide (e.key = 65))) :=
  (C32_events_alternate (initial_input 0)
    [key_call.press 65 false, key_call.press 66 true, key_call.sweep, key_call.press 65 false]
    65 (by decide) (fun _ => rfl)
    (by
      intro c hc
      simp only [List.mem_cons, List.mem_singleton, List.not_mem_nil, or_false] at hc
      rcases hc with rfl | rfl | rfl | rfl <;> simp [key_call_ok])).2.1

/-! ## Properties of the frame geometry -/

/-- Advancing the pointers twice. -/
theorem shift_ptrs_shift_ptrs (a b : Int) (ptrs : List Int) :
    shift_ptrs a (shift_ptrs b ptrs) = shift_ptrs (b + a) ptrs := by
  unfold shift_ptrs
  rw [List.map_map]
  congr 1
  funext p
  show p + b + a = p + (b + a)
  omega

/-- Advancing the pointers by nothing. -/
theorem shift_ptrs_zero (ptrs : List Int) : shift_ptrs 0 ptrs = ptrs := by
  unfold shift_ptrs
  simp

/-- The inner loop in closed form: cell `i` reads through the pointers
advanced `i` times. -/
theorem scan_cells_eq (cell : List Int) (dx : Int) :
    ∀ (xs : List Nat) (ptrs : List Int),
      scan_cells cell dx xs ptrs
        = ((List.range xs.length).map (fun (i : Nat) => read_cell (shift_ptrs (i * dx) ptrs) cell),
            shift_ptrs (xs.length * dx) ptrs) := by
  intro xs
  induction xs with
  | nil =>
    intro ptrs
    simp [scan_cells, shift_ptrs_zero]
  | cons x xs ih =>
    intro ptrs
    rw [scan_cells, ih]
    dsimp only
    rw [List.length_cons, List.range_succ_eq_map, List.map_cons, List.map_map,
      shift_ptrs_shift_ptrs]
    refine Prod.ext ?_ ?_
    · dsimp only
      congr 1
      · simp [shift_ptrs_zero]
      · apply List.map_congr_left
        intro i _
        show read_cell (shift_ptrs (↑i * dx) (shift_ptrs dx ptrs)) cell
          = read_cell (shift_ptrs (↑(i + 1) * dx) ptrs) cell
        rw [shift_ptrs_shift_ptrs]
        congr 2
        push_cast
        ring
    · dsimp only
      congr 1
      push_cast
      ring

/-- The two loops in closed form: cell `i` of row `j` reads through the
pointers advanced by `j` row strides and `i` cell steps, a row stride being the
steps of one row plus the skip at its end. -/
theorem scan_rows_eq (cell : List Int) (dx dy : Int) (xs : List Nat) :
    ∀ (ys : List Nat) (ptrs : List Int),
      scan_rows cell dx dy xs ys ptrs
        = (List.range ys.length).map (fun (j : Nat) =>
            (List.range xs.length).map (fun (i : Nat) =>
              read_cell (shift_ptrs (j * (xs.length * dx + dy) + i * dx) ptrs) cell)) := by
  intro ys
  induction ys with
  | nil =>
    intro ptrs
    rfl
  | cons y ys ih =>
    intro ptrs
    rw [scan_rows, scan_cells_eq, ih]
    dsimp only
    rw [List.length_cons, List.range_succ_eq_map, List.map_cons, List.map_map]
    congr 1
    · apply List.map_congr_left
      intro i _
      congr 2
      push_cast
      ring
    · apply List.map_congr_left
      intro j _
      apply List.map_congr_left
      intro i _
      show read_cell (shift_ptrs (↑j * (↑xs.length * dx + dy) + ↑i * dx)
          (shift_ptrs dy (shift_ptrs (↑xs.length * dx) ptrs))) cell
        = read_cell (shift_ptrs (↑(j + 1) * (↑xs.length * dx + dy) + ↑i * dx) ptrs) cell
      rw [shift_ptrs_shift_ptrs, shift_ptrs_shift_ptrs]
      congr 2
      push_cast
      ring

/-- The offsets of one cell. -/
theorem mem_read_cell (ptrs cell : List Int) (d o : Int) :
    o ∈ read_cell (shift_ptrs d ptrs) cell ↔ ∃ p ∈ ptrs, ∃ c ∈ cell, o = p + d + c := by
  unfold read_cell shift_ptrs
  simp only [List.mem_flatMap, List.mem_map]
  constructor
  · rintro ⟨p', ⟨p, hp, rfl⟩, c, hc, rfl⟩
    exact ⟨p, hp, c, hc, rfl⟩
  · rintro ⟨p, hp, c, hc, rfl⟩
    exact ⟨p + d, ⟨p, hp, rfl⟩, c, hc, rfl⟩

/-- The number of passes of a loop with step `step` up to a multiple of the
step. -/
theorem loop_values_length (stop : Int) (n step : Nat) (hs : 1 ≤ step)
    (h : stop = ((n * step : Nat) : Int)) : (loop_values stop step).length = n := by
  unfold loop_values
  rw [List.length_map, List.length_range, h, Int.toNat_ofNat]
  have e : n * step + step - 1 = step - 1 + step * n := by
    rw [Nat.mul_comm]
    omega
  rw [e, Nat.add_mul_div_left _ _ (by omega), Nat.div_eq_of_lt (by omega)]
  omega

/-- Shape and range of what the two loops read: with `n` rows of `m` cells and
a row stride `S = m * dx + dy`, when every offset that a cell of the first row
reads lies in `0 .. S - 1`, there are `n` rows of `m` cells each and every
offset read lies in `0 .. n * S - 1`. -/
theorem scan_rows_bounds (cell : List Int) (dx dy : Int) (xs ys : List Nat) (ptrs : List Int)
    (hlocal : ∀ i : Nat, i < xs.length → ∀ p ∈ ptrs, ∀ c ∈ cell,
      0 ≤ p + i * dx + c ∧ p + i * dx + c < xs.length * dx + dy) :
    (scan_rows cell dx dy xs ys ptrs).length = ys.length ∧
    (∀ row ∈ scan_rows cell dx dy xs ys ptrs, row.length = xs.length) ∧
    (∀ row ∈ scan_rows cell dx dy xs ys ptrs, ∀ c ∈ row, ∀ o ∈ c,
      0 ≤ o ∧ o < ys.length * (xs.length * dx + dy)) := by
  rw [scan_rows_eq]
  refine ⟨by simp, ?_, ?_⟩
  · intro row hrow
    obtain ⟨j, _, rfl⟩ := List.mem_map.mp hrow
    simp
  · intro row hrow c hc o ho
    obtain ⟨j, hj, rfl⟩ := List.mem_map.mp hrow
    obtain ⟨i, hi, rfl⟩ := List.mem_map.mp hc
    rw [List.mem_range] at hj hi
    obtain ⟨p, hp, c', hc', rfl⟩ := (mem_read_cell _ _ _ _).mp ho
    obtain ⟨h0, h1⟩ := hlocal i hi p hp c' hc'
    generalize (xs.length : Int) * dx + dy = S at h1 ⊢
    have hS : 0 < S := by omega
    have hj0 : (0 : Int) ≤ j := Int.natCast_nonneg j
    have hjn : (j : Int) + 1 ≤ ys.length := by omega
    have hm1 : 0 ≤ (j : Int) * S := Int.mul_nonneg hj0 (by omega)
    have hm2 : ((j : Int) + 1) * S ≤ ys.length * S := Int.mul_le_mul_of_nonneg_right hjn (by omega)
    have hm3 : ((j : Int) + 1) * S = j * S + S := by ring
    constructor
    · omega
    · omega

/-- The geometry that `DG_Init` computes when no product exceeds the range of
`int`: the width is `columns` times the cell width, the height the number of
character rows times the cell height. -/
theorem DG_Init_geometry_eq (cli_mode : cli_mode_t) (columns : Nat)
    (hmax : columns ≤ 59652323) :
    DG_Init_geometry cli_mode columns
      = (((columns * spec_cell_width cli_mode : Nat) : Int),
          ((spec_rows cli_mode columns * spec_cell_height cli_mode : Nat) : Int)) := by
  cases cli_mode
  · -- sextant
    unfold DG_Init_geometry spec_cell_width spec_cell_height spec_rows int_div
    dsimp only
    have e1 : ((columns : Int) * 2 * 18).tdiv 36 = (columns : Int) * 2 * 18 / 36 :=
      Int.tdiv_eq_ediv (by omega) (by omega)
    rw [int_mul_eq (columns : Int) 2 (by omega) (by omega),
      int_mul_eq ((columns : Int) * 2) 18 (by omega) (by omega), e1,
      Int.tdiv_eq_ediv (by omega) (by omega),
      int_mul_eq _ 3 (by omega) (by omega)]
    push_cast
    rfl
  · -- quadrant
    unfold DG_Init_geometry spec_cell_width spec_cell_height spec_rows int_div int_clear_bit0
    dsimp only
    rw [int_mul_eq (columns : Int) 2 (by omega) (by omega),
      int_mul_eq ((columns : Int) * 2) 12 (by omega) (by omega),
      Int.tdiv_eq_ediv (by omega) (by omega)]
    push_cast
    refine Prod.ext rfl ?_
    show (columns : Int) * 2 * 12 / 36 - (columns : Int) * 2 * 12 / 36 % 2
      = (columns : Int) * 2 * 12 / 36 / 2 * 2
    omega
  · -- half
    unfold DG_Init_geometry spec_cell_width spec_cell_height spec_rows int_div int_clear_bit0
    dsimp only
    rw [int_mul_eq (columns : Int) 24 (by omega) (by omega),
      Int.tdiv_eq_ediv (by omega) (by omega)]
    push_cast
    refine Prod.ext (by simp) ?_
    show (columns : Int) * 24 / 36 - (columns : Int) * 24 / 36 % 2
      = (columns : Int) * 24 / 36 / 2 * 2
    omega
  · -- space
    unfold DG_Init_geometry spec_cell_width spec_cell_height spec_rows int_div
    dsimp only
    rw [int_mul_eq (columns : Int) 12 (by omega) (by omega),
      Int.tdiv_eq_ediv (by omega) (by omega)]
    push_cast
    refine Prod.ext (by simp) ?_
    simp

/-- What `draw_space` reads for a frame of `c` by `n` pixels: `n` rows of `c`
cells, every offset inside the frame. -/
theorem draw_space_reads_bounds (w h : Int) (c n : Nat)
    (hw : w = ((c * 1 : Nat) : Int)) (hh : h = ((n * 1 : Nat) : Int)) :
    (draw_space_reads w h).length = n ∧
    (∀ row ∈ draw_space_reads w h, row.length = c) ∧
    (∀ row ∈ draw_space_reads w h, ∀ cell ∈ row, ∀ o ∈ cell, 0 ≤ o ∧ o < w * h) := by
  have lx := loop_values_length w c 1 (by omega) hw
  have ly := loop_values_length h n 1 (by omega) hh
  push_cast at hw hh
  have B := scan_rows_bounds [0] 1 0 (loop_values w 1) (loop_values h 1) [0] (by
    intro i hi p hp o ho
    rw [lx] at hi ⊢
    simp only [List.mem_singleton] at hp ho
    subst hp ho
    omega)
  rw [lx, ly] at B
  have e : (n : Int) * ((c : Int) * 1 + 0) = w * h := by
    rw [hw, hh]
    ring
  rw [e] at B
  exact B

/-- What `draw_half` reads for a frame of `c` by `2 n` pixels: `n` rows of `c`
cells, every offset inside the frame. -/
theorem draw_half_reads_bounds (w h : Int) (c n : Nat)
    (hw : w = ((c * 1 : Nat) : Int)) (hh : h = ((n * 2 : Nat) : Int)) :
    (draw_half_reads w h).length = n ∧
    (∀ row ∈ draw_half_reads w h, row.length = c) ∧
    (∀ row ∈ draw_half_reads w h, ∀ cell ∈ row, ∀ o ∈ cell, 0 ≤ o ∧ o < w * h) := by
  have lx := loop_values_length w c 1 (by omega) hw
  have ly := loop_values_length h n 2 (by omega) hh
  push_cast at hw hh
  have B := scan_rows_bounds [0] 1 w (loop_values w 1) (loop_values h 2) [0, 0 + w] (by
    intro i hi p hp o ho
    rw [lx] at hi ⊢
    simp only [List.mem_cons, List.mem_singleton, List.not_mem_nil, or_false] at hp ho
    subst ho
    rcases hp with rfl | rfl <;> omega)
  rw [lx, ly] at B
  have e : (n : Int) * ((c : Int) * 1 + w) = w * h := by
    rw [hw, hh]
    ring
  rw [e] at B
  exact B

/-- What `draw_quadrant` reads for a frame of `2 c` by `2 n` pixels: `n` rows
of `c` cells, every offset inside the frame. -/
theorem draw_quadrant_reads_bounds (w h : Int) (c n : Nat)
    (hw : w = ((c * 2 : Nat) : Int)) (hh : h = ((n * 2 : Nat) : Int)) :
    (draw_quadrant_reads w h).length = n ∧
    (∀ row ∈ draw_quadrant_reads w h, row.length = c) ∧
    (∀ row ∈ draw_quadrant_reads w h, ∀ cell ∈ row, ∀ o ∈ cell, 0 ≤ o ∧ o < w * h) := by
  have lx := loop_values_length w c 2 (by omega) hw
  have ly := loop_values_length h n 2 (by omega) hh
  push_cast at hw hh
  have B := scan_rows_bounds [0, 1] 2 w (loop_values w 2) (loop_values h 2) [0, 0 + w] (by
    intro i hi p hp o ho
    rw [lx] at hi ⊢
    simp only [List.mem_cons, List.mem_singleton, List.not_mem_nil, or_false] at hp ho
    rcases hp with rfl | rfl <;> rcases ho with rfl | rfl <;> omega)
  rw [lx, ly] at B
  have e : (n : Int) * ((c : Int) * 2 + w) = w * h := by
    rw [hw, hh]
    ring
  rw [e] at B
  exact B

/-- What `draw_sextant` reads for a frame of `2 c` by `3 n` pixels whose
doubled width fits an `int`: `n` rows of `c` cells, every offset inside the
frame. -/
theorem draw_sextant_reads_bounds (w h : Int) (c n : Nat) (hc : c ≤ 59652323)
    (hw : w = ((c * 2 : Nat) : Int)) (hh : h = ((n * 3 : Nat) : Int)) :
    (draw_sextant_reads w h).length = n ∧
    (∀ row ∈ draw_sextant_reads w h, row.length = c) ∧
    (∀ row ∈ draw_sextant_reads w h, ∀ cell ∈ row, ∀ o ∈ cell, 0 ≤ o ∧ o < w * h) := by
  have lx := loop_values_length w c 2 (by omega) hw
  have ly := loop_values_length h n 3 (by omega) hh
  push_cast at hw hh
  have hskip : int_mul w 2 = w * 2 := int_mul_eq w 2 (by omega) (by omega)
  unfold draw_sextant_reads
  rw [hskip]
  have B := scan_rows_bounds [0, 1] 2 (w * 2) (loop_values w 2) (loop_values h 3)
    [0, 0 + w, 0 + w + w] (by
    intro i hi p hp o ho
    rw [lx] at hi ⊢
    simp only [List.mem_cons, List.mem_singleton, List.not_mem_nil, or_false] at hp ho
    rcases hp with rfl | rfl | rfl <;> rcases ho with rfl | rfl <;> omega)
  rw [lx, ly] at B
  have e : (n : Int) * ((c : Int) * 2 + w * 2) = w * h := by
    rw [hw, hh]
    ring
  rw [e] at B
  exact B

/-- The monochrome sextant routine reads what `draw_sextant` reads. -/
theorem draw_sextant_bw_reads_eq (w h : Int) :
    draw_sextant_bw_reads w h = draw_sextant_reads w h := rfl

/-- Claim C38, amended: frame geometry from `DG_Init` for every `columns` up to
59652323 (so that no product in `DG_Init` leaves the range of `int`) and every
charset. `dest_width` is `columns` (space, half) or `2 * columns` (quadrant,
sextant) and `dest_height` is the number of character rows times the cell
height (1 for space, 2 for half and quadrant, 3 for sextant), hence a multiple
of it. The draw function that `DG_DrawFrame` picks (`draw_space`, `draw_half`,
`draw_quadrant`, and `draw_sextant` or `draw_sextant_bw` by colour mode) emits
that number of rows, every row consists of exactly `columns` cells, and every
pixel offset it reads is at least 0 and below `dest_width * dest_height`. -/
theorem C38_frame_geometry (cli_mode : cli_mode_t) (cli_colors : cli_colors_t) (columns : Nat)
    (hmax : columns ≤ 59652323) :
    (DG_Init_geometry cli_mode columns).1 = ((columns * spec_cell_width cli_mode : Nat) : Int) ∧
    (DG_Init_geometry cli_mode columns).2
      = ((spec_rows cli_mode columns * spec_cell_height cli_mode : Nat) : Int) ∧
    (DG_Init_geometry cli_mode columns).2 % (spec_cell_height cli_mode : Int) = 0 ∧
    (DG_DrawFrame_reads cli_mode cli_colors (DG_Init_geometry cli_mode columns).1
      (DG_Init_geometry cli_mode columns).2).length = spec_rows cli_mode columns ∧
    (∀ row ∈ DG_DrawFrame_reads cli_mode cli_colors (DG_Init_geometry cli_mode columns).1
        (DG_Init_geometry cli_mode columns).2, row.length = columns) ∧
    (∀ row ∈ DG_DrawFrame_reads cli_mode cli_colors (DG_Init_geometry cli_mode columns).1
        (DG_Init_geometry cli_mode columns).2, ∀ cell ∈ row, ∀ o ∈ cell,
      0 ≤ o ∧ o < (DG_Init_geometry cli_mode columns).1 * (DG_Init_geometry cli_mode columns).2) := by
  have hg := DG_Init_geometry_eq cli_mode columns hmax
  have h1 : (DG_Init_geometry cli_mode columns).1
      = ((columns * spec_cell_width cli_mode : Nat) : Int) := by rw [hg]
  have h2 : (DG_Init_geometry cli_mode columns).2
      = ((spec_rows cli_mode columns * spec_cell_height cli_mode : Nat) : Int) := by rw [hg]
  refine ⟨h1, h2, ?_, ?_⟩
  · rw [h2]
    push_cast
    exact Int.mul_emod_left _ _
  · generalize (DG_Init_geometry cli_mode columns).1 = w at h1 ⊢
    generalize (DG_Init_geometry cli_mode columns).2 = h at h2 ⊢
    cases cli_mode
    · by_cases hbw : cli_colors = cli_colors_dark ∨ cli_colors = cli_colors_light
      · have e : DG_DrawFrame_reads cli_mode_t.cli_mode_sextant cli_colors w h
            = draw_sextant_reads w h := by
          unfold DG_DrawFrame_reads
          rw [if_pos hbw, draw_sextant_bw_reads_eq]
        rw [e]
        exact draw_sextant_reads_bounds w h columns _ hmax h1 h2
      · have e : DG_DrawFrame_reads cli_mode_t.cli_mode_sextant cli_colors w h
            = draw_sextant_reads w h := by
          unfold DG_DrawFrame_reads
          rw [if_neg hbw]
        rw [e]
        exact draw_sextant_reads_bounds w h columns _ hmax h1 h2
    · exact draw_quadrant_reads_bounds w h columns _ h1 h2
    · exact draw_half_reads_bounds w h columns _ h1 h2
    · exact draw_space_reads_bounds w h columns _ h1 h2

/-- The amended claim C38 for the sextant charset and 80 columns: the frame is
160 by 78 pixels, drawn as 26 rows of 80 cells. -/
theorem C38_frame_geometry_witness :
    (DG_Init_geometry cli_mode_t.cli_mode_sextant (80 : Nat)).1
      = ((80 * spec_cell_width cli_mode_t.cli_mode_sextant : Nat) : Int) ∧
    (DG_Init_geometry cli_mode_t.cli_mode_sextant (80 : Nat)).2
      = ((spec_rows cli_mode_t.cli_mode_sextant 80
          * spec_cell_height cli_mode_t.cli_mode_sextant : Nat) : Int) ∧
    ((80 * spec_cell_width cli_mode_t.cli_mode_sextant : Nat) : Int) = 160 ∧
    ((spec_rows cli_mode_t.cli_mode_sextant 80
      * spec_cell_height cli_mode_t.cli_mode_sextant : Nat) : Int) = 78 ∧
    spec_rows cli_mode_t.cli_mode_sextant 80 = 26 :=
  have h := C38_frame_geometry cli_mode_t.cli_mode_sextant cli_colors_24bit 80 (by decide)
  ⟨h.1, h.2.1, by decide, by decide, by decide⟩

/-- Counterexample to claim C38 as stated: for `columns = 1073741824` and the
quadrant charset the statement `dest_width *= 2` leaves the range of `int`;
reduced to 32 bits `dest_width` is -2147483648 and not `2 * columns`. -/
theorem C38_columns_overflow_counterexample :
    (1 : Int) ≤ 1073741824 ∧
    (DG_Init_geometry cli_mode_t.cli_mode_quadrant 1073741824).1 = -2147483648 ∧
    (DG_Init_geometry cli_mode_t.cli_mode_quadrant 1073741824).1 ≠ 2 * 1073741824 := by
  decide

/-! ## Properties of the colour sequences -/

/-- The conversion `%u` of a non-negative `int` prints its decimal digits. -/
theorem fmt_u_decimal (v : Int) (h0 : 0 ≤ v) (h1 : v < 4294967296) :
    fmt_u v = ascii (Nat.repr v.toNat) := by
  unfold fmt_u to_uint32
  rw [Int.emod_eq_of_lt h0 h1]

/-- The three bytes that the colour-output routine takes from a noise texel. -/
theorem noise_bytes (n : Nat) :
    (n >>> 16) &&& 0xff = spec_byte 2 n ∧ (n >>> 8) &&& 0xff = spec_byte 1 n ∧
    n &&& 0xff = spec_byte 0 n := by
  have m : ∀ z : Nat, z &&& 0xff = z % 256 := fun z => Nat.and_pow_two_sub_one_eq_mod z 8
  unfold spec_byte
  rw [m, m, m, Nat.shiftRight_eq_div_pow, Nat.shiftRight_eq_div_pow]
  refine ⟨rfl, rfl, ?_⟩
  simp

/-- A byte of a texel is at most 255. -/
theorem spec_byte_le (k n : Nat) : spec_byte k n ≤ 255 := by
  unfold spec_byte
  omega

/-- The channel after the noise statements of the colour-output routine, for a
byte-valued channel: the dithered channel of the specification, in
`-128..382`. -/
theorem dither_channel (c : ctx_t) (x y k v : Nat) (hv : v ≤ 255) :
    (if c.noise_enabled = true then add_noise (v : Int) (spec_byte k (NOISE_SAMPLE c x y))
      else (v : Int)) = spec_dither c x y k v ∧
    -128 ≤ spec_dither c x y k v ∧ spec_dither c x y k v ≤ 383 ∧
    (c.noise_enabled = false → spec_dither c x y k v = (v : Int)) := by
  have hb := spec_byte_le k (NOISE_SAMPLE c x y)
  unfold spec_dither
  rw [add_noise_eq (v : Int) _ ⟨Int.natCast_nonneg v, by omega⟩ hb]
  refine ⟨rfl, ?_, ?_, ?_⟩
  · split_ifs <;> omega
  · split_ifs <;> omega
  · intro h
    rw [h]
    rfl

/-- The codes of the three quantizers on channels in `-128..383`: 30..37 for
`color_3bit`, 30..37 or 90..97 for `color_4bit`, 16..255 for `color_8bit`. -/
theorem quantizer_code_bounds (r g b : Int)
    (hr : -128 ≤ r ∧ r ≤ 383) (hg : -128 ≤ g ∧ g ≤ 383) (hb : -128 ≤ b ∧ b ≤ 383) :
    (30 ≤ color_3bit r g b ∧ color_3bit r g b ≤ 37) ∧
    ((30 ≤ color_4bit r g b ∧ color_4bit r g b ≤ 37) ∨
      (90 ≤ color_4bit r g b ∧ color_4bit r g b ≤ 97)) ∧
    (16 ≤ color_8bit r g b ∧ color_8bit r g b ≤ 255) := by
  have h1 := spec_level6_bounds r
  have h2 := spec_level6_bounds g
  have h3 := spec_level6_bounds b
  have h4 := spec_gray_bounds r g b
  refine ⟨?_, ?_, ?_⟩
  · obtain ⟨e, he, heq⟩ := color_search_mem colors_3bit _ _ rfl r g b
      (color_error_lt_INT_MAX _ r g b (by decide) hr hg hb).2
    have hc : ∀ x ∈ colors_3bit, 30 ≤ x.code ∧ x.code ≤ 37 := by decide
    have := hc e he
    unfold color_3bit
    rw [heq]
    omega
  · obtain ⟨e, he, heq⟩ := color_search_mem colors_4bit _ _ rfl r g b
      (color_error_lt_INT_MAX _ r g b (by decide) hr hg hb).2
    have hc : ∀ x ∈ colors_4bit,
        (30 ≤ x.code ∧ x.code ≤ 37) ∨ (90 ≤ x.code ∧ x.code ≤ 97) := by decide
    have := hc e he
    unfold color_4bit
    rw [heq]
    omega
  · rw [color_8bit_eq]
    split_ifs <;> omega

/-- The bytes of `output_bg_color` on byte-valued channels, when the noise is
off in 24-bit mode: the background sequence of the mode. -/
theorem output_bg_color_bytes (c : ctx_t) (x y red green blue : Nat)
    (h24 : c.cli_colors = cli_colors_24bit → c.noise_enabled = false)
    (h1 : red ≤ 255) (h2 : green ≤ 255) (h3 : blue ≤ 255) :
    output_bg_color c x y red green blue = spec_sgr_bg c x y red green blue := by
  obtain ⟨e1, e2, e3⟩ := noise_bytes (NOISE_SAMPLE c x y)
  obtain ⟨r1, r2, r3, r4⟩ := dither_channel c x y 2 red h1
  obtain ⟨g1, g2, g3, g4⟩ := dither_channel c x y 1 green h2
  obtain ⟨b1, b2, b3, b4⟩ := dither_channel c x y 0 blue h3
  obtain ⟨q3, q4, q8⟩ := quantizer_code_bounds _ _ _ ⟨r2, r3⟩ ⟨g2, g3⟩ ⟨b2, b3⟩
  unfold output_bg_color spec_sgr_bg
  simp only [e1, e2, e3, r1, g1, b1]
  cases hc : c.cli_colors with
  | cli_colors_24bit =>
    have hn := h24 hc
    simp only [ascii_append, List.append_assoc]
    rw [fmt_u_decimal _ (by rw [r4 hn]; omega) (by omega),
      fmt_u_decimal _ (by rw [g4 hn]; omega) (by omega),
      fmt_u_decimal _ (by rw [b4 hn]; omega) (by omega)]
  | cli_colors_8bit =>
    simp only [ascii_append, List.append_assoc]
    rw [fmt_u_decimal _ (by omega) (by omega)]
  | cli_colors_4bit =>
    simp only [ascii_append, List.append_assoc]
    rw [fmt_u_decimal _ (by omega) (by omega), add_comm]
  | cli_colors_3bit =>
    simp only [ascii_append, List.append_assoc]
    rw [fmt_u_decimal _ (by omega) (by omega), add_comm]
  | cli_colors_light => rfl
  | cli_colors_dark => rfl

/-- The bytes of `output_colors` on byte-valued channels, when the noise is
off in 24-bit mode: the foreground and background sequences of the mode. -/
theorem output_colors_bytes (c : ctx_t) (x y : Nat)
    (fg_red fg_green fg_blue bg_red bg_green bg_blue : Nat)
    (h24 : c.cli_colors = cli_colors_24bit → c.noise_enabled = false)
    (h1 : fg_red ≤ 255) (h2 : fg_green ≤ 255) (h3 : fg_blue ≤ 255)
    (h4 : bg_red ≤ 255) (h5 : bg_green ≤ 255) (h6 : bg_blue ≤ 255) :
    output_colors c x y fg_red fg_green fg_blue bg_red bg_green bg_blue
      = spec_sgr_fg_bg c x y fg_red fg_green fg_blue bg_red bg_green bg_blue := by
  obtain ⟨e1, e2, e3⟩ := noise_bytes (NOISE_SAMPLE c x y)
  obtain ⟨r1, r2, r3, r4⟩ := dither_channel c x y 2 fg_red h1
  obtain ⟨g1, g2, g3, g4⟩ := dither_channel c x y 1 fg_green h2
  obtain ⟨b1, b2, b3, b4⟩ := dither_channel c x y 0 fg_blue h3
  obtain ⟨s1, s2, s3, s4⟩ := dither_channel c x y 2 bg_red h4
  obtain ⟨t1, t2, t3, t4⟩ := dither_channel c x y 1 bg_green h5
  obtain ⟨u1, u2, u3, u4⟩ := dither_channel c x y 0 bg_blue h6
  obtain ⟨p3, p4, p8⟩ := quantizer_code_bounds _ _ _ ⟨r2, r3⟩ ⟨g2, g3⟩ ⟨b2, b3⟩
  obtain ⟨q3, q4, q8⟩ := quantizer_code_bounds _ _ _ ⟨s2, s3⟩ ⟨t2, t3⟩ ⟨u2, u3⟩
  unfold output_colors spec_sgr_fg_bg
  simp only [e1, e2, e3, r1, g1, b1, s1, t1, u1]
  cases hc : c.cli_colors with
  | cli_colors_24bit =>
    have hn := h24 hc
    simp only [spec_sgr_24bit, ascii_append, List.append_assoc]
    rw [u8_to_str_at_decimal _ (by rw [r4 hn]; omega) (by rw [r4 hn]; omega),
      u8_to_str_at_decimal _ (by rw [g4 hn]; omega) (by rw [g4 hn]; omega),
      u8_to_str_at_decimal _ (by rw [b4 hn]; omega) (by rw [b4 hn]; omega),
      u8_to_str_at_decimal _ (by rw [s4 hn]; omega) (by rw [s4 hn]; omega),
      u8_to_str_at_decimal _ (by rw [t4 hn]; omega) (by rw [t4 hn]; omega),
      u8_to_str_at_decimal _ (by rw [u4 hn]; omega) (by rw [u4 hn]; omega)]
  | cli_colors_8bit =>
    simp only [ascii_append, List.append_assoc]
    rw [fmt_u_decimal _ (by omega) (by omega), fmt_u_decimal _ (by omega) (by omega)]
  | cli_colors_4bit =>
    simp only [ascii_append, List.append_assoc]
    rw [fmt_u_decimal _ (by omega) (by omega), fmt_u_decimal _ (by omega) (by omega)]
  | cli_colors_3bit =>
    simp only [ascii_append, List.append_assoc]
    rw [fmt_u_decimal _ (by omega) (by omega), fmt_u_decimal _ (by omega) (by omega)]
  | cli_colors_light => rfl
  | cli_colors_dark => rfl

/-- The colours of a quadrant cell are byte-valued. -/
theorem quadrant_cell_bytes (tl tr bl br : pixel_t) :
    (quadrant_cell tl tr bl br).fg_red ≤ 255 ∧ (quadrant_cell tl tr bl br).fg_green ≤ 255 ∧
    (quadrant_cell tl tr bl br).fg_blue ≤ 255 ∧ (quadrant_cell tl tr bl br).bg_red ≤ 255 ∧
    (quadrant_cell tl tr bl br).bg_green ≤ 255 ∧ (quadrant_cell tl tr bl br).bg_blue ≤ 255 := by
  have hr : ∀ p : pixel_t, p.red.val ≤ 255 := fun p => by have := p.red.isLt; omega
  have hg : ∀ p : pixel_t, p.green.val ≤ 255 := fun p => by have := p.green.isLt; omega
  have hb : ∀ p : pixel_t, p.blue.val ≤ 255 := fun p => by have := p.blue.isLt; omega
  obtain ⟨qa, qb, qc, qd, qe, qf⟩ := quadrant_cell_colours tl tr bl br
  rw [qa, qb, qc, qd, qe, qf]
  exact ⟨(floor_mean_channel_ok _ _ hr).1, (floor_mean_channel_ok _ _ hg).1,
    (floor_mean_channel_ok _ _ hb).1, (floor_mean_channel_ok _ _ hr).1,
    (floor_mean_channel_ok _ _ hg).1, (floor_mean_channel_ok _ _ hb).1⟩

/-- The colours of a sextant cell are byte-valued. -/
theorem sextant_cell_bytes (tl tr ml mr bl br : pixel_t) :
    (sextant_cell tl tr ml mr bl br).fg_red ≤ 255 ∧
    (sextant_cell tl tr ml mr bl br).fg_green ≤ 255 ∧
    (sextant_cell tl tr ml mr bl br).fg_blue ≤ 255 ∧
    (sextant_cell tl tr ml mr bl br).bg_red ≤ 255 ∧
    (sextant_cell tl tr ml mr bl br).bg_green ≤ 255 ∧
    (sextant_cell tl tr ml mr bl br).bg_blue ≤ 255 := by
  have hr : ∀ p : pixel_t, p.red.val ≤ 255 := fun p => by have := p.red.isLt; omega
  have hg : ∀ p : pixel_t, p.green.val ≤ 255 := fun p => by have := p.green.isLt; omega
  have hb : ∀ p : pixel_t, p.blue.val ≤ 255 := fun p => by have := p.blue.isLt; omega
  obtain ⟨qa, qb, qc, qd, qe, qf⟩ := sextant_cell_colours tl tr ml mr bl br
  rw [qa, qb, qc, qd, qe, qf]
  exact ⟨(floor_mean_channel_ok _ _ hr).1, (floor_mean_channel_ok _ _ hg).1,
    (floor_mean_channel_ok _ _ hb).1, (floor_mean_channel_ok _ _ hr).1,
    (floor_mean_channel_ok _ _ hg).1, (floor_mean_channel_ok _ _ hb).1⟩

/-- The bytes of a quadrant cell, when the noise is off in 24-bit mode: the
background sequence and a space for mask 0, both sequences and the table entry
otherwise. -/
theorem draw_quadrant_cell_bytes (c : ctx_t) (x y : Nat) (tl tr bl br : pixel_t)
    (h24 : c.cli_colors = cli_colors_24bit → c.noise_enabled = false) :
    draw_quadrant_cell c x y tl tr bl br =
      if (quadrant_cell tl tr bl br).index = 0 then
        spec_sgr_bg c x y (quadrant_cell tl tr bl br).bg_red
          (quadrant_cell tl tr bl br).bg_green (quadrant_cell tl tr bl br).bg_blue ++ [0x20]
      else
        spec_sgr_fg_bg c x y (quadrant_cell tl tr bl br).fg_red
          (quadrant_cell tl tr bl br).fg_green (quadrant_cell tl tr bl br).fg_blue
          (quadrant_cell tl tr bl br).bg_red (quadrant_cell tl tr bl br).bg_green
          (quadrant_cell tl tr bl br).bg_blue
          ++ quadrants.getD (quadrant_cell tl tr bl br).index [] := by
  obtain ⟨b1, b2, b3, b4, b5, b6⟩ := quadrant_cell_bytes tl tr bl br
  unfold draw_quadrant_cell
  simp only []
  rw [output_bg_color_bytes c x y _ _ _ h24 b4 b5 b6,
    output_colors_bytes c x y _ _ _ _ _ _ h24 b1 b2 b3 b4 b5 b6]
  rfl

/-- The bytes of a sextant cell, when the noise is off in 24-bit mode: the
background sequence and a space for mask 0, both sequences and the table entry
otherwise. -/
theorem draw_sextant_cell_bytes (c : ctx_t) (x y : Nat) (tl tr ml mr bl br : pixel_t)
    (h24 : c.cli_colors = cli_colors_24bit → c.noise_enabled = false) :
    draw_sextant_cell c x y tl tr ml mr bl br =
      if (sextant_cell tl tr ml mr bl br).index = 0 then
        spec_sgr_bg c x y (sextant_cell tl tr ml mr bl br).bg_red
          (sextant_cell tl tr ml mr bl br).bg_green (sextant_cell tl tr ml mr bl br).bg_blue
          ++ [0x20]
      else
        spec_sgr_fg_bg c x y (sextant_cell tl tr ml mr bl br).fg_red
          (sextant_cell tl tr ml mr bl br).fg_green (sextant_cell tl tr ml mr bl br).fg_blue
          (sextant_cell tl tr ml mr bl br).bg_red (sextant_cell tl tr ml mr bl br).bg_green
          (sextant_cell tl tr ml mr bl br).bg_blue
          ++ sextants.getD (sextant_cell tl tr ml mr bl br).index [] := by
  obtain ⟨b1, b2, b3, b4, b5, b6⟩ := sextant_cell_bytes tl tr ml mr bl br
  unfold draw_sextant_cell
  simp only []
  rw [output_bg_color_bytes c x y _ _ _ h24 b4 b5 b6,
    output_colors_bytes c x y _ _ _ _ _ _ h24 b1 b2 b3 b4 b5 b6]
  rfl

/-- C1: block synthesis rule of `draw_quadrant` (n = 4) and `draw_sextant`
(n = 6). For every block of n pixels, with `luma_i = 18*blue + 183*green +
54*red` and `avg = floor(sum of luma_i / n)`: bit i of the mask (row-major,
top-left is bit 0) is set iff `luma_i > avg` and no higher bit is set; the
foreground colour is the per-channel floor-mean of the pixels whose bit is set
and the background colour the per-channel floor-mean of the others. In each of
the colour modes 24-bit, 8-bit, 4-bit and 3-bit (the noise being off in 24-bit
mode, as `init_noise` leaves it) mask 0 emits the escape sequence of the
background colour and a space, and any other mask m emits the escape sequences
of both colours followed by table entry m. -/
theorem C1_block_synthesis_rule (c : ctx_t) (x y : Nat) (tl tr ml mr bl br : pixel_t) :
    ((∀ i (h : i < 4), (quadrant_cell tl tr bl br).index.testBit i =
          decide (spec_luma ([tl, tr, bl, br].get ⟨i, h⟩) > spec_avg [tl, tr, bl, br])) ∧
      (quadrant_cell tl tr bl br).index < 16 ∧
      ((quadrant_cell tl tr bl br).fg_red, (quadrant_cell tl tr bl br).fg_green,
          (quadrant_cell tl tr bl br).fg_blue) = spec_colour (spec_fg_group [tl, tr, bl, br]) ∧
      ((quadrant_cell tl tr bl br).bg_red, (quadrant_cell tl tr bl br).bg_green,
          (quadrant_cell tl tr bl br).bg_blue) = spec_colour (spec_bg_group [tl, tr, bl, br]) ∧
      ((c.cli_colors = cli_colors_24bit ∨ c.cli_colors = cli_colors_8bit ∨
          c.cli_colors = cli_colors_4bit ∨ c.cli_colors = cli_colors_3bit) →
        (c.cli_colors = cli_colors_24bit → c.noise_enabled = false) →
        draw_quadrant_cell c x y tl tr bl br =
          if (quadrant_cell tl tr bl br).index = 0 then
            spec_sgr_bg c x y (quadrant_cell tl tr bl br).bg_red
              (quadrant_cell tl tr bl br).bg_green (quadrant_cell tl tr bl br).bg_blue
              ++ [0x20]
          else
            spec_sgr_fg_bg c x y (quadrant_cell tl tr bl br).fg_red
              (quadrant_cell tl tr bl br).fg_green (quadrant_cell tl tr bl br).fg_blue
              (quadrant_cell tl tr bl br).bg_red (quadrant_cell tl tr bl br).bg_green
              (quadrant_cell tl tr bl br).bg_blue
              ++ quadrants.getD (quadrant_cell tl tr bl br).index [])) ∧
    ((∀ i (h : i < 6), (sextant_cell tl tr ml mr bl br).index.testBit i =
          decide (spec_luma ([tl, tr, ml, mr, bl, br].get ⟨i, h⟩)
            > spec_avg [tl, tr, ml, mr, bl, br])) ∧
      (sextant_cell tl tr ml mr bl br).index < 64 ∧
      ((sextant_cell tl tr ml mr bl br).fg_red, (sextant_cell tl tr ml mr bl br).fg_green,
          (sextant_cell tl tr ml mr bl br).fg_blue)
        = spec_colour (spec_fg_group [tl, tr, ml, mr, bl, br]) ∧
      ((sextant_cell tl tr ml mr bl br).bg_red, (sextant_cell tl tr ml mr bl br).bg_green,
          (sextant_cell tl tr ml mr bl br).bg_blue)
        = spec_colour (spec_bg_group [tl, tr, ml, mr, bl, br]) ∧
      ((c.cli_colors = cli_colors_24bit ∨ c.cli_colors = cli_colors_8bit ∨
          c.cli_colors = cli_colors_4bit ∨ c.cli_colors = cli_colors_3bit) →
        (c.cli_colors = cli_colors_24bit → c.noise_enabled = false) →
        draw_sextant_cell c x y tl tr ml mr bl br =
          if (sextant_cell tl tr ml mr bl br).index = 0 then
            spec_sgr_bg c x y (sextant_cell tl tr ml mr bl br).bg_red
              (sextant_cell tl tr ml mr bl br).bg_green (sextant_cell tl tr ml mr bl br).bg_blue
              ++ [0x20]
          else
            spec_sgr_fg_bg c x y (sextant_cell tl tr ml mr bl br).fg_red
              (sextant_cell tl tr ml mr bl br).fg_green (sextant_cell tl tr ml mr bl br).fg_blue
              (sextant_cell tl tr ml mr bl br).bg_red (sextant_cell tl tr ml mr bl br).bg_green
              (sextant_cell tl tr ml mr bl br).bg_blue
              ++ sextants.getD (sextant_cell tl tr ml mr bl br).index [])) := by
  obtain ⟨q1, q2⟩ := quadrant_cell_index_bits tl tr bl br
  obtain ⟨qa, qb, qc, qd, qe, qf⟩ := quadrant_cell_colours tl tr bl br
  obtain ⟨s1, s2⟩ := sextant_cell_index_bits tl tr ml mr bl br
  obtain ⟨sa, sb, sc, sd, se, sf⟩ := sextant_cell_colours tl tr ml mr bl br
  refine ⟨⟨q1, q2, ?_, ?_, fun _ h24 => draw_quadrant_cell_bytes c x y tl tr bl br h24⟩,
    ⟨s1, s2, ?_, ?_, fun _ h24 => draw_sextant_cell_bytes c x y tl tr ml mr bl br h24⟩⟩
  · simp only [spec_colour, qa, qb, qc]
  · simp only [spec_colour, qd, qe, qf]
  · simp only [spec_colour, sa, sb, sc]
  · simp only [spec_colour, sd, se, sf]

/-- C1 at the cell (0, 0) with noise on, texel 0x8090A0 (offsets 0, +16, +32):
the quadrant block of two light grey pixels over two dark grey ones in 4-bit
mode has mask 3 and is emitted as `ESC[97;100m` followed by U+2580; the sextant
block with two further dark rows in 8-bit mode has mask 3 and is emitted as
`ESC[38;5;251m ESC[48;5;237m` (without the space) followed by U+1FB02. -/
theorem C1_block_synthesis_rule_witness :
    draw_quadrant_cell ⟨cli_colors_4bit, true, 0, fun _ _ => 0x8090A0⟩ 0 0
        ⟨200, 200, 200⟩ ⟨200, 200, 200⟩ ⟨50, 50, 50⟩ ⟨50, 50, 50⟩
      = ascii "\x1b[97;100m" ++ [0xE2, 0x96, 0x80] ∧
    draw_sextant_cell ⟨cli_colors_8bit, true, 0, fun _ _ => 0x8090A0⟩ 0 0
        ⟨200, 200, 200⟩ ⟨200, 200, 200⟩ ⟨50, 50, 50⟩ ⟨50, 50, 50⟩ ⟨50, 50, 50⟩ ⟨50, 50, 50⟩
      = ascii "\x1b[38;5;251m\x1b[48;5;237m" ++ [0xF0, 0x9F, 0xAC, 0x82] :=
  ⟨((C1_block_synthesis_rule ⟨cli_colors_4bit, true, 0, fun _ _ => 0x8090A0⟩ 0 0
      ⟨200, 200, 200⟩ ⟨200, 200, 200⟩ ⟨50, 50, 50⟩ ⟨50, 50, 50⟩ ⟨50, 50, 50⟩
      ⟨50, 50, 50⟩).1.2.2.2.2 (Or.inr (Or.inr (Or.inl rfl)))
      (fun h => cli_colors_t.noConfusion h)).trans (by decide),
   ((C1_block_synthesis_rule ⟨cli_colors_8bit, true, 0, fun _ _ => 0x8090A0⟩ 0 0
      ⟨200, 200, 200⟩ ⟨200, 200, 200⟩ ⟨50, 50, 50⟩ ⟨50, 50, 50⟩ ⟨50, 50, 50⟩
      ⟨50, 50, 50⟩).2.2.2.2.2 (Or.inr (Or.inl rfl))
      (fun h => cli_colors_t.noConfusion h)).trans (by decide)⟩

/-- C2: for every 2x2 block of four identical pixels the mask is 0 and no pixel
is counted as foreground, and in each of the colour modes the cell is one
escape sequence that sets the background colour, followed by one space, with no
foreground sequence: `ESC[48;2;R;G;Bm` with the channels of the pixel in
24-bit mode (where `init_noise` leaves the noise off), `ESC[48;5;Nm` with the
256-colour code `N` in 16..255 in 8-bit mode, `ESC[Nm` with `N` in 40..47 or
100..107 in 4-bit mode and with `N` in 40..47 in 3-bit mode; the code is the
one of the pixel's channels, offset by `(sample - 128)` when the noise is on. -/
theorem C2_uniform_quadrant_block (c : ctx_t) (x y : Nat) (p : pixel_t) :
    (quadrant_cell p p p p).index = 0 ∧
    (quadrant_cell p p p p).fg_count = 0 ∧
    (c.cli_colors = cli_colors_24bit → c.noise_enabled = false →
      draw_quadrant_cell c x y p p p p
        = ascii "\x1b[48;2;" ++ ascii (Nat.repr p.red.val) ++ ascii ";"
          ++ ascii (Nat.repr p.green.val) ++ ascii ";" ++ ascii (Nat.repr p.blue.val)
          ++ ascii "m" ++ [0x20]) ∧
    (c.cli_colors = cli_colors_8bit →
      draw_quadrant_cell c x y p p p p
        = ascii "\x1b[48;5;"
          ++ ascii (Nat.repr (color_8bit (spec_dither c x y 2 p.red.val)
              (spec_dither c x y 1 p.green.val) (spec_dither c x y 0 p.blue.val)).toNat)
          ++ ascii "m" ++ [0x20] ∧
      16 ≤ color_8bit (spec_dither c x y 2 p.red.val) (spec_dither c x y 1 p.green.val)
          (spec_dither c x y 0 p.blue.val) ∧
      color_8bit (spec_dither c x y 2 p.red.val) (spec_dither c x y 1 p.green.val)
          (spec_dither c x y 0 p.blue.val) ≤ 255) ∧
    (c.cli_colors = cli_colors_4bit →
      draw_quadrant_cell c x y p p p p
        = ascii "\x1b["
          ++ ascii (Nat.repr (color_4bit (spec_dither c x y 2 p.red.val)
              (spec_dither c x y 1 p.green.val) (spec_dither c x y 0 p.blue.val) + 10).toNat)
          ++ ascii "m" ++ [0x20] ∧
      ((40 ≤ color_4bit (spec_dither c x y 2 p.red.val) (spec_dither c x y 1 p.green.val)
            (spec_dither c x y 0 p.blue.val) + 10 ∧
          color_4bit (spec_dither c x y 2 p.red.val) (spec_dither c x y 1 p.green.val)
            (spec_dither c x y 0 p.blue.val) + 10 ≤ 47) ∨
        (100 ≤ color_4bit (spec_dither c x y 2 p.red.val) (spec_dither c x y 1 p.green.val)
            (spec_dither c x y 0 p.blue.val) + 10 ∧
          color_4bit (spec_dither c x y 2 p.red.val) (spec_dither c x y 1 p.green.val)
            (spec_dither c x y 0 p.blue.val) + 10 ≤ 107))) ∧
    (c.cli_colors = cli_colors_3bit →
      draw_quadrant_cell c x y p p p p
        = ascii "\x1b["
          ++ ascii (Nat.repr (color_3bit (spec_dither c x y 2 p.red.val)
              (spec_dither c x y 1 p.green.val) (spec_dither c x y 0 p.blue.val) + 10).toNat)
          ++ ascii "m" ++ [0x20] ∧
      40 ≤ color_3bit (spec_dither c x y 2 p.red.val) (spec_dither c x y 1 p.green.val)
          (spec_dither c x y 0 p.blue.val) + 10 ∧
      color_3bit (spec_dither c x y 2 p.red.val) (spec_dither c x y 1 p.green.val)
          (spec_dither c x y 0 p.blue.val) + 10 ≤ 47) := by
  have hr : p.red.val ≤ 255 := by have := p.red.isLt; omega
  have hg : p.green.val ≤ 255 := by have := p.green.isLt; omega
  have hb : p.blue.val ≤ 255 := by have := p.blue.isLt; omega
  obtain ⟨_, r2, r3, r4⟩ := dither_channel c x y 2 p.red.val hr
  obtain ⟨_, g2, g3, g4⟩ := dither_channel c x y 1 p.green.val hg
  obtain ⟨_, b2, b3, b4⟩ := dither_channel c x y 0 p.blue.val hb
  obtain ⟨q3, q4, q8⟩ := quantizer_code_bounds _ _ _ ⟨r2, r3⟩ ⟨g2, g3⟩ ⟨b2, b3⟩
  have hcell : ∀ h24 : c.cli_colors = cli_colors_24bit → c.noise_enabled = false,
      draw_quadrant_cell c x y p p p p
        = spec_sgr_bg c x y p.red.val p.green.val p.blue.val ++ [0x20] := by
    intro h24
    rw [draw_quadrant_cell_bytes c x y p p p p h24]
    simp only [quadrant_cell_uniform, if_true]
  have hi : (quadrant_cell p p p p).index = 0 := by rw [quadrant_cell_uniform]
  have hf : (quadrant_cell p p p p).fg_count = 0 := by rw [quadrant_cell_uniform]
  refine ⟨hi, hf, ?_, ?_, ?_, ?_⟩
  · intro hc hn
    rw [hcell (fun _ => hn)]
    unfold spec_sgr_bg
    simp only [hc, r4 hn, g4 hn, b4 hn, Int.toNat_ofNat, ascii_append, List.append_assoc]
  · intro hc
    rw [hcell (fun h => by rw [hc] at h; exact cli_colors_t.noConfusion h)]
    unfold spec_sgr_bg
    simp only [hc, ascii_append, List.append_assoc]
    exact ⟨trivial, q8⟩
  · intro hc
    rw [hcell (fun h => by rw [hc] at h; exact cli_colors_t.noConfusion h)]
    unfold spec_sgr_bg
    simp only [hc, ascii_append, List.append_assoc]
    exact ⟨trivial, by omega⟩
  · intro hc
    rw [hcell (fun h => by rw [hc] at h; exact cli_colors_t.noConfusion h)]
    unfold spec_sgr_bg
    simp only [hc, ascii_append, List.append_assoc]
    exact ⟨trivial, by omega⟩

/-- C2 at the pixel (red 10, green 20, blue 30) and at the pixel (red 250,
green 20, blue 30), at the cell (0, 0): `ESC[48;2;10;20;30m` and a space in
24-bit mode; with noise on, texel 0x8090A0 (offsets 0, +16, +32),
`ESC[48;5;235m` and a space in 8-bit mode and `ESC[101m` and a space in 4-bit
mode; with noise off `ESC[41m` and a space in 3-bit mode. -/
theorem C2_uniform_quadrant_block_witness :
    draw_quadrant_cell ⟨cli_colors_24bit, false, 0, fun _ _ => 0⟩ 0 0
        ⟨30, 20, 10⟩ ⟨30, 20, 10⟩ ⟨30, 20, 10⟩ ⟨30, 20, 10⟩
      = ascii "\x1b[48;2;10;20;30m " ∧
    draw_quadrant_cell ⟨cli_colors_8bit, true, 0, fun _ _ => 0x8090A0⟩ 0 0
        ⟨30, 20, 10⟩ ⟨30, 20, 10⟩ ⟨30, 20, 10⟩ ⟨30, 20, 10⟩
      = ascii "\x1b[48;5;235m " ∧
    draw_quadrant_cell ⟨cli_colors_4bit, true, 0, fun _ _ => 0x8090A0⟩ 0 0
        ⟨30, 20, 250⟩ ⟨30, 20, 250⟩ ⟨30, 20, 250⟩ ⟨30, 20, 250⟩
      = ascii "\x1b[101m " ∧
    draw_quadrant_cell ⟨cli_colors_3bit, false, 0, fun _ _ => 0x8090A0⟩ 0 0
        ⟨30, 20, 250⟩ ⟨30, 20, 250⟩ ⟨30, 20, 250⟩ ⟨30, 20, 250⟩
      = ascii "\x1b[41m " :=
  ⟨((C2_uniform_quadrant_block ⟨cli_colors_24bit, false, 0, fun _ _ => 0⟩ 0 0
      ⟨30, 20, 10⟩).2.2.1 rfl rfl).trans (by decide),
   ((C2_uniform_quadrant_block ⟨cli_colors_8bit, true, 0, fun _ _ => 0x8090A0⟩ 0 0
      ⟨30, 20, 10⟩).2.2.2.1 rfl).1.trans (by decide),
   ((C2_uniform_quadrant_block ⟨cli_colors_4bit, true, 0, fun _ _ => 0x8090A0⟩ 0 0
      ⟨30, 20, 250⟩).2.2.2.2.1 rfl).1.trans (by decide),
   ((C2_uniform_quadrant_block ⟨cli_colors_3bit, false, 0, fun _ _ => 0x8090A0⟩ 0 0
      ⟨30, 20, 250⟩).2.2.2.2.2 rfl).1.trans (by decide)⟩

end DoomCli
